import Mathlib

/-!
# bunyan-format: the record formatter and the line sink

A shallow embedding of `src/lib/format-record.js` (formatRecord and its helpers)
and of `src/index.js` (BunyanFormatWritable), followed by theorems about them.

Conventions of the embedding
* JavaScript values are the type `JsVal`.  A number is a double: `num n` is the
  double that is the integer `n`, and `dbl x` is any other number (a finite
  fraction as a rational, the negative zero, an infinity, NaN).  The doubles
  among the rationals are those `toDouble` leaves unchanged (`isDouble`); the
  text of a number is that of Number::toString (`numText`, `intText`: the
  shortest digits that read back as the number, in exponent form from 1e21
  on), and a JSON number is rounded to the nearest double (`decodeNumber`).
* Strings are Lean strings, so a string is a sequence of Unicode scalar values;
  wherever the source counts UTF-16 code units (`s[10]`, `s.substr(11)`,
  `s.length`) the model counts code units too (`utf16Length`, `unitAt`,
  `dropUnits`).
* An object is the list of its own properties in enumeration order; what an
  object literal inherits from `Object.prototype` is read through `protoKeys`.
* Code that can throw returns `Except JsError`.  The conversion of a value to a
  string (`JsVal.toStr`) throws a TypeError on an object with an own member
  `toString`, which in a decoded record is never a function.
* Functions of the host that the repository only calls and whose output is a
  matter of the Node version (`util.inspect`, the ANSI styles, the table
  `http.STATUS_CODES`, the text of a number converted from a string, the texts
  of the inherited functions) are the fields of `Env`; every theorem holds for
  every `Env`.  The function `util.format` is the one of Node 12 and later,
  where `%s` prints an array or object by inspection.
-/

namespace BunyanFormat

/-! ## Values -/

/-- A number that is not an integer (the integers are in `JsVal.num`): a finite
fraction, the negative zero, an infinity, or NaN. -/
inductive Dbl where
  | frac (q : ℚ) : Dbl
  | negZero : Dbl
  | inf (neg : Bool) : Dbl
  | nan : Dbl
  deriving DecidableEq

/-- JavaScript values: what `JSON.parse` produces, and `undefined`.  A number is
`num n` when it is the integer `n`, and `dbl x` otherwise. -/
inductive JsVal where
  | undefined : JsVal
  | null : JsVal
  | bool (b : Bool) : JsVal
  | num (n : Int) : JsVal
  | dbl (x : Dbl) : JsVal
  | str (s : String) : JsVal
  | arr (xs : List JsVal) : JsVal
  | obj (kvs : List (String × JsVal)) : JsVal

/-- Errors thrown by the code: a TypeError of the language, the SyntaxError of
`JSON.parse`, or `new Error(message)`. -/
inductive JsError where
  | typeError : JsError
  | syntaxError : JsError
  | error (message : String) : JsError
  deriving DecidableEq

/-- An object as the list of its own enumerable properties, in enumeration order. -/
abbrev Props := List (String × JsVal)

/-! ## Own properties -/

/-- Reading `o[key]` on a property list: the value, or `undefined`. -/
def getProp : Props → String → JsVal
  | [], _ => .undefined
  | (k, v) :: r, key => if k = key then v else getProp r key

/-- Whether `key` is an own property. -/
def hasProp (o : Props) (key : String) : Bool :=
  o.any (fun p => p.1 == key)

/-- The statement `delete o[key]`. -/
def delProp (o : Props) (key : String) : Props :=
  o.filter (fun p => p.1 != key)

/-- The assignment `o[key] = v`: an existing property keeps its place, a new one
goes last (no key assigned by this code is an array index). -/
def setProp : Props → String → JsVal → Props
  | [], key, v => [(key, v)]
  | (k, w) :: r, key, v => if k = key then (k, v) :: r else (k, w) :: setProp r key v

/-- Reading a named property `x.name` of a value that is neither `null` nor
`undefined`.  Only objects have own properties under the names this code reads,
and no prototype defines one of them. -/
def JsVal.get : JsVal → String → JsVal
  | .obj kvs, key => getProp kvs key
  | _, _ => .undefined

/-- The statement `delete x.name` on a nested value. -/
def JsVal.del : JsVal → String → JsVal
  | .obj kvs, key => .obj (delProp kvs key)
  | v, _ => v

/-! ## Numbers -/

/-- The power `2 ^ e` for an integer exponent. -/
def pow2 (e : Int) : ℚ :=
  if 0 ≤ e then ((2 ^ e.toNat : Nat) : ℚ) else 1 / ((2 ^ (-e).toNat : Nat) : ℚ)

/-- The power `10 ^ e` for an integer exponent. -/
def pow10 (e : Int) : ℚ :=
  if 0 ≤ e then ((10 ^ e.toNat : Nat) : ℚ) else 1 / ((10 ^ (-e).toNat : Nat) : ℚ)

/-- Counts the binary digits of `n` by halving; `fuel` bounds the steps. -/
def bitsAux : Nat → Nat → Nat → Nat
  | 0, _, acc => acc
  | fuel + 1, n, acc => if n = 0 then acc else bitsAux fuel (n / 2) (acc + 1)

/-- The number of binary digits of `n`. -/
def bits (n : Nat) : Nat := bitsAux n n 0

/-- The integer `d` with `2 ^ d ≤ q < 2 ^ (d + 1)`, for a positive `q`. -/
def ilog2 (q : ℚ) : Int :=
  let d : Int := (bits q.num.natAbs : Int) - (bits q.den : Int)
  if pow2 d ≤ q then d else d - 1

/-- The integer nearest to `x ≥ 0`; a tie goes to the even one. -/
def roundHalfEven (x : ℚ) : Nat :=
  let f := x.floor.toNat
  let r := x - f
  if r < 1 / 2 then f
  else if 1 / 2 < r then f + 1
  else if f % 2 = 0 then f else f + 1

/-- The double nearest to a rational `q ≥ 0` (ties to even), as its significand
`m` and binary exponent `e` (the double is `m * 2 ^ e`, with 53 binary digits in
`m`, fewer below `2 ^ -1022`); `none` when the nearest double is infinite. -/
def nearest (q : ℚ) : Option (Nat × Int) :=
  let e := max (ilog2 q - 52) (-1074)
  let m := roundHalfEven (q / pow2 e)
  if pow2 1024 ≤ m * pow2 e then none else some (m, e)

/-- The value of the double nearest to `q ≥ 0`. -/
def toDouble (q : ℚ) : Option ℚ := (nearest q).map (fun p => p.1 * pow2 p.2)

/-- The value `s * 10 ^ e` of a decimal. -/
def decVal (c : Nat × Int) : ℚ := c.1 * pow10 c.2

/-- The integer `n` with `10 ^ (n - 1) ≤ q < 10 ^ n`, for a positive `q`. -/
def decExp (q : ℚ) : Int :=
  let d : Int := ((Nat.toDigits 10 q.num.natAbs).length : Int) - ((Nat.toDigits 10 q.den).length : Int)
  if q < pow10 d then d else d + 1

/-- The two decimals of `k` digits next to `q` (with `10 ^ (n - 1) ≤ q < 10 ^ n`),
the nearer one first; in a tie, the even one first. -/
def candidates (q : ℚ) (n : Int) (k : Nat) : List (Nat × Int) :=
  let e : Int := n - k
  let x := q / pow10 e
  let lo := x.floor.toNat
  let hi := lo + 1
  let cLo : Nat × Int := (lo, e)
  let cHi : Nat × Int := if hi = 10 ^ k then (1, e + k) else (hi, e)
  if x - lo < hi - x then [cLo, cHi]
  else if hi - x < x - lo then [cHi, cLo]
  else if lo % 2 = 0 then [cLo, cHi] else [cHi, cLo]

/-- The first decimal of a list whose nearest double is `q`. -/
def firstDouble (q : ℚ) : List (Nat × Int) → Option (Nat × Int)
  | [] => none
  | c :: cs => if toDouble (decVal c) = some q then some c else firstDouble q cs

/-- The decimal with the fewest digits, from `k` digits on, whose nearest double
is `q`; `fuel` bounds the number of digits tried. -/
def shortestFrom (q : ℚ) (n : Int) : Nat → Nat → Option (Nat × Int)
  | 0, _ => none
  | fuel + 1, k =>
    match firstDouble q (candidates q n k) with
    | some c => some c
    | none => shortestFrom q n fuel (k + 1)

/-- The exact decimal expansion of a double `q > 0`. -/
def exactDecimal (q : ℚ) : Option (Nat × Int) :=
  match nearest q with
  | some (m, e) =>
    let c : Nat × Int := if 0 ≤ e then (m * 2 ^ e.toNat, 0) else (m * 5 ^ (-e).toNat, e)
    if decVal c = q then some c else none
  | none => none

/-- The digits and the exponent of Number::toString for a double `q > 0`: the
decimal `s * 10 ^ e` with the fewest digits whose nearest double is `q` (17
digits are enough for every double; the exact expansion stands behind them). -/
def shortest (q : ℚ) : Option (Nat × Int) :=
  match shortestFrom q (decExp q) 17 1 with
  | some c => some c
  | none => exactDecimal q

/-- The text of Number::toString from the decimal `s * 10 ^ e`: with `k` the
number of digits of `s` and `n = e + k`, the digits followed by zeros when
`k ≤ n ≤ 21`, the digits with a point inside when `0 < n ≤ 21`, `0.` and zeros
before the digits when `-6 < n ≤ 0`, and the exponent form otherwise. -/
def fmtDec (c : Nat × Int) : List Char :=
  let ds := Nat.toDigits 10 c.1
  let n : Int := c.2 + ds.length
  if 0 ≤ c.2 ∧ n ≤ 21 then ds ++ List.replicate c.2.toNat '0'
  else if 0 < n ∧ n ≤ 21 then ds.take n.toNat ++ '.' :: ds.drop n.toNat
  else if -6 < n ∧ n ≤ 0 then '0' :: '.' :: (List.replicate (-n).toNat '0' ++ ds)
  else
    let ex := (if n - 1 < 0 then '-' else '+') :: Nat.toDigits 10 (n - 1).natAbs
    if ds.length = 1 then ds ++ 'e' :: ex
    else ds.take 1 ++ '.' :: (ds.drop 1 ++ 'e' :: ex)

/-- The text of Number::toString for a double `q > 0`. -/
def posText (q : ℚ) : List Char :=
  match shortest q with
  | some c => fmtDec c
  | none => "NaN".data

/-- The text of Number::toString for a double `q ≠ 0`. -/
def numText (q : ℚ) : String :=
  ⟨if q < 0 then '-' :: posText (-q) else posText q⟩

/-- The text of Number::toString for an integer: below `2 ^ 53` in magnitude it
is written with all its digits. -/
def intText (n : Int) : String :=
  if n.natAbs < 2 ^ 53 then toString n else numText n

/-- The text of Number::toString for a number that is not an integer. -/
def dblText : Dbl → String
  | .frac q => numText q
  | .negZero => "0"
  | .inf neg => if neg then "-Infinity" else "Infinity"
  | .nan => "NaN"

namespace JsVal

/-- ToBoolean. -/
def truthy : JsVal → Bool
  | undefined => false
  | null => false
  | bool b => b
  | num n => n != 0
  | dbl x =>
    match x with
    | .frac _ => true
    | .negZero => false
    | .inf _ => true
    | .nan => false
  | str s => s != ""
  | arr _ => true
  | obj _ => true

/-- The test `x && typeof (x) === 'object'`: arrays and objects. -/
def isObject : JsVal → Bool
  | arr _ => true
  | obj _ => true
  | _ => false

/-- The test `typeof (x) === 'string'`. -/
def isString : JsVal → Bool
  | str _ => true
  | _ => false

mutual
/-- ToString, as performed by `+` with a string operand and for a property key.
An array is its elements joined by commas, `null` and `undefined` elements
giving the empty text.  An object is `[object Object]`, the text of the
inherited method `toString`; an own property `toString` (which in a decoded
object is never a function) hides that method, and the conversion throws a
TypeError. -/
def toStr : JsVal → Except JsError String
  | undefined => .ok "undefined"
  | null => .ok "null"
  | bool b => .ok (if b then "true" else "false")
  | num n => .ok (intText n)
  | dbl x => .ok (dblText x)
  | str s => .ok s
  | arr xs => toStrElems xs
  | obj kvs => if hasProp kvs "toString" then .error .typeError else .ok "[object Object]"
/-- The body of `Array.prototype.join` with the separator `,`. -/
def toStrElems : List JsVal → Except JsError String
  | [] => .ok ""
  | [x] => toStrElem x
  | x :: y :: r =>
    match toStrElem x with
    | .error e => .error e
    | .ok a =>
      match toStrElems (y :: r) with
      | .error e => .error e
      | .ok b => .ok (a ++ "," ++ b)
/-- One element of a joined array. -/
def toStrElem : JsVal → Except JsError String
  | undefined => .ok ""
  | null => .ok ""
  | bool b => .ok (if b then "true" else "false")
  | num n => .ok (intText n)
  | dbl x => .ok (dblText x)
  | str s => .ok s
  | arr xs => toStrElems xs
  | obj kvs => if hasProp kvs "toString" then .error .typeError else .ok "[object Object]"
end

end JsVal

open JsVal

/-! ## Strings as UTF-16 -/

/-- Number of UTF-16 code units of one character. -/
def unitsOf (c : Char) : Nat := if c.toNat < 65536 then 1 else 2

/-- The property `length` of a string. -/
def utf16Length : List Char → Nat
  | [] => 0
  | c :: cs => unitsOf c + utf16Length cs

/-- The code unit `s[i]` as a character; a surrogate half is shown as U+FFFD. -/
def unitAt : List Char → Nat → Option Char
  | [], _ => none
  | c :: _, 0 => if c.toNat < 65536 then some c else some (Char.ofNat 65533)
  | c :: cs, i + 1 =>
    if c.toNat < 65536 then unitAt cs i
    else match i with
      | 0 => some (Char.ofNat 65533)
      | j + 1 => unitAt cs j

/-- The text `s.substr(i)`: the code units from index `i` on. -/
def dropUnits : Nat → List Char → List Char
  | 0, cs => cs
  | _ + 1, [] => []
  | i + 1, c :: cs =>
    if c.toNat < 65536 then dropUnits i cs
    else match i with
      | 0 => Char.ofNat 65533 :: cs
      | j + 1 => dropUnits j cs

/-- `s.substr(i)` on strings. -/
def substr (s : String) (i : Nat) : String := ⟨dropUnits i s.data⟩

/-- `xs.join(sep)` for a list of strings. -/
def joinWith (sep : String) : List String → String
  | [] => ""
  | [x] => x
  | x :: y :: r => x ++ sep ++ joinWith sep (y :: r)

/-- The pieces of `s.split(/\r?\n/)`, on characters; `cur` is the piece being
read, reversed. -/
def splitLinesAux : List Char → List Char → List (List Char)
  | [], cur => [cur.reverse]
  | '\r' :: '\n' :: cs, cur => cur.reverse :: splitLinesAux cs []
  | '\n' :: cs, cur => cur.reverse :: splitLinesAux cs []
  | c :: cs, cur => splitLinesAux cs (c :: cur)

/-- The array `s.split(/\r?\n/)`. -/
def splitLines (s : String) : List String :=
  (splitLinesAux s.data []).map String.mk

/-- The function `indent` on strings. -/
def indentStr (s : String) : String :=
  "  " ++ joinWith "\n  " (splitLines s)

/-- The function `indent` of the source: `s.split` exists only on a string. -/
def indent : JsVal → Except JsError String
  | .str s => .ok (indentStr s)
  | _ => .error .typeError

/-- The test `s.indexOf(c) !== -1` on a string, for a one-character `c`. -/
def containsChar (s : String) (c : Char) : Bool := s.data.contains c

/-! ## The host -/

/-- What the code takes from the host and from its packages without defining it. -/
structure Env where
  /-- The text `util.inspect(rec, false, Infinity, true)`. -/
  inspect : JsVal → String
  /-- The text `util.format` prints for an array or object given to `%s`, and
  for a surplus argument. -/
  inspectArg : JsVal → String
  /-- The text `util.format` prints with `%d` for the number a string converts to. -/
  numberText : String → String
  /-- The table `http.STATUS_CODES`, by property key: the text `%s` prints for
  the entry, when there is one. -/
  statusCodes : String → Option String
  /-- The table `styles` (ansistyles extended by ansicolors), by property key. -/
  styles : String → Option (String → String)
  /-- What an object literal inherits: for a key of `protoKeys`, the text that
  `%s` prints for the inherited value (a function, or the prototype itself) and
  the text of that value as a property key. -/
  inherited : String → String × String

/-- The keys under which every object literal inherits a property of
`Object.prototype`; each of these values is truthy. -/
def protoKeys : List String :=
  ["constructor", "hasOwnProperty", "isPrototypeOf", "propertyIsEnumerable",
   "toLocaleString", "toString", "valueOf", "__proto__", "__defineGetter__",
   "__defineSetter__", "__lookupGetter__", "__lookupSetter__"]

/-! ## util.format -/

/-- The text `util.format` prints for a number: the negative zero is `-0`. -/
def fmtNum : Dbl → String
  | .negZero => "-0"
  | x => dblText x

/-- The argument of a `%s` directive, as util.format of Node 12 and later prints
it: a string as it is, a number by its text, `undefined`, `null` and a boolean
by their names, and an array or object by inspection (its `toString` is called
only when it is a function, which it never is in a decoded value). -/
def fmtS (env : Env) : JsVal → String
  | .str s => s
  | .num n => intText n
  | .dbl x => fmtNum x
  | .undefined => "undefined"
  | .null => "null"
  | .bool b => if b then "true" else "false"
  | v => env.inspectArg v

/-- The argument of a `%d` directive: the number the value converts to; the
conversion of an array or object goes through its text and can throw. -/
def fmtD (env : Env) : JsVal → Except JsError String
  | .num n => .ok (intText n)
  | .dbl x => .ok (fmtNum x)
  | .undefined => .ok "NaN"
  | .null => .ok "0"
  | .bool b => .ok (if b then "1" else "0")
  | .str s => .ok (env.numberText s)
  | v =>
    match v.toStr with
    | .error e => .error e
    | .ok t => .ok (env.numberText t)

/-- Arguments left after the last directive are appended, each after a space. -/
def formatRest (env : Env) : List JsVal → String
  | [] => ""
  | .str s :: r => " " ++ s ++ formatRest env r
  | v :: r => " " ++ env.inspectArg v ++ formatRest env r

/-- The function `util.format`, called with at least one argument after the
format text, for a format text with the directives `%s`, `%d` and `%%` (the
only ones in this code); a directive without an argument is kept as it is. -/
def formatAux (env : Env) : List Char → List JsVal → Except JsError String
  | [], args => .ok (formatRest env args)
  | '%' :: 's' :: cs, a :: args => (formatAux env cs args).map (fun t => fmtS env a ++ t)
  | '%' :: 'd' :: cs, a :: args =>
    match fmtD env a with
    | .error e => .error e
    | .ok d => (formatAux env cs args).map (fun t => d ++ t)
  | '%' :: '%' :: cs, args => (formatAux env cs args).map (fun t => "%" ++ t)
  | c :: cs, args => (formatAux env cs args).map (fun t => String.singleton c ++ t)

/-- The call `format(f, args...)`. -/
def format (env : Env) (f : String) (args : List JsVal) : Except JsError String :=
  formatAux env f.data args

/-! ## Numbers read from strings -/

/-- The sign of the number a text converts to (`NaN` when it is not numeric). -/
inductive NumSign where
  | nan : NumSign
  | zero : NumSign
  | pos : NumSign
  | neg : NumSign
  deriving DecidableEq

/-- White space and line terminators of the language. -/
def isJsSpace (c : Char) : Bool :=
  let n := c.toNat
  n = 9 || n = 10 || n = 11 || n = 12 || n = 13 || n = 32 || n = 160 || n = 5760 ||
  (8192 ≤ n && n ≤ 8202) || n = 8232 || n = 8233 || n = 8239 || n = 8287 ||
  n = 12288 || n = 65279

/-- The value of a digit in a base up to 16, if the character is one. -/
def digitVal (base : Nat) (c : Char) : Option Nat :=
  let n := c.toNat
  let v := if 48 ≤ n && n ≤ 57 then n - 48
    else if 97 ≤ n && n ≤ 102 then n - 87
    else if 65 ≤ n && n ≤ 70 then n - 55
    else 16
  if v < base then some v else none

/-- Reads the longest run of digits: its value, its length, and the rest. -/
def readDigits (base : Nat) : List Char → Nat → Nat → Nat × Nat × List Char
  | [], acc, len => (acc, len, [])
  | c :: cs, acc, len =>
    match digitVal base c with
    | some d => readDigits base cs (acc * base + d) (len + 1)
    | none => (acc, len, c :: cs)

/-- The sign of a digit run in the given base that must fill the whole text. -/
def radixSign (base : Nat) (cs : List Char) : NumSign :=
  match readDigits base cs 0 0 with
  | (v, len, []) => if len = 0 then .nan else if v = 0 then .zero else .pos
  | _ => .nan

/-- The sign of an unsigned decimal literal `digits [. digits] [e [sign] digits]`
after rounding to a double: a value of at most 2^-1075 rounds to zero. -/
def decimalSign (cs : List Char) : NumSign :=
  match readDigits 10 cs 0 0 with
  | (m1, l1, rest1) =>
    let frac : Nat × Nat × List Char :=
      match rest1 with
      | '.' :: r => readDigits 10 r m1 0
      | r => (m1, 0, r)
    match frac with
    | (m, l2, rest2) =>
      if l1 + l2 = 0 then .nan else
      let ex : Option (Bool × Nat) :=
        match rest2 with
        | [] => some (false, 0)
        | c :: r =>
          if c = 'e' || c = 'E' then
            match r with
            | '-' :: r1 =>
              (match readDigits 10 r1 0 0 with
               | (e, le, []) => if le = 0 then none else some (true, e)
               | _ => none)
            | '+' :: r1 =>
              (match readDigits 10 r1 0 0 with
               | (e, le, []) => if le = 0 then none else some (false, e)
               | _ => none)
            | r1 =>
              (match readDigits 10 r1 0 0 with
               | (e, le, []) => if le = 0 then none else some (false, e)
               | _ => none)
          else none
      match ex with
      | none => .nan
      | some (negE, e) =>
        if m = 0 then .zero
        else if negE then
          (if m <<< 1075 ≤ 10 ^ (e + l2) then .zero else .pos)
        else if l2 ≤ e then .pos
        else (if m <<< 1075 ≤ 10 ^ (l2 - e) then .zero else .pos)

/-- Removes leading white space. -/
def trimStart : List Char → List Char
  | [] => []
  | c :: cs => if isJsSpace c then trimStart cs else c :: cs

/-- Removes trailing white space (`trimRight`). -/
def trimEnd (cs : List Char) : List Char := (trimStart cs.reverse).reverse

/-- The sign of `Number(s)` for a string `s`. -/
def strNumSign (s : String) : NumSign :=
  match trimEnd (trimStart s.data) with
  | [] => .zero
  | '0' :: 'x' :: r => radixSign 16 r
  | '0' :: 'X' :: r => radixSign 16 r
  | '0' :: 'o' :: r => radixSign 8 r
  | '0' :: 'O' :: r => radixSign 8 r
  | '0' :: 'b' :: r => radixSign 2 r
  | '0' :: 'B' :: r => radixSign 2 r
  | '-' :: r =>
    if r = "Infinity".data then .neg
    else match decimalSign r with
      | .pos => .neg
      | s => s
  | '+' :: r => if r = "Infinity".data then .pos else decimalSign r
  | r => if r = "Infinity".data then .pos else decimalSign r

/-- The call `isNaN(s)` on a string. -/
def strIsNaN (s : String) : Bool := strNumSign s == .nan

/-! ## JSON.stringify -/

/-- A hexadecimal digit, in lower case. -/
def hexDigit (n : Nat) : Char :=
  if n < 10 then Char.ofNat (48 + n) else Char.ofNat (87 + n)

/-- One character of a quoted JSON string. -/
def quoteChar (c : Char) : List Char :=
  if c = '"' then ['\\', '"']
  else if c = '\\' then ['\\', '\\']
  else if c.toNat = 8 then ['\\', 'b']
  else if c.toNat = 9 then ['\\', 't']
  else if c.toNat = 10 then ['\\', 'n']
  else if c.toNat = 12 then ['\\', 'f']
  else if c.toNat = 13 then ['\\', 'r']
  else if c.toNat < 32 then ['\\', 'u', '0', '0', hexDigit (c.toNat / 16), hexDigit (c.toNat % 16)]
  else [c]

/-- The characters of a quoted JSON string, between the quotes. -/
def quoteChars : List Char → List Char
  | [] => []
  | c :: cs => quoteChar c ++ quoteChars cs

/-- The text `JSON.stringify(s)` of a string: QuoteJSONString. -/
def quoteData (s : String) : List Char := '"' :: (quoteChars s.data ++ ['"'])

/-- The text `JSON.stringify(s)` of a string. -/
def quote (s : String) : String := ⟨quoteData s⟩

/-- Joins texts with a separator. -/
def joinChars (sep : List Char) : List (List Char) → List Char
  | [] => []
  | [x] => x
  | x :: y :: r => x ++ sep ++ joinChars sep (y :: r)

/-- The text of an array or object from the texts of its parts: `stepback` is
the indentation around it, `gap` the indentation unit. -/
def wrapSeq (gap stepback : List Char) (opening closing : Char) (parts : List (List Char)) :
    List Char :=
  if parts.isEmpty then [opening, closing]
  else if gap.isEmpty then opening :: (joinChars [','] parts ++ [closing])
  else opening :: '\n' :: (stepback ++ gap ++
    joinChars (',' :: '\n' :: (stepback ++ gap)) parts ++ '\n' :: (stepback ++ [closing]))

mutual
/-- SerializeJSONProperty: the text of a value at the indentation `ind`, or
nothing for `undefined`; a number that is not finite is written `null`. -/
def serVal (gap : List Char) : List Char → JsVal → Option (List Char)
  | _, .undefined => none
  | _, .null => some "null".data
  | _, .bool b => some (if b then "true".data else "false".data)
  | _, .num n => some (intText n).data
  | _, .dbl x =>
    match x with
    | .frac q => some (numText q).data
    | .negZero => some "0".data
    | .inf _ => some "null".data
    | .nan => some "null".data
  | _, .str s => some (quoteData s)
  | ind, .arr xs => some (wrapSeq gap ind '[' ']' (serElems gap (ind ++ gap) xs))
  | ind, .obj kvs => some (wrapSeq gap ind '\x7b' '\x7d' (serMembers gap (ind ++ gap) kvs))
/-- The texts of the elements of an array; `undefined` is written `null`. -/
def serElems (gap : List Char) : List Char → List JsVal → List (List Char)
  | _, [] => []
  | ind, x :: xs => (serVal gap ind x).getD "null".data :: serElems gap ind xs
/-- The texts of the members of an object; a member whose value is `undefined`
is left out. -/
def serMembers (gap : List Char) : List Char → List (String × JsVal) → List (List Char)
  | _, [] => []
  | ind, (k, v) :: r =>
    match serVal gap ind v with
    | some t =>
      (quoteData k ++ ':' :: ((if gap.isEmpty then [] else [' ']) ++ t)) :: serMembers gap ind r
    | none => serMembers gap ind r
end

/-- The indentation unit for a numeric `space` argument: at most ten spaces. -/
def gapOf (space : Int) : List Char := List.replicate (min 10 space.toNat) ' '

/-- The call `JSON.stringify(v, null, space)`; `none` is the result `undefined`. -/
def jsonStringify (v : JsVal) (space : Int) : Option String :=
  (serVal (gapOf space) [] v).map String.mk

/-! ## format-record.js: constants and helpers -/

/-- The option `outputMode`: a mode name or a numeric code. -/
inductive OutputMode where
  | name (s : String) : OutputMode
  | code (n : Int) : OutputMode
  deriving DecidableEq

/-- The options object `opts` read by formatRecord.  A color option that is
absent is `none`; `jsonIndent` is the indent width (absent behaves as 0). -/
structure Opts where
  outputMode : OutputMode
  color : Bool
  msgColor : Option String
  timeColor : Option String
  metaColor : Option String
  extraColor : Option String
  colorFromLevel : Option (List (String × String))
  levelInString : Bool
  jsonIndent : Int

def OM_LONG : Int := 1
def OM_JSON : Int := 2
def OM_INSPECT : Int := 3
def OM_SIMPLE : Int := 4
def OM_SHORT : Int := 5
def OM_BUNYAN : Int := 6

/-- The table `OM_FROM_NAME`, by property key. -/
def OM_FROM_NAME : List (String × Int) :=
  [("long", OM_LONG), ("json", OM_JSON), ("inspect", OM_INSPECT),
   ("simple", OM_SIMPLE), ("short", OM_SHORT), ("bunyan", OM_BUNYAN)]

def TRACE : Int := 10
def DEBUG : Int := 20
def INFO : Int := 30
def WARN : Int := 40
def ERROR : Int := 50
def FATAL : Int := 60

/-- The table `levelFromName`. -/
def levelFromName : List (String × Int) :=
  [("trace", TRACE), ("debug", DEBUG), ("info", INFO),
   ("warn", WARN), ("error", ERROR), ("fatal", FATAL)]

/-- The method `toUpperCase` (on the ASCII names of the table). -/
def toUpperCase (s : String) : String := ⟨s.data.map Char.toUpper⟩

/-- The table `upperNameFromLevel`, filled by the `forEach` over `levelFromName`;
its keys are the property keys of the levels. -/
def upperNameFromLevel : List (String × String) :=
  levelFromName.map (fun p => (toString p.2, toUpperCase p.1))

/-- The table `upperPaddedNameFromLevel`: a name of length 4 gets a leading space. -/
def upperPaddedNameFromLevel : List (String × String) :=
  levelFromName.map (fun p =>
    (toString p.2, (if p.1.length = 4 then " " else "") ++ toUpperCase p.1))

/-- The test `x === null`. -/
def isNull : JsVal → Bool
  | .null => true
  | _ => false

/-- The function `isValidRecord`. -/
def isValidRecord (r : JsVal) : Bool :=
  if isNull (r.get "v") ||
      isNull (r.get "level") ||
      isNull (r.get "name") ||
      isNull (r.get "hostname") ||
      isNull (r.get "pid") ||
      isNull (r.get "time") ||
      isNull (r.get "msg") then
    false
  else true

/-- The key under which `styles[color]` is read. -/
def colorKey : Option String → String
  | some c => c
  | none => "undefined"

/-- The function `stylizeWithColor`; a style prints its argument as a string,
which converts it. -/
def stylizeWithColor (env : Env) (s : JsVal) (color : Option String) : Except JsError JsVal :=
  if !s.truthy then .ok (.str "")
  else match env.styles (colorKey color) with
    | some fn =>
      (match s.toStr with
       | .error e => .error e
       | .ok t => .ok (.str (fn t)))
    | none => .ok s

/-- The function `stylizeWithoutColor`. -/
def stylizeWithoutColor (str : JsVal) (_color : Option String) : JsVal := str

/-- The binding `stylize = opts.color ? stylizeWithColor : stylizeWithoutColor`. -/
def stylize (env : Env) (opts : Opts) (s : JsVal) (color : Option String) :
    Except JsError JsVal :=
  if opts.color then stylizeWithColor env s color else .ok (stylizeWithoutColor s color)

/-- The function `mapLevelToName`: a switch without a default case. -/
def mapLevelToName (level : JsVal) : JsVal :=
  match level with
  | .num n =>
    if n = TRACE then .str "TRACE"
    else if n = DEBUG then .str "DEBUG"
    else if n = INFO then .str "INFO"
    else if n = WARN then .str "WARN"
    else if n = ERROR then .str "ERROR"
    else if n = FATAL then .str "FATAL"
    else .undefined
  | _ => .undefined

/-- The code units of a string as indexed properties. -/
def unitEntries : Nat → List Char → Props
  | _, [] => []
  | i, c :: cs =>
    if c.toNat < 65536 then (toString i, .str (String.singleton c)) :: unitEntries (i + 1) cs
    else (toString i, .str (String.singleton (Char.ofNat 65533))) ::
      (toString (i + 1), .str (String.singleton (Char.ofNat 65533))) :: unitEntries (i + 2) cs

/-- The elements of an array as indexed properties. -/
def indexEntries : Nat → List JsVal → Props
  | _, [] => []
  | i, x :: xs => (toString i, x) :: indexEntries (i + 1) xs

/-- The pairs `(k, x[k])` for `k` in `Object.keys(x)`; the keys of an object are
distinct. -/
def ownEntries : JsVal → Props
  | .obj kvs => kvs
  | .arr xs => indexEntries 0 xs
  | .str s => unitEntries 0 s.data
  | _ => []

/-- The texts `k + ': ' + h[k]` for the entries of `h`; the value is converted. -/
def headerTexts : Props → Except JsError (List String)
  | [] => .ok []
  | (k, v) :: r =>
    match v.toStr with
    | .error e => .error e
    | .ok t =>
      match headerTexts r with
      | .error e => .error e
      | .ok ts => .ok ((k ++ ": " ++ t) :: ts)

/-- The text `Object.keys(h).map((k) => k + ': ' + h[k]).join('\n')`. -/
def headerLines (h : JsVal) : Except JsError String :=
  (headerTexts (ownEntries h)).map (joinWith "\n")

/-- The comparison `Object.keys(x) > 0`: the array of keys converts to the text
of its elements joined by commas, and that text to a number. -/
def keysGreaterThanZero (x : JsVal) : Bool :=
  strNumSign (joinWith "," ((ownEntries x).map (fun p => p.1))) == .pos

/-- The text `typeof (body) === 'object' ? JSON.stringify(body, null, 2) : body`
as appended to a string, for a truthy body. -/
def bodyText (body : JsVal) : Except JsError String :=
  if body.isObject then
    match jsonStringify body 2 with
    | some t => .ok t
    | none => .ok "undefined"
  else body.toStr

/-- The loop `Object.keys(x).forEach((k) => rec[pre + k] = x[k])`. -/
def promote (pre : String) (x : JsVal) (r : Props) : Props :=
  (ownEntries x).foldl (fun acc p => setProp acc (pre ++ p.1) p.2) r

/-- The working record and the two lists of a short/long rendering. -/
structure Acc where
  rcd : Props
  extras : List String
  details : List String

/-- The expression `x[10]`, which throws on `undefined` and `null`. -/
def index10 : JsVal → Except JsError JsVal
  | .undefined => .error .typeError
  | .null => .error .typeError
  | .str s =>
    match unitAt s.data 10 with
    | some c => .ok (.str (String.singleton c))
    | none => .ok .undefined
  | .arr xs => .ok (xs.getD 10 .undefined)
  | .obj kvs => .ok (getProp kvs "10")
  | _ => .ok .undefined

/-- The comparison `x == 'T'`: an array or object is converted to its text. -/
def looseEqT : JsVal → Except JsError Bool
  | .str s => .ok (s == "T")
  | .arr xs =>
    match (JsVal.arr xs).toStr with
    | .error e => .error e
    | .ok t => .ok (t == "T")
  | .obj kvs =>
    match (JsVal.obj kvs).toStr with
    | .error e => .error e
    | .ok t => .ok (t == "T")
  | _ => .ok false

/-- Line 186: the text `'[' + rec.time + ']'`, stylized. -/
def bracketTime (env : Env) (opts : Opts) (time : JsVal) : Except JsError JsVal :=
  match time.toStr with
  | .error e => .error e
  | .ok t => stylize env opts (.str ("[" ++ t ++ "]")) opts.timeColor

/-- Lines 182-187: the time text. -/
def timePart (env : Env) (opts : Opts) (short : Bool) (time : JsVal) : Except JsError JsVal :=
  if short then
    match index10 time with
    | .error e => .error e
    | .ok u =>
      match looseEqT u with
      | .error e => .error e
      | .ok true =>
        (match time with
         | .str s => stylize env opts (.str (substr s 11)) opts.timeColor
         | _ => .error .typeError)
      | .ok false => bracketTime env opts time
  else bracketTime env opts time

/-- The statement `nameStr += '/' + x`: both operands are converted. -/
def appendSlash (nameStr x : JsVal) : Except JsError JsVal :=
  match x.toStr with
  | .error e => .error e
  | .ok t =>
    match nameStr.toStr with
    | .error e => .error e
    | .ok n => .ok (.str (n ++ ("/" ++ t)))

/-- Lines 191-201: the name text. -/
def namePart (short : Bool) (name component pid : JsVal) : Except JsError JsVal :=
  match (if component.truthy then appendSlash name component else .ok name) with
  | .error e => .error e
  | .ok nameStr => if !short then appendSlash nameStr pid else .ok nameStr

/-- The default `colorFromLevel` of the short/long rendering. -/
def defaultColorFromLevel : List (String × String) :=
  [("10", "brightCyan"), ("20", "brightYellow"), ("30", "cyan"),
   ("40", "brightMagenta"), ("50", "red"), ("60", "inverse")]

/-- The expression `table[level] || 'LVL' + level` as `%s` prints it: the own
entry under the key of `level`, else the value inherited under that key, else
`LVL` and the text of `level`. -/
def levelText (env : Env) (table : List (String × String)) (level : JsVal) :
    Except JsError String :=
  match level.toStr with
  | .error e => .error e
  | .ok key =>
    match table.lookup key with
    | some s => .ok s
    | none => if protoKeys.contains key then .ok (env.inherited key).1 else .ok ("LVL" ++ key)

/-- Line 203: the level label before any color, as `%s` prints it. -/
def levelLabel (env : Env) (level : JsVal) : Except JsError String :=
  levelText env upperPaddedNameFromLevel level

/-- Lines 203-214: the level text.  With color, the style is looked up under
`colorFromLevel[rec.level]` (an own entry, else the inherited value as a key,
else `undefined`) and a style converts the label. -/
def levelPart (env : Env) (opts : Opts) (level : JsVal) : Except JsError JsVal :=
  match levelLabel env level with
  | .error e => .error e
  | .ok label =>
    if opts.color then
      match level.toStr with
      | .error e => .error e
      | .ok key =>
        let colorFromLevel :=
          match opts.colorFromLevel with
          | some t => t
          | none => defaultColorFromLevel
        let color : String :=
          match colorFromLevel.lookup key with
          | some c => c
          | none => if protoKeys.contains key then (env.inherited key).2 else "undefined"
        let converted : String :=
          match upperPaddedNameFromLevel.lookup key with
          | some s => s
          | none => if protoKeys.contains key then (env.inherited key).2 else label
        match env.styles color with
        | some fn => .ok (.str (fn converted))
        | none => .ok (.str label)
    else .ok (.str label)

/-- Lines 217-229: the source annotation. -/
def srcPart (env : Env) (opts : Opts) (src : JsVal) : Except JsError JsVal :=
  if src.truthy && (src.get "file").truthy then
    let s := src
    let text :=
      if (s.get "func").truthy then
        format env " (%s:%d in %s)" [s.get "file", s.get "line", s.get "func"]
      else
        format env " (%s:%d)" [s.get "file", s.get "line"]
    match text with
    | .error e => .error e
    | .ok t => stylize env opts (.str t) (some "green")
  else .ok (.str "")

/-- The test `msg.indexOf('\n') !== -1`, which throws unless `msg` is a string
or an array. -/
def hasLineBreak : JsVal → Except JsError Bool
  | .str s => .ok (containsChar s '\n')
  | .arr xs => .ok (xs.any (fun x => match x with
      | .str s => s == "\n"
      | _ => false))
  | _ => .error .typeError

/-- Lines 243-249: the message; the result is `onelineMsg` and the details. -/
def msgPart (env : Env) (opts : Opts) (msg : JsVal) (details : List String) :
    Except JsError (String × List String) :=
  match hasLineBreak msg with
  | .error e => .error e
  | .ok multi =>
    match stylize env opts msg opts.msgColor with
    | .error e => .error e
    | .ok m =>
      if multi then
        match indent m with
        | .error e => .error e
        | .ok d => .ok ("", details ++ [d])
      else
        match m.toStr with
        | .error e => .error e
        | .ok t => .ok (" " ++ t, details)

/-- Lines 270-274: the body is appended and deleted when it is truthy. -/
def bodyPart (s : String) (x : JsVal) : Except JsError (String × JsVal) :=
  if (x.get "body").truthy then
    match bodyText (x.get "body") with
    | .error e => .error e
    | .ok t => .ok (s ++ ("\n\n" ++ t), x.del "body")
  else .ok (s, x)

/-- The header lines of a truthy `headers`, after the text `sep`; nothing for a
falsy one. -/
def headersText (sep : String) (headers : JsVal) : Except JsError String :=
  if headers.truthy then
    match headerLines headers with
    | .error e => .error e
    | .ok t => .ok (sep ++ t)
  else .ok ""

/-- Lines 255-282: the text of a request and the request after the deletions. -/
def reqText (env : Env) (req : JsVal) : Except JsError (String × JsVal) :=
  match headersText "\n" (req.get "headers") with
  | .error e => .error e
  | .ok h =>
    match format env "%s %s HTTP/%s%s"
      [req.get "method",
       req.get "url",
       if (req.get "httpVersion").truthy then req.get "httpVersion" else .str "1.1",
       .str h] with
    | .error e => .error e
    | .ok s =>
      let req := (((req.del "url").del "method").del "httpVersion").del "headers"
      match bodyPart s req with
      | .error e => .error e
      | .ok (s, req) =>
        let trailers : Except JsError String :=
          if (req.get "trailers").truthy && keysGreaterThanZero (req.get "trailers") then
            match headerLines (req.get "trailers") with
            | .error e => .error e
            | .ok t => .ok (s ++ ("\n" ++ t))
          else .ok s
        match trailers with
        | .error e => .error e
        | .ok s => .ok (s, req.del "trailers")

/-- Lines 252-289: the request. -/
def reqPart (env : Env) (a : Acc) : Except JsError Acc :=
  if (getProp a.rcd "req").isObject then
    match reqText env (getProp a.rcd "req") with
    | .error e => .error e
    | .ok (s, req) =>
      .ok { rcd := promote "req." req (delProp a.rcd "req"), extras := a.extras,
            details := a.details ++ [indentStr s] }
  else .ok a

/-- Lines 296-301: the line `Host:` of a client request. -/
def hostHeaderLine (client_req : JsVal) : Except JsError String :=
  if (client_req.get "address").truthy then
    match (client_req.get "address").toStr with
    | .error e => .error e
    | .ok address =>
      let port : Except JsError String :=
        if (client_req.get "port").truthy then
          match (client_req.get "port").toStr with
          | .error e => .error e
          | .ok p => .ok (":" ++ p)
        else .ok ""
      match port with
      | .error e => .error e
      | .ok p => .ok (("Host: " ++ address) ++ p ++ "\n")
  else .ok ""

/-- Lines 294-324: the text of a client request and the client request after
the deletions. -/
def clientReqText (env : Env) (client_req : JsVal) : Except JsError (String × JsVal) :=
  let headers := client_req.get "headers"
  match hostHeaderLine client_req with
  | .error e => .error e
  | .ok host =>
    let client_req := ((client_req.del "headers").del "address").del "port"
    match headersText "" headers with
    | .error e => .error e
    | .ok h =>
      match format env "%s %s HTTP/%s\n%s%s"
        [client_req.get "method",
         client_req.get "url",
         if (client_req.get "httpVersion").truthy then client_req.get "httpVersion"
         else .str "1.1",
         .str host,
         .str h] with
      | .error e => .error e
      | .ok s =>
        let client_req := ((client_req.del "method").del "url").del "httpVersion"
        bodyPart ("" ++ s) client_req

/-- Lines 291-332: the client request. -/
def clientReqPart (env : Env) (a : Acc) : Except JsError Acc :=
  if (getProp a.rcd "client_req").isObject then
    match clientReqText env (getProp a.rcd "client_req") with
    | .error e => .error e
    | .ok (s, client_req) =>
      .ok { rcd := promote "client_req." client_req (delProp a.rcd "client_req"),
            extras := a.extras, details := a.details ++ [indentStr s] }
  else .ok a

/-- Lines 115-128 of `_res`: the status line and the header lines. -/
def resHead (env : Env) (res : JsVal) : Except JsError String :=
  if (res.get "header").truthy then
    match res.get "header" with
    | .str h => .ok ⟨trimEnd h.data⟩
    | _ => .error .typeError
  else if (res.get "headers").truthy then
    let status : Except JsError String :=
      if (res.get "statusCode").truthy then
        match (res.get "statusCode").toStr with
        | .error e => .error e
        | .ok key =>
          format env "HTTP/1.1 %s %s\n"
            [res.get "statusCode",
             match env.statusCodes key with
             | some t => .str t
             | none => .undefined]
      else .ok ""
    match status with
    | .error e => .error e
    | .ok st =>
      match headerLines (res.get "headers") with
      | .error e => .error e
      | .ok h => .ok (st ++ h)
  else .ok ""

/-- Lines 114-140 of `_res`: the text of a response and the response after the
deletions. -/
def resText (env : Env) (res : JsVal) : Except JsError (String × JsVal) :=
  match resHead env res with
  | .error e => .error e
  | .ok s =>
    let res := ((res.del "header").del "headers").del "statusCode"
    match bodyPart s res with
    | .error e => .error e
    | .ok (s, res) =>
      let trailer : Except JsError String :=
        if (res.get "trailer").truthy then
          match (res.get "trailer").toStr with
          | .error e => .error e
          | .ok t => .ok (s ++ ("\n" ++ t))
        else .ok s
      match trailer with
      | .error e => .error e
      | .ok s => .ok (s, res.del "trailer")

/-- The function `_res`, called on the object stored under `key`; the object is
changed in place and its remaining keys are assigned under `res.`. -/
def _res (env : Env) (key : String) (a : Acc) : Except JsError Acc :=
  match resText env (getProp a.rcd key) with
  | .error e => .error e
  | .ok (s, res) =>
    .ok { rcd := promote "res." res (setProp a.rcd key res),
          extras := a.extras,
          details := if s != "" then a.details ++ [indentStr s] else a.details }

/-- One of the two blocks of lines 334-341: when the value stored under `key` is
an object, `_res` is called on it and then `rec.res` is deleted (the block for
`client_res` deletes `rec.res` as well). -/
def resStage (env : Env) (key : String) (a : Acc) : Except JsError Acc :=
  if (getProp a.rcd key).isObject then
    match _res env key a with
    | .error e => .error e
    | .ok b => .ok { b with rcd := delProp b.rcd "res" }
  else .ok a

/-- Lines 334-341: the response and the client response. -/
def resPart (env : Env) (a : Acc) : Except JsError Acc :=
  match resStage env "res" a with
  | .error e => .error e
  | .ok b => resStage env "client_res" b

/-- Lines 343-346: the error stack. -/
def errPart (a : Acc) : Except JsError Acc :=
  let err := getProp a.rcd "err"
  if err.truthy && (err.get "stack").truthy then
    match indent (err.get "stack") with
    | .error e => .error e
    | .ok d => .ok { rcd := delProp a.rcd "err", extras := a.extras, details := a.details ++ [d] }
  else .ok a

/-- Lines 351-356: the text of a leftover value and whether it was stringified;
`none` when `JSON.stringify` returns `undefined`. -/
def leftoverText : JsVal → Option (String × Bool)
  | .str s => some (s, false)
  | v =>
    match jsonStringify v 2 with
    | some t => some (t, true)
    | none => none

/-- Lines 349-365: the loop over the leftover keys. -/
def leftoverLoop : Props → List String → List String →
    Except JsError (List String × List String)
  | [], extras, details => .ok (extras, details)
  | (key, v) :: r, extras, details =>
    match leftoverText v with
    | none => .error .typeError
    | some (value, stringified) =>
      if containsChar value '\n' || utf16Length value.data > 50 then
        leftoverLoop r extras (details ++ [indentStr (key ++ (": " ++ value))])
      else if !stringified && (containsChar value ' ' || utf16Length value.data = 0) then
        leftoverLoop r (extras ++ [key ++ ("=" ++ quote value)]) details
      else
        leftoverLoop r (extras ++ [key ++ ("=" ++ value)]) details

/-- Lines 367-387: the two joined lists and the final line. -/
def assemble (env : Env) (opts : Opts) (short : Bool) (time level nameStr hostname src : JsVal)
    (onelineMsg : String) (extras details : List String) : Except JsError String :=
  match stylize env opts
    (.str (if extras.length != 0 then " (" ++ joinWith ", " extras ++ ")" else ""))
    opts.extraColor with
  | .error e => .error e
  | .ok extras =>
    match stylize env opts
      (.str (if details.length != 0 then joinWith "\n  --\n" details ++ "\n" else ""))
      opts.metaColor with
    | .error e => .error e
    | .ok details =>
      if !short then
        format env "%s %s: %s on %s%s:%s%s\n%s"
          [time, level, nameStr,
           if hostname.truthy then hostname else .str "<no-hostname>",
           src, .str onelineMsg, extras, details]
      else
        format env "%s %s %s:%s%s\n%s" [time, level, nameStr, .str onelineMsg, extras, details]

/-- The record at line 348, where the leftover keys are enumerated, with the
texts and lists computed on the way (lines 176-346). -/
structure Consumed where
  time : JsVal
  level : JsVal
  nameStr : JsVal
  hostname : JsVal
  src : JsVal
  onelineMsg : String
  acc : Acc

/-- Lines 235-241: the extra `req_id=` of a truthy `req_id`, which is converted. -/
def reqIdExtras (r : Props) : Except JsError (List String) :=
  if (getProp r "req_id").truthy then
    match (getProp r "req_id").toStr with
    | .error e => .error e
    | .ok t => .ok ["req_id=" ++ t]
  else .ok []

/-- Lines 252-346: the request, the client request, the two responses and the
error stack, in this order. -/
def blocks (env : Env) (a : Acc) : Except JsError Acc :=
  match reqPart env a with
  | .error e => .error e
  | .ok a1 =>
    match clientReqPart env a1 with
    | .error e => .error e
    | .ok a2 =>
      match resPart env a2 with
      | .error e => .error e
      | .ok b => errPart b

/-- Lines 176-346 of the short/long case, on a valid record. -/
def consume (env : Env) (opts : Opts) (short : Bool) (r : Props) : Except JsError Consumed :=
  let r := delProp r "v"
  match timePart env opts short (getProp r "time") with
  | .error e => .error e
  | .ok time =>
    let r := delProp r "time"
    let name := getProp r "name"
    let r := delProp r "name"
    let component := getProp r "component"
    let r := delProp r "component"
    match namePart short name component (getProp r "pid") with
    | .error e => .error e
    | .ok nameStr =>
      let r := delProp r "pid"
      match levelPart env opts (getProp r "level") with
      | .error e => .error e
      | .ok level =>
        let r := delProp r "level"
        match srcPart env opts (getProp r "src") with
        | .error e => .error e
        | .ok src =>
          let r := delProp r "src"
          let hostname := getProp r "hostname"
          let r := delProp r "hostname"
          match reqIdExtras r with
          | .error e => .error e
          | .ok extras =>
            let r := delProp r "req_id"
            match msgPart env opts (getProp r "msg") [] with
            | .error e => .error e
            | .ok (onelineMsg, details) =>
              let r := delProp r "msg"
              match blocks env { rcd := r, extras := extras, details := details } with
              | .error e => .error e
              | .ok a =>
                .ok { time := time, level := level, nameStr := nameStr, hostname := hostname,
                      src := src, onelineMsg := onelineMsg, acc := a }

/-- The cases `OM_SHORT` and `OM_LONG` on a valid record that is an object. -/
def renderLines (env : Env) (opts : Opts) (short : Bool) (r : Props) : Except JsError String :=
  match consume env opts short r with
  | .error e => .error e
  | .ok c =>
    match leftoverLoop c.acc.rcd c.acc.extras c.acc.details with
    | .error e => .error e
    | .ok (extras, details) =>
      assemble env opts short c.time c.level c.nameStr c.hostname c.src c.onelineMsg
        extras details

/-- Line 156: the value switched on, when it is a number.  A name that is not
numeric is looked up in `OM_FROM_NAME`; a numeric string stays a string and
equals no case label. -/
def resolveMode : OutputMode → Option Int
  | .name s => if strIsNaN s then OM_FROM_NAME.lookup s else none
  | .code n => some n

/-- The twelve recognized values of `outputMode`. -/
def recognizedModes : List OutputMode :=
  [.name "long", .name "json", .name "inspect", .name "simple", .name "short", .name "bunyan",
   .code 1, .code 2, .code 3, .code 4, .code 5, .code 6]

/-- The text of `opts.outputMode` in the error message. -/
def OutputMode.text : OutputMode → String
  | .name s => s
  | .code n => intText n

/-- The statement `rec.level = mapLevelToName(rec.level)` in strict mode: it
throws on a primitive, and a named property of an array is not serialized. -/
def assignLevel : JsVal → Except JsError JsVal
  | .obj kvs => .ok (.obj (setProp kvs "level" (mapLevelToName (getProp kvs "level"))))
  | .arr xs => .ok (.arr xs)
  | _ => .error .typeError

/-- The text `JSON.stringify(rec, null, space) + '\n'`. -/
def jsonLine (r : JsVal) (space : Int) : String :=
  (match jsonStringify r space with
   | some t => t
   | none => "undefined") ++ "\n"

/-- The cases `OM_BUNYAN` and `OM_JSON`. -/
def renderJson (opts : Opts) (r : JsVal) (space : Int) : Except JsError String :=
  if opts.levelInString then
    match assignLevel r with
    | .error e => .error e
    | .ok r1 => .ok (jsonLine r1 space)
  else .ok (jsonLine r space)

/-- The text `line + '\n'`; `line` is converted. -/
def rawLine (line : JsVal) : Except JsError String :=
  match line.toStr with
  | .error e => .error e
  | .ok t => .ok (t ++ "\n")

/-- The case `OM_SIMPLE`. -/
def renderSimple (env : Env) (r : JsVal) (line : JsVal) : Except JsError String :=
  if !isValidRecord r then rawLine line
  else
    match levelText env upperNameFromLevel (r.get "level") with
    | .error e => .error e
    | .ok l => format env "%s - %s\n" [.str l, r.get "msg"]

/-- The exported function `formatRecord(rec, opts)`.  The destructuring
`const { line } = rec` throws on `null` and `undefined`.  In the cases
`OM_SHORT` and `OM_LONG` a value that is not a plain object (an array, a
string, a number, a boolean) has none of the properties read, so it passes
isValidRecord and `rec.msg.indexOf` throws (in short mode `rec.time[10]` throws
before). -/
def formatRecord (env : Env) (r : JsVal) (opts : Opts) : Except JsError String :=
  match r with
  | .undefined => .error .typeError
  | .null => .error .typeError
  | _ =>
    let line := r.get "line"
    match resolveMode opts.outputMode with
    | some outputMode =>
      if outputMode = OM_SHORT || outputMode = OM_LONG then
        let short := outputMode = OM_SHORT
        if !isValidRecord r then rawLine line
        else
          match r with
          | .obj kvs => renderLines env opts short kvs
          | _ => .error .typeError
      else if outputMode = OM_INSPECT then .ok (env.inspect r ++ "\n")
      else if outputMode = OM_BUNYAN then renderJson opts r 0
      else if outputMode = OM_JSON then renderJson opts r opts.jsonIndent
      else if outputMode = OM_SIMPLE then renderSimple env r line
      else .error (.error ("unknown output mode: " ++ opts.outputMode.text))
    | none => .error (.error ("unknown output mode: " ++ opts.outputMode.text))

/-! ## JSON.parse -/

/-- White space of the JSON grammar. -/
def isJsonSpace (c : Char) : Bool := c = ' ' || c = '\t' || c = '\n' || c = '\r'

/-- Skips white space. -/
def skipSpace : List Char → List Char
  | [] => []
  | c :: cs => if isJsonSpace c then skipSpace cs else c :: cs

/-- A piece of a string token: a character, or the code unit of a `\u` escape. -/
inductive StrUnit where
  | chr (c : Char) : StrUnit
  | esc (n : Nat) : StrUnit

/-- The code unit written by four hexadecimal digits. -/
def hex4 (a b c d : Char) : Option Nat :=
  match digitVal 16 a, digitVal 16 b, digitVal 16 c, digitVal 16 d with
  | some x, some y, some z, some w => some (((x * 16 + y) * 16 + z) * 16 + w)
  | _, _, _, _ => none

/-- The character written by a two-character escape `\x`. -/
def unescape (x : Char) : Option Char :=
  if x = '"' then some '"'
  else if x = '\\' then some '\\'
  else if x = '/' then some '/'
  else if x = 'b' then some (Char.ofNat 8)
  else if x = 'f' then some (Char.ofNat 12)
  else if x = 'n' then some '\n'
  else if x = 'r' then some '\r'
  else if x = 't' then some '\t'
  else none

/-- Reads a string token after its opening quote, up to the closing quote: a
quote ends it, a backslash starts an escape, a control character is refused. -/
def parseStr : List Char → Option (List StrUnit × List Char)
  | [] => none
  | c :: r =>
    if c = '"' then some ([], r)
    else if c = '\\' then
      match r with
      | [] => none
      | x :: r1 =>
        if x = 'u' then
          match r1 with
          | h1 :: h2 :: h3 :: h4 :: r2 =>
            (match hex4 h1 h2 h3 h4 with
             | some n => (parseStr r2).map (fun p => (.esc n :: p.1, p.2))
             | none => none)
          | _ => none
        else
          match unescape x with
          | some y => (parseStr r1).map (fun p => (.chr y :: p.1, p.2))
          | none => none
    else if c.toNat < 32 then none
    else (parseStr r).map (fun p => (.chr c :: p.1, p.2))

/-- The characters of a string token: two escapes that form a surrogate pair
are one character, a surrogate half alone is shown as U+FFFD. -/
def decodeUnits : List StrUnit → List Char
  | [] => []
  | .chr c :: r => c :: decodeUnits r
  | .esc hi :: .esc lo :: r =>
    if 55296 ≤ hi && hi < 56320 then
      if 56320 ≤ lo && lo < 57344 then
        Char.ofNat (65536 + (hi - 55296) * 1024 + (lo - 56320)) :: decodeUnits r
      else Char.ofNat 65533 :: decodeUnits (.esc lo :: r)
    else if 56320 ≤ hi && hi < 57344 then Char.ofNat 65533 :: decodeUnits (.esc lo :: r)
    else Char.ofNat hi :: decodeUnits (.esc lo :: r)
  | .esc n :: r =>
    if 55296 ≤ n && n < 57344 then Char.ofNat 65533 :: decodeUnits r
    else Char.ofNat n :: decodeUnits r

/-- The number a token denotes, from its sign, its digits `m` and its decimal
exponent `e` (the value is `m * 10 ^ e`): an integer below `2 ^ 53` is itself,
any other value is rounded to the nearest double, which may be an infinity. -/
def decodeNumber (neg : Bool) (m : Nat) (e : Int) : JsVal :=
  if m = 0 then (if neg then .dbl .negZero else .num 0)
  else if e = 0 ∧ m < 2 ^ 53 then .num (if neg then -(m : Int) else m)
  else
    match toDouble (decVal (m, e)) with
    | none => .dbl (.inf neg)
    | some r =>
      if r = 0 then (if neg then .dbl .negZero else .num 0)
      else if r.den = 1 then .num (if neg then -r.num else r.num)
      else .dbl (.frac (if neg then -r else r))

/-- The integer part of a number token: digits, without a leading zero before
another digit. -/
def readIntPart (cs : List Char) : Option (Nat × List Char) :=
  match readDigits 10 cs 0 0 with
  | (n, len, rest) =>
    if len = 0 then none
    else if 1 < len && cs.head? = some '0' then none
    else some (n, rest)

/-- The fraction part of a number token, after the digits of value `m`: the
value of all digits read and the number of fraction digits. -/
def readFraction (m : Nat) (cs : List Char) : Option (Nat × Nat × List Char) :=
  match cs with
  | [] => some (m, 0, [])
  | c :: r =>
    if c = '.' then
      match readDigits 10 r m 0 with
      | (m1, len, rest) => if len = 0 then none else some (m1, len, rest)
    else some (m, 0, c :: r)

/-- The exponent part of a number token. -/
def readExponent (cs : List Char) : Option (Int × List Char) :=
  match cs with
  | [] => some (0, [])
  | c :: r =>
    if c = 'e' || c = 'E' then
      let signed : Bool × List Char :=
        match r with
        | [] => (false, [])
        | s :: r1 =>
          if s = '-' then (true, r1) else if s = '+' then (false, r1) else (false, s :: r1)
      match readDigits 10 signed.2 0 0 with
      | (n, len, rest) =>
        if len = 0 then none else some (if signed.1 then -(n : Int) else (n : Int), rest)
    else some (0, c :: r)

/-- Reads a number token after its sign. -/
def parseUnsigned (neg : Bool) (cs : List Char) : Option (JsVal × List Char) :=
  match readIntPart cs with
  | none => none
  | some (n, r1) =>
    match readFraction n r1 with
    | none => none
    | some (m, flen, r2) =>
      match readExponent r2 with
      | none => none
      | some (ex, r3) => some (decodeNumber neg m (ex - (flen : Int)), r3)

/-- Reads a number token. -/
def parseNumber : List Char → Option (JsVal × List Char)
  | [] => none
  | c :: cs => if c = '-' then parseUnsigned true cs else parseUnsigned false (c :: cs)

/-- The array index a property key denotes, if it is one: the decimal text of a
number below 2^32 - 1. -/
def arrayIndex (k : String) : Option Nat :=
  match readDigits 10 k.data 0 0 with
  | (n, len, rest) =>
    if len = 0 then none
    else if !rest.isEmpty then none
    else if 1 < len && k.data.head? = some '0' then none
    else if n < 4294967295 then some n else none

/-- Places a new property: an array index goes before the first key that is not
a smaller array index, any other key goes last. -/
def insertNew (n : Option Nat) : Props → String → JsVal → Props
  | [], k, v => [(k, v)]
  | (k1, w) :: r, k, v =>
    match n, arrayIndex k1 with
    | some i, some j => if j < i then (k1, w) :: insertNew n r k v else (k, v) :: (k1, w) :: r
    | some _, none => (k, v) :: (k1, w) :: r
    | none, _ => (k1, w) :: insertNew n r k v

/-- Defines the property `k` while an object is decoded: a repeated key keeps
its place and takes the new value; array indices enumerate first, in ascending
order, then the other keys in the order of their first definition. -/
def insertMember (o : Props) (k : String) (v : JsVal) : Props :=
  if hasProp o k then setProp o k v else insertNew (arrayIndex k) o k v

/-- Removes the characters of `word` from the start of a text, if they are there. -/
def dropWord : List Char → List Char → Option (List Char)
  | [], cs => some cs
  | _ :: _, [] => none
  | w :: ws, c :: cs => if w = c then dropWord ws cs else none

/-- Reads one of the literals `true`, `false` and `null`. -/
def parseLiteral (cs : List Char) : Option (JsVal × List Char) :=
  match dropWord "true".data cs with
  | some r => some (.bool true, r)
  | none =>
    match dropWord "false".data cs with
    | some r => some (.bool false, r)
    | none =>
      match dropWord "null".data cs with
      | some r => some (.null, r)
      | none => none

mutual
/-- Reads a JSON value at the start of a text without leading white space;
`fuel` bounds the number of values and members read. -/
def parseValue : Nat → List Char → Option (JsVal × List Char)
  | 0, _ => none
  | _ + 1, [] => none
  | fuel + 1, c :: r =>
    if c = '\x7b' then
      match skipSpace r with
      | [] => none
      | d :: r1 => if d = '\x7d' then some (.obj [], r1) else parseMembers fuel (d :: r1) []
    else if c = '[' then
      match skipSpace r with
      | [] => none
      | d :: r1 => if d = ']' then some (.arr [], r1) else parseElems fuel (d :: r1) []
    else if c = '"' then (parseStr r).map (fun p => (.str ⟨decodeUnits p.1⟩, p.2))
    else if c = 't' || c = 'f' || c = 'n' then parseLiteral (c :: r)
    else parseNumber (c :: r)
/-- Reads the members of an object up to the closing brace, after `acc`. -/
def parseMembers : Nat → List Char → Props → Option (JsVal × List Char)
  | 0, _, _ => none
  | _ + 1, [], _ => none
  | fuel + 1, c :: r, acc =>
    if c = '"' then
      match parseStr r with
      | none => none
      | some (us, r1) =>
        match skipSpace r1 with
        | [] => none
        | d :: r2 =>
          if d = ':' then
            match parseValue fuel (skipSpace r2) with
            | none => none
            | some (v, r3) =>
              match skipSpace r3 with
              | [] => none
              | e :: r4 =>
                if e = ',' then
                  parseMembers fuel (skipSpace r4) (insertMember acc ⟨decodeUnits us⟩ v)
                else if e = '\x7d' then some (.obj (insertMember acc ⟨decodeUnits us⟩ v), r4)
                else none
          else none
    else none
/-- Reads the elements of an array up to the closing bracket, after `acc`. -/
def parseElems : Nat → List Char → List JsVal → Option (JsVal × List Char)
  | 0, _, _ => none
  | fuel + 1, cs, acc =>
    match parseValue fuel cs with
    | none => none
    | some (v, r1) =>
      match skipSpace r1 with
      | [] => none
      | e :: r2 =>
        if e = ',' then parseElems fuel (skipSpace r2) (acc ++ [v])
        else if e = ']' then some (.arr (acc ++ [v]), r2)
        else none
end

/-- The call `JSON.parse(text)`: one value between optional white space.  A
text is refused with a SyntaxError when it is not JSON. -/
def jsonParse (text : String) : Except JsError JsVal :=
  match parseValue (text.data.length + 1) (skipSpace text.data) with
  | some (v, rest) => if (skipSpace rest).isEmpty then .ok v else .error .syntaxError
  | none => .error .syntaxError

/-- Whether key `k` may enumerate before key `k1`: an array index comes before
every key that is not one, and before every greater array index. -/
def keyBefore (k k1 : String) : Bool :=
  k != k1 &&
  match arrayIndex k1, arrayIndex k with
  | some j, some i => i < j
  | some _, none => false
  | none, _ => true

/-- The keys of an object as `JSON.parse` leaves them: distinct, the array
indices first and ascending. -/
def keysInOrder : List String → Bool
  | [] => true
  | k :: ks => ks.all (fun k1 => keyBefore k k1) && keysInOrder ks

mutual
/-- A value as `JSON.parse` gives it: no `undefined` inside, and the keys of
every object distinct and in enumeration order. -/
def isDecoded : JsVal → Bool
  | .undefined => false
  | .null => true
  | .bool _ => true
  | .num _ => true
  | .dbl _ => true
  | .str _ => true
  | .arr xs => allDecoded xs
  | .obj kvs => membersDecoded kvs && keysInOrder (kvs.map Prod.fst)
/-- All elements of an array are as decoded. -/
def allDecoded : List JsVal → Bool
  | [] => true
  | x :: xs => isDecoded x && allDecoded xs
/-- All property values of an object are as decoded. -/
def membersDecoded : List (String × JsVal) → Bool
  | [] => true
  | (_, v) :: r => isDecoded v && membersDecoded r
end

mutual
/-- No `undefined` anywhere inside a value. -/
def noUndef : JsVal → Bool
  | .undefined => false
  | .null => true
  | .bool _ => true
  | .num _ => true
  | .dbl _ => true
  | .str _ => true
  | .arr xs => elemsNoUndef xs
  | .obj kvs => membersNoUndef kvs
/-- No `undefined` inside the elements of an array. -/
def elemsNoUndef : List JsVal → Bool
  | [] => true
  | x :: xs => noUndef x && elemsNoUndef xs
/-- No `undefined` inside the property values of an object. -/
def membersNoUndef : List (String × JsVal) → Bool
  | [] => true
  | (_, v) :: r => noUndef v && membersNoUndef r
end

/-- The `header` of a response, when the response is an object and the header
is truthy, is a string (`_res` calls `trimRight` on it). -/
def headerIsText (res : JsVal) : Bool :=
  !res.isObject || !(res.get "header").truthy || (res.get "header").isString

/-- The `stack` of a truthy `err`, when truthy, is a string (`indent` calls
`split` on it). -/
def stackIsText (err : JsVal) : Bool :=
  !err.truthy || !(err.get "stack").truthy || (err.get "stack").isString

/-- The fields on which the short/long rendering calls string methods are
strings: `msg`, `time` in short mode, a truthy `header` of `res` and of
`client_res`, and a truthy `err.stack`. -/
def textFields (short : Bool) (r : Props) : Bool :=
  (getProp r "msg").isString &&
  (!short || (getProp r "time").isString) &&
  headerIsText (getProp r "res") &&
  headerIsText (getProp r "client_res") &&
  stackIsText (getProp r "err")

/-- Every value of a property list is without `undefined`. -/
def Clean (r : Props) : Prop := ∀ p ∈ r, noUndef p.2 = true

/-! ## index.js: the writable stream -/

/-- The options given to the constructor; an absent option is `none`. -/
structure UserOpts where
  outputMode : Option OutputMode
  color : Option Bool
  msgColor : Option String
  timeColor : Option String
  metaColor : Option String
  extraColor : Option String
  colorFromLevel : Option (List (String × String))
  levelInString : Option Bool
  jsonIndent : Option Int

/-- The merge `xtend(defaults, opts)` of the constructor. -/
def mergeOpts (opts : UserOpts) : Opts :=
  { outputMode := opts.outputMode.getD (.name "short"),
    color := opts.color.getD true,
    msgColor := some (opts.msgColor.getD "cyan"),
    timeColor := some (opts.timeColor.getD "brightWhite"),
    metaColor := some (opts.metaColor.getD "brightRed"),
    extraColor := some (opts.extraColor.getD "brightCyan"),
    colorFromLevel := some (opts.colorFromLevel.getD
      [("10", "brightBlack"), ("20", "brightYellow"), ("30", "brightGreen"),
       ("40", "brightMagenta"), ("50", "red"), ("60", "brightRed")]),
    levelInString := opts.levelInString.getD false,
    jsonIndent := opts.jsonIndent.getD 0 }

/-- The stream: its options, the texts written to `out` so far (oldest first)
and the number of calls of the completion callback. -/
structure BunyanFormatWritable where
  opts : Opts
  out : List String
  callbacks : Nat

/-- The constructor `BunyanFormatWritable(opts, out)`. -/
def BunyanFormatWritable.new (opts : UserOpts) : BunyanFormatWritable :=
  { opts := mergeOpts opts, out := [], callbacks := 0 }

/-- The method `_write(chunk, encoding, cb)`: the `try` block decodes the chunk
and writes the rendering, the `catch` block writes the chunk, and `cb()` is
called after either.  The decoder `JSON.parse` is the argument `parse`, so that
what is proved of `_write` holds for every decoder. -/
def BunyanFormatWritable._write (env : Env) (parse : String → Except JsError JsVal)
    (self : BunyanFormatWritable) (chunk : String) : BunyanFormatWritable :=
  let written : String :=
    match parse chunk with
    | .ok r =>
      (match formatRecord env r self.opts with
       | .ok text => text
       | .error _ => chunk)
    | .error _ => chunk
  { opts := self.opts, out := self.out ++ [written], callbacks := self.callbacks + 1 }

/-! ## Sample data -/

/-- The record with exactly the seven fields of a Bunyan record, as written. -/
def sevenFields (v : JsVal) (level : Int) (name : String) (hostname pid : JsVal)
    (time msg : String) : Props :=
  [("v", v), ("level", .num level), ("name", .str name), ("hostname", hostname),
   ("pid", pid), ("time", .str time), ("msg", .str msg)]

/-- A host whose functions print fixed texts and which knows one status code and
one style; an inherited value is printed as a function of the name of its key. -/
def sampleEnv : Env :=
  { inspect := fun _ => "<inspect>",
    inspectArg := fun _ => "<object>",
    numberText := fun s => s,
    statusCodes := fun k => if k = "200" then some "OK" else none,
    styles := fun k => if k = "green" then some (fun s => "<g>" ++ s ++ "</g>") else none,
    inherited := fun k => ("[Function: " ++ k ++ "]", "function " ++ k ++ "() \x7b [native code] \x7d") }

/-- Options with the given mode, without color and without the JSON flags. -/
def plainOpts (mode : String) : Opts :=
  { outputMode := .name mode, color := false, msgColor := none, timeColor := none,
    metaColor := none, extraColor := none, colorFromLevel := none, levelInString := false,
    jsonIndent := 0 }

/-- The record of the scenario of the specification. -/
def helloRecord : Props :=
  sevenFields (.num 0) 30 "svc" (.str "h1") (.num 5) "2021-01-02T03:04:05.000Z" "hello"

/-! ## Predicates of the proofs about JSON texts -/

/-- The text that follows a number token: it does not continue the token. -/
def NumEnd (rest : List Char) : Prop :=
  ∀ c r, rest = c :: r → digitVal 10 c = none ∧ c ≠ '.' ∧ c ≠ 'e' ∧ c ≠ 'E'

/-- A text of JSON white space. -/
def White (w : List Char) : Prop := ∀ c ∈ w, isJsonSpace c = true

/-- A character that can start the text of a value: it is not white space and
closes nothing. -/
def Start (c : Char) : Prop := isJsonSpace c = false ∧ c ≠ ']' ∧ c ≠ '\x7d'

/-- A rational that is the value of a double: rounding its magnitude to the
nearest double gives the magnitude itself. -/
def isDouble (q : ℚ) : Bool := toDouble |q| == some |q|

mutual
/-- Every number inside a value is finite and is not the negative zero: an
integer that is a double, or a fraction that is a double. -/
def finiteNumbers : JsVal → Bool
  | .undefined => true
  | .null => true
  | .bool _ => true
  | .num n => isDouble n
  | .dbl x =>
    match x with
    | .frac q => isDouble q && q.den != 1
    | .negZero => false
    | .inf _ => false
    | .nan => false
  | .str _ => true
  | .arr xs => elemsFinite xs
  | .obj kvs => membersFinite kvs
/-- The numbers inside the elements of an array are finite. -/
def elemsFinite : List JsVal → Bool
  | [] => true
  | x :: xs => finiteNumbers x && elemsFinite xs
/-- The numbers inside the property values of an object are finite. -/
def membersFinite : List (String × JsVal) → Bool
  | [] => true
  | (_, v) :: r => finiteNumbers v && membersFinite r
end

mutual
/-- No number inside a value is an infinity, NaN or the negative zero. -/
def plainNumbers : JsVal → Bool
  | .undefined => true
  | .null => true
  | .bool _ => true
  | .num _ => true
  | .dbl x =>
    match x with
    | .frac _ => true
    | .negZero => false
    | .inf _ => false
    | .nan => false
  | .str _ => true
  | .arr xs => elemsPlain xs
  | .obj kvs => membersPlain kvs
/-- No element of an array holds an infinity, NaN or the negative zero. -/
def elemsPlain : List JsVal → Bool
  | [] => true
  | x :: xs => plainNumbers x && elemsPlain xs
/-- No property value of an object holds an infinity, NaN or the negative zero. -/
def membersPlain : List (String × JsVal) → Bool
  | [] => true
  | (_, v) :: r => plainNumbers v && membersPlain r
end

mutual
/-- No object inside a value has an own property `toString`, so every value
inside converts to a text. -/
def noToString : JsVal → Bool
  | .arr xs => elemsNoToString xs
  | .obj kvs => !hasProp kvs "toString" && membersNoToString kvs
  | _ => true
/-- No object inside the elements of an array has an own property `toString`. -/
def elemsNoToString : List JsVal → Bool
  | [] => true
  | x :: xs => noToString x && elemsNoToString xs
/-- No object inside the property values of an object has an own property
`toString`. -/
def membersNoToString : List (String × JsVal) → Bool
  | [] => true
  | (_, v) :: r => noToString v && membersNoToString r
end

/-- Every value of a property list is without an own property `toString`. -/
def Plain (r : Props) : Prop := ∀ p ∈ r, noToString p.2 = true

/-- The record left by the deletions of lines 176-250, before the request. -/
def afterFields (r : Props) : Props :=
  delProp (delProp (delProp (delProp (delProp (delProp (delProp (delProp (delProp
    (delProp r "v") "time") "name") "component") "pid") "level") "src") "hostname")
    "req_id") "msg"

/-- The extras at line 242: `req_id` when it is truthy. -/
def extrasSegment (extras : List String) : String :=
  if extras.length != 0 then " (" ++ joinWith ", " extras ++ ")" else ""

/-- Lines 370-374: the joined details. -/
def detailsSegment (details : List String) : String :=
  if details.length != 0 then joinWith "\n  --\n" details ++ "\n" else ""

/-- The header line up to and including the `:` that ends the name (short) or
the hostname and source (long). -/
def headerText (env : Env) (short : Bool) (time level : String) (nameStr hostname : JsVal)
    (src : String) : String :=
  if short then time ++ " " ++ level ++ " " ++ fmtS env nameStr ++ ":"
  else time ++ " " ++ level ++ ": " ++ fmtS env nameStr ++ " on " ++
    fmtS env (if hostname.truthy then hostname else .str "<no-hostname>") ++ src ++ ":"

/-- The pieces of `s.split('\n')`, on characters; `cur` is the piece being read,
reversed. -/
def splitNewlineAux : List Char → List Char → List (List Char)
  | [], cur => [cur.reverse]
  | c :: cs, cur =>
    if c = '\n' then cur.reverse :: splitNewlineAux cs [] else splitNewlineAux cs (c :: cur)

/-- The array `s.split('\n')`: the lines of a text that is cut at every line
feed. -/
def splitNewline (s : String) : List String :=
  (splitNewlineAux s.data []).map String.mk

/-- The accumulator `b` with the lists `e` and `d` put before its own. -/
def Acc.after (e d : List String) (b : Acc) : Acc :=
  { rcd := b.rcd, extras := e ++ b.extras, details := d ++ b.details }

/-- An entry of the leftover pass with the list it is pushed to. -/
inductive Entry where
  | extra (text : String) : Entry
  | detail (text : String) : Entry

/-- The text of an entry pushed to the extras. -/
def Entry.extraText : Entry → Option String
  | .extra t => some t
  | .detail _ => none

/-- The text of an entry pushed to the details. -/
def Entry.detailText : Entry → Option String
  | .extra _ => none
  | .detail t => some t

/-- Worded as the specification: the text `s` of a leftover value `v` is `v`
itself when `v` is a string and its JSON serialization with an indent of two
spaces otherwise (`none` when there is no serialization). -/
def specText : JsVal → Option String
  | .str s => some s
  | v => jsonStringify v 2

/-- Worded as the specification: the entry of the leftover key `k` with value
`v` and text `s`.  A text with a line feed or of more than 50 code units is the
indented detail block `k: s`; otherwise a string that has a space or is empty is
the extra `k=` followed by the JSON-quoted text; otherwise the entry is the
extra `k=s`. -/
def specEntry (k : String) (v : JsVal) (s : String) : Entry :=
  if containsChar s '\n' = true ∨ 50 < utf16Length s.data then
    .detail (indentStr (k ++ ": " ++ s))
  else if v.isString = true ∧ (containsChar s ' ' = true ∨ s = "") then
    .extra (k ++ "=" ++ quote s)
  else .extra (k ++ "=" ++ s)

/-- Worded as the specification: one entry per leftover key, in the order of the
enumeration. -/
def specEntries (r : Props) : List Entry :=
  r.filterMap (fun p => (specText p.2).map (specEntry p.1 p.2))

/-- The record of the scenario with a request. -/
def withReq (req : Props) : Props := helloRecord ++ [("req", .obj req)]

/-- The detail blocks pushed by lines 252-289 for the value `req` of `rec.req`. -/
def reqBlock (env : Env) (req : JsVal) : Except JsError (List String) :=
  (reqPart env { rcd := [("req", req)], extras := [], details := [] }).map (fun b => b.details)

/-- The detail blocks pushed by lines 291-332 for the value of `rec.client_req`. -/
def clientReqBlock (env : Env) (client_req : JsVal) : Except JsError (List String) :=
  (clientReqPart env { rcd := [("client_req", client_req)], extras := [], details := [] }).map
    (fun b => b.details)

/-- The detail blocks pushed by one of the two blocks of lines 334-341 for the
value `res` stored under `key`. -/
def resBlock (env : Env) (key : String) (res : JsVal) : Except JsError (List String) :=
  (resStage env key { rcd := [(key, res)], extras := [], details := [] }).map (fun b => b.details)

/-- The detail blocks pushed by lines 343-346 for the value `err` of `rec.err`. -/
def errBlock (err : JsVal) : Except JsError (List String) :=
  (errPart { rcd := [("err", err)], extras := [], details := [] }).map (fun b => b.details)

/-- A record with a request id, a message of two lines, a request, an error
stack and two more fields. -/
def busyRecord : Props :=
  sevenFields (.num 0) 30 "svc" (.str "h1") (.num 5) "2021-01-02T03:04:05.000Z" "a\nb" ++
    [("req_id", .str "r1"), ("foo", .str "bar"),
     ("req", .obj [("method", .str "GET"), ("url", .str "/x")]),
     ("err", .obj [("stack", .str "E: boom\n  at f")]),
     ("note", .str "first\nsecond")]

/-- Worded as the specification: a request with the method `m`, the url `u` and
the optional `httpVersion`, `headers` and `body`. -/
def specReq (m u : String) (httpVersion : Option String) (headers : Option Props)
    (body : Option JsVal) : Props :=
  [("method", .str m), ("url", .str u)] ++
    (match httpVersion with
     | some v => [("httpVersion", .str v)]
     | none => []) ++
    (match headers with
     | some h => [("headers", .obj h)]
     | none => []) ++
    (match body with
     | some b => [("body", b)]
     | none => [])

/-- Worded as the specification: the request block is the indentation of the
line `m u HTTP/<httpVersion or 1.1>`, of one line `Name: value` per header
entry and, when there is a body, of an empty line and the body.  The values of
the headers and a body that is not an object are converted to texts, which
throws where the conversion of the code throws. -/
def specReqBlock (m u : String) (httpVersion : Option String) (headers : Option Props)
    (body : Option JsVal) : Except JsError String :=
  match headerTexts (headers.getD []) with
  | .error e => .error e
  | .ok lines =>
    match body with
    | some b =>
      (match bodyText b with
       | .error e => .error e
       | .ok t =>
         .ok (indentStr (joinWith "\n"
           ([m ++ " " ++ u ++ " HTTP/" ++ httpVersion.getD "1.1"] ++ lines ++ ["", t]))))
    | none =>
      .ok (indentStr (joinWith "\n"
        ([m ++ " " ++ u ++ " HTTP/" ++ httpVersion.getD "1.1"] ++ lines)))

/-- Options with the given mode and with every color setting, while `color`
itself is off. -/
def paintedOpts (mode : String) : Opts :=
  { outputMode := .name mode, color := false, msgColor := some "green",
    timeColor := some "green", metaColor := some "green", extraColor := some "green",
    colorFromLevel := some [("30", "green")], levelInString := false, jsonIndent := 0 }

/-- Whether the key `k` of the request `req` is still a key of it at line 286,
where the remaining keys are promoted: `url`, `method`, `httpVersion`, `headers`
and `trailers` are deleted, and `body` is deleted when it is truthy. -/
def promotedKey (req : Props) (k : String) : Bool :=
  !(["url", "method", "httpVersion", "headers", "trailers"].contains k) &&
    !(k == "body" && (getProp req "body").truthy)

/-- An object after lines 270-274: the body is deleted when it is truthy. -/
def bodyRest (x : JsVal) : JsVal := if (x.get "body").truthy then x.del "body" else x

/-- The request at line 286, after the deletions of lines 266-282. -/
def reqRest (req : JsVal) : JsVal :=
  (bodyRest ((((req.del "url").del "method").del "httpVersion").del "headers")).del "trailers"

/-- The client request at line 328, after the deletions of lines 302-323. -/
def clientReqRest (client_req : JsVal) : JsVal :=
  bodyRest ((((((client_req.del "headers").del "address").del "port").del "method").del
    "url").del "httpVersion")

/-- The response at the end of `_res`, after its deletions. -/
def resRest (res : JsVal) : JsVal :=
  (bodyRest (((res.del "header").del "headers").del "statusCode")).del "trailer"

/-- The record after lines 252-289. -/
def reqRcd (r : Props) : Props :=
  if (getProp r "req").isObject then promote "req." (reqRest (getProp r "req")) (delProp r "req")
  else r

/-- The record after lines 291-332. -/
def clientReqRcd (r : Props) : Props :=
  if (getProp r "client_req").isObject then
    promote "client_req." (clientReqRest (getProp r "client_req")) (delProp r "client_req")
  else r

/-- The record after one of the two blocks of lines 334-341. -/
def resRcd (key : String) (r : Props) : Props :=
  if (getProp r key).isObject then
    delProp (promote "res." (resRest (getProp r key)) (setProp r key (resRest (getProp r key))))
      "res"
  else r

/-- The record after lines 343-346. -/
def errRcd (r : Props) : Props :=
  if (getProp r "err").truthy && ((getProp r "err").get "stack").truthy then delProp r "err"
  else r

/-- The record after lines 252-346, where the leftover keys are enumerated. -/
def blocksRcd (r : Props) : Props :=
  errRcd (resRcd "client_res" (resRcd "res" (clientReqRcd (reqRcd r))))

/-- A key that the stages after the request leave alone. -/
def Untouched (x : String) : Prop :=
  x ≠ "client_req" ∧ (∀ j, "client_req." ++ j ≠ x) ∧ x ≠ "res" ∧ x ≠ "client_res" ∧
    (∀ j, "res." ++ j ≠ x) ∧ x ≠ "err"

/-- A record with a literal key `req.id` and a request that has an `id` and an
empty `body`. -/
def promotionRecord : Props :=
  helloRecord ++ [("req.id", .num 1),
    ("req", .obj [("method", .str "GET"), ("url", .str "/"), ("id", .num 4), ("body", .str "")])]

/-- A property of values that passes from a value to its own entries and that
the deletion of a property keeps. -/
def Hereditary (P : JsVal → Prop) : Prop :=
  (∀ x, P x → ∀ p ∈ ownEntries x, P p.2) ∧ (∀ x k, P x → P (x.del k))

/-- Every value of a property list has the property `P`. -/
def Every (P : JsVal → Prop) (r : Props) : Prop := ∀ p ∈ r, P p.2

/-! ## Predicates of the proofs about number texts -/

/-- The number read from a text of decimal digits, after the number `acc`. -/
def digitsValue (acc : Nat) (ds : List Char) : Nat :=
  ds.foldl (fun a c => a * 10 + (digitVal 10 c).getD 0) acc

/-- Every character of a text is a decimal digit. -/
def AllDigits (ds : List Char) : Prop := ∀ c ∈ ds, ∃ d, digitVal 10 c = some d

/-- The value of a number that is not zero, as `JSON.parse` returns it: an
integer is in `num`, any other fraction in `dbl`. -/
def ofRat (q : ℚ) : JsVal := if q.den = 1 then .num q.num else .dbl (.frac q)

/-! # Theorems -/

/-! ## Lemmas on property lists -/

theorem getProp_delProp (r : Props) (k key : String) :
    getProp (delProp r k) key = if k = key then .undefined else getProp r key := by
  induction r with
  | nil => simp [delProp, getProp]
  | cons p r ih =>
    obtain ⟨k1, w⟩ := p
    simp only [delProp] at ih
    by_cases h1 : k1 = k
    · subst h1
      by_cases h2 : k1 = key
      · subst h2; simpa [delProp, List.filter_cons, getProp] using ih
      · have := ih; simp only [h2, if_false] at this
        simp [delProp, List.filter_cons, getProp, h2, this]
    · have hne : (k1 != k) = true := by simpa using h1
      simp only [delProp, List.filter_cons, hne, if_true, getProp]
      by_cases h2 : k1 = key
      · subst h2
        have : ¬ k = k1 := fun e => h1 e.symm
        simp [this]
      · simp only [h2, if_false]; exact ih

theorem getProp_of_mem {r : Props} {k : String} {v : JsVal}
    (hnd : (r.map Prod.fst).Nodup) (h : (k, v) ∈ r) : getProp r k = v := by
  induction r with
  | nil => simp at h
  | cons p r ih =>
    obtain ⟨k1, w⟩ := p
    simp only [List.map_cons, List.nodup_cons, List.mem_map, Prod.exists, exists_and_right,
      exists_eq_right, not_exists] at hnd
    rcases List.mem_cons.mp h with h | h
    · cases h; simp [getProp]
    · have hne : k1 ≠ k := fun e => hnd.1 v (e ▸ h)
      simp [getProp, hne, ih hnd.2 h]

theorem getProp_of_not_mem {r : Props} {k : String}
    (h : k ∉ r.map Prod.fst) : getProp r k = .undefined := by
  induction r with
  | nil => rfl
  | cons p r ih =>
    obtain ⟨k1, w⟩ := p
    simp only [List.map_cons, List.mem_cons, not_or] at h
    have hne : k1 ≠ k := fun e => h.1 e.symm
    simp [getProp, hne, ih h.2]

theorem stylize_off (env : Env) (opts : Opts) (h : opts.color = false) (s : JsVal)
    (c : Option String) : stylize env opts s c = .ok s := by
  simp [stylize, h, stylizeWithoutColor]

theorem intText_small {n : Int} (h : n.natAbs < 2 ^ 53) : intText n = toString n := by
  simp only [intText, h, if_true]

/-- The conversion of a value that is not an array or an object never throws. -/
theorem toStr_str (s : String) : (JsVal.str s).toStr = .ok s := by
  simp [JsVal.toStr]

theorem toStr_num (n : Int) : (JsVal.num n).toStr = .ok (intText n) := by
  simp [JsVal.toStr]

theorem seven_get {kvs : Props} {v : JsVal} {level : Int} {name : String} {hostname pid : JsVal}
    {time msg : String}
    (h : kvs.Perm (sevenFields v level name hostname pid time msg)) :
    getProp kvs "v" = v ∧ getProp kvs "level" = .num level ∧ getProp kvs "name" = .str name ∧
    getProp kvs "hostname" = hostname ∧ getProp kvs "pid" = pid ∧
    getProp kvs "time" = .str time ∧ getProp kvs "msg" = .str msg ∧
    getProp kvs "component" = .undefined ∧ getProp kvs "src" = .undefined ∧
    getProp kvs "req_id" = .undefined ∧ getProp kvs "req" = .undefined ∧
    getProp kvs "client_req" = .undefined ∧ getProp kvs "res" = .undefined ∧
    getProp kvs "client_res" = .undefined ∧ getProp kvs "err" = .undefined ∧
    getProp kvs "line" = .undefined := by
  have hk : (kvs.map Prod.fst).Perm
      ((sevenFields v level name hostname pid time msg).map Prod.fst) := h.map _
  have hnd : (kvs.map Prod.fst).Nodup := hk.nodup_iff.mpr (by simp [sevenFields])
  have hm : ∀ k w, (k, w) ∈ sevenFields v level name hostname pid time msg → getProp kvs k = w :=
    fun k w hw => getProp_of_mem hnd (h.mem_iff.mpr hw)
  have hn : ∀ k, k ∉ (sevenFields v level name hostname pid time msg).map Prod.fst →
      getProp kvs k = .undefined :=
    fun k hk1 => getProp_of_not_mem (fun hmem => hk1 (hk.mem_iff.mp hmem))
  refine ⟨hm _ _ ?_, hm _ _ ?_, hm _ _ ?_, hm _ _ ?_, hm _ _ ?_, hm _ _ ?_, hm _ _ ?_,
    hn _ ?_, hn _ ?_, hn _ ?_, hn _ ?_, hn _ ?_, hn _ ?_, hn _ ?_, hn _ ?_, hn _ ?_⟩ <;>
    simp [sevenFields]

theorem seven_deleted {kvs : Props} {v : JsVal} {level : Int} {name : String}
    {hostname pid : JsVal} {time msg : String}
    (h : kvs.Perm (sevenFields v level name hostname pid time msg)) :
    delProp (delProp (delProp (delProp (delProp (delProp (delProp (delProp (delProp
      (delProp kvs "v") "time") "name") "component") "pid") "level") "src") "hostname")
      "req_id") "msg" = [] := by
  simp only [delProp, List.filter_filter]
  rw [List.filter_eq_nil_iff]
  intro p hp
  have : p.1 ∈ (sevenFields v level name hostname pid time msg).map Prod.fst :=
    (h.map Prod.fst).mem_iff.mp (List.mem_map_of_mem _ hp)
  simp only [sevenFields, List.map_cons, List.map_nil, List.mem_cons, List.mem_singleton,
    List.not_mem_nil, or_false] at this
  rcases this with h1 | h1 | h1 | h1 | h1 | h1 | h1 <;> simp [h1]

theorem isValid_seven {kvs : Props} {v : JsVal} {level : Int} {name : String}
    {hostname pid : JsVal} {time msg : String}
    (h : kvs.Perm (sevenFields v level name hostname pid time msg))
    (hv : v ≠ .null) (hh : hostname ≠ .null) (hp : pid ≠ .null) :
    isValidRecord (.obj kvs) = true := by
  obtain ⟨g1, g2, g3, g4, g5, g6, g7, -⟩ := seven_get h
  have e1 : isNull v = false := by cases v <;> simp_all [isNull]
  have e2 : isNull hostname = false := by cases hostname <;> simp_all [isNull]
  have e3 : isNull pid = false := by cases pid <;> simp_all [isNull]
  simp [isValidRecord, JsVal.get, g1, g2, g3, g4, g5, g6, g7, e1, e2, e3, isNull]

theorem format_short (env : Env) (a b c d e f : String) :
    format env "%s %s %s:%s%s\n%s" [.str a, .str b, .str c, .str d, .str e, .str f] =
      .ok (a ++ " " ++ b ++ " " ++ c ++ ":" ++ d ++ e ++ "\n" ++ f) := by
  simp only [format, formatAux, fmtS, formatRest, Except.map]
  congr 1
  apply String.ext; simp

theorem timePart_short_T (env : Env) (opts : Opts) (time : String)
    (htime : unitAt time.data 10 = some 'T') (hcolor : opts.color = false) :
    timePart env opts true (.str time) = .ok (.str (substr time 11)) := by
  have hT : String.singleton 'T' = "T" := rfl
  simp [timePart, index10, htime, looseEqT, stylize_off env opts hcolor, hT]

theorem bracketTime_off (env : Env) (opts : Opts) (time : JsVal) (t : String)
    (ht : time.toStr = .ok t) (hcolor : opts.color = false) :
    bracketTime env opts time = .ok (.str ("[" ++ t ++ "]")) := by
  simp [bracketTime, ht, stylize_off env opts hcolor]

theorem timePart_long (env : Env) (opts : Opts) (time : JsVal) (t : String)
    (ht : time.toStr = .ok t) (hcolor : opts.color = false) :
    timePart env opts false time = .ok (.str ("[" ++ t ++ "]")) := by
  simp [timePart, bracketTime_off env opts time t ht hcolor]

theorem msgPart_oneline (env : Env) (opts : Opts) (msg : String) (details : List String)
    (hmsg : containsChar msg '\n' = false) (hcolor : opts.color = false) :
    msgPart env opts (.str msg) details = .ok (" " ++ msg, details) := by
  simp [msgPart, hasLineBreak, hmsg, stylize_off env opts hcolor, JsVal.toStr]

theorem reqPart_absent (env : Env) (a : Acc) (h : (getProp a.rcd "req").isObject = false) :
    reqPart env a = .ok a := by
  simp [reqPart, h]

theorem clientReqPart_absent (env : Env) (a : Acc)
    (h : (getProp a.rcd "client_req").isObject = false) : clientReqPart env a = .ok a := by
  simp [clientReqPart, h]

theorem resPart_absent (env : Env) (a : Acc) (h1 : (getProp a.rcd "res").isObject = false)
    (h2 : (getProp a.rcd "client_res").isObject = false) : resPart env a = .ok a := by
  simp [resPart, resStage, h1, h2]

theorem errPart_absent (a : Acc) (h : (getProp a.rcd "err").truthy = false) :
    errPart a = .ok a := by
  simp [errPart, h]

theorem levelPart_off (env : Env) (opts : Opts) (level : JsVal) (hcolor : opts.color = false) :
    levelPart env opts level = (levelLabel env level).map JsVal.str := by
  unfold levelPart
  cases levelLabel env level <;> simp [hcolor, Except.map]

/-- The label of a number is defined: the lookup of a number never throws. -/
theorem levelText_num (env : Env) (table : List (String × String)) (n : Int) :
    levelText env table (.num n) = .ok
      ((table.lookup (intText n)).getD
        (if protoKeys.contains (intText n) then (env.inherited (intText n)).1
         else "LVL" ++ intText n)) := by
  unfold levelText
  simp only [toStr_num]
  cases table.lookup (intText n)
  · simp only [Option.getD_none]; split <;> rfl
  · simp

theorem levelLabel_num (env : Env) (n : Int) : ∃ l, levelLabel env (.num n) = .ok l :=
  ⟨_, levelText_num env _ n⟩

theorem namePart_plain (short : Bool) (name : String) (pid : JsVal) :
    namePart short (.str name) .undefined pid =
      if short then .ok (.str name)
      else (pid.toStr).map (fun p => .str (name ++ ("/" ++ p))) := by
  cases short <;> simp [namePart, JsVal.truthy, appendSlash, toStr_str]
  cases pid.toStr <;> simp [Except.map]

theorem consume_seven (env : Env) (opts : Opts) (short : Bool) (kvs : Props) (v : JsVal)
    (level : Int) (name : String) (hostname pid : JsVal) (time msg : String) (t n : JsVal)
    (l : String)
    (hrec : kvs.Perm (sevenFields v level name hostname pid time msg))
    (hmsg : containsChar msg '\n' = false)
    (htime : timePart env opts short (.str time) = .ok t)
    (hname : namePart short (.str name) .undefined pid = .ok n)
    (hlevel : levelLabel env (.num level) = .ok l)
    (hcolor : opts.color = false) :
    consume env opts short kvs = .ok
      { time := t, level := .str l, nameStr := n, hostname := hostname,
        src := .str "", onelineMsg := " " ++ msg,
        acc := { rcd := [], extras := [], details := [] } } := by
  obtain ⟨g1, g2, g3, g4, g5, g6, g7, g8, g9, g10, g11, g12, g13, g14, g15, g16⟩ := seven_get hrec
  have hdel := seven_deleted hrec
  have hu : JsVal.undefined.truthy = false := rfl
  have hs : srcPart env opts .undefined = .ok (.str "") := by simp [srcPart, hu]
  have hl : levelPart env opts (.num level) = .ok (.str l) := by
    rw [levelPart_off env opts _ hcolor, hlevel]; rfl
  have hb : blocks env { rcd := [], extras := [], details := [] } =
      .ok { rcd := [], extras := [], details := [] } := by
    have hi : JsVal.undefined.isObject = false := rfl
    simp [blocks, reqPart_absent, clientReqPart_absent, resPart_absent, errPart_absent,
      getProp, hi, hu]
  unfold consume
  simp only [getProp_delProp, g1, g2, g3, g4, g5, g6, g7, g8, g9, g10,
    g11, g12, g13, g14, g15, String.reduceEq, if_false, if_true, hdel, htime, hname, hl, hs,
    msgPart_oneline env opts msg [] hmsg hcolor, reqIdExtras, hu, Bool.false_eq_true, hb]

theorem consume_seven_error (env : Env) (opts : Opts) (kvs : Props) (v : JsVal)
    (level : Int) (name : String) (hostname pid : JsVal) (time msg : String) (e : JsError)
    (hrec : kvs.Perm (sevenFields v level name hostname pid time msg))
    (hpid : pid.toStr = .error e) (hcolor : opts.color = false) :
    consume env opts false kvs = .error e := by
  obtain ⟨g1, g2, g3, g4, g5, g6, g7, g8, g9, g10, g11, g12, g13, g14, g15, g16⟩ := seven_get hrec
  have hn : namePart false (.str name) .undefined pid = .error e := by
    rw [namePart_plain, hpid]; rfl
  unfold consume
  simp only [getProp_delProp, g1, g2, g3, g4, g5, g6, g7, g8, g9, g10,
    g11, g12, g13, g14, g15, String.reduceEq, if_false, if_true,
    timePart_long env opts (.str time) time (toStr_str time) hcolor, hn]

theorem format_long (env : Env) (a b c : String) (h : JsVal) (e f g i : String) :
    format env "%s %s: %s on %s%s:%s%s\n%s"
      [.str a, .str b, .str c, h, .str e, .str f, .str g, .str i] =
      .ok (a ++ " " ++ b ++ ": " ++ c ++ " on " ++ fmtS env h ++ e ++ ":" ++ f ++ g ++
        "\n" ++ i) := by
  simp only [format, formatAux, fmtS, formatRest, Except.map]
  congr 1
  apply String.ext; simp

/-- C1. A record with exactly the seven fields v, level, name, hostname, pid,
time and msg (in any order), none of them null, with a string name, a string
msg without line break and a string time whose code unit 10 is `T`, is rendered
in mode `short` without color as
`time.substr(11) + ' ' + label + ' ' + name + ':' + ' ' + msg + '\n'`, the
label being the padded level label; the record of the scenario gives
`03:04:05.000Z  INFO svc: hello\n`. -/
theorem formatRecord_short_exact :
    (∀ (env : Env) (opts : Opts) (kvs : Props) (v : JsVal) (level : Int) (name : String)
      (hostname pid : JsVal) (time msg : String),
      kvs.Perm (sevenFields v level name hostname pid time msg) →
      v ≠ .null → hostname ≠ .null → pid ≠ .null →
      level ∈ [TRACE, DEBUG, INFO, WARN, ERROR, FATAL] →
      containsChar msg '\n' = false →
      unitAt time.data 10 = some 'T' →
      opts.outputMode = .name "short" → opts.color = false →
      ∃ label, levelLabel env (.num level) = .ok label ∧
        formatRecord env (.obj kvs) opts =
          .ok (substr time 11 ++ " " ++ label ++ " " ++ name ++ ":" ++ " " ++ msg ++ "\n")) ∧
    (∀ (env : Env) (opts : Opts), opts.outputMode = .name "short" → opts.color = false →
      formatRecord env (.obj helloRecord) opts = .ok "03:04:05.000Z  INFO svc: hello\n") := by
  have main : ∀ (env : Env) (opts : Opts) (kvs : Props) (v : JsVal) (level : Int)
      (name : String) (hostname pid : JsVal) (time msg : String),
      kvs.Perm (sevenFields v level name hostname pid time msg) →
      v ≠ .null → hostname ≠ .null → pid ≠ .null →
      containsChar msg '\n' = false →
      unitAt time.data 10 = some 'T' →
      opts.outputMode = .name "short" → opts.color = false →
      ∃ label, levelLabel env (.num level) = .ok label ∧
        formatRecord env (.obj kvs) opts =
          .ok (substr time 11 ++ " " ++ label ++ " " ++ name ++ ":" ++ " " ++ msg ++ "\n") := by
    intro env opts kvs v level name hostname pid time msg hrec hv hh hp hmsg htime hmode hcolor
    obtain ⟨label, hlabel⟩ := levelLabel_num env level
    refine ⟨label, hlabel, ?_⟩
    have hvalid := isValid_seven hrec hv hh hp
    have hmode2 : resolveMode opts.outputMode = some 5 := by rw [hmode]; decide
    have hc := consume_seven env opts true kvs v level name hostname pid time msg _ _ label hrec
      hmsg (timePart_short_T env opts time htime hcolor) (by rw [namePart_plain]; rfl) hlabel
      hcolor
    simp [formatRecord, hmode2, hvalid, renderLines, hc, leftoverLoop, assemble,
      OM_SHORT, OM_LONG, stylize_off env opts hcolor, format_short,
      String.append_assoc]
    apply String.ext; simp
  refine ⟨fun env opts kvs v level name hostname pid time msg hrec hv hh hp _ hmsg htime hmode
    hcolor => main env opts kvs v level name hostname pid time msg hrec hv hh hp hmsg htime
      hmode hcolor, ?_⟩
  intro env opts hmode hcolor
  obtain ⟨label, hl, h⟩ := main env opts helloRecord (.num 0) 30 "svc" (.str "h1") (.num 5)
    "2021-01-02T03:04:05.000Z" "hello" (List.Perm.refl _) (by simp) (by simp) (by simp)
    (by decide) (by decide) hmode hcolor
  have hl2 : levelLabel env (.num 30) = .ok " INFO" := by rfl
  rw [hl2] at hl
  cases hl
  rw [h]
  rfl

/-- Witness of C1: the scenario record with its fields in another order. -/
theorem formatRecord_short_exact_witness :
    [("msg", JsVal.str "hello"), ("time", .str "2021-01-02T03:04:05.000Z"), ("pid", .num 5),
      ("hostname", .str "h1"), ("name", .str "svc"), ("level", .num 30), ("v", .num 0)].Perm
      (sevenFields (.num 0) 30 "svc" (.str "h1") (.num 5) "2021-01-02T03:04:05.000Z" "hello") ∧
    ∃ label, levelLabel sampleEnv (.num 30) = .ok label ∧
      formatRecord sampleEnv
        (.obj [("msg", .str "hello"), ("time", .str "2021-01-02T03:04:05.000Z"), ("pid", .num 5),
          ("hostname", .str "h1"), ("name", .str "svc"), ("level", .num 30), ("v", .num 0)])
        (plainOpts "short") =
        .ok (substr "2021-01-02T03:04:05.000Z" 11 ++ " " ++ label ++ " " ++ "svc" ++
          ":" ++ " " ++ "hello" ++ "\n") :=
  ⟨List.reverse_perm (sevenFields (.num 0) 30 "svc" (.str "h1") (.num 5)
      "2021-01-02T03:04:05.000Z" "hello"),
   formatRecord_short_exact.1 sampleEnv (plainOpts "short") _ (.num 0) 30 "svc" (.str "h1")
     (.num 5) "2021-01-02T03:04:05.000Z" "hello"
     (List.reverse_perm (sevenFields (.num 0) 30 "svc" (.str "h1") (.num 5)
       "2021-01-02T03:04:05.000Z" "hello"))
     (by simp) (by simp) (by simp) (by decide) (by decide) (by decide) rfl rfl⟩

/-- C2 (counterexample). A record with exactly the seven fields, none of them
null, with the level 30 and string name, time and msg, whose `pid` is an object
with a member named `toString`: the concatenation `'/' + rec.pid` of line 200
converts the object, the conversion finds a `toString` that is not a function,
and formatRecord throws a TypeError in mode `long` instead of returning. -/
theorem pid_conversion_raises :
    JsVal.obj [("toString", .num 1)] ≠ .null ∧
    (30 : Int) ∈ [TRACE, DEBUG, INFO, WARN, ERROR, FATAL] ∧
    containsChar "hello" '\n' = false ∧
    (JsVal.obj [("toString", .num 1)]).toStr = .error .typeError ∧
    formatRecord sampleEnv
      (.obj (sevenFields (.num 0) 30 "svc" (.str "h1") (.obj [("toString", .num 1)])
        "2021-01-02T03:04:05.000Z" "hello")) (plainOpts "long") = .error .typeError ∧
    formatRecord sampleEnv
      (.obj (sevenFields (.num 0) 30 "svc" (.str "h1") (.obj [("toString", .num 1)])
        "2021-01-02T03:04:05.000Z" "hello")) (plainOpts "short") =
      .ok "03:04:05.000Z  INFO svc: hello\n" := by
  refine ⟨by simp, by decide, by decide, by rfl, by rfl, by rfl⟩

/-- C2 (amended). A record with exactly the seven fields (in any order), none of
them null, with a level among the six codes, string name, time and msg, and msg
without line break, is rendered in mode `long` without color as
`'[' + time + '] ' + label + ': ' + name + '/' + pid + ' on ' + H + ': ' + msg + '\n'`,
where `label` is the padded level label, `pid` is the text `pid` converts to
and `H` is what `%s` prints for hostname, or for `<no-hostname>` when hostname
is falsy; when the conversion of `pid` throws, formatRecord throws the same
error. -/
theorem formatRecord_long_exact (env : Env) (opts : Opts) (kvs : Props) (v : JsVal)
    (level : Int) (name : String) (hostname pid : JsVal) (time msg : String)
    (hrec : kvs.Perm (sevenFields v level name hostname pid time msg))
    (hv : v ≠ .null) (hh : hostname ≠ .null) (hp : pid ≠ .null)
    (_hlevel : level ∈ [TRACE, DEBUG, INFO, WARN, ERROR, FATAL])
    (hmsg : containsChar msg '\n' = false)
    (hmode : opts.outputMode = .name "long") (hcolor : opts.color = false) :
    ∃ label, levelLabel env (.num level) = .ok label ∧
      (∀ p, pid.toStr = .ok p →
        formatRecord env (.obj kvs) opts =
          .ok ("[" ++ time ++ "] " ++ label ++ ": " ++ name ++ "/" ++ p ++
            " on " ++ fmtS env (if hostname.truthy then hostname else .str "<no-hostname>") ++
            ": " ++ msg ++ "\n")) ∧
      (∀ e, pid.toStr = .error e → formatRecord env (.obj kvs) opts = .error e) := by
  obtain ⟨label, hlabel⟩ := levelLabel_num env level
  have hvalid := isValid_seven hrec hv hh hp
  have hmode2 : resolveMode opts.outputMode = some 1 := by rw [hmode]; decide
  refine ⟨label, hlabel, ?_, ?_⟩
  · intro p hpid
    have hc := consume_seven env opts false kvs v level name hostname pid time msg _ _ label
      hrec hmsg (timePart_long env opts (.str time) time (toStr_str time) hcolor)
      (by rw [namePart_plain, hpid]; rfl) hlabel hcolor
    simp [formatRecord, hmode2, hvalid, renderLines, hc, leftoverLoop, assemble,
      OM_SHORT, OM_LONG, stylize_off env opts hcolor, format_long,
      String.append_assoc]
    apply String.ext; simp
  · intro e hpid
    have hc := consume_seven_error env opts kvs v level name hostname pid time msg e hrec hpid
      hcolor
    simp [formatRecord, hmode2, hvalid, renderLines, hc, OM_SHORT, OM_LONG]

/-- Witness of C2: the scenario record with an empty hostname. -/
theorem formatRecord_long_exact_witness :
    ∃ label, levelLabel sampleEnv (.num 30) = .ok label ∧
      (∀ p, (JsVal.num 5).toStr = .ok p →
        formatRecord sampleEnv
          (.obj (sevenFields (.num 0) 30 "svc" (.str "") (.num 5) "2021-01-02T03:04:05.000Z"
            "hello")) (plainOpts "long") =
          .ok ("[" ++ "2021-01-02T03:04:05.000Z" ++ "] " ++ label ++ ": " ++ "svc" ++ "/" ++ p ++
            " on " ++ fmtS sampleEnv (if (JsVal.str "").truthy then .str "" else
              .str "<no-hostname>") ++ ": " ++ "hello" ++ "\n")) ∧
      (∀ e, (JsVal.num 5).toStr = .error e →
        formatRecord sampleEnv
          (.obj (sevenFields (.num 0) 30 "svc" (.str "") (.num 5) "2021-01-02T03:04:05.000Z"
            "hello")) (plainOpts "long") = .error e) :=
  formatRecord_long_exact sampleEnv (plainOpts "long") _ (.num 0) 30 "svc" (.str "") (.num 5)
    "2021-01-02T03:04:05.000Z" "hello" (List.Perm.refl _) (by simp) (by simp) (by simp)
    (by decide) (by decide) rfl rfl

/-- C3. Every call of `_write` appends exactly one text to the sink and calls
the completion callback exactly once.  The text is the result of formatRecord
when the chunk decodes and formatRecord returns, and the chunk itself when
decoding fails; the chunk `not json` is written unchanged in every mode. -/
theorem write_once :
    (∀ (env : Env) (parse : String → Except JsError JsVal) (self : BunyanFormatWritable)
      (chunk : String),
      ∃ w, (self._write env parse chunk).out = self.out ++ [w] ∧
        (self._write env parse chunk).callbacks = self.callbacks + 1 ∧
        (self._write env parse chunk).opts = self.opts ∧
        (∀ r text, parse chunk = .ok r → formatRecord env r self.opts = .ok text → w = text) ∧
        (∀ r e, parse chunk = .ok r → formatRecord env r self.opts = .error e → w = chunk) ∧
        (∀ e, parse chunk = .error e → w = chunk)) ∧
    (∀ (env : Env) (self : BunyanFormatWritable),
      jsonParse "not json" = .error .syntaxError ∧
      (self._write env jsonParse "not json").out = self.out ++ ["not json"] ∧
      (self._write env jsonParse "not json").callbacks = self.callbacks + 1) := by
  constructor
  · intro env parse self chunk
    refine ⟨_, rfl, rfl, rfl, ?_, ?_, ?_⟩
    · intro r text h1 h2
      simp [h1, h2]
    · intro r e h1 h2
      simp [h1, h2]
    · intro e h1
      simp [h1]
  · intro env self
    have h : jsonParse "not json" = .error .syntaxError := by rfl
    refine ⟨h, ?_, rfl⟩
    simp [BunyanFormatWritable._write, h]

/-- Witness of C3: a decodable chunk is written as formatRecord renders it. -/
theorem write_once_witness :
    jsonParse "\x7b\"v\":0,\"level\":30,\"name\":\"svc\",\"hostname\":\"h1\",\"pid\":5,\"time\":\"2021-01-02T03:04:05.000Z\",\"msg\":\"hello\"\x7d\n" =
      .ok (.obj helloRecord) ∧
    formatRecord sampleEnv (.obj helloRecord)
      (mergeOpts ⟨some (.name "simple"), none, none, none, none, none, none, none, none⟩) =
      .ok "INFO - hello\n" ∧
    ∃ w, ((BunyanFormatWritable.new
        ⟨some (.name "simple"), none, none, none, none, none, none, none, none⟩)._write
        sampleEnv jsonParse "\x7b\"v\":0,\"level\":30,\"name\":\"svc\",\"hostname\":\"h1\",\"pid\":5,\"time\":\"2021-01-02T03:04:05.000Z\",\"msg\":\"hello\"\x7d\n").out = [] ++ [w] ∧
      w = "INFO - hello\n" := by
  have h1 : jsonParse "\x7b\"v\":0,\"level\":30,\"name\":\"svc\",\"hostname\":\"h1\",\"pid\":5,\"time\":\"2021-01-02T03:04:05.000Z\",\"msg\":\"hello\"\x7d\n" =
      .ok (.obj helloRecord) := by rfl
  have h2 : formatRecord sampleEnv (.obj helloRecord)
      (mergeOpts ⟨some (.name "simple"), none, none, none, none, none, none, none, none⟩) =
      .ok "INFO - hello\n" := by rfl
  obtain ⟨w, hw, -, -, hok, -, -⟩ := write_once.1 sampleEnv jsonParse
    (BunyanFormatWritable.new
      ⟨some (.name "simple"), none, none, none, none, none, none, none, none⟩)
    "\x7b\"v\":0,\"level\":30,\"name\":\"svc\",\"hostname\":\"h1\",\"pid\":5,\"time\":\"2021-01-02T03:04:05.000Z\",\"msg\":\"hello\"\x7d\n"
  exact ⟨h1, h2, w, hw, hok _ _ h1 h2⟩

/-! ## Errors other than a TypeError -/

theorem toStr_error : ∀ (v : JsVal) (e : JsError), v.toStr = .error e → e = .typeError
  | .undefined, e, h => by simp [JsVal.toStr] at h
  | .null, e, h => by simp [JsVal.toStr] at h
  | .bool _, e, h => by simp [JsVal.toStr] at h
  | .num _, e, h => by simp [JsVal.toStr] at h
  | .dbl _, e, h => by simp [JsVal.toStr] at h
  | .str _, e, h => by simp [JsVal.toStr] at h
  | .arr xs, e, h => by
    simp only [JsVal.toStr] at h
    exact toStrElems_error xs e h
  | .obj kvs, e, h => by
    simp only [JsVal.toStr] at h
    split at h <;> simp at h
    exact h.symm
where
  toStrElems_error : ∀ (xs : List JsVal) (e : JsError), JsVal.toStrElems xs = .error e →
      e = .typeError
    | [], e, h => by simp [JsVal.toStrElems] at h
    | [x], e, h => by
      simp only [JsVal.toStrElems] at h
      exact toStrElem_error x e h
    | x :: y :: r, e, h => by
      simp only [JsVal.toStrElems] at h
      split at h
      · rename_i e1 h1; cases h; exact toStrElem_error x _ h1
      · split at h
        · rename_i e1 h1; cases h; exact toStrElems_error (y :: r) _ h1
        · simp at h
  toStrElem_error : ∀ (v : JsVal) (e : JsError), JsVal.toStrElem v = .error e → e = .typeError
    | .undefined, e, h => by simp [JsVal.toStrElem] at h
    | .null, e, h => by simp [JsVal.toStrElem] at h
    | .bool _, e, h => by simp [JsVal.toStrElem] at h
    | .num _, e, h => by simp [JsVal.toStrElem] at h
    | .dbl _, e, h => by simp [JsVal.toStrElem] at h
    | .str _, e, h => by simp [JsVal.toStrElem] at h
    | .arr xs, e, h => by
      simp only [JsVal.toStrElem] at h
      exact toStrElems_error xs e h
    | .obj kvs, e, h => by
      simp only [JsVal.toStrElem] at h
      split at h <;> simp at h
      exact h.symm

theorem toStr_typeError {v : JsVal} {e : JsError} (h : v.toStr = .error e) : e = .typeError :=
  toStr_error v e h

theorem stylize_error {env : Env} {opts : Opts} {s : JsVal} {c : Option String} {e : JsError}
    (h : stylize env opts s c = .error e) : e = .typeError := by
  unfold stylize stylizeWithColor at h
  repeat' first | split at h | simp only [] at h
  all_goals first
    | (simp at h; done)
    | (cases h; rfl)
    | exact toStr_typeError h
    | (cases h; exact toStr_typeError (by assumption))
    | (cases h; rename_i hq; (repeat' first | split at hq | simp only [] at hq);
       all_goals first
        | (simp at hq; done)
        | (cases hq; rfl)
        | exact toStr_typeError hq
        | (cases hq; exact toStr_typeError (by assumption)))

theorem index10_error {x : JsVal} {e : JsError} (h : index10 x = .error e) : e = .typeError := by
  cases x <;> simp [index10] at h <;> first | exact h.symm | (split at h <;> simp at h)

theorem looseEqT_error {x : JsVal} {e : JsError}
    (h : looseEqT x = .error e) : e = .typeError := by
  unfold looseEqT at h
  repeat' first | split at h | simp only [] at h
  all_goals first
    | (simp at h; done)
    | (cases h; rfl)
    | exact toStr_typeError h
    | (cases h; exact toStr_typeError (by assumption))
    | (cases h; rename_i hq; (repeat' first | split at hq | simp only [] at hq);
       all_goals first
        | (simp at hq; done)
        | (cases hq; rfl)
        | exact toStr_typeError hq
        | (cases hq; exact toStr_typeError (by assumption)))

theorem bracketTime_error {env : Env} {opts : Opts} {time : JsVal} {e : JsError}
    (h : bracketTime env opts time = .error e) : e = .typeError := by
  unfold bracketTime at h
  repeat' first | split at h | simp only [] at h
  all_goals first
    | (simp at h; done)
    | (cases h; rfl)
    | exact toStr_typeError h
    | (cases h; exact toStr_typeError (by assumption))
    | exact stylize_error h
    | (cases h; exact stylize_error (by assumption))
    | (cases h; rename_i hq; (repeat' first | split at hq | simp only [] at hq);
       all_goals first
        | (simp at hq; done)
        | (cases hq; rfl)
        | exact toStr_typeError hq
        | (cases hq; exact toStr_typeError (by assumption))
        | exact stylize_error hq
        | (cases hq; exact stylize_error (by assumption)))

theorem timePart_error {env : Env} {opts : Opts} {short : Bool} {time : JsVal} {e : JsError}
    (h : timePart env opts short time = .error e) : e = .typeError := by
  unfold timePart at h
  repeat' first | split at h | simp only [] at h
  all_goals first
    | (simp at h; done)
    | (cases h; rfl)
    | exact stylize_error h
    | (cases h; exact stylize_error (by assumption))
    | exact bracketTime_error h
    | (cases h; exact bracketTime_error (by assumption))
    | exact index10_error h
    | (cases h; exact index10_error (by assumption))
    | exact looseEqT_error h
    | (cases h; exact looseEqT_error (by assumption))
    | (cases h; rename_i hq; (repeat' first | split at hq | simp only [] at hq);
       all_goals first
        | (simp at hq; done)
        | (cases hq; rfl)
        | exact stylize_error hq
        | (cases hq; exact stylize_error (by assumption))
        | exact bracketTime_error hq
        | (cases hq; exact bracketTime_error (by assumption))
        | exact index10_error hq
        | (cases hq; exact index10_error (by assumption))
        | exact looseEqT_error hq
        | (cases hq; exact looseEqT_error (by assumption)))

theorem appendSlash_error {n x : JsVal} {e : JsError}
    (h : appendSlash n x = .error e) : e = .typeError := by
  unfold appendSlash at h
  repeat' first | split at h | simp only [] at h
  all_goals first
    | (simp at h; done)
    | (cases h; rfl)
    | exact toStr_typeError h
    | (cases h; exact toStr_typeError (by assumption))
    | (cases h; rename_i hq; (repeat' first | split at hq | simp only [] at hq);
       all_goals first
        | (simp at hq; done)
        | (cases hq; rfl)
        | exact toStr_typeError hq
        | (cases hq; exact toStr_typeError (by assumption)))

theorem namePart_error {short : Bool} {name component pid : JsVal} {e : JsError}
    (h : namePart short name component pid = .error e) : e = .typeError := by
  unfold namePart at h
  repeat' first | split at h | simp only [] at h
  all_goals first
    | (simp at h; done)
    | (cases h; rfl)
    | exact appendSlash_error h
    | (cases h; exact appendSlash_error (by assumption))
    | (cases h; rename_i hq; (repeat' first | split at hq | simp only [] at hq);
       all_goals first
        | (simp at hq; done)
        | (cases hq; rfl)
        | exact appendSlash_error hq
        | (cases hq; exact appendSlash_error (by assumption)))

theorem levelText_error {env : Env} {table : List (String × String)} {level : JsVal} {e : JsError}
    (h : levelText env table level = .error e) : e = .typeError := by
  unfold levelText at h
  repeat' first | split at h | simp only [] at h
  all_goals first
    | (simp at h; done)
    | (cases h; rfl)
    | exact toStr_typeError h
    | (cases h; exact toStr_typeError (by assumption))
    | (cases h; rename_i hq; (repeat' first | split at hq | simp only [] at hq);
       all_goals first
        | (simp at hq; done)
        | (cases hq; rfl)
        | exact toStr_typeError hq
        | (cases hq; exact toStr_typeError (by assumption)))

theorem levelPart_error {env : Env} {opts : Opts} {level : JsVal} {e : JsError}
    (h : levelPart env opts level = .error e) : e = .typeError := by
  unfold levelPart levelLabel at h
  split at h
  · rename_i h1; cases h; exact levelText_error h1
  · split at h
    · split at h
      · rename_i h1; cases h; exact toStr_error _ _ h1
      · simp only at h
        split at h <;> simp at h
    · simp at h

theorem fmtD_error {env : Env} {x : JsVal} {e : JsError}
    (h : fmtD env x = .error e) : e = .typeError := by
  unfold fmtD at h
  repeat' first | split at h | simp only [] at h
  all_goals first
    | (simp at h; done)
    | (cases h; rfl)
    | exact toStr_typeError h
    | (cases h; exact toStr_typeError (by assumption))
    | (cases h; rename_i hq; (repeat' first | split at hq | simp only [] at hq);
       all_goals first
        | (simp at hq; done)
        | (cases hq; rfl)
        | exact toStr_typeError hq
        | (cases hq; exact toStr_typeError (by assumption)))

theorem map_error {α β : Type} {f : α → β} {x : Except JsError α} {e : JsError}
    (h : x.map f = .error e) : x = .error e := by
  cases x <;> simp [Except.map] at h ⊢
  exact h

theorem formatAux_error_aux {env : Env} {e : JsError} : ∀ (n : Nat) (cs : List Char)
    (args : List JsVal), cs.length ≤ n → formatAux env cs args = .error e → e = .typeError := by
  intro n
  induction n with
  | zero =>
    intro cs args hl h
    cases cs with
    | nil => simp [formatAux] at h
    | cons c cs => simp at hl
  | succ n ih =>
    intro cs args hl h
    rw [formatAux.eq_def] at h
    repeat' first | split at h | simp only [] at h
    all_goals first
      | (simp at h; done)
      | (cases h; exact fmtD_error (by assumption))
      | (refine ih _ _ ?_ (map_error h); simp only [List.length_cons] at hl; omega)

theorem formatAux_error {env : Env} {e : JsError} (cs : List Char) (args : List JsVal)
    (h : formatAux env cs args = .error e) : e = .typeError :=
  formatAux_error_aux cs.length cs args (Nat.le_refl _) h

theorem format_error {env : Env} {f : String} {args : List JsVal} {e : JsError}
    (h : format env f args = .error e) : e = .typeError :=
  formatAux_error _ _ h

theorem srcPart_error {env : Env} {opts : Opts} {src : JsVal} {e : JsError}
    (h : srcPart env opts src = .error e) : e = .typeError := by
  unfold srcPart at h
  repeat' first | split at h | simp only [] at h
  all_goals first
    | (simp at h; done)
    | (cases h; rfl)
    | exact stylize_error h
    | (cases h; exact stylize_error (by assumption))
    | exact format_error h
    | (cases h; exact format_error (by assumption))
    | (cases h; rename_i hq; (repeat' first | split at hq | simp only [] at hq);
       all_goals first
        | (simp at hq; done)
        | (cases hq; rfl)
        | exact stylize_error hq
        | (cases hq; exact stylize_error (by assumption))
        | exact format_error hq
        | (cases hq; exact format_error (by assumption)))

theorem indent_error {x : JsVal} {e : JsError} (h : indent x = .error e) : e = .typeError := by
  cases x <;> simp [indent] at h <;> exact h.symm

theorem hasLineBreak_error {x : JsVal} {e : JsError} (h : hasLineBreak x = .error e) :
    e = .typeError := by
  cases x <;> simp [hasLineBreak] at h <;> exact h.symm

theorem msgPart_error {env : Env} {opts : Opts} {msg : JsVal} {d : List String} {e : JsError}
    (h : msgPart env opts msg d = .error e) : e = .typeError := by
  unfold msgPart at h
  repeat' first | split at h | simp only [] at h
  all_goals first
    | (simp at h; done)
    | (cases h; rfl)
    | exact hasLineBreak_error h
    | (cases h; exact hasLineBreak_error (by assumption))
    | exact stylize_error h
    | (cases h; exact stylize_error (by assumption))
    | exact indent_error h
    | (cases h; exact indent_error (by assumption))
    | exact toStr_typeError h
    | (cases h; exact toStr_typeError (by assumption))
    | (cases h; rename_i hq; (repeat' first | split at hq | simp only [] at hq);
       all_goals first
        | (simp at hq; done)
        | (cases hq; rfl)
        | exact hasLineBreak_error hq
        | (cases hq; exact hasLineBreak_error (by assumption))
        | exact stylize_error hq
        | (cases hq; exact stylize_error (by assumption))
        | exact indent_error hq
        | (cases hq; exact indent_error (by assumption))
        | exact toStr_typeError hq
        | (cases hq; exact toStr_typeError (by assumption)))

theorem headerTexts_error {e : JsError} : ∀ (r : Props), headerTexts r = .error e →
    e = .typeError
  | [], h => by simp [headerTexts] at h
  | (k, v) :: r, h => by
    simp only [headerTexts] at h
    split at h
    · rename_i h1; cases h; exact toStr_error _ _ h1
    · split at h
      · rename_i h1; cases h; exact headerTexts_error r h1
      · simp at h

theorem headerLines_error {x : JsVal} {e : JsError} (h : headerLines x = .error e) :
    e = .typeError :=
  headerTexts_error _ (map_error h)

theorem bodyText_error {x : JsVal} {e : JsError}
    (h : bodyText x = .error e) : e = .typeError := by
  unfold bodyText at h
  repeat' first | split at h | simp only [] at h
  all_goals first
    | (simp at h; done)
    | (cases h; rfl)
    | exact toStr_typeError h
    | (cases h; exact toStr_typeError (by assumption))
    | (cases h; rename_i hq; (repeat' first | split at hq | simp only [] at hq);
       all_goals first
        | (simp at hq; done)
        | (cases hq; rfl)
        | exact toStr_typeError hq
        | (cases hq; exact toStr_typeError (by assumption)))

theorem bodyPart_error {s : String} {x : JsVal} {e : JsError}
    (h : bodyPart s x = .error e) : e = .typeError := by
  unfold bodyPart at h
  repeat' first | split at h | simp only [] at h
  all_goals first
    | (simp at h; done)
    | (cases h; rfl)
    | exact bodyText_error h
    | (cases h; exact bodyText_error (by assumption))
    | (cases h; rename_i hq; (repeat' first | split at hq | simp only [] at hq);
       all_goals first
        | (simp at hq; done)
        | (cases hq; rfl)
        | exact bodyText_error hq
        | (cases hq; exact bodyText_error (by assumption)))

theorem headersText_error {sep : String} {x : JsVal} {e : JsError}
    (h : headersText sep x = .error e) : e = .typeError := by
  unfold headersText at h
  repeat' first | split at h | simp only [] at h
  all_goals first
    | (simp at h; done)
    | (cases h; rfl)
    | exact headerLines_error h
    | (cases h; exact headerLines_error (by assumption))
    | (cases h; rename_i hq; (repeat' first | split at hq | simp only [] at hq);
       all_goals first
        | (simp at hq; done)
        | (cases hq; rfl)
        | exact headerLines_error hq
        | (cases hq; exact headerLines_error (by assumption)))

theorem reqText_error {env : Env} {req : JsVal} {e : JsError}
    (h : reqText env req = .error e) : e = .typeError := by
  unfold reqText at h
  repeat' first | split at h | simp only [] at h
  all_goals first
    | (simp at h; done)
    | (cases h; rfl)
    | exact headersText_error h
    | (cases h; exact headersText_error (by assumption))
    | exact format_error h
    | (cases h; exact format_error (by assumption))
    | exact bodyPart_error h
    | (cases h; exact bodyPart_error (by assumption))
    | exact headerLines_error h
    | (cases h; exact headerLines_error (by assumption))
    | (cases h; rename_i hq; (repeat' first | split at hq | simp only [] at hq);
       all_goals first
        | (simp at hq; done)
        | (cases hq; rfl)
        | exact headersText_error hq
        | (cases hq; exact headersText_error (by assumption))
        | exact format_error hq
        | (cases hq; exact format_error (by assumption))
        | exact bodyPart_error hq
        | (cases hq; exact bodyPart_error (by assumption))
        | exact headerLines_error hq
        | (cases hq; exact headerLines_error (by assumption)))

theorem reqPart_error {env : Env} {a : Acc} {e : JsError}
    (h : reqPart env a = .error e) : e = .typeError := by
  unfold reqPart at h
  repeat' first | split at h | simp only [] at h
  all_goals first
    | (simp at h; done)
    | (cases h; rfl)
    | exact reqText_error h
    | (cases h; exact reqText_error (by assumption))
    | (cases h; rename_i hq; (repeat' first | split at hq | simp only [] at hq);
       all_goals first
        | (simp at hq; done)
        | (cases hq; rfl)
        | exact reqText_error hq
        | (cases hq; exact reqText_error (by assumption)))

theorem hostHeaderLine_error {x : JsVal} {e : JsError}
    (h : hostHeaderLine x = .error e) : e = .typeError := by
  unfold hostHeaderLine at h
  repeat' first | split at h | simp only [] at h
  all_goals first
    | (simp at h; done)
    | (cases h; rfl)
    | exact toStr_typeError h
    | (cases h; exact toStr_typeError (by assumption))
    | (cases h; rename_i hq; (repeat' first | split at hq | simp only [] at hq);
       all_goals first
        | (simp at hq; done)
        | (cases hq; rfl)
        | exact toStr_typeError hq
        | (cases hq; exact toStr_typeError (by assumption)))

theorem clientReqText_error {env : Env} {x : JsVal} {e : JsError}
    (h : clientReqText env x = .error e) : e = .typeError := by
  unfold clientReqText at h
  repeat' first | split at h | simp only [] at h
  all_goals first
    | (simp at h; done)
    | (cases h; rfl)
    | exact bodyPart_error h
    | (cases h; exact bodyPart_error (by assumption))
    | exact hostHeaderLine_error h
    | (cases h; exact hostHeaderLine_error (by assumption))
    | exact headersText_error h
    | (cases h; exact headersText_error (by assumption))
    | exact format_error h
    | (cases h; exact format_error (by assumption))
    | (cases h; rename_i hq; (repeat' first | split at hq | simp only [] at hq);
       all_goals first
        | (simp at hq; done)
        | (cases hq; rfl)
        | exact bodyPart_error hq
        | (cases hq; exact bodyPart_error (by assumption))
        | exact hostHeaderLine_error hq
        | (cases hq; exact hostHeaderLine_error (by assumption))
        | exact headersText_error hq
        | (cases hq; exact headersText_error (by assumption))
        | exact format_error hq
        | (cases hq; exact format_error (by assumption)))

theorem clientReqPart_error {env : Env} {a : Acc} {e : JsError}
    (h : clientReqPart env a = .error e) : e = .typeError := by
  unfold clientReqPart at h
  repeat' first | split at h | simp only [] at h
  all_goals first
    | (simp at h; done)
    | (cases h; rfl)
    | exact clientReqText_error h
    | (cases h; exact clientReqText_error (by assumption))
    | (cases h; rename_i hq; (repeat' first | split at hq | simp only [] at hq);
       all_goals first
        | (simp at hq; done)
        | (cases hq; rfl)
        | exact clientReqText_error hq
        | (cases hq; exact clientReqText_error (by assumption)))

theorem resHead_error {env : Env} {res : JsVal} {e : JsError}
    (h : resHead env res = .error e) : e = .typeError := by
  unfold resHead at h
  repeat' first | split at h | simp only [] at h
  all_goals first
    | (simp at h; done)
    | (cases h; rfl)
    | exact headerLines_error h
    | (cases h; exact headerLines_error (by assumption))
    | exact format_error h
    | (cases h; exact format_error (by assumption))
    | exact toStr_typeError h
    | (cases h; exact toStr_typeError (by assumption))
    | (cases h; rename_i hq; (repeat' first | split at hq | simp only [] at hq);
       all_goals first
        | (simp at hq; done)
        | (cases hq; rfl)
        | exact headerLines_error hq
        | (cases hq; exact headerLines_error (by assumption))
        | exact format_error hq
        | (cases hq; exact format_error (by assumption))
        | exact toStr_typeError hq
        | (cases hq; exact toStr_typeError (by assumption)))

theorem resText_error {env : Env} {res : JsVal} {e : JsError}
    (h : resText env res = .error e) : e = .typeError := by
  unfold resText at h
  repeat' first | split at h | simp only [] at h
  all_goals first
    | (simp at h; done)
    | (cases h; rfl)
    | exact resHead_error h
    | (cases h; exact resHead_error (by assumption))
    | exact bodyPart_error h
    | (cases h; exact bodyPart_error (by assumption))
    | exact toStr_typeError h
    | (cases h; exact toStr_typeError (by assumption))
    | (cases h; rename_i hq; (repeat' first | split at hq | simp only [] at hq);
       all_goals first
        | (simp at hq; done)
        | (cases hq; rfl)
        | exact resHead_error hq
        | (cases hq; exact resHead_error (by assumption))
        | exact bodyPart_error hq
        | (cases hq; exact bodyPart_error (by assumption))
        | exact toStr_typeError hq
        | (cases hq; exact toStr_typeError (by assumption)))

theorem _res_error {env : Env} {key : String} {a : Acc} {e : JsError}
    (h : _res env key a = .error e) : e = .typeError := by
  unfold _res at h
  repeat' first | split at h | simp only [] at h
  all_goals first
    | (simp at h; done)
    | (cases h; rfl)
    | exact resText_error h
    | (cases h; exact resText_error (by assumption))
    | (cases h; rename_i hq; (repeat' first | split at hq | simp only [] at hq);
       all_goals first
        | (simp at hq; done)
        | (cases hq; rfl)
        | exact resText_error hq
        | (cases hq; exact resText_error (by assumption)))

theorem resStage_error {env : Env} {key : String} {a : Acc} {e : JsError}
    (h : resStage env key a = .error e) : e = .typeError := by
  unfold resStage at h
  repeat' first | split at h | simp only [] at h
  all_goals first
    | (simp at h; done)
    | (cases h; rfl)
    | exact _res_error h
    | (cases h; exact _res_error (by assumption))
    | (cases h; rename_i hq; (repeat' first | split at hq | simp only [] at hq);
       all_goals first
        | (simp at hq; done)
        | (cases hq; rfl)
        | exact _res_error hq
        | (cases hq; exact _res_error (by assumption)))

theorem resPart_error {env : Env} {a : Acc} {e : JsError}
    (h : resPart env a = .error e) : e = .typeError := by
  unfold resPart at h
  split at h
  · rename_i e1 h1; cases h; exact resStage_error h1
  · exact resStage_error h

theorem errPart_error {a : Acc} {e : JsError}
    (h : errPart a = .error e) : e = .typeError := by
  unfold errPart at h
  repeat' first | split at h | simp only [] at h
  all_goals first
    | (simp at h; done)
    | (cases h; rfl)
    | exact indent_error h
    | (cases h; exact indent_error (by assumption))
    | (cases h; rename_i hq; (repeat' first | split at hq | simp only [] at hq);
       all_goals first
        | (simp at hq; done)
        | (cases hq; rfl)
        | exact indent_error hq
        | (cases hq; exact indent_error (by assumption)))

theorem leftoverLoop_error {r : Props} {extras details : List String} {e : JsError}
    (h : leftoverLoop r extras details = .error e) : e = .typeError := by
  induction r generalizing extras details with
  | nil => simp [leftoverLoop] at h
  | cons p r ih =>
    obtain ⟨key, v⟩ := p
    unfold leftoverLoop at h
    split at h
    · cases h; rfl
    · split at h
      · exact ih h
      · split at h <;> exact ih h

theorem reqIdExtras_error {r : Props} {e : JsError}
    (h : reqIdExtras r = .error e) : e = .typeError := by
  unfold reqIdExtras at h
  repeat' first | split at h | simp only [] at h
  all_goals first
    | (simp at h; done)
    | (cases h; rfl)
    | exact toStr_typeError h
    | (cases h; exact toStr_typeError (by assumption))
    | (cases h; rename_i hq; (repeat' first | split at hq | simp only [] at hq);
       all_goals first
        | (simp at hq; done)
        | (cases hq; rfl)
        | exact toStr_typeError hq
        | (cases hq; exact toStr_typeError (by assumption)))

theorem blocks_error {env : Env} {a : Acc} {e : JsError}
    (h : blocks env a = .error e) : e = .typeError := by
  unfold blocks at h
  repeat' first | split at h | simp only [] at h
  all_goals first
    | (simp at h; done)
    | (cases h; rfl)
    | exact errPart_error h
    | (cases h; exact errPart_error (by assumption))
    | exact reqPart_error h
    | (cases h; exact reqPart_error (by assumption))
    | exact clientReqPart_error h
    | (cases h; exact clientReqPart_error (by assumption))
    | exact resPart_error h
    | (cases h; exact resPart_error (by assumption))
    | (cases h; rename_i hq; (repeat' first | split at hq | simp only [] at hq);
       all_goals first
        | (simp at hq; done)
        | (cases hq; rfl)
        | exact errPart_error hq
        | (cases hq; exact errPart_error (by assumption))
        | exact reqPart_error hq
        | (cases hq; exact reqPart_error (by assumption))
        | exact clientReqPart_error hq
        | (cases hq; exact clientReqPart_error (by assumption))
        | exact resPart_error hq
        | (cases hq; exact resPart_error (by assumption)))

theorem consume_error {env : Env} {opts : Opts} {short : Bool} {r : Props} {e : JsError}
    (h : consume env opts short r = .error e) : e = .typeError := by
  unfold consume at h
  repeat' first | split at h | simp only [] at h
  all_goals first
    | (simp at h; done)
    | (cases h; rfl)
    | exact timePart_error h
    | (cases h; exact timePart_error (by assumption))
    | exact namePart_error h
    | (cases h; exact namePart_error (by assumption))
    | exact levelPart_error h
    | (cases h; exact levelPart_error (by assumption))
    | exact srcPart_error h
    | (cases h; exact srcPart_error (by assumption))
    | exact reqIdExtras_error h
    | (cases h; exact reqIdExtras_error (by assumption))
    | exact msgPart_error h
    | (cases h; exact msgPart_error (by assumption))
    | exact blocks_error h
    | (cases h; exact blocks_error (by assumption))
    | (cases h; rename_i hq; (repeat' first | split at hq | simp only [] at hq);
       all_goals first
        | (simp at hq; done)
        | (cases hq; rfl)
        | exact timePart_error hq
        | (cases hq; exact timePart_error (by assumption))
        | exact namePart_error hq
        | (cases hq; exact namePart_error (by assumption))
        | exact levelPart_error hq
        | (cases hq; exact levelPart_error (by assumption))
        | exact srcPart_error hq
        | (cases hq; exact srcPart_error (by assumption))
        | exact reqIdExtras_error hq
        | (cases hq; exact reqIdExtras_error (by assumption))
        | exact msgPart_error hq
        | (cases hq; exact msgPart_error (by assumption))
        | exact blocks_error hq
        | (cases hq; exact blocks_error (by assumption)))

theorem assemble_error {env : Env} {opts : Opts} {short : Bool} {time level nameStr hostname src : JsVal} {om : String} {extras details : List String} {e : JsError}
    (h : assemble env opts short time level nameStr hostname src om extras details = .error e) : e = .typeError := by
  unfold assemble at h
  repeat' first | split at h | simp only [] at h
  all_goals first
    | (simp at h; done)
    | (cases h; rfl)
    | exact format_error h
    | (cases h; exact format_error (by assumption))
    | exact stylize_error h
    | (cases h; exact stylize_error (by assumption))
    | (cases h; rename_i hq; (repeat' first | split at hq | simp only [] at hq);
       all_goals first
        | (simp at hq; done)
        | (cases hq; rfl)
        | exact format_error hq
        | (cases hq; exact format_error (by assumption))
        | exact stylize_error hq
        | (cases hq; exact stylize_error (by assumption)))

theorem renderLines_error {env : Env} {opts : Opts} {short : Bool} {r : Props} {e : JsError}
    (h : renderLines env opts short r = .error e) : e = .typeError := by
  unfold renderLines at h
  repeat' first | split at h | simp only [] at h
  all_goals first
    | (simp at h; done)
    | (cases h; rfl)
    | exact assemble_error h
    | (cases h; exact assemble_error (by assumption))
    | exact consume_error h
    | (cases h; exact consume_error (by assumption))
    | exact leftoverLoop_error h
    | (cases h; exact leftoverLoop_error (by assumption))
    | (cases h; rename_i hq; (repeat' first | split at hq | simp only [] at hq);
       all_goals first
        | (simp at hq; done)
        | (cases hq; rfl)
        | exact assemble_error hq
        | (cases hq; exact assemble_error (by assumption))
        | exact consume_error hq
        | (cases hq; exact consume_error (by assumption))
        | exact leftoverLoop_error hq
        | (cases hq; exact leftoverLoop_error (by assumption)))

theorem renderJson_error {opts : Opts} {r : JsVal} {space : Int} {e : JsError}
    (h : renderJson opts r space = .error e) : e = .typeError := by
  unfold renderJson at h
  split at h
  · split at h
    · rename_i e1 h1
      cases h
      cases r <;> simp [assignLevel] at h1 <;> exact h1.symm
    · simp at h
  · simp at h

theorem rawLine_error {line : JsVal} {e : JsError}
    (h : rawLine line = .error e) : e = .typeError := by
  unfold rawLine at h
  repeat' first | split at h | simp only [] at h
  all_goals first
    | (simp at h; done)
    | (cases h; rfl)
    | exact toStr_typeError h
    | (cases h; exact toStr_typeError (by assumption))
    | (cases h; rename_i hq; (repeat' first | split at hq | simp only [] at hq);
       all_goals first
        | (simp at hq; done)
        | (cases hq; rfl)
        | exact toStr_typeError hq
        | (cases hq; exact toStr_typeError (by assumption)))

theorem renderSimple_error {env : Env} {r line : JsVal} {e : JsError}
    (h : renderSimple env r line = .error e) : e = .typeError := by
  unfold renderSimple at h
  repeat' first | split at h | simp only [] at h
  all_goals first
    | (simp at h; done)
    | (cases h; rfl)
    | exact rawLine_error h
    | (cases h; exact rawLine_error (by assumption))
    | exact format_error h
    | (cases h; exact format_error (by assumption))
    | exact levelText_error h
    | (cases h; exact levelText_error (by assumption))
    | (cases h; rename_i hq; (repeat' first | split at hq | simp only [] at hq);
       all_goals first
        | (simp at hq; done)
        | (cases hq; rfl)
        | exact rawLine_error hq
        | (cases hq; exact rawLine_error (by assumption))
        | exact format_error hq
        | (cases hq; exact format_error (by assumption))
        | exact levelText_error hq
        | (cases hq; exact levelText_error (by assumption)))

theorem formatRecord_obj (env : Env) (kvs : Props) (opts : Opts) :
    formatRecord env (.obj kvs) opts =
      match resolveMode opts.outputMode with
      | some outputMode =>
        if outputMode = OM_SHORT || outputMode = OM_LONG then
          if !isValidRecord (.obj kvs) then rawLine (getProp kvs "line")
          else renderLines env opts (outputMode = OM_SHORT) kvs
        else if outputMode = OM_INSPECT then .ok (env.inspect (.obj kvs) ++ "\n")
        else if outputMode = OM_BUNYAN then renderJson opts (.obj kvs) 0
        else if outputMode = OM_JSON then renderJson opts (.obj kvs) opts.jsonIndent
        else if outputMode = OM_SIMPLE then renderSimple env (.obj kvs) (getProp kvs "line")
        else .error (.error ("unknown output mode: " ++ opts.outputMode.text))
      | none => .error (.error ("unknown output mode: " ++ opts.outputMode.text)) := by
  rfl

theorem resolveMode_recognized {m : OutputMode} (h : m ∈ recognizedModes) :
    resolveMode m ∈ [some 1, some 2, some 3, some 4, some 5, some 6] := by
  simp only [recognizedModes, List.mem_cons, List.mem_singleton, List.not_mem_nil, or_false] at h
  rcases h with h | h | h | h | h | h | h | h | h | h | h | h <;> subst h <;> decide

theorem resolveMode_unrecognized {m : OutputMode} (h : m ∉ recognizedModes) :
    resolveMode m = none ∨ ∃ n, resolveMode m = some n ∧ n ∉ [1, 2, 3, 4, 5, 6] := by
  cases m with
  | name s =>
    left
    simp only [recognizedModes, List.mem_cons, List.mem_singleton, List.not_mem_nil, or_false,
      not_or, OutputMode.name.injEq, reduceCtorEq, not_false_eq_true, and_true] at h
    obtain ⟨h1, h2, h3, h4, h5, h6⟩ := h
    have hl : OM_FROM_NAME.lookup s = none := by
      simp only [OM_FROM_NAME, List.lookup]
      have e1 : (s == "long") = false := by simpa using h1
      have e2 : (s == "json") = false := by simpa using h2
      have e3 : (s == "inspect") = false := by simpa using h3
      have e4 : (s == "simple") = false := by simpa using h4
      have e5 : (s == "short") = false := by simpa using h5
      have e6 : (s == "bunyan") = false := by simpa using h6
      simp [e1, e2, e3, e4, e5, e6]
    simp [resolveMode, hl]
  | code n =>
    right
    refine ⟨n, rfl, ?_⟩
    simp only [recognizedModes, List.mem_cons, List.mem_singleton, List.not_mem_nil, or_false,
      not_or, OutputMode.code.injEq, reduceCtorEq, not_false_eq_true, true_and] at h
    simpa using h

/-- C5. On a record, an `outputMode` that is none of the six names and none of
the codes 1 to 6 makes formatRecord throw the error `unknown output mode: `
followed by the given value; each of the twelve recognized values selects one
of the six cases and never gives that error. -/
theorem unknown_output_mode :
    (∀ (env : Env) (kvs : Props) (opts : Opts), opts.outputMode ∉ recognizedModes →
      formatRecord env (.obj kvs) opts =
        .error (.error ("unknown output mode: " ++ opts.outputMode.text))) ∧
    (∀ (env : Env) (kvs : Props) (opts : Opts), opts.outputMode ∈ recognizedModes →
      resolveMode opts.outputMode ∈
        [some OM_LONG, some OM_JSON, some OM_INSPECT, some OM_SIMPLE, some OM_SHORT,
         some OM_BUNYAN] ∧
      ∀ m, formatRecord env (.obj kvs) opts ≠ .error (.error m)) := by
  constructor
  · intro env kvs opts h
    rw [formatRecord_obj]
    rcases resolveMode_unrecognized h with h1 | ⟨n, h1, h2⟩
    · simp [h1]
    · simp only [List.mem_cons, List.mem_singleton, List.not_mem_nil, or_false, not_or] at h2
      obtain ⟨n1, n2, n3, n4, n5, n6⟩ := h2
      simp [h1, OM_SHORT, OM_LONG, OM_INSPECT, OM_BUNYAN, OM_JSON, OM_SIMPLE, n1, n2, n3, n4,
        n5, n6]
  · intro env kvs opts h
    have hr := resolveMode_recognized h
    refine ⟨?_, ?_⟩
    · simp only [List.mem_cons, List.mem_singleton, List.not_mem_nil, or_false] at hr ⊢
      simp only [OM_LONG, OM_JSON, OM_INSPECT, OM_SIMPLE, OM_SHORT, OM_BUNYAN]
      rcases hr with hr | hr | hr | hr | hr | hr <;> simp [hr]
    · intro m hm
      rw [formatRecord_obj] at hm
      simp only [List.mem_cons, List.mem_singleton, List.not_mem_nil, or_false] at hr
      rcases hr with hr | hr | hr | hr | hr | hr <;>
        simp only [hr, OM_SHORT, OM_LONG, OM_INSPECT, OM_BUNYAN, OM_JSON, OM_SIMPLE] at hm <;>
        simp at hm
      · split at hm
        · exact absurd (rawLine_error hm) (by simp)
        · exact absurd (renderLines_error hm) (by simp)
      · exact absurd (renderJson_error hm) (by simp)
      · exact absurd (renderSimple_error hm) (by simp)
      · split at hm
        · exact absurd (rawLine_error hm) (by simp)
        · exact absurd (renderLines_error hm) (by simp)
      · exact absurd (renderJson_error hm) (by simp)

/-- Witness of C5: the mode name `fancy` and the code 7 are not recognized. -/
theorem unknown_output_mode_witness :
    formatRecord sampleEnv (.obj helloRecord) (plainOpts "fancy") =
      .error (.error "unknown output mode: fancy") ∧
    formatRecord sampleEnv (.obj helloRecord)
      { plainOpts "x" with outputMode := .code 7 } = .error (.error "unknown output mode: 7") ∧
    ∀ m, formatRecord sampleEnv (.obj helloRecord) (plainOpts "short") ≠ .error (.error m) :=
  ⟨unknown_output_mode.1 sampleEnv helloRecord (plainOpts "fancy") (by decide),
   unknown_output_mode.1 sampleEnv helloRecord { plainOpts "x" with outputMode := .code 7 }
     (by decide),
   (unknown_output_mode.2 sampleEnv helloRecord (plainOpts "short") (by decide)).2⟩

/-- C6 (the code at the failing inputs). An absent field reads `undefined`,
which is not `=== null`: isValidRecord accepts the empty object and the
scenario record without its hostname, and rejects only a field that is `null`. -/
theorem isValidRecord_absent_field :
    isValidRecord (.obj []) = true ∧
    hasProp (delProp helloRecord "hostname") "hostname" = false ∧
    isValidRecord (.obj (delProp helloRecord "hostname")) = true ∧
    isValidRecord (.obj (setProp helloRecord "hostname" .null)) = false ∧
    isValidRecord (.obj helloRecord) = true := by
  decide

/-- C7 (the code at the failing input). In mode `simple` a record without
hostname that stores a raw `line` is rendered as `<LEVEL> - <msg>`; the stored
line is not returned. -/
theorem simple_without_hostname :
    hasProp (setProp (delProp helloRecord "hostname") "line" (.str "raw line")) "hostname" =
      false ∧
    formatRecord sampleEnv
      (.obj (setProp (delProp helloRecord "hostname") "line" (.str "raw line")))
      (plainOpts "simple") = .ok "INFO - hello\n" ∧
    formatRecord sampleEnv
      (.obj (setProp (setProp helloRecord "hostname" .null) "line" (.str "raw line")))
      (plainOpts "simple") = .ok "raw line\n" := by
  refine ⟨by decide, by rfl, by rfl⟩

/-- C9 (the code at the failing input). With `levelInString` the level 35, which
is none of the six codes, is replaced by `undefined`, and the output of mode
`bunyan` has no `level` member at all; the level 30 is replaced by its name. -/
theorem levelInString_drops_level :
    formatRecord sampleEnv
      (.obj [("v", .num 0), ("level", .num 35), ("name", .str "svc")])
      { plainOpts "bunyan" with levelInString := true } =
      .ok "\x7b\"v\":0,\"name\":\"svc\"\x7d\n" ∧
    jsonParse "\x7b\"v\":0,\"name\":\"svc\"\x7d\n" =
      .ok (.obj [("v", .num 0), ("name", .str "svc")]) ∧
    formatRecord sampleEnv
      (.obj [("v", .num 0), ("level", .num 35), ("name", .str "svc")])
      { plainOpts "json" with levelInString := true } =
      .ok "\x7b\"v\":0,\"name\":\"svc\"\x7d\n" ∧
    formatRecord sampleEnv
      (.obj [("v", .num 0), ("level", .num 30), ("name", .str "svc")])
      { plainOpts "bunyan" with levelInString := true } =
      .ok "\x7b\"v\":0,\"level\":\"INFO\",\"name\":\"svc\"\x7d\n" := by
  refine ⟨by rfl, by rfl, by rfl, by rfl⟩

/-- C10 (the code at the failing input). After `_res(rec.client_res)` the code
deletes `rec.res`, so `client_res` is still a key of the record when the
leftover keys are enumerated: it is rendered as a detail block and again as the
extra `client_res=` followed by the text of the emptied object. -/
theorem client_res_rendered_twice :
    (match consume sampleEnv (plainOpts "short") true
        (helloRecord ++ [("client_res", .obj [("header", .str "HTTP/1.1 200 OK")])]) with
      | .ok c => c.acc.rcd.map Prod.fst
      | .error _ => []) = ["client_res"] ∧
    formatRecord sampleEnv
      (.obj (helloRecord ++ [("client_res", .obj [("header", .str "HTTP/1.1 200 OK")])]))
      (plainOpts "short") =
      .ok "03:04:05.000Z  INFO svc: hello (client_res=\x7b\x7d)\n  HTTP/1.1 200 OK\n" ∧
    formatRecord sampleEnv
      (.obj (helloRecord ++ [("res", .obj [("header", .str "HTTP/1.1 200 OK")])]))
      (plainOpts "short") =
      .ok "03:04:05.000Z  INFO svc: hello\n  HTTP/1.1 200 OK\n" := by
  refine ⟨by rfl, by rfl, by rfl⟩

/-! ## Values without `undefined`, values that convert -/

/-- Every property value of a record is free of `undefined`. -/
theorem membersNoUndef_iff (r : Props) :
    membersNoUndef r = true ↔ ∀ p ∈ r, noUndef p.2 = true := by
  induction r with
  | nil => simp [membersNoUndef]
  | cons p r ih =>
    obtain ⟨k, v⟩ := p
    simp [membersNoUndef, ih]

theorem elemsNoUndef_iff (xs : List JsVal) :
    elemsNoUndef xs = true ↔ ∀ x ∈ xs, noUndef x = true := by
  induction xs with
  | nil => simp [elemsNoUndef]
  | cons x xs ih => simp [elemsNoUndef, ih]

theorem membersNoToString_iff (r : Props) :
    membersNoToString r = true ↔ ∀ p ∈ r, noToString p.2 = true := by
  induction r with
  | nil => simp [membersNoToString]
  | cons p r ih =>
    obtain ⟨k, v⟩ := p
    simp [membersNoToString, ih]

theorem elemsNoToString_iff (xs : List JsVal) :
    elemsNoToString xs = true ↔ ∀ x ∈ xs, noToString x = true := by
  induction xs with
  | nil => simp [elemsNoToString]
  | cons x xs ih => simp [elemsNoToString, ih]

theorem isDecoded_noUndef : ∀ v : JsVal, isDecoded v = true → noUndef v = true
  | .undefined, h => by simp [isDecoded] at h
  | .null, _ => rfl
  | .bool _, _ => rfl
  | .num _, _ => rfl
  | .dbl _, _ => rfl
  | .str _, _ => rfl
  | .arr xs, h => by
    simp only [isDecoded] at h
    simp only [noUndef]
    exact allDecoded_noUndef xs h
  | .obj kvs, h => by
    simp only [isDecoded, Bool.and_eq_true] at h
    simp only [noUndef]
    exact membersDecoded_noUndef kvs h.1
where
  allDecoded_noUndef : ∀ xs : List JsVal, allDecoded xs = true → elemsNoUndef xs = true
    | [], _ => rfl
    | x :: xs, h => by
      simp only [allDecoded, Bool.and_eq_true] at h
      simp only [elemsNoUndef, Bool.and_eq_true]
      exact ⟨isDecoded_noUndef x h.1, allDecoded_noUndef xs h.2⟩
  membersDecoded_noUndef : ∀ r : List (String × JsVal), membersDecoded r = true →
      membersNoUndef r = true
    | [], _ => rfl
    | (_, v) :: r, h => by
      simp only [membersDecoded, Bool.and_eq_true] at h
      simp only [membersNoUndef, Bool.and_eq_true]
      exact ⟨isDecoded_noUndef v h.1, membersDecoded_noUndef r h.2⟩

theorem noUndef_ne_undefined {v : JsVal} (h : noUndef v = true) : v ≠ .undefined := by
  intro e; subst e; simp [noUndef] at h

/-- A value without an own property `toString` inside converts to a text. -/
theorem toStr_ok : ∀ v : JsVal, noToString v = true → ∃ t, v.toStr = .ok t
  | .undefined, _ => ⟨_, rfl⟩
  | .null, _ => ⟨_, rfl⟩
  | .bool _, _ => ⟨_, rfl⟩
  | .num _, _ => ⟨_, rfl⟩
  | .dbl _, _ => ⟨_, rfl⟩
  | .str _, _ => ⟨_, rfl⟩
  | .arr xs, h => by
    simp only [noToString] at h
    simp only [JsVal.toStr]
    exact toStrElems_ok xs h
  | .obj kvs, h => by
    simp only [noToString, Bool.and_eq_true, Bool.not_eq_true'] at h
    simp [JsVal.toStr, h.1]
where
  toStrElems_ok : ∀ xs : List JsVal, elemsNoToString xs = true →
      ∃ t, JsVal.toStrElems xs = .ok t
    | [], _ => ⟨_, rfl⟩
    | [x], h => by
      simp only [elemsNoToString, Bool.and_eq_true] at h
      simp only [JsVal.toStrElems]
      exact toStrElem_ok x h.1
    | x :: y :: r, h => by
      simp only [elemsNoToString, Bool.and_eq_true] at h
      obtain ⟨a, ha⟩ := toStrElem_ok x h.1
      obtain ⟨b, hb⟩ := toStrElems_ok (y :: r) (by simp only [elemsNoToString, Bool.and_eq_true]; exact h.2)
      simp only [JsVal.toStrElems, ha, hb]
      exact ⟨_, rfl⟩
  toStrElem_ok : ∀ v : JsVal, noToString v = true → ∃ t, JsVal.toStrElem v = .ok t
    | .undefined, _ => ⟨_, rfl⟩
    | .null, _ => ⟨_, rfl⟩
    | .bool _, _ => ⟨_, rfl⟩
    | .num _, _ => ⟨_, rfl⟩
    | .dbl _, _ => ⟨_, rfl⟩
    | .str _, _ => ⟨_, rfl⟩
    | .arr xs, h => by
      simp only [noToString] at h
      simp only [JsVal.toStrElem]
      exact toStrElems_ok xs h
    | .obj kvs, h => by
      simp only [noToString, Bool.and_eq_true, Bool.not_eq_true'] at h
      simp [JsVal.toStrElem, h.1]

theorem indexEntries_every {P : JsVal → Prop} (xs : List JsVal) (h : ∀ x ∈ xs, P x) (i : Nat) :
    ∀ p ∈ indexEntries i xs, P p.2 := by
  induction xs generalizing i with
  | nil => simp [indexEntries]
  | cons x xs ih =>
    intro p hp
    simp only [indexEntries, List.mem_cons] at hp
    rcases hp with hp | hp
    · subst hp; exact h x (List.mem_cons_self _ _)
    · exact ih (fun y hy => h y (List.mem_cons_of_mem _ hy)) _ p hp

theorem unitEntries_every {P : JsVal → Prop} (hP : ∀ s, P (.str s)) (cs : List Char) (i : Nat) :
    ∀ p ∈ unitEntries i cs, P p.2 := by
  induction cs generalizing i with
  | nil => simp [unitEntries]
  | cons c cs ih =>
    intro p hp
    simp only [unitEntries] at hp
    split at hp
    · simp only [List.mem_cons] at hp
      rcases hp with hp | hp
      · subst hp; exact hP _
      · exact ih _ p hp
    · simp only [List.mem_cons] at hp
      rcases hp with hp | hp | hp
      · subst hp; exact hP _
      · subst hp; exact hP _
      · exact ih _ p hp

/-- Being without `undefined` is hereditary. -/
theorem hereditary_noUndef : Hereditary (fun v => noUndef v = true) := by
  constructor
  · intro x h
    cases x with
    | obj kvs => simpa [ownEntries, noUndef, membersNoUndef_iff] using h
    | arr xs =>
      simp only [noUndef, elemsNoUndef_iff] at h
      exact indexEntries_every xs h 0
    | str s => exact unitEntries_every (P := fun v => noUndef v = true) (fun _ => rfl) s.data 0
    | undefined => simp [ownEntries]
    | null => simp [ownEntries]
    | bool b => simp [ownEntries]
    | num n => simp [ownEntries]
    | dbl x => simp [ownEntries]
  · intro x k h
    cases x with
    | obj kvs =>
      simp only [JsVal.del, noUndef, membersNoUndef_iff] at h ⊢
      intro p hp
      exact h p (List.mem_of_mem_filter hp)
    | arr xs => simpa [JsVal.del] using h
    | str s => simpa [JsVal.del] using h
    | undefined => simpa [JsVal.del] using h
    | null => simpa [JsVal.del] using h
    | bool b => simpa [JsVal.del] using h
    | num n => simpa [JsVal.del] using h
    | dbl x => simpa [JsVal.del] using h

theorem hasProp_delProp_of (kvs : Props) (k key : String) (h : hasProp kvs key = false) :
    hasProp (delProp kvs k) key = false := by
  simp only [hasProp, delProp, List.any_eq_false, List.mem_filter] at h ⊢
  intro p hp
  exact h p hp.1

/-- Being without an own property `toString` inside is hereditary. -/
theorem hereditary_noToString : Hereditary (fun v => noToString v = true) := by
  constructor
  · intro x h
    cases x with
    | obj kvs =>
      simp only [noToString, Bool.and_eq_true, membersNoToString_iff] at h
      simpa [ownEntries] using h.2
    | arr xs =>
      simp only [noToString, elemsNoToString_iff] at h
      exact indexEntries_every xs h 0
    | str s =>
      exact unitEntries_every (P := fun v => noToString v = true) (fun _ => rfl) s.data 0
    | undefined => simp [ownEntries]
    | null => simp [ownEntries]
    | bool b => simp [ownEntries]
    | num n => simp [ownEntries]
    | dbl x => simp [ownEntries]
  · intro x k h
    cases x with
    | obj kvs =>
      simp only [JsVal.del, noToString, Bool.and_eq_true, Bool.not_eq_true',
        membersNoToString_iff] at h ⊢
      refine ⟨hasProp_delProp_of kvs k _ h.1, ?_⟩
      intro p hp
      exact h.2 p (List.mem_of_mem_filter hp)
    | arr xs => simpa [JsVal.del] using h
    | str s => simpa [JsVal.del] using h
    | undefined => simpa [JsVal.del] using h
    | null => simpa [JsVal.del] using h
    | bool b => simpa [JsVal.del] using h
    | num n => simpa [JsVal.del] using h
    | dbl x => simpa [JsVal.del] using h

theorem every_delProp {P : JsVal → Prop} {r : Props} (h : Every P r) (k : String) :
    Every P (delProp r k) :=
  fun p hp => h p (List.mem_of_mem_filter hp)

theorem every_setProp {P : JsVal → Prop} {r : Props} (h : Every P r) (k : String) {v : JsVal}
    (hv : P v) : Every P (setProp r k v) := by
  induction r with
  | nil =>
    intro p hp
    simp only [setProp, List.mem_singleton] at hp
    subst hp; exact hv
  | cons q r ih =>
    obtain ⟨k1, w⟩ := q
    intro p hp
    simp only [setProp] at hp
    split at hp
    · simp only [List.mem_cons] at hp
      rcases hp with hp | hp
      · subst hp; exact hv
      · exact h p (List.mem_cons_of_mem _ hp)
    · simp only [List.mem_cons] at hp
      rcases hp with hp | hp
      · subst hp; exact h _ (List.mem_cons_self _ _)
      · exact ih (fun y hy => h y (List.mem_cons_of_mem _ hy)) p hp

theorem every_foldl_setProp {P : JsVal → Prop} (pre : String) (es : Props)
    (hes : ∀ p ∈ es, P p.2) {r : Props} (h : Every P r) :
    Every P (es.foldl (fun acc p => setProp acc (pre ++ p.1) p.2) r) := by
  induction es generalizing r with
  | nil => exact h
  | cons e es ih =>
    simp only [List.foldl_cons]
    exact ih (fun p hp => hes p (List.mem_cons_of_mem _ hp))
      (every_setProp h _ (hes e (List.mem_cons_self _ _)))

theorem every_promote {P : JsVal → Prop} (hP : Hereditary P) (pre : String) {x : JsVal}
    (hx : P x) {r : Props} (h : Every P r) : Every P (promote pre x r) :=
  every_foldl_setProp pre _ (hP.1 x hx) h

theorem getProp_every {P : JsVal → Prop} {r : Props} (h : Every P r) (k : String) :
    getProp r k = .undefined ∨ P (getProp r k) := by
  induction r with
  | nil => left; rfl
  | cons q r ih =>
    obtain ⟨k1, w⟩ := q
    simp only [getProp]
    split
    · right; exact h _ (List.mem_cons_self _ _)
    · exact ih (fun y hy => h y (List.mem_cons_of_mem _ hy))

theorem getProp_every_object {P : JsVal → Prop} {r : Props} (h : Every P r) {k : String}
    (ho : (getProp r k).isObject = true) : P (getProp r k) := by
  rcases getProp_every h k with h1 | h1
  · rw [h1] at ho; simp [JsVal.isObject] at ho
  · exact h1

/-- A member of a value that converts is a value that converts. -/
theorem get_noToString {x : JsVal} (h : noToString x = true) (k : String) :
    noToString (x.get k) = true := by
  cases x with
  | obj kvs =>
    simp only [noToString, Bool.and_eq_true, membersNoToString_iff] at h
    rcases getProp_every (P := fun v => noToString v = true) h.2 k with h1 | h1
    · simp only [JsVal.get, h1]; rfl
    · exact h1
  | arr xs => rfl
  | str s => rfl
  | undefined => rfl
  | null => rfl
  | bool b => rfl
  | num n => rfl
  | dbl x => rfl

theorem getProp_noToString {r : Props} (h : Every (fun v => noToString v = true) r)
    (k : String) : noToString (getProp r k) = true := by
  rcases getProp_every h k with h1 | h1
  · rw [h1]; rfl
  · exact h1

theorem serVal_isSome (gap ind : List Char) {v : JsVal} (h : v ≠ .undefined) :
    ∃ t, serVal gap ind v = some t := by
  cases v with
  | dbl x => cases x <;> exact ⟨_, rfl⟩
  | undefined => exact absurd rfl h
  | null => exact ⟨_, rfl⟩
  | bool b => exact ⟨_, rfl⟩
  | num n => exact ⟨_, rfl⟩
  | str s => exact ⟨_, rfl⟩
  | arr xs => exact ⟨_, rfl⟩
  | obj kvs => exact ⟨_, rfl⟩

theorem leftoverLoop_ok {r : Props} (h : Clean r) (extras details : List String) :
    ∃ res, leftoverLoop r extras details = .ok res := by
  induction r generalizing extras details with
  | nil => exact ⟨_, rfl⟩
  | cons q r ih =>
    obtain ⟨key, v⟩ := q
    have hv : v ≠ .undefined := noUndef_ne_undefined (h _ (List.mem_cons_self _ _))
    have hr : Clean r := fun y hy => h y (List.mem_cons_of_mem _ hy)
    have ht : ∃ t, leftoverText v = some t := by
      cases v with
      | str s => exact ⟨_, rfl⟩
      | undefined => exact absurd rfl hv
      | null => exact ⟨_, rfl⟩
      | bool b => cases b <;> exact ⟨_, rfl⟩
      | num n => exact ⟨_, rfl⟩
      | dbl x => cases x <;> exact ⟨_, rfl⟩
      | arr xs => exact ⟨_, rfl⟩
      | obj kvs => exact ⟨_, rfl⟩
    obtain ⟨⟨value, stringified⟩, ht⟩ := ht
    unfold leftoverLoop
    simp only [ht]
    split
    · exact ih hr _ _
    · split <;> exact ih hr _ _

/-! ## What the promotions leave alone -/

theorem append_ne (pre j k : String) (h : k.data.take pre.data.length ≠ pre.data) :
    pre ++ j ≠ k := by
  intro e
  apply h
  rw [← e]
  simp

theorem getProp_setProp (r : Props) (k key : String) (v : JsVal) :
    getProp (setProp r k v) key = if k = key then v else getProp r key := by
  induction r with
  | nil => simp [setProp, getProp]
  | cons q r ih =>
    obtain ⟨k1, w⟩ := q
    simp only [setProp]
    by_cases h1 : k1 = k
    · subst h1
      simp only [if_true, getProp]
      split <;> rfl
    · simp only [h1, if_false, getProp, ih]
      by_cases h2 : k1 = key
      · subst h2
        have : ¬ k = k1 := fun e => h1 e.symm
        simp [this]
      · simp [h2]

theorem getProp_foldl_setProp (pre : String) (es : Props) (r : Props) (key : String)
    (h : ∀ j, pre ++ j ≠ key) :
    getProp (es.foldl (fun acc p => setProp acc (pre ++ p.1) p.2) r) key = getProp r key := by
  induction es generalizing r with
  | nil => rfl
  | cons e es ih =>
    simp only [List.foldl_cons]
    rw [ih, getProp_setProp]
    simp [h e.1]

theorem getProp_promote (pre : String) (x : JsVal) (r : Props) (key : String)
    (h : ∀ j, pre ++ j ≠ key) : getProp (promote pre x r) key = getProp r key :=
  getProp_foldl_setProp pre _ r key h

/-! ## The record through the stages -/

theorem bodyPart_snd {s s1 : String} {x x1 : JsVal} (h : bodyPart s x = .ok (s1, x1)) :
    x1 = bodyRest x := by
  unfold bodyPart at h
  unfold bodyRest
  split at h
  · rename_i hb
    split at h
    · simp at h
    · simp only [Except.ok.injEq, Prod.mk.injEq] at h
      rw [if_pos hb]
      exact h.2.symm
  · rename_i hb
    simp only [Except.ok.injEq, Prod.mk.injEq] at h
    rw [if_neg hb]
    exact h.2.symm

theorem reqText_snd {env : Env} {req r : JsVal} {s : String}
    (h : reqText env req = .ok (s, r)) : r = reqRest req := by
  unfold reqText at h
  unfold reqRest
  repeat' first | split at h | simp only [] at h
  all_goals first
    | (simp at h; done)
    | (rename_i hb _ _ _; simp only [Except.ok.injEq, Prod.mk.injEq] at h;
       rw [← h.2, bodyPart_snd hb])

theorem reqPart_rcd {env : Env} {a b : Acc} (h : reqPart env a = .ok b) :
    b.rcd = reqRcd a.rcd ∧ b.extras = a.extras := by
  unfold reqPart at h
  unfold reqRcd
  split at h
  · rename_i ho
    split at h
    · simp at h
    · rename_i s req hq
      simp only [Except.ok.injEq] at h
      subst h
      simp [ho, reqText_snd hq]
  · rename_i ho
    simp only [Except.ok.injEq] at h
    subst h
    simp [ho]

theorem clientReqText_snd {env : Env} {x r : JsVal} {s : String}
    (h : clientReqText env x = .ok (s, r)) : r = clientReqRest x := by
  unfold clientReqText at h
  unfold clientReqRest
  repeat' first | split at h | simp only [] at h
  all_goals first
    | (simp at h; done)
    | exact bodyPart_snd h

theorem clientReqPart_rcd {env : Env} {a b : Acc} (h : clientReqPart env a = .ok b) :
    b.rcd = clientReqRcd a.rcd ∧ b.extras = a.extras := by
  unfold clientReqPart at h
  unfold clientReqRcd
  split at h
  · rename_i ho
    split at h
    · simp at h
    · rename_i s req hq
      simp only [Except.ok.injEq] at h
      subst h
      simp [ho, clientReqText_snd hq]
  · rename_i ho
    simp only [Except.ok.injEq] at h
    subst h
    simp [ho]

theorem resText_snd {env : Env} {res r : JsVal} {s : String}
    (h : resText env res = .ok (s, r)) : r = resRest res := by
  unfold resText at h
  unfold resRest
  repeat' first | split at h | simp only [] at h
  all_goals first
    | (simp at h; done)
    | (rename_i hb _ _ _; simp only [Except.ok.injEq, Prod.mk.injEq] at h;
       rw [← h.2, bodyPart_snd hb])

theorem resStage_rcd {env : Env} {key : String} {a b : Acc} (h : resStage env key a = .ok b) :
    b.rcd = resRcd key a.rcd ∧ b.extras = a.extras := by
  unfold resStage _res at h
  unfold resRcd
  split at h
  · rename_i ho
    split at h
    · simp at h
    · rename_i c hc
      split at hc
      · simp at hc
      · rename_i s res hq
        simp only [Except.ok.injEq] at h hc
        subst h
        subst hc
        simp [ho, resText_snd hq]
  · rename_i ho
    simp only [Except.ok.injEq] at h
    subst h
    simp [ho]

theorem resPart_rcd {env : Env} {a b : Acc} (h : resPart env a = .ok b) :
    b.rcd = resRcd "client_res" (resRcd "res" a.rcd) ∧ b.extras = a.extras := by
  unfold resPart at h
  split at h
  · simp at h
  · rename_i c hc
    obtain ⟨h1, h2⟩ := resStage_rcd hc
    obtain ⟨h3, h4⟩ := resStage_rcd h
    rw [h3, h1, h4, h2]
    exact ⟨rfl, rfl⟩

theorem errPart_rcd {a b : Acc} (h : errPart a = .ok b) :
    b.rcd = errRcd a.rcd ∧ b.extras = a.extras := by
  unfold errPart at h
  unfold errRcd
  simp only at h
  split at h
  · rename_i ho
    split at h
    · simp at h
    · simp only [Except.ok.injEq] at h
      subst h
      simp [ho]
  · rename_i ho
    simp only [Except.ok.injEq] at h
    subst h
    simp [ho]

/-- What `blocks` returns, stage by stage. -/
theorem blocks_steps {env : Env} {a b : Acc} (h : blocks env a = .ok b) :
    ∃ a1 a2 a3, reqPart env a = .ok a1 ∧ clientReqPart env a1 = .ok a2 ∧
      resPart env a2 = .ok a3 ∧ errPart a3 = .ok b := by
  unfold blocks at h
  split at h
  · simp at h
  · rename_i a1 h1
    split at h
    · simp at h
    · rename_i a2 h2
      split at h
      · simp at h
      · rename_i a3 h3
        exact ⟨a1, a2, a3, h1, h2, h3, h⟩

theorem blocks_rcd {env : Env} {a b : Acc} (h : blocks env a = .ok b) :
    b.rcd = blocksRcd a.rcd ∧ b.extras = a.extras := by
  obtain ⟨a1, a2, a3, h1, h2, h3, h4⟩ := blocks_steps h
  obtain ⟨e1, f1⟩ := reqPart_rcd h1
  obtain ⟨e2, f2⟩ := clientReqPart_rcd h2
  obtain ⟨e3, f3⟩ := resPart_rcd h3
  obtain ⟨e4, f4⟩ := errPart_rcd h4
  unfold blocksRcd
  rw [e4, e3, e2, e1, f4, f3, f2, f1]
  exact ⟨rfl, rfl⟩

theorem reqRcd_getProp (r : Props) (key : String) (h1 : key ≠ "req")
    (h2 : ∀ j, "req." ++ j ≠ key) : getProp (reqRcd r) key = getProp r key := by
  unfold reqRcd
  split
  · rw [getProp_promote _ _ _ _ h2, getProp_delProp]
    simp [Ne.symm h1]
  · rfl

theorem clientReqRcd_getProp (r : Props) (key : String) (h1 : key ≠ "client_req")
    (h2 : ∀ j, "client_req." ++ j ≠ key) : getProp (clientReqRcd r) key = getProp r key := by
  unfold clientReqRcd
  split
  · rw [getProp_promote _ _ _ _ h2, getProp_delProp]
    simp [Ne.symm h1]
  · rfl

theorem resRcd_getProp (k : String) (r : Props) (key : String) (h1 : key ≠ k)
    (h2 : key ≠ "res") (h3 : ∀ j, "res." ++ j ≠ key) :
    getProp (resRcd k r) key = getProp r key := by
  unfold resRcd
  split
  · rw [getProp_delProp, getProp_promote _ _ _ _ h3, getProp_setProp]
    simp [Ne.symm h1, Ne.symm h2]
  · rfl

theorem bodyRest_every {P : JsVal → Prop} (hP : Hereditary P) {x : JsVal} (h : P x) :
    P (bodyRest x) := by
  unfold bodyRest
  split
  · exact hP.2 _ _ h
  · exact h

theorem reqRcd_every {P : JsVal → Prop} (hP : Hereditary P) {r : Props} (h : Every P r) :
    Every P (reqRcd r) := by
  unfold reqRcd
  split
  · rename_i ho
    have hx := getProp_every_object h ho
    apply every_promote hP
    · exact hP.2 _ _ (bodyRest_every hP (hP.2 _ _ (hP.2 _ _ (hP.2 _ _ (hP.2 _ _ hx)))))
    · exact every_delProp h _
  · exact h

theorem clientReqRcd_every {P : JsVal → Prop} (hP : Hereditary P) {r : Props}
    (h : Every P r) : Every P (clientReqRcd r) := by
  unfold clientReqRcd
  split
  · rename_i ho
    have hx := getProp_every_object h ho
    apply every_promote hP
    · exact bodyRest_every hP (hP.2 _ _ (hP.2 _ _ (hP.2 _ _ (hP.2 _ _ (hP.2 _ _
        (hP.2 _ _ hx))))))
    · exact every_delProp h _
  · exact h

theorem resRcd_every {P : JsVal → Prop} (hP : Hereditary P) (key : String) {r : Props}
    (h : Every P r) : Every P (resRcd key r) := by
  unfold resRcd
  split
  · rename_i ho
    have hx := getProp_every_object h ho
    have hr : P (resRest (getProp r key)) :=
      hP.2 _ _ (bodyRest_every hP (hP.2 _ _ (hP.2 _ _ (hP.2 _ _ hx))))
    exact every_delProp (every_promote hP _ hr (every_setProp h _ hr)) _
  · exact h

theorem errRcd_every {P : JsVal → Prop} {r : Props} (h : Every P r) : Every P (errRcd r) := by
  unfold errRcd
  split
  · exact every_delProp h _
  · exact h

theorem blocksRcd_every {P : JsVal → Prop} (hP : Hereditary P) {r : Props} (h : Every P r) :
    Every P (blocksRcd r) :=
  errRcd_every (resRcd_every hP _ (resRcd_every hP _ (clientReqRcd_every hP (reqRcd_every hP h))))

/-! ## Stages that return -/

theorem stylize_str (env : Env) (opts : Opts) (s : String) (c : Option String) :
    ∃ t, stylize env opts (.str s) c = .ok (.str t) := by
  unfold stylize stylizeWithColor stylizeWithoutColor
  simp only [toStr_str]
  split
  · split
    · exact ⟨_, rfl⟩
    · split <;> exact ⟨_, rfl⟩
  · exact ⟨_, rfl⟩

theorem fmtD_ok (env : Env) {x : JsVal} (h : noToString x = true) :
    ∃ t, fmtD env x = .ok t := by
  obtain ⟨t, ht⟩ := toStr_ok x h
  cases x <;> simp [fmtD, ht]

theorem formatAux_ok_aux (env : Env) : ∀ (n : Nat) (cs : List Char) (args : List JsVal),
    cs.length ≤ n → (∀ a ∈ args, noToString a = true) →
    ∃ t, formatAux env cs args = .ok t := by
  intro n
  induction n with
  | zero =>
    intro cs args hl _
    cases cs with
    | nil => exact ⟨_, rfl⟩
    | cons c cs => simp at hl
  | succ n ih =>
    intro cs args hl ha
    rw [formatAux.eq_def]
    split
    · exact ⟨_, rfl⟩
    · rename_i cs1 a args1
      simp only [List.length_cons] at hl
      obtain ⟨t, ht⟩ := ih cs1 args1 (by omega) (fun x hx => ha x (List.mem_cons_of_mem _ hx))
      simp [ht, Except.map]
    · rename_i cs1 a args1
      simp only [List.length_cons] at hl
      obtain ⟨t, ht⟩ := ih cs1 args1 (by omega) (fun x hx => ha x (List.mem_cons_of_mem _ hx))
      obtain ⟨d, hd⟩ := fmtD_ok env (ha a (List.mem_cons_self _ _))
      simp [ht, hd, Except.map]
    · rename_i _ cs1
      simp only [List.length_cons] at hl
      obtain ⟨t, ht⟩ := ih cs1 args (by omega) ha
      simp [ht, Except.map]
    · rename_i _ c cs1 _ _ _
      simp only [List.length_cons] at hl
      obtain ⟨t, ht⟩ := ih cs1 args (by omega) ha
      simp [ht, Except.map]

theorem format_ok (env : Env) (f : String) (args : List JsVal)
    (h : ∀ a ∈ args, noToString a = true) : ∃ t, format env f args = .ok t :=
  formatAux_ok_aux env _ _ _ (Nat.le_refl _) h

theorem timePart_ok (env : Env) (opts : Opts) (short : Bool) (time : JsVal)
    (h : short = true → time.isString = true) (hp : noToString time = true) :
    ∃ t, timePart env opts short time = .ok (.str t) := by
  obtain ⟨tt, htt⟩ := toStr_ok time hp
  obtain ⟨b, hb⟩ := stylize_str env opts ("[" ++ tt ++ "]") opts.timeColor
  have hbr : bracketTime env opts time = .ok (.str b) := by simp [bracketTime, htt, hb]
  unfold timePart
  split
  · rename_i hs
    cases time with
    | str s =>
      obtain ⟨c, hc⟩ := stylize_str env opts (substr s 11) opts.timeColor
      simp only [index10]
      cases unitAt s.data 10 with
      | none => simp [looseEqT, hbr]
      | some u =>
        simp only [looseEqT]
        cases hu : (String.singleton u == "T") with
        | true => simp [hc]
        | false => simp [hbr]
    | undefined => simp [JsVal.isString] at h; exact absurd hs (by simp [h])
    | null => simp [JsVal.isString] at h; exact absurd hs (by simp [h])
    | bool b => simp [JsVal.isString] at h; exact absurd hs (by simp [h])
    | num n => simp [JsVal.isString] at h; exact absurd hs (by simp [h])
    | dbl x => simp [JsVal.isString] at h; exact absurd hs (by simp [h])
    | arr xs => simp [JsVal.isString] at h; exact absurd hs (by simp [h])
    | obj kvs => simp [JsVal.isString] at h; exact absurd hs (by simp [h])
  · exact ⟨_, hbr⟩

theorem appendSlash_ok {n x : JsVal} (hn : noToString n = true) (hx : noToString x = true) :
    ∃ t, appendSlash n x = .ok (.str t) := by
  obtain ⟨a, ha⟩ := toStr_ok n hn
  obtain ⟨b, hb⟩ := toStr_ok x hx
  simp [appendSlash, ha, hb]

theorem namePart_ok (short : Bool) {name component pid : JsVal} (hn : noToString name = true)
    (hc : noToString component = true) (hp : noToString pid = true) :
    ∃ n, namePart short name component pid = .ok n ∧ noToString n = true := by
  unfold namePart
  by_cases h : component.truthy = true
  · obtain ⟨t, ht⟩ := appendSlash_ok hn hc
    simp only [h, if_true, ht]
    cases short
    · obtain ⟨u, hu⟩ := appendSlash_ok (n := .str t) rfl hp
      exact ⟨_, hu, rfl⟩
    · exact ⟨_, rfl, rfl⟩
  · simp only [h, Bool.false_eq_true, if_false]
    cases short
    · obtain ⟨u, hu⟩ := appendSlash_ok hn hp
      exact ⟨_, hu, rfl⟩
    · exact ⟨_, rfl, hn⟩

theorem levelText_ok (env : Env) (table : List (String × String)) {level : JsVal}
    (h : noToString level = true) : ∃ l, levelText env table level = .ok l := by
  obtain ⟨k, hk⟩ := toStr_ok level h
  unfold levelText
  simp only [hk]
  split
  · exact ⟨_, rfl⟩
  · split <;> exact ⟨_, rfl⟩

theorem levelPart_ok (env : Env) (opts : Opts) {level : JsVal} (h : noToString level = true) :
    ∃ l, levelPart env opts level = .ok (.str l) := by
  obtain ⟨k, hk⟩ := toStr_ok level h
  obtain ⟨l, hl⟩ := levelText_ok env upperPaddedNameFromLevel h
  unfold levelPart levelLabel
  simp only [hl, hk]
  split
  · split <;> exact ⟨_, rfl⟩
  · exact ⟨_, rfl⟩

theorem srcPart_ok (env : Env) (opts : Opts) {src : JsVal} (h : noToString src = true) :
    ∃ s, srcPart env opts src = .ok (.str s) := by
  unfold srcPart
  split
  · simp only
    have hargs : ∀ k, noToString (src.get k) = true := get_noToString h
    by_cases hf : (src.get "func").truthy = true
    · obtain ⟨t, ht⟩ := format_ok env " (%s:%d in %s)"
        [src.get "file", src.get "line", src.get "func"] (by
          intro a ha
          simp only [List.mem_cons, List.mem_singleton, List.not_mem_nil, or_false] at ha
          rcases ha with ha | ha | ha <;> rw [ha] <;> exact hargs _)
      simp only [hf, if_true, ht]
      exact stylize_str env opts t _
    · obtain ⟨t, ht⟩ := format_ok env " (%s:%d)" [src.get "file", src.get "line"] (by
          intro a ha
          simp only [List.mem_cons, List.mem_singleton, List.not_mem_nil, or_false] at ha
          rcases ha with ha | ha <;> rw [ha] <;> exact hargs _)
      simp only [hf, if_false, ht]
      exact stylize_str env opts t _
  · exact ⟨_, rfl⟩

theorem reqIdExtras_ok {r : Props} (h : Every (fun v => noToString v = true) r) :
    ∃ es, reqIdExtras r = .ok es := by
  obtain ⟨t, ht⟩ := toStr_ok _ (getProp_noToString h "req_id")
  unfold reqIdExtras
  simp only [ht]
  split <;> exact ⟨_, rfl⟩

theorem msgPart_ok (env : Env) (opts : Opts) (msg : JsVal) (d : List String)
    (h : msg.isString = true) : ∃ res, msgPart env opts msg d = .ok res := by
  cases msg with
  | str s =>
    obtain ⟨t, ht⟩ := stylize_str env opts s opts.msgColor
    unfold msgPart
    simp only [hasLineBreak, ht, indent, toStr_str]
    split <;> exact ⟨_, rfl⟩
  | undefined => simp [JsVal.isString] at h
  | null => simp [JsVal.isString] at h
  | bool b => simp [JsVal.isString] at h
  | num n => simp [JsVal.isString] at h
  | dbl x => simp [JsVal.isString] at h
  | arr xs => simp [JsVal.isString] at h
  | obj kvs => simp [JsVal.isString] at h

theorem headerTexts_ok : ∀ (r : Props), (∀ p ∈ r, noToString p.2 = true) →
    ∃ ts, headerTexts r = .ok ts
  | [], _ => ⟨_, rfl⟩
  | (k, v) :: r, h => by
    obtain ⟨t, ht⟩ := toStr_ok v (h (k, v) (List.mem_cons_self _ _))
    obtain ⟨ts, hts⟩ := headerTexts_ok r (fun p hp => h p (List.mem_cons_of_mem _ hp))
    simp only [headerTexts, ht, hts]
    exact ⟨_, rfl⟩

theorem headerLines_ok {x : JsVal} (h : noToString x = true) :
    ∃ t, headerLines x = .ok t := by
  obtain ⟨ts, hts⟩ := headerTexts_ok (ownEntries x) (hereditary_noToString.1 x h)
  simp [headerLines, hts, Except.map]

theorem headersText_ok (sep : String) {x : JsVal} (h : noToString x = true) :
    ∃ t, headersText sep x = .ok t := by
  obtain ⟨t, ht⟩ := headerLines_ok h
  unfold headersText
  simp only [ht]
  split <;> exact ⟨_, rfl⟩

theorem bodyText_ok {x : JsVal} (h : noToString x = true) : ∃ t, bodyText x = .ok t := by
  obtain ⟨t, ht⟩ := toStr_ok x h
  unfold bodyText
  simp only [ht]
  split
  · split <;> exact ⟨_, rfl⟩
  · exact ⟨_, rfl⟩

theorem bodyPart_ok (s : String) {x : JsVal} (h : noToString x = true) :
    ∃ s1, bodyPart s x = .ok (s1, bodyRest x) := by
  obtain ⟨t, ht⟩ := bodyText_ok (get_noToString h "body")
  unfold bodyPart bodyRest
  simp only [ht]
  split <;> exact ⟨_, rfl⟩

theorem del_noToString {x : JsVal} (h : noToString x = true) (k : String) :
    noToString (x.del k) = true :=
  hereditary_noToString.2 x k h

theorem reqText_ok (env : Env) {req : JsVal} (h : noToString req = true) :
    ∃ s, reqText env req = .ok (s, reqRest req) := by
  obtain ⟨hd, hhd⟩ := headersText_ok "\n" (get_noToString h "headers")
  obtain ⟨f, hf⟩ := format_ok env "%s %s HTTP/%s%s"
    [req.get "method", req.get "url",
     if (req.get "httpVersion").truthy then req.get "httpVersion" else .str "1.1", .str hd] (by
      intro a ha
      simp only [List.mem_cons, List.mem_singleton, List.not_mem_nil, or_false] at ha
      rcases ha with ha | ha | ha | ha <;> rw [ha]
      · exact get_noToString h _
      · exact get_noToString h _
      · split
        · exact get_noToString h _
        · rfl
      · rfl)
  have hx : noToString ((((req.del "url").del "method").del "httpVersion").del "headers") =
      true := del_noToString (del_noToString (del_noToString (del_noToString h _) _) _) _
  obtain ⟨s1, hs1⟩ := bodyPart_ok f hx
  obtain ⟨tr, htr⟩ := headerLines_ok (get_noToString (bodyRest_every hereditary_noToString hx)
    "trailers")
  unfold reqText reqRest
  simp only [hhd, hf, hs1, htr]
  by_cases hc : (((bodyRest ((((req.del "url").del "method").del "httpVersion").del
      "headers")).get "trailers").truthy &&
    keysGreaterThanZero ((bodyRest ((((req.del "url").del "method").del "httpVersion").del
      "headers")).get "trailers")) = true
  · simp only [hc, if_true]
    exact ⟨_, rfl⟩
  · simp only [hc, if_false]
    exact ⟨_, rfl⟩

theorem reqPart_ok (env : Env) {a : Acc} (h : Every (fun v => noToString v = true) a.rcd) :
    ∃ b, reqPart env a = .ok b := by
  unfold reqPart
  split
  · rename_i ho
    obtain ⟨s, hs⟩ := reqText_ok env (getProp_noToString h "req")
    simp only [hs]
    exact ⟨_, rfl⟩
  · exact ⟨_, rfl⟩

theorem hostHeaderLine_ok {x : JsVal} (h : noToString x = true) :
    ∃ t, hostHeaderLine x = .ok t := by
  obtain ⟨a, ha⟩ := toStr_ok _ (get_noToString h "address")
  obtain ⟨p, hp⟩ := toStr_ok _ (get_noToString h "port")
  unfold hostHeaderLine
  simp only [ha, hp]
  by_cases h1 : (x.get "address").truthy = true
  · by_cases h2 : (x.get "port").truthy = true
    · simp only [h1, h2, if_true]
      exact ⟨_, rfl⟩
    · simp only [h1, h2, if_true, if_false]
      exact ⟨_, rfl⟩
  · simp only [h1, if_false]
    exact ⟨_, rfl⟩

theorem clientReqText_ok (env : Env) {x : JsVal} (h : noToString x = true) :
    ∃ s, clientReqText env x = .ok (s, clientReqRest x) := by
  obtain ⟨host, hhost⟩ := hostHeaderLine_ok h
  obtain ⟨hd, hhd⟩ := headersText_ok "" (get_noToString h "headers")
  have h3 : noToString (((x.del "headers").del "address").del "port") = true :=
    del_noToString (del_noToString (del_noToString h _) _) _
  obtain ⟨f, hf⟩ := format_ok env "%s %s HTTP/%s\n%s%s"
    [(((x.del "headers").del "address").del "port").get "method",
     (((x.del "headers").del "address").del "port").get "url",
     if ((((x.del "headers").del "address").del "port").get "httpVersion").truthy then
       (((x.del "headers").del "address").del "port").get "httpVersion"
     else .str "1.1", .str host, .str hd] (by
      intro a ha
      simp only [List.mem_cons, List.mem_singleton, List.not_mem_nil, or_false] at ha
      rcases ha with ha | ha | ha | ha | ha <;> rw [ha]
      · exact get_noToString h3 _
      · exact get_noToString h3 _
      · split
        · exact get_noToString h3 _
        · rfl
      · rfl
      · rfl)
  have h6 : noToString ((((((x.del "headers").del "address").del "port").del "method").del
      "url").del "httpVersion") = true :=
    del_noToString (del_noToString (del_noToString h3 _) _) _
  obtain ⟨s1, hs1⟩ := bodyPart_ok ("" ++ f) h6
  unfold clientReqText clientReqRest
  simp only [hhost, hhd, hf, hs1]
  exact ⟨_, rfl⟩

theorem clientReqPart_ok (env : Env) {a : Acc}
    (h : Every (fun v => noToString v = true) a.rcd) : ∃ b, clientReqPart env a = .ok b := by
  unfold clientReqPart
  split
  · obtain ⟨s, hs⟩ := clientReqText_ok env (getProp_noToString h "client_req")
    simp only [hs]
    exact ⟨_, rfl⟩
  · exact ⟨_, rfl⟩

theorem resHead_ok (env : Env) {res : JsVal} (h : headerIsText res = true)
    (ho : res.isObject = true) (hp : noToString res = true) : ∃ s, resHead env res = .ok s := by
  simp only [headerIsText, ho, Bool.not_true, Bool.false_or, Bool.or_eq_true,
    Bool.not_eq_true'] at h
  obtain ⟨k, hk⟩ := toStr_ok _ (get_noToString hp "statusCode")
  obtain ⟨hl, hhl⟩ := headerLines_ok (get_noToString hp "headers")
  unfold resHead
  by_cases ht : (res.get "header").truthy = true
  · have hs : (res.get "header").isString = true := by
      rcases h with h | h
      · rw [h] at ht; exact absurd ht (by simp)
      · exact h
    cases hh : res.get "header" with
    | str t =>
      simp only [hh] at ht
      simp only [ht, if_true]
      exact ⟨_, rfl⟩
    | undefined => rw [hh] at hs; simp [JsVal.isString] at hs
    | null => rw [hh] at hs; simp [JsVal.isString] at hs
    | bool b => rw [hh] at hs; simp [JsVal.isString] at hs
    | num n => rw [hh] at hs; simp [JsVal.isString] at hs
    | dbl x => rw [hh] at hs; simp [JsVal.isString] at hs
    | arr xs => rw [hh] at hs; simp [JsVal.isString] at hs
    | obj kvs => rw [hh] at hs; simp [JsVal.isString] at hs
  · simp only [ht, Bool.false_eq_true, if_false, hk, hhl]
    by_cases h1 : (res.get "headers").truthy = true
    · by_cases h2 : (res.get "statusCode").truthy = true
      · obtain ⟨f, hf⟩ := format_ok env "HTTP/1.1 %s %s\n"
          [res.get "statusCode",
           match env.statusCodes k with
           | some t => .str t
           | none => .undefined] (by
            intro a ha
            simp only [List.mem_cons, List.mem_singleton, List.not_mem_nil, or_false] at ha
            rcases ha with ha | ha <;> rw [ha]
            · exact get_noToString hp _
            · split <;> rfl)
        simp only [h1, h2, if_true, hf]
        exact ⟨_, rfl⟩
      · simp only [h1, h2, if_true, if_false]
        exact ⟨_, rfl⟩
    · simp only [h1, if_false]
      exact ⟨_, rfl⟩

theorem resText_ok (env : Env) {res : JsVal} (h : headerIsText res = true)
    (ho : res.isObject = true) (hp : noToString res = true) :
    ∃ s, resText env res = .ok (s, resRest res) := by
  obtain ⟨s0, hs0⟩ := resHead_ok env h ho hp
  have h3 : noToString (((res.del "header").del "headers").del "statusCode") = true :=
    del_noToString (del_noToString (del_noToString hp _) _) _
  obtain ⟨s1, hs1⟩ := bodyPart_ok s0 h3
  obtain ⟨tr, htr⟩ := toStr_ok _ (get_noToString (bodyRest_every hereditary_noToString h3)
    "trailer")
  unfold resText resRest
  simp only [hs0, hs1, htr]
  by_cases hc : ((bodyRest (((res.del "header").del "headers").del "statusCode")).get
      "trailer").truthy = true
  · simp only [hc, if_true]
    exact ⟨_, rfl⟩
  · simp only [hc, if_false]
    exact ⟨_, rfl⟩

theorem resStage_ok (env : Env) (key : String) {a : Acc}
    (hp : Every (fun v => noToString v = true) a.rcd)
    (h : headerIsText (getProp a.rcd key) = true) : ∃ b, resStage env key a = .ok b := by
  unfold resStage _res
  split
  · rename_i ho
    obtain ⟨s, hs⟩ := resText_ok env h ho (getProp_noToString hp key)
    simp only [hs]
    exact ⟨_, rfl⟩
  · exact ⟨_, rfl⟩

theorem errPart_ok {a : Acc} (h : stackIsText (getProp a.rcd "err") = true) :
    ∃ b, errPart a = .ok b := by
  unfold errPart
  simp only
  split
  · rename_i ht
    simp only [Bool.and_eq_true] at ht
    simp only [stackIsText, ht.1, ht.2, Bool.not_true, Bool.false_or] at h
    cases hs : (getProp a.rcd "err").get "stack" with
    | str t => exact ⟨_, rfl⟩
    | undefined => rw [hs] at h; simp [JsVal.isString] at h
    | null => rw [hs] at h; simp [JsVal.isString] at h
    | bool b => rw [hs] at h; simp [JsVal.isString] at h
    | num n => rw [hs] at h; simp [JsVal.isString] at h
    | dbl x => rw [hs] at h; simp [JsVal.isString] at h
    | arr xs => rw [hs] at h; simp [JsVal.isString] at h
    | obj kvs => rw [hs] at h; simp [JsVal.isString] at h
  · exact ⟨a, rfl⟩

theorem blocks_ok (env : Env) {a : Acc} (hp : Every (fun v => noToString v = true) a.rcd)
    (h1 : headerIsText (getProp a.rcd "res") = true)
    (h2 : headerIsText (getProp a.rcd "client_res") = true)
    (h3 : stackIsText (getProp a.rcd "err") = true) : ∃ b, blocks env a = .ok b := by
  obtain ⟨a1, e1⟩ := reqPart_ok env hp
  have r1 := (reqPart_rcd e1).1
  have p1 : Every (fun v => noToString v = true) a1.rcd := by
    rw [r1]; exact reqRcd_every hereditary_noToString hp
  obtain ⟨a2, e2⟩ := clientReqPart_ok env p1
  have r2 := (clientReqPart_rcd e2).1
  have p2 : Every (fun v => noToString v = true) a2.rcd := by
    rw [r2]; exact clientReqRcd_every hereditary_noToString p1
  have g2 : ∀ k, k ∈ ["res", "client_res", "err"] → getProp a2.rcd k = getProp a.rcd k := by
    intro k hk
    simp only [List.mem_cons, List.mem_singleton, List.not_mem_nil, or_false] at hk
    rcases hk with hk | hk | hk <;> subst hk <;>
      rw [r2, r1, clientReqRcd_getProp _ _ (by decide) (fun j => append_ne _ _ _ (by decide)),
        reqRcd_getProp _ _ (by decide) (fun j => append_ne _ _ _ (by decide))]
  obtain ⟨a3, e3⟩ := resStage_ok env "res" p2 (by rw [g2 _ (by decide)]; exact h1)
  have r3 := (resStage_rcd e3).1
  have p3 : Every (fun v => noToString v = true) a3.rcd := by
    rw [r3]; exact resRcd_every hereditary_noToString _ p2
  obtain ⟨a4, e4⟩ := resStage_ok env "client_res" p3 (by
    rw [r3, resRcd_getProp _ _ _ (by decide) (by decide)
      (fun j => append_ne _ _ _ (by decide)), g2 _ (by decide)]
    exact h2)
  have r4 := (resStage_rcd e4).1
  obtain ⟨b, eb⟩ := errPart_ok (a := a4) (by
    rw [r4, resRcd_getProp _ _ _ (by decide) (by decide)
      (fun j => append_ne _ _ _ (by decide)), r3, resRcd_getProp _ _ _ (by decide) (by decide)
      (fun j => append_ne _ _ _ (by decide)), g2 _ (by decide)]
    exact h3)
  refine ⟨b, ?_⟩
  unfold blocks resPart
  simp only [e1, e2, e3, e4, eb]

theorem afterFields_getProp (r : Props) (k : String)
    (hk : k ∉ ["v", "time", "name", "component", "pid", "level", "src", "hostname", "req_id",
      "msg"]) : getProp (afterFields r) k = getProp r k := by
  simp only [List.mem_cons, List.mem_singleton, List.not_mem_nil, or_false, not_or] at hk
  obtain ⟨k1, k2, k3, k4, k5, k6, k7, k8, k9, k10⟩ := hk
  simp [afterFields, getProp_delProp, Ne.symm k1, Ne.symm k2, Ne.symm k3, Ne.symm k4,
    Ne.symm k5, Ne.symm k6, Ne.symm k7, Ne.symm k8, Ne.symm k9, Ne.symm k10]

theorem afterFields_every {P : JsVal → Prop} {r : Props} (h : Every P r) :
    Every P (afterFields r) :=
  every_delProp (every_delProp (every_delProp (every_delProp (every_delProp
    (every_delProp (every_delProp (every_delProp (every_delProp (every_delProp h _) _) _) _)
    _) _) _) _) _) _

/-- The steps of `consume` on a record: the texts of the fields, then the
blocks on the record without the fields. -/
theorem consume_eq (env : Env) (opts : Opts) (short : Bool) (r : Props) :
    consume env opts short r =
      match timePart env opts short (getProp r "time") with
      | .error e => .error e
      | .ok time =>
        match namePart short (getProp r "name") (getProp r "component") (getProp r "pid") with
        | .error e => .error e
        | .ok nameStr =>
          match levelPart env opts (getProp r "level") with
          | .error e => .error e
          | .ok level =>
            match srcPart env opts (getProp r "src") with
            | .error e => .error e
            | .ok src =>
              match reqIdExtras r with
              | .error e => .error e
              | .ok extras =>
                match msgPart env opts (getProp r "msg") [] with
                | .error e => .error e
                | .ok (onelineMsg, details) =>
                  match blocks env
                    { rcd := afterFields r, extras := extras, details := details } with
                  | .error e => .error e
                  | .ok a =>
                    .ok { time := time, level := level, nameStr := nameStr,
                          hostname := getProp r "hostname", src := src,
                          onelineMsg := onelineMsg, acc := a } := by
  unfold consume reqIdExtras afterFields
  simp only [getProp_delProp, String.reduceEq, if_false]
  try rfl

theorem consume_ok (env : Env) (opts : Opts) (short : Bool) {r : Props} (hc : Clean r)
    (hp : Every (fun v => noToString v = true) r) (h : textFields short r = true) :
    ∃ c, consume env opts short r = .ok c ∧ Clean c.acc.rcd ∧
      (∃ t l s, c.time = .str t ∧ c.level = .str l ∧ c.src = .str s) ∧
      noToString c.nameStr = true ∧ noToString c.hostname = true := by
  simp only [textFields, Bool.and_eq_true, Bool.or_eq_true, Bool.not_eq_true'] at h
  obtain ⟨⟨⟨⟨hmsg, htime⟩, hres⟩, hcres⟩, herr⟩ := h
  obtain ⟨t, ht⟩ := timePart_ok env opts short (getProp r "time") (by
    intro hs
    rcases htime with h1 | h1
    · rw [hs] at h1; exact absurd h1 (by simp)
    · exact h1) (getProp_noToString hp _)
  obtain ⟨n, hn, hnp⟩ := namePart_ok short (getProp_noToString hp "name")
    (getProp_noToString hp "component") (getProp_noToString hp "pid")
  obtain ⟨l, hl⟩ := levelPart_ok env opts (getProp_noToString hp "level")
  obtain ⟨s, hs⟩ := srcPart_ok env opts (getProp_noToString hp "src")
  obtain ⟨es, hes⟩ := reqIdExtras_ok hp
  obtain ⟨⟨om, d⟩, hm⟩ := msgPart_ok env opts (getProp r "msg") [] hmsg
  obtain ⟨b, hb⟩ := blocks_ok env (a := { rcd := afterFields r, extras := es, details := d })
    (afterFields_every hp)
    (by rw [afterFields_getProp _ _ (by decide)]; exact hres)
    (by rw [afterFields_getProp _ _ (by decide)]; exact hcres)
    (by rw [afterFields_getProp _ _ (by decide)]; exact herr)
  rw [consume_eq]
  simp only [ht, hn, hl, hs, hes, hm, hb]
  refine ⟨_, rfl, ?_, ⟨t, l, s, rfl, rfl, rfl⟩, hnp, getProp_noToString hp _⟩
  rw [(blocks_rcd hb).1]
  exact blocksRcd_every hereditary_noUndef (afterFields_every hc)

theorem assemble_ok (env : Env) (opts : Opts) (short : Bool) (t l : String)
    {nameStr hostname : JsVal} (s om : String) (extras details : List String)
    (hn : noToString nameStr = true) (hh : noToString hostname = true) :
    ∃ text, assemble env opts short (.str t) (.str l) nameStr hostname (.str s) om extras
      details = .ok text := by
  obtain ⟨e, he⟩ := stylize_str env opts
    (if extras.length != 0 then " (" ++ joinWith ", " extras ++ ")" else "") opts.extraColor
  obtain ⟨d, hd⟩ := stylize_str env opts
    (if details.length != 0 then joinWith "\n  --\n" details ++ "\n" else "") opts.metaColor
  unfold assemble
  simp only [he, hd]
  split
  · apply format_ok
    intro a ha
    simp only [List.mem_cons, List.mem_singleton, List.not_mem_nil, or_false] at ha
    rcases ha with ha | ha | ha | ha | ha | ha | ha | ha <;> rw [ha] <;>
      first | rfl | exact hn | (split <;> first | exact hh | rfl)
  · apply format_ok
    intro a ha
    simp only [List.mem_cons, List.mem_singleton, List.not_mem_nil, or_false] at ha
    rcases ha with ha | ha | ha | ha | ha | ha <;> rw [ha] <;> first | rfl | exact hn

theorem renderLines_ok (env : Env) (opts : Opts) (short : Bool) {r : Props} (hc : Clean r)
    (hp : Every (fun v => noToString v = true) r) (h : textFields short r = true) :
    ∃ text, renderLines env opts short r = .ok text := by
  obtain ⟨c, hcc, hcl, ⟨t, l, s, e1, e2, e3⟩, hn, hh⟩ := consume_ok env opts short hc hp h
  obtain ⟨⟨extras, details⟩, hl⟩ := leftoverLoop_ok hcl c.acc.extras c.acc.details
  unfold renderLines
  simp only [hcc, hl, e1, e2, e3]
  exact assemble_ok env opts short t l s c.onelineMsg extras details hn hh

theorem renderJson_ok (opts : Opts) (kvs : Props) (space : Int) :
    ∃ text, renderJson opts (.obj kvs) space = .ok text := by
  unfold renderJson
  split
  · exact ⟨_, rfl⟩
  · exact ⟨_, rfl⟩

theorem rawLine_ok {line : JsVal} (h : noToString line = true) :
    ∃ text, rawLine line = .ok text := by
  obtain ⟨t, ht⟩ := toStr_ok line h
  simp [rawLine, ht]

theorem renderSimple_ok (env : Env) {kvs : Props}
    (hp : Every (fun v => noToString v = true) kvs) :
    ∃ text, renderSimple env (.obj kvs) (getProp kvs "line") = .ok text := by
  unfold renderSimple
  split
  · exact rawLine_ok (getProp_noToString hp _)
  · obtain ⟨l, hl⟩ := levelText_ok env upperNameFromLevel (getProp_noToString hp "level")
    simp only [JsVal.get, hl]
    apply format_ok
    intro a ha
    simp only [List.mem_cons, List.mem_singleton, List.not_mem_nil, or_false] at ha
    rcases ha with ha | ha <;> rw [ha]
    · rfl
    · exact getProp_noToString hp _

/-- C4 (counterexample). The scenario record with the number 5 as `msg` is a
decoded record with all seven fields, and formatRecord throws a TypeError on it
in mode `long` (`rec.msg.indexOf` is not a function); it also throws on the
empty object in mode `short`.  The scenario record whose `level` is an object
with a member named `toString` is a decoded record too, and formatRecord throws
a TypeError on it in mode `simple` (the object is converted to a property key);
so it does in mode `long` when `pid` is such an object. -/
theorem formatRecord_raises :
    isDecoded (.obj (setProp helloRecord "msg" (.num 5))) = true ∧
    isValidRecord (.obj (setProp helloRecord "msg" (.num 5))) = true ∧
    formatRecord sampleEnv (.obj (setProp helloRecord "msg" (.num 5))) (plainOpts "long") =
      .error .typeError ∧
    formatRecord sampleEnv (.obj []) (plainOpts "short") = .error .typeError ∧
    isDecoded (.obj (setProp helloRecord "level" (.obj [("toString", .num 1)]))) = true ∧
    formatRecord sampleEnv (.obj (setProp helloRecord "level" (.obj [("toString", .num 1)])))
      (plainOpts "simple") = .error .typeError ∧
    isDecoded (.obj (setProp helloRecord "pid" (.obj [("toString", .num 1)]))) = true ∧
    formatRecord sampleEnv (.obj (setProp helloRecord "pid" (.obj [("toString", .num 1)])))
      (plainOpts "long") = .error .typeError := by
  refine ⟨by decide, by decide, by rfl, by rfl, by decide, by rfl, by decide, by rfl⟩

/-- C4 (amended). On a record decoded from a JSON object, with a recognized
`outputMode`, formatRecord returns a string: always in the modes inspect,
bunyan and json; in the modes simple, short and long provided no object inside
a value of the record has a member named `toString` (such an object does not
convert to a text) and, in the modes short and long on a record that passes
isValidRecord, provided `msg` is a string, `time` is a string (short mode), a
truthy `header` of an object `res` or `client_res` is a string, and a truthy
`stack` of a truthy `err` is a string. -/
theorem formatRecord_returns (env : Env) (kvs : Props) (opts : Opts)
    (hdec : isDecoded (.obj kvs) = true)
    (hmode : opts.outputMode ∈ recognizedModes)
    (hconv : opts.outputMode ∈ [OutputMode.name "simple", .code 4, .name "short", .code 5,
      .name "long", .code 1] → membersNoToString kvs = true)
    (hshort : opts.outputMode ∈ [OutputMode.name "short", .code 5] →
      isValidRecord (.obj kvs) = true → textFields true kvs = true)
    (hlong : opts.outputMode ∈ [OutputMode.name "long", .code 1] →
      isValidRecord (.obj kvs) = true → textFields false kvs = true) :
    ∃ text, formatRecord env (.obj kvs) opts = .ok text := by
  have hc : Clean kvs := by
    have := isDecoded_noUndef _ hdec
    simp only [noUndef] at this
    exact (membersNoUndef_iff kvs).mp this
  have lines : ∀ short : Bool, membersNoToString kvs = true →
      (isValidRecord (.obj kvs) = true → textFields short kvs = true) →
      ∃ text, (if !isValidRecord (.obj kvs) then rawLine (getProp kvs "line")
        else renderLines env opts short kvs) = .ok text := by
    intro short hp h
    have hp2 : Every (fun v => noToString v = true) kvs := (membersNoToString_iff kvs).mp hp
    by_cases hv : isValidRecord (.obj kvs) = true
    · simp only [hv, Bool.not_true, Bool.false_eq_true, if_false]
      exact renderLines_ok env opts short hc hp2 (h hv)
    · simp only [hv, Bool.not_false, if_true]
      exact rawLine_ok (getProp_noToString hp2 _)
  have simple : membersNoToString kvs = true →
      ∃ text, renderSimple env (.obj kvs) (getProp kvs "line") = .ok text :=
    fun hp => renderSimple_ok env ((membersNoToString_iff kvs).mp hp)
  rw [formatRecord_obj]
  simp only [recognizedModes, List.mem_cons, List.mem_singleton, List.not_mem_nil,
    or_false] at hmode hshort hlong hconv
  rcases hmode with h | h | h | h | h | h | h | h | h | h | h | h
  · have hr : resolveMode opts.outputMode = some 1 := by rw [h]; decide
    simpa [hr, OM_SHORT, OM_LONG] using lines false (hconv (by simp [h])) (hlong (Or.inl h))
  · have hr : resolveMode opts.outputMode = some 2 := by rw [h]; decide
    simpa [hr, OM_SHORT, OM_LONG, OM_INSPECT, OM_BUNYAN, OM_JSON] using
      renderJson_ok opts kvs opts.jsonIndent
  · have hr : resolveMode opts.outputMode = some 3 := by rw [h]; decide
    simp [hr, OM_SHORT, OM_LONG, OM_INSPECT]
  · have hr : resolveMode opts.outputMode = some 4 := by rw [h]; decide
    simpa [hr, OM_SHORT, OM_LONG, OM_INSPECT, OM_BUNYAN, OM_JSON, OM_SIMPLE] using
      simple (hconv (by simp [h]))
  · have hr : resolveMode opts.outputMode = some 5 := by rw [h]; decide
    simpa [hr, OM_SHORT, OM_LONG] using lines true (hconv (by simp [h])) (hshort (Or.inl h))
  · have hr : resolveMode opts.outputMode = some 6 := by rw [h]; decide
    simpa [hr, OM_SHORT, OM_LONG, OM_INSPECT, OM_BUNYAN] using renderJson_ok opts kvs 0
  · have hr : resolveMode opts.outputMode = some 1 := by rw [h]; decide
    simpa [hr, OM_SHORT, OM_LONG] using lines false (hconv (by simp [h])) (hlong (Or.inr h))
  · have hr : resolveMode opts.outputMode = some 2 := by rw [h]; decide
    simpa [hr, OM_SHORT, OM_LONG, OM_INSPECT, OM_BUNYAN, OM_JSON] using
      renderJson_ok opts kvs opts.jsonIndent
  · have hr : resolveMode opts.outputMode = some 3 := by rw [h]; decide
    simp [hr, OM_SHORT, OM_LONG, OM_INSPECT]
  · have hr : resolveMode opts.outputMode = some 4 := by rw [h]; decide
    simpa [hr, OM_SHORT, OM_LONG, OM_INSPECT, OM_BUNYAN, OM_JSON, OM_SIMPLE] using
      simple (hconv (by simp [h]))
  · have hr : resolveMode opts.outputMode = some 5 := by rw [h]; decide
    simpa [hr, OM_SHORT, OM_LONG] using lines true (hconv (by simp [h])) (hshort (Or.inr h))
  · have hr : resolveMode opts.outputMode = some 6 := by rw [h]; decide
    simpa [hr, OM_SHORT, OM_LONG, OM_INSPECT, OM_BUNYAN] using renderJson_ok opts kvs 0

/-- Witness of C4: the scenario record with a request, a response and an error,
in mode `long`. -/
theorem formatRecord_returns_witness :
    isDecoded (.obj (helloRecord ++
      [("req", .obj [("method", .str "GET"), ("url", .str "/"), ("id", .num 7)]),
       ("res", .obj [("statusCode", .num 200), ("headers", .obj [("a", .str "b")])]),
       ("err", .obj [("stack", .str "Error: x\n  at y")])])) = true ∧
    ∃ text, formatRecord sampleEnv (.obj (helloRecord ++
      [("req", .obj [("method", .str "GET"), ("url", .str "/"), ("id", .num 7)]),
       ("res", .obj [("statusCode", .num 200), ("headers", .obj [("a", .str "b")])]),
       ("err", .obj [("stack", .str "Error: x\n  at y")])])) (plainOpts "long") = .ok text :=
  ⟨by decide,
   formatRecord_returns sampleEnv _ (plainOpts "long") (by decide) (by decide)
     (fun _ => by decide) (fun h => absurd h (by decide)) (fun _ _ => by decide)⟩

/-! ## Doubles: integers below 2^53 -/

theorem bitsAux_le (fuel : Nat) : ∀ (n k acc : Nat), n < 2 ^ k → bitsAux fuel n acc ≤ acc + k := by
  induction fuel with
  | zero => intro n k acc _; simp [bitsAux]
  | succ fuel ih =>
    intro n k acc h
    simp only [bitsAux]
    split
    · omega
    · rename_i hn
      cases k with
      | zero => simp at h; exact absurd h hn
      | succ k =>
        have h2 : n / 2 < 2 ^ k := by
          rw [pow_succ] at h
          omega
        have := ih (n / 2) k (acc + 1) h2
        omega

theorem bits_le {n k : Nat} (h : n < 2 ^ k) : bits n ≤ k := by
  have := bitsAux_le n n k 0 h
  simpa [bits] using this

theorem pow2_neg (k : Nat) : pow2 (-(k : Int)) = 1 / ((2 ^ k : Nat) : ℚ) := by
  unfold pow2
  cases k with
  | zero => simp
  | succ k =>
    have h : ¬ (0 : Int) ≤ -((k + 1 : Nat) : Int) := by omega
    simp only [h, if_false, neg_neg, Int.toNat_ofNat]

theorem pow2_pos (e : Int) : 0 < pow2 e := by
  unfold pow2
  split
  · exact_mod_cast Nat.pos_pow_of_pos _ (by decide)
  · apply div_pos one_pos
    exact_mod_cast Nat.pos_pow_of_pos _ (by decide)

theorem roundHalfEven_nat (n : Nat) : roundHalfEven (n : ℚ) = n := by
  have hf : (n : ℚ).floor = (n : Int) := by
    rw [Rat.floor_def']
    simp
  unfold roundHalfEven
  simp [hf]

/-- An integer below `2 ^ 53` is a double. -/
theorem toDouble_safe (m : Nat) (h : m < 2 ^ 53) : toDouble (m : ℚ) = some (m : ℚ) := by
  have hb : bits m ≤ 53 := bits_le h
  have h1 : bits 1 = 1 := by decide
  have hi : ilog2 (m : ℚ) ≤ 52 := by
    unfold ilog2
    simp only [Rat.num_natCast, Int.natAbs_ofNat, Rat.den_natCast, h1]
    split <;> omega
  obtain ⟨k, hk⟩ : ∃ k : Nat, max (ilog2 (m : ℚ) - 52) (-1074) = -(k : Int) := by
    refine ⟨(-(max (ilog2 (m : ℚ) - 52) (-1074))).toNat, ?_⟩
    rw [Int.toNat_of_nonneg] <;> omega
  have hq : (m : ℚ) / pow2 (-(k : Int)) = ((m * 2 ^ k : Nat) : ℚ) := by
    rw [pow2_neg]
    push_cast
    field_simp
  have hv : ((m * 2 ^ k : Nat) : ℚ) * pow2 (-(k : Int)) = (m : ℚ) := by
    rw [pow2_neg]
    push_cast
    field_simp
  have hlt : ¬ pow2 1024 ≤ (m : ℚ) := by
    have e : pow2 1024 = ((2 ^ 1024 : Nat) : ℚ) := by
      unfold pow2
      simp
    rw [e, not_le]
    have : m < 2 ^ 1024 := lt_trans h (Nat.pow_lt_pow_right (by decide) (by decide))
    exact_mod_cast this
  unfold toDouble nearest
  simp only [hk, hq, roundHalfEven_nat, hv, hlt, if_false, Option.map_some']

/-! ## Doubles: the digits of Number::toString -/

theorem firstDouble_spec (q : ℚ) : ∀ (cs : List (Nat × Int)) (c : Nat × Int),
    firstDouble q cs = some c → toDouble (decVal c) = some q
  | [], c, h => by simp [firstDouble] at h
  | d :: cs, c, h => by
    simp only [firstDouble] at h
    split at h
    · rename_i hd
      simp only [Option.some.injEq] at h
      rw [← h]; exact hd
    · exact firstDouble_spec q cs c h

theorem shortestFrom_spec (q : ℚ) (n : Int) : ∀ (fuel k : Nat) (c : Nat × Int),
    shortestFrom q n fuel k = some c → toDouble (decVal c) = some q
  | 0, _, c, h => by simp [shortestFrom] at h
  | fuel + 1, k, c, h => by
    simp only [shortestFrom] at h
    split at h
    · rename_i d hd
      simp only [Option.some.injEq] at h
      rw [← h]; exact firstDouble_spec q _ d hd
    · exact shortestFrom_spec q n fuel (k + 1) c h

theorem pow2_nonneg_eq (e : Int) (h : 0 ≤ e) : pow2 e = ((2 ^ e.toNat : Nat) : ℚ) := by
  simp [pow2, h]

theorem pow10_nonneg_eq (e : Int) (h : 0 ≤ e) : pow10 e = ((10 ^ e.toNat : Nat) : ℚ) := by
  simp [pow10, h]

theorem pow10_neg_eq (e : Int) (h : ¬ 0 ≤ e) :
    pow10 e = 1 / ((10 ^ (-e).toNat : Nat) : ℚ) := by
  simp [pow10, h]

theorem pow2_neg_eq (e : Int) (h : ¬ 0 ≤ e) : pow2 e = 1 / ((2 ^ (-e).toNat : Nat) : ℚ) := by
  simp [pow2, h]

/-- The exact decimal of `m * 2 ^ e`. -/
theorem exact_value (m : Nat) (e : Int) :
    decVal (if 0 ≤ e then (m * 2 ^ e.toNat, 0) else (m * 5 ^ (-e).toNat, e)) = m * pow2 e := by
  split
  · rename_i h
    simp only [decVal, pow2_nonneg_eq e h]
    simp [pow10]
  · rename_i h
    simp only [decVal, pow2_neg_eq e h, pow10_neg_eq e h]
    push_cast
    have h10 : (10 : ℚ) ^ (-e).toNat = 2 ^ (-e).toNat * 5 ^ (-e).toNat := by
      rw [← mul_pow]; norm_num
    rw [h10]
    field_simp
    ring

theorem exactDecimal_spec (q : ℚ) (c : Nat × Int) (h : exactDecimal q = some c) :
    toDouble (decVal c) = some q := by
  unfold exactDecimal at h
  split at h
  · rename_i m e hn
    change (if decVal (if 0 ≤ e then (m * 2 ^ e.toNat, 0) else (m * 5 ^ (-e).toNat, e)) = q
      then some (if 0 ≤ e then (m * 2 ^ e.toNat, 0) else (m * 5 ^ (-e).toNat, e))
      else none) = some c at h
    by_cases hg : decVal (if 0 ≤ e then (m * 2 ^ e.toNat, 0) else (m * 5 ^ (-e).toNat, e)) = q
    · simp only [hg, if_true, Option.some.injEq] at h
      rw [← h, hg]
      rw [exact_value] at hg
      simp only [toDouble, hn, Option.map_some', hg]
    · simp only [hg, if_false] at h
      exact absurd h (by simp)
  · simp at h

/-- The decimal chosen for a double rounds to that double. -/
theorem shortest_spec (q : ℚ) (c : Nat × Int) (h : shortest q = some c) :
    toDouble (decVal c) = some q := by
  unfold shortest at h
  split at h
  · rename_i d hd
    simp only [Option.some.injEq] at h
    rw [← h]; exact shortestFrom_spec q _ _ _ d hd
  · exact exactDecimal_spec q c h

/-- A double has a decimal. -/
theorem shortest_isSome (q : ℚ) (h : toDouble q = some q) : ∃ c, shortest q = some c := by
  unfold shortest
  split
  · exact ⟨_, rfl⟩
  · unfold toDouble at h
    cases hn : nearest q with
    | none => simp [hn] at h
    | some p =>
      obtain ⟨m, e⟩ := p
      simp only [hn, Option.map_some', Option.some.injEq] at h
      unfold exactDecimal
      simp only [hn]
      change ∃ c, (if decVal (if 0 ≤ e then (m * 2 ^ e.toNat, 0)
          else (m * 5 ^ (-e).toNat, e)) = q
        then some (if 0 ≤ e then (m * 2 ^ e.toNat, 0) else (m * 5 ^ (-e).toNat, e))
        else none) = some c
      rw [exact_value, if_pos h]
      exact ⟨_, rfl⟩

theorem toDouble_zero : toDouble 0 = some 0 := by
  have := toDouble_safe 0 (by decide)
  simpa using this

/-- The decimal chosen for a positive double has digits. -/
theorem decimal_pos {q : ℚ} {c : Nat × Int} (h : toDouble (decVal c) = some q) (hq : q ≠ 0) :
    c.1 ≠ 0 := by
  intro h0
  have : decVal c = 0 := by simp [decVal, h0]
  rw [this, toDouble_zero] at h
  simp only [Option.some.injEq] at h
  exact hq h.symm

/-! ## Decoding what `JSON.stringify` writes: numbers -/

theorem digitVal_digitChar : ∀ d, d < 10 → digitVal 10 (Nat.digitChar d) = some d := by
  decide

theorem digitChar_ne_zero : ∀ d, d < 10 → 0 < d → Nat.digitChar d ≠ '0' := by
  decide

/-- Reading back the digits written by `Nat.toDigitsCore`: with enough fuel the
reader continues after them with the number appended to what it had read. -/
theorem readDigits_toDigitsCore (fuel : Nat) : ∀ (n : Nat) (ds rest : List Char) (acc len : Nat),
    n < fuel →
    ∃ k, 0 < k ∧ readDigits 10 (Nat.toDigitsCore 10 fuel n ds ++ rest) acc len =
      readDigits 10 (ds ++ rest) (acc * 10 ^ k + n) (len + k) := by
  induction fuel with
  | zero => intro n ds rest acc len h; omega
  | succ fuel ih =>
    intro n ds rest acc len h
    have hd : digitVal 10 (Nat.digitChar (n % 10)) = some (n % 10) :=
      digitVal_digitChar _ (Nat.mod_lt _ (by decide))
    simp only [Nat.toDigitsCore]
    split
    · rename_i h0
      refine ⟨1, by decide, ?_⟩
      have hn : n % 10 = n := by omega
      simp only [List.cons_append, readDigits, hd, pow_one]
      rw [hn]
      rfl
    · rename_i h0
      obtain ⟨k, hk, e⟩ := ih (n / 10) (Nat.digitChar (n % 10) :: ds) rest acc len (by omega)
      refine ⟨k + 1, by omega, ?_⟩
      rw [e]
      simp only [List.cons_append, readDigits, hd]
      congr 1
      · rw [pow_succ]
        have := Nat.div_add_mod n 10
        nlinarith [Nat.div_add_mod n 10]

/-- The first digit written by `Nat.toDigitsCore` is a decimal digit, and it is
not the digit zero when the number is positive. -/
theorem toDigitsCore_head (fuel : Nat) : ∀ (n : Nat) (ds : List Char), n < fuel →
    ∃ d tl, d < 10 ∧ (0 < n → 0 < d) ∧ Nat.toDigitsCore 10 fuel n ds = Nat.digitChar d :: tl := by
  induction fuel with
  | zero => intro n ds h; omega
  | succ fuel ih =>
    intro n ds h
    simp only [Nat.toDigitsCore]
    split
    · rename_i h0
      exact ⟨n % 10, ds, Nat.mod_lt _ (by decide), fun hp => by omega, rfl⟩
    · rename_i h0
      obtain ⟨d, tl, hd, hp, e⟩ := ih (n / 10) (Nat.digitChar (n % 10) :: ds) (by omega)
      exact ⟨d, tl, hd, fun _ => hp (by omega), e⟩

theorem readDigits_end {rest : List Char} (h : NumEnd rest) (acc len : Nat) :
    readDigits 10 rest acc len = (acc, len, rest) := by
  cases rest with
  | nil => rfl
  | cons c r => simp [readDigits, (h c r rfl).1]

theorem digitsValue_append (acc : Nat) (a b : List Char) :
    digitsValue acc (a ++ b) = digitsValue (digitsValue acc a) b := by
  simp [digitsValue, List.foldl_append]

theorem digitsValue_cons (acc : Nat) (c : Char) (ds : List Char) :
    digitsValue acc (c :: ds) = digitsValue (acc * 10 + (digitVal 10 c).getD 0) ds := rfl

theorem digitsValue_zeros (acc j : Nat) :
    digitsValue acc (List.replicate j '0') = acc * 10 ^ j := by
  induction j generalizing acc with
  | zero => simp [digitsValue]
  | succ j ih =>
    have e0 : (digitVal 10 '0').getD 0 = 0 := by decide
    rw [List.replicate_succ, digitsValue_cons, ih, e0, pow_succ]
    ring

theorem allDigits_nil : AllDigits [] := fun _ h => by simp at h

theorem allDigits_cons {c : Char} {ds : List Char} (hc : ∃ d, digitVal 10 c = some d)
    (h : AllDigits ds) : AllDigits (c :: ds) := by
  intro x hx
  rcases List.mem_cons.mp hx with hx | hx
  · rw [hx]; exact hc
  · exact h x hx

theorem allDigits_append {a b : List Char} (ha : AllDigits a) (hb : AllDigits b) :
    AllDigits (a ++ b) := by
  intro x hx
  rcases List.mem_append.mp hx with hx | hx
  · exact ha x hx
  · exact hb x hx

theorem allDigits_zeros (j : Nat) : AllDigits (List.replicate j '0') := by
  intro x hx
  rw [List.eq_of_mem_replicate hx]
  exact ⟨0, by decide⟩

theorem allDigits_take {ds : List Char} (h : AllDigits ds) (n : Nat) : AllDigits (ds.take n) :=
  fun x hx => h x (List.mem_of_mem_take hx)

theorem allDigits_drop {ds : List Char} (h : AllDigits ds) (n : Nat) : AllDigits (ds.drop n) :=
  fun x hx => h x (List.mem_of_mem_drop hx)

/-- Reading a text of digits that is followed by no digit. -/
theorem readDigits_digits (ds rest : List Char) (h : AllDigits ds)
    (hr : ∀ c r, rest = c :: r → digitVal 10 c = none) (acc len : Nat) :
    readDigits 10 (ds ++ rest) acc len = (digitsValue acc ds, len + ds.length, rest) := by
  induction ds generalizing acc len with
  | nil =>
    cases rest with
    | nil => rfl
    | cons c r => simp [readDigits, hr c r rfl, digitsValue]
  | cons c ds ih =>
    obtain ⟨d, hd⟩ := h c (List.mem_cons_self _ _)
    have := ih (fun x hx => h x (List.mem_cons_of_mem _ hx)) (acc * 10 + d) (len + 1)
    simp only [List.cons_append, readDigits, hd, digitsValue_cons, Option.getD_some,
      List.length_cons]
    refine Eq.trans this ?_
    congr 2
    omega

theorem allDigits_toDigitsCore (fuel : Nat) : ∀ (n : Nat) (ds : List Char), AllDigits ds →
    AllDigits (Nat.toDigitsCore 10 fuel n ds) := by
  induction fuel with
  | zero => intro n ds h; simpa [Nat.toDigitsCore] using h
  | succ fuel ih =>
    intro n ds h
    have hd : ∃ d, digitVal 10 (Nat.digitChar (n % 10)) = some d :=
      ⟨_, digitVal_digitChar _ (Nat.mod_lt _ (by decide))⟩
    simp only [Nat.toDigitsCore]
    split
    · exact allDigits_cons hd h
    · exact ih _ _ (allDigits_cons hd h)

theorem allDigits_toDigits (n : Nat) : AllDigits (Nat.toDigits 10 n) :=
  allDigits_toDigitsCore _ _ _ allDigits_nil

theorem digitsValue_toDigits (n : Nat) : digitsValue 0 (Nat.toDigits 10 n) = n := by
  have h1 := readDigits_digits (Nat.toDigits 10 n) [] (allDigits_toDigits n)
    (fun _ _ h => by simp at h) 0 0
  obtain ⟨k, _, h2⟩ := readDigits_toDigitsCore (n + 1) n [] [] 0 0 (by omega)
  have e : Nat.toDigits 10 n = Nat.toDigitsCore 10 (n + 1) n [] := rfl
  rw [e] at h1
  rw [h1] at h2
  simp only [List.nil_append, readDigits, Nat.zero_mul, Nat.zero_add, Prod.mk.injEq] at h2
  rw [e]
  exact h2.1

theorem toDigits_head (n : Nat) :
    ∃ d tl, d < 10 ∧ (0 < n → 0 < d) ∧ Nat.toDigits 10 n = Nat.digitChar d :: tl :=
  toDigitsCore_head (n + 1) n [] (by omega)

theorem repr_eq_toDigits (n : Nat) : (Nat.repr n).data = Nat.toDigits 10 n := rfl

theorem numEnd_noDigit {rest : List Char} (h : NumEnd rest) :
    ∀ c r, rest = c :: r → digitVal 10 c = none :=
  fun c r e => (h c r e).1

theorem readIntPart_digits (ds rest : List Char) (h : AllDigits ds) (hne : ds ≠ [])
    (hz : ds.length = 1 ∨ ds.head? ≠ some '0')
    (hr : ∀ c r, rest = c :: r → digitVal 10 c = none) :
    readIntPart (ds ++ rest) = some (digitsValue 0 ds, rest) := by
  unfold readIntPart
  rw [readDigits_digits ds rest h hr 0 0]
  have hl : 0 + ds.length ≠ 0 := by
    cases ds with
    | nil => exact absurd rfl hne
    | cons c tl => simp
  have hh : (ds ++ rest).head? = ds.head? := by
    cases ds with
    | nil => exact absurd rfl hne
    | cons c tl => rfl
  simp only [hl, if_false, hh]
  rcases hz with hz | hz
  · simp [hz]
  · simp [hz]

theorem readFraction_none (m : Nat) (rest : List Char) (h : ∀ r, rest ≠ '.' :: r) :
    readFraction m rest = some (m, 0, rest) := by
  unfold readFraction
  cases rest with
  | nil => rfl
  | cons c r =>
    have : c ≠ '.' := fun e => h r (by rw [e])
    simp [this]

theorem readFraction_digits (m : Nat) (fs rest : List Char) (h : AllDigits fs) (hne : fs ≠ [])
    (hr : ∀ c r, rest = c :: r → digitVal 10 c = none) :
    readFraction m ('.' :: (fs ++ rest)) = some (digitsValue m fs, fs.length, rest) := by
  unfold readFraction
  simp only [if_true]
  rw [readDigits_digits fs rest h hr m 0]
  have hl : 0 + fs.length ≠ 0 := by
    cases fs with
    | nil => exact absurd rfl hne
    | cons c tl => simp
  simp [hl, hne]

theorem readExponent_none (rest : List Char) (h : ∀ c r, rest = c :: r → c ≠ 'e' ∧ c ≠ 'E') :
    readExponent rest = some (0, rest) := by
  unfold readExponent
  cases rest with
  | nil => rfl
  | cons c r =>
    obtain ⟨h1, h2⟩ := h c r rfl
    simp [h1, h2]

theorem readExponent_digits (neg : Bool) (es rest : List Char) (h : AllDigits es)
    (hne : es ≠ []) (hr : ∀ c r, rest = c :: r → digitVal 10 c = none) :
    readExponent ('e' :: (if neg then '-' else '+') :: (es ++ rest)) =
      some (if neg then -(digitsValue 0 es : Int) else (digitsValue 0 es : Int), rest) := by
  have hl : 0 + es.length ≠ 0 := by
    cases es with
    | nil => exact absurd rfl hne
    | cons c tl => simp
  unfold readExponent
  cases neg
  · simp [readDigits_digits es rest h hr 0 0, hl, hne]
  · simp [readDigits_digits es rest h hr 0 0, hl, hne]

theorem noDigit_dot (r : List Char) : ∀ c r1, '.' :: r = c :: r1 → digitVal 10 c = none := by
  intro c r1 e
  simp only [List.cons.injEq] at e
  rw [← e.1]; decide

theorem noDigit_e (r : List Char) : ∀ c r1, 'e' :: r = c :: r1 → digitVal 10 c = none := by
  intro c r1 e
  simp only [List.cons.injEq] at e
  rw [← e.1]; decide

/-- Reading back the text of a decimal `s * 10 ^ e`: the digits and the
exponent read have the value of the decimal. -/
theorem parseUnsigned_fmtDec (neg : Bool) (c : Nat × Int) (hc : c.1 ≠ 0) (rest : List Char)
    (hrest : NumEnd rest) :
    ∃ (m : Nat) (ex : Int), parseUnsigned neg (fmtDec c ++ rest) =
      some (decodeNumber neg m ex, rest) ∧ m ≠ 0 ∧ decVal (m, ex) = decVal c := by
  obtain ⟨s, e⟩ := c
  simp only at hc
  have hAll := allDigits_toDigits s
  have hval := digitsValue_toDigits s
  obtain ⟨d, tl, hd, hpos, hds⟩ := toDigits_head s
  have hd0 : Nat.digitChar d ≠ '0' := digitChar_ne_zero d hd (hpos (Nat.pos_of_ne_zero hc))
  have hnd := numEnd_noDigit hrest
  have hdot : ∀ r, rest ≠ '.' :: r := fun r e => (hrest _ _ e).2.1 rfl
  have hexp : ∀ c r, rest = c :: r → c ≠ 'e' ∧ c ≠ 'E' := fun c r e => (hrest c r e).2.2
  unfold fmtDec
  simp only
  generalize hdsg : Nat.toDigits 10 s = ds at hAll hval hds
  have hne : ds ≠ [] := by rw [hds]; simp
  have hhead : ds.head? ≠ some '0' := by rw [hds]; simpa using hd0
  have hlen : 1 ≤ ds.length := by rw [hds]; simp
  split
  · -- digits followed by zeros
    rename_i h1
    refine ⟨s * 10 ^ e.toNat, 0, ?_, ?_, ?_⟩
    · unfold parseUnsigned
      have hi := readIntPart_digits (ds ++ List.replicate e.toNat '0') rest
        (allDigits_append hAll (allDigits_zeros _)) (by simp [hne])
        (Or.inr (by
          cases ds with
          | nil => exact absurd rfl hne
          | cons x xs => simpa using hhead)) hnd
      rw [digitsValue_append, hval, digitsValue_zeros] at hi
      rw [hi]
      simp only [readFraction_none _ _ hdot, readExponent_none _ hexp]
      simp
    · exact Nat.mul_ne_zero hc (by positivity)
    · simp only [decVal, pow10_nonneg_eq e h1.1]
      simp [pow10]
  split
  · -- a point inside the digits
    rename_i h1 h2
    have he : e < 0 := by
      by_contra hn
      exact h1 ⟨by omega, h2.2⟩
    have hn1 : (e + ds.length).toNat < ds.length := by omega
    have hn2 : 1 ≤ (e + ds.length).toNat := by omega
    refine ⟨s, e, ?_, hc, rfl⟩
    unfold parseUnsigned
    have htake : ds.take (e + ds.length).toNat ≠ [] := by
      intro e0
      have := congrArg List.length e0
      simp only [List.length_take, List.length_nil] at this
      omega
    have hdrop : ds.drop (e + ds.length).toNat ≠ [] := by
      intro e0
      have := congrArg List.length e0
      simp only [List.length_drop, List.length_nil] at this
      omega
    have hth : (ds.take (e + ds.length).toNat).head? ≠ some '0' := by
      cases ds with
      | nil => exact absurd rfl hne
      | cons x xs =>
        obtain ⟨j, hj⟩ : ∃ j, (e + ((x :: xs).length : Int)).toNat = j + 1 :=
          ⟨(e + ((x :: xs).length : Int)).toNat - 1, by omega⟩
        rw [hj]
        simpa using hhead
    have hi := readIntPart_digits (ds.take (e + ds.length).toNat)
      ('.' :: (ds.drop (e + ds.length).toNat ++ rest)) (allDigits_take hAll _) htake
      (Or.inr hth) (noDigit_dot _)
    have hf := readFraction_digits (digitsValue 0 (ds.take (e + ds.length).toNat))
      (ds.drop (e + ds.length).toNat) rest (allDigits_drop hAll _) hdrop hnd
    rw [← digitsValue_append, List.take_append_drop, hval] at hf
    have e1 : (ds.take (e + ds.length).toNat ++ '.' :: ds.drop (e + ds.length).toNat) ++ rest =
        ds.take (e + ds.length).toNat ++ '.' :: (ds.drop (e + ds.length).toNat ++ rest) := by
      simp
    rw [e1, hi]
    simp only [hf, readExponent_none _ hexp]
    have e2 : (0 : Int) - ((ds.drop (e + ds.length).toNat).length : Int) = e := by
      simp only [List.length_drop]
      omega
    rw [e2]
  split
  · -- zeros between the point and the digits
    rename_i h1 h2 h3
    refine ⟨s, e, ?_, hc, rfl⟩
    unfold parseUnsigned
    have hi := readIntPart_digits ['0']
      ('.' :: ((List.replicate (-(e + ds.length)).toNat '0' ++ ds) ++ rest))
      (allDigits_cons ⟨0, by decide⟩ allDigits_nil) (by simp) (Or.inl rfl) (noDigit_dot _)
    have hv0 : digitsValue 0 ['0'] = 0 := by decide
    rw [hv0] at hi
    have hf := readFraction_digits 0 (List.replicate (-(e + ds.length)).toNat '0' ++ ds) rest
      (allDigits_append (allDigits_zeros _) hAll) (by simp [hne]) hnd
    rw [digitsValue_append, digitsValue_zeros, Nat.zero_mul, hval] at hf
    have e1 : ('0' :: '.' :: (List.replicate (-(e + ds.length)).toNat '0' ++ ds)) ++ rest =
        ['0'] ++ '.' :: ((List.replicate (-(e + ds.length)).toNat '0' ++ ds) ++ rest) := by
      simp
    rw [e1, hi]
    simp only [hf, readExponent_none _ hexp]
    have e2 : (0 : Int) -
        ((List.replicate (-(e + ds.length)).toNat '0' ++ ds).length : Int) = e := by
      simp only [List.length_append, List.length_replicate]
      omega
    rw [e2]
  · -- the exponent form
    rename_i h1 h2 h3
    have hxAll := allDigits_toDigits (e + ds.length - 1).natAbs
    have hxval := digitsValue_toDigits (e + ds.length - 1).natAbs
    obtain ⟨dx, tlx, _, _, hxs⟩ := toDigits_head (e + ds.length - 1).natAbs
    generalize Nat.toDigits 10 (e + ds.length - 1).natAbs = xs at hxAll hxval hxs
    have hxne : xs ≠ [] := by rw [hxs]; simp
    have hx := readExponent_digits (decide (e + ds.length - 1 < 0)) xs rest hxAll hxne hnd
    have hsign : (if decide (e + (ds.length : Int) - 1 < 0) = true then '-' else '+') =
        (if e + (ds.length : Int) - 1 < 0 then '-' else '+') := by
      by_cases hlt : e + (ds.length : Int) - 1 < 0 <;> simp [hlt]
    rw [hsign, hxval] at hx
    have hexv : (if decide (e + (ds.length : Int) - 1 < 0) = true then
        -((e + (ds.length : Int) - 1).natAbs : Int)
        else ((e + (ds.length : Int) - 1).natAbs : Int)) = e + ds.length - 1 := by
      by_cases hlt : e + (ds.length : Int) - 1 < 0
      · simp only [hlt, decide_True, if_true]; omega
      · simp only [hlt, decide_False, Bool.false_eq_true, if_false]; omega
    rw [hexv] at hx
    refine ⟨s, e, ?_, hc, rfl⟩
    unfold parseUnsigned
    by_cases h4 : ds.length = 1
    · simp only [h4, if_true]
      rw [h4] at hx
      have hi := readIntPart_digits ds
        ('e' :: (if e + (ds.length : Int) - 1 < 0 then '-' else '+') :: (xs ++ rest)) hAll hne
        (Or.inl h4) (noDigit_e _)
      rw [hval, h4] at hi
      have e1 : (ds ++ 'e' :: (if e + ((1 : Nat) : Int) - 1 < 0 then '-' else '+') :: xs) ++
          rest = ds ++ 'e' :: (if e + ((1 : Nat) : Int) - 1 < 0 then '-' else '+') ::
            (xs ++ rest) := by simp
      have hfr := readFraction_none s
        ('e' :: (if e + ((1 : Nat) : Int) - 1 < 0 then '-' else '+') :: (xs ++ rest))
        (fun r e0 => by simp at e0)
      have e2 : e + ((1 : Nat) : Int) - 1 - ((0 : Nat) : Int) = e := by
        simp
      rw [e1, hi]
      simp only [hfr, hx, e2]
    · simp only [h4, if_false]
      have h5 : 2 ≤ ds.length := by omega
      have htake : ds.take 1 ≠ [] := by
        cases ds with
        | nil => exact absurd rfl hne
        | cons x xs1 => simp
      have hdrop : ds.drop 1 ≠ [] := by
        intro e0
        have := congrArg List.length e0
        simp only [List.length_drop, List.length_nil] at this
        omega
      have hi := readIntPart_digits (ds.take 1)
        ('.' :: (ds.drop 1 ++ 'e' :: (if e + (ds.length : Int) - 1 < 0 then '-' else '+') ::
          (xs ++ rest))) (allDigits_take hAll _) htake
        (Or.inl (by simp [List.length_take]; omega)) (noDigit_dot _)
      have hf := readFraction_digits (digitsValue 0 (ds.take 1)) (ds.drop 1)
        ('e' :: (if e + (ds.length : Int) - 1 < 0 then '-' else '+') :: (xs ++ rest))
        (allDigits_drop hAll _) hdrop (noDigit_e _)
      rw [← digitsValue_append, List.take_append_drop, hval] at hf
      have e1 : (ds.take 1 ++ '.' :: (ds.drop 1 ++
          'e' :: (if e + (ds.length : Int) - 1 < 0 then '-' else '+') :: xs)) ++ rest =
          ds.take 1 ++ '.' :: (ds.drop 1 ++
            'e' :: (if e + (ds.length : Int) - 1 < 0 then '-' else '+') :: (xs ++ rest)) := by
        simp
      rw [e1, hi]
      simp only [hf, hx]
      have e2 : e + (ds.length : Int) - 1 - ((ds.drop 1).length : Int) = e := by
        simp only [List.length_drop]
        omega
      rw [e2]

theorem digitChar_ne_minus : ∀ d, d < 10 → Nat.digitChar d ≠ '-' := by
  decide

theorem fmtDec_head (c : Nat × Int) : ∃ d tl, d < 10 ∧ fmtDec c = Nat.digitChar d :: tl := by
  obtain ⟨s, e⟩ := c
  obtain ⟨d, tl, hd, -, hds⟩ := toDigits_head s
  unfold fmtDec
  simp only
  generalize Nat.toDigits 10 s = ds at hds
  subst hds
  split
  · exact ⟨d, _, hd, rfl⟩
  split
  · rename_i h1 h2
    obtain ⟨j, hj⟩ : ∃ j, (e + ((Nat.digitChar d :: tl).length : Int)).toNat = j + 1 :=
      ⟨(e + ((Nat.digitChar d :: tl).length : Int)).toNat - 1, by omega⟩
    rw [hj]
    exact ⟨d, _, hd, rfl⟩
  split
  · exact ⟨0, _, by decide, rfl⟩
  · split
    · exact ⟨d, _, hd, rfl⟩
    · exact ⟨d, _, hd, rfl⟩

theorem posText_head (q : ℚ) :
    ∃ c r, posText q = c :: r ∧ (c = 'N' ∨ ∃ d, d < 10 ∧ c = Nat.digitChar d) := by
  unfold posText
  split
  · rename_i c _
    obtain ⟨d, tl, hd, e⟩ := fmtDec_head c
    exact ⟨_, _, e, Or.inr ⟨d, hd, rfl⟩⟩
  · exact ⟨'N', _, rfl, Or.inl rfl⟩

theorem numText_head (q : ℚ) :
    ∃ c r, (numText q).data = c :: r ∧
      (c = '-' ∨ c = 'N' ∨ ∃ d, d < 10 ∧ c = Nat.digitChar d) := by
  unfold numText
  split
  · exact ⟨'-', _, rfl, Or.inl rfl⟩
  · obtain ⟨c, r, e, h⟩ := posText_head q
    exact ⟨c, r, e, Or.inr h⟩

theorem toString_int_nonneg (m : Nat) : (toString (Int.ofNat m)).data = Nat.toDigits 10 m := rfl

theorem toString_int_neg (m : Nat) :
    (toString (Int.negSucc m)).data = '-' :: Nat.toDigits 10 (m + 1) := rfl

theorem intText_head (n : Int) :
    ∃ c r, (intText n).data = c :: r ∧
      (c = '-' ∨ c = 'N' ∨ ∃ d, d < 10 ∧ c = Nat.digitChar d) := by
  unfold intText
  split
  · cases n with
    | ofNat m =>
      obtain ⟨d, tl, hd, -, e⟩ := toDigits_head m
      exact ⟨_, _, (toString_int_nonneg m).trans e, Or.inr (Or.inr ⟨d, hd, rfl⟩)⟩
    | negSucc m => exact ⟨'-', _, toString_int_neg m, Or.inl rfl⟩
  · exact numText_head _

/-- The number read from digits and an exponent whose value rounds to the
double `p`. -/
theorem decodeNumber_double (neg : Bool) (m : Nat) (ex : Int) (p : ℚ) (hm : m ≠ 0)
    (hp : p ≠ 0) (h : toDouble (decVal (m, ex)) = some p) :
    decodeNumber neg m ex = ofRat (if neg then -p else p) := by
  unfold decodeNumber
  simp only [hm, if_false]
  by_cases hs : ex = 0 ∧ m < 2 ^ 53
  · obtain ⟨h0, hlt⟩ := hs
    have hv : decVal (m, ex) = (m : ℚ) := by
      rw [h0]; simp [decVal, pow10]
    rw [hv, toDouble_safe m hlt] at h
    simp only [Option.some.injEq] at h
    simp only [h0, hlt, and_self, if_true, ← h, ofRat]
    cases neg
    · simp
    · simp
  · simp only [hs, if_false, h, hp, ofRat]
    cases neg
    · simp
    · simp

theorem ofRat_intCast (n : Int) : ofRat (n : ℚ) = .num n := by
  simp [ofRat]

theorem parseUnsigned_posText (q : ℚ) (hq : 0 < q) (c : Nat × Int) (hc : shortest q = some c)
    (neg : Bool) (rest : List Char) (hrest : NumEnd rest) :
    parseUnsigned neg (posText q ++ rest) = some (ofRat (if neg then -q else q), rest) := by
  have hs := shortest_spec q c hc
  have hc0 := decimal_pos hs (ne_of_gt hq)
  obtain ⟨m, ex, hp, hm, hv⟩ := parseUnsigned_fmtDec neg c hc0 rest hrest
  have ht : posText q = fmtDec c := by
    unfold posText
    rw [hc]
  rw [ht, hp, decodeNumber_double neg m ex q hm (ne_of_gt hq) (by rw [hv]; exact hs)]

theorem parseUnsigned_numText (q : ℚ) (hq : 0 < q) (hd : toDouble q = some q) (neg : Bool)
    (rest : List Char) (hrest : NumEnd rest) :
    parseUnsigned neg (posText q ++ rest) = some (ofRat (if neg then -q else q), rest) := by
  obtain ⟨c, hc⟩ := shortest_isSome q hd
  exact parseUnsigned_posText q hq c hc neg rest hrest

theorem isDouble_abs {q : ℚ} (h : isDouble q = true) : toDouble |q| = some |q| := by
  simpa [isDouble] using h

/-- The text of a double that is not zero is read back as the double. -/
theorem parseNumber_numText (q : ℚ) (hq : q ≠ 0) (hd : isDouble q = true) (rest : List Char)
    (hrest : NumEnd rest) :
    parseNumber ((numText q).data ++ rest) = some (ofRat q, rest) := by
  have hda := isDouble_abs hd
  unfold numText
  by_cases hneg : q < 0
  · have habs : |q| = -q := abs_of_neg hneg
    rw [habs] at hda
    have := parseUnsigned_numText (-q) (by linarith) hda true rest hrest
    simp only [hneg, if_true, List.cons_append, parseNumber, this, neg_neg]
  · have hpos : 0 < q := lt_of_le_of_ne (not_lt.mp hneg) (Ne.symm hq)
    have habs : |q| = q := abs_of_pos hpos
    rw [habs] at hda
    have := parseUnsigned_numText q hpos hda false rest hrest
    obtain ⟨c, r, e, hh⟩ := posText_head q
    have hc : c ≠ '-' := by
      rcases hh with hh | ⟨d, hd, hh⟩
      · rw [hh]; decide
      · rw [hh]; exact digitChar_ne_minus d hd
    simp only [hneg, if_false]
    rw [e] at this ⊢
    simp only [List.cons_append, parseNumber, hc, if_false] at this ⊢
    simpa using this

theorem parseUnsigned_digits (neg : Bool) (n : Nat) (rest : List Char) (hrest : NumEnd rest) :
    parseUnsigned neg (Nat.toDigits 10 n ++ rest) = some (decodeNumber neg n 0, rest) := by
  obtain ⟨d, tl, hd, hpos, hds⟩ := toDigits_head n
  have hAll := allDigits_toDigits n
  have hval := digitsValue_toDigits n
  have hz : (Nat.toDigits 10 n).length = 1 ∨ (Nat.toDigits 10 n).head? ≠ some '0' := by
    by_cases h0 : n = 0
    · left; subst h0; rfl
    · right
      rw [hds]
      simpa using digitChar_ne_zero d hd (hpos (Nat.pos_of_ne_zero h0))
  have hi := readIntPart_digits (Nat.toDigits 10 n) rest hAll (by rw [hds]; simp) hz
    (numEnd_noDigit hrest)
  rw [hval] at hi
  unfold parseUnsigned
  rw [hi]
  simp only [readFraction_none _ _ (fun r e => (hrest _ _ e).2.1 rfl),
    readExponent_none _ (fun c r e => (hrest c r e).2.2)]
  simp

/-- The text of an integer that is a double is read back as the integer. -/
theorem parseNumber_intText (n : Int) (hd : isDouble (n : ℚ) = true) (rest : List Char)
    (hrest : NumEnd rest) :
    parseNumber ((intText n).data ++ rest) = some (.num n, rest) := by
  unfold intText
  split
  · rename_i hlt
    cases n with
    | ofNat m =>
      obtain ⟨d, tl, hd1, -, hds⟩ := toDigits_head m
      have hp := parseUnsigned_digits false m rest hrest
      have hc : Nat.digitChar d ≠ '-' := digitChar_ne_minus d hd1
      rw [toString_int_nonneg]
      rw [hds] at hp ⊢
      simp only [List.cons_append, parseNumber, hc, if_false] at hp ⊢
      rw [hp]
      have hlt : m < 2 ^ 53 := hlt
      unfold decodeNumber
      by_cases h0 : m = 0
      · simp [h0]
      · have hcond : (0 : Int) = 0 ∧ m < 2 ^ 53 := ⟨rfl, hlt⟩
        simp only [h0, if_false, hcond, and_self, if_true]
        simp
    | negSucc m =>
      have hp := parseUnsigned_digits true (m + 1) rest hrest
      rw [toString_int_neg]
      simp only [List.cons_append, parseNumber, if_true, hp]
      have hlt2 : m + 1 < 2 ^ 53 := by
        simpa [Int.natAbs_negSucc] using hlt
      unfold decodeNumber
      simp only [Nat.succ_ne_zero, if_false, hlt2, and_self, if_true]
      rw [Int.negSucc_eq]
      simp
  · rename_i hge
    have hn0 : (n : ℚ) ≠ 0 := by
      intro h0
      have : n = 0 := by exact_mod_cast h0
      subst this
      simp at hge
    rw [parseNumber_numText (n : ℚ) hn0 hd rest hrest, ofRat_intCast]

/-! ## Doubles: rounding twice -/

theorem pow2_zpow (e : Int) : pow2 e = (2 : ℚ) ^ e := by
  unfold pow2
  split
  · rename_i h
    obtain ⟨n, rfl⟩ := Int.eq_ofNat_of_zero_le h
    simp
  · rename_i h
    obtain ⟨n, rfl⟩ : ∃ n : Nat, e = -(n : Int) := ⟨(-e).toNat, by omega⟩
    simp

theorem bitsAux_spec (fuel : Nat) : ∀ (n acc : Nat), n ≤ fuel → n ≠ 0 →
    ∃ b, bitsAux fuel n acc = acc + (b + 1) ∧ 2 ^ b ≤ n ∧ n < 2 ^ (b + 1) := by
  induction fuel with
  | zero => intro n acc h hn; omega
  | succ fuel ih =>
    intro n acc h hn
    simp only [bitsAux, hn, if_false]
    by_cases h2 : n / 2 = 0
    · refine ⟨0, ?_, ?_, ?_⟩
      · rw [h2]
        cases fuel <;> simp [bitsAux]
      · simp; omega
      · simp; omega
    · obtain ⟨b, e, l, u⟩ := ih (n / 2) (acc + 1) (by omega) h2
      refine ⟨b + 1, by rw [e]; omega, ?_, ?_⟩
      · rw [pow_succ]; omega
      · rw [pow_succ]; omega

theorem bits_spec {n : Nat} (hn : n ≠ 0) : ∃ b, bits n = b + 1 ∧ 2 ^ b ≤ n ∧ n < 2 ^ (b + 1) := by
  obtain ⟨b, e, l, u⟩ := bitsAux_spec n n 0 (Nat.le_refl _) hn
  exact ⟨b, by simpa [bits] using e, l, u⟩

/-- The exponent `ilog2 q` is the one with `2 ^ d ≤ q < 2 ^ (d + 1)`. -/
theorem ilog2_spec {q : ℚ} (hq : 0 < q) :
    (2 : ℚ) ^ (ilog2 q) ≤ q ∧ q < (2 : ℚ) ^ (ilog2 q + 1) := by
  have hnum : 0 < q.num := Rat.num_pos.mpr hq
  have hn0 : q.num.natAbs ≠ 0 := by omega
  obtain ⟨a, ea, la, ua⟩ := bits_spec hn0
  obtain ⟨b, eb, lb, ub⟩ := bits_spec q.den_nz
  have hqe : q = (q.num.natAbs : ℚ) / (q.den : ℚ) := by
    have h2 : ((q.num.natAbs : Nat) : ℚ) = (q.num : ℚ) := by
      rw [Nat.cast_natAbs, abs_of_pos (by exact_mod_cast hnum)]
    rw [h2]
    exact (Rat.num_div_den q).symm
  have hden : (0 : ℚ) < q.den := by exact_mod_cast q.den_pos
  have la2 : (2 : ℚ) ^ (a : Int) ≤ (q.num.natAbs : ℚ) := by
    rw [zpow_natCast]; exact_mod_cast la
  have ua2 : (q.num.natAbs : ℚ) < (2 : ℚ) ^ ((a : Int) + 1) := by
    have : (q.num.natAbs : ℚ) < (2 : ℚ) ^ (a + 1) := by exact_mod_cast ua
    rwa [← zpow_natCast, Nat.cast_add, Nat.cast_one] at this
  have lb2 : (2 : ℚ) ^ (b : Int) ≤ (q.den : ℚ) := by
    rw [zpow_natCast]; exact_mod_cast lb
  have ub2 : (q.den : ℚ) < (2 : ℚ) ^ ((b : Int) + 1) := by
    have : (q.den : ℚ) < (2 : ℚ) ^ (b + 1) := by exact_mod_cast ub
    rwa [← zpow_natCast, Nat.cast_add, Nat.cast_one] at this
  have h2 : (0 : ℚ) < 2 := by norm_num
  have hlow : (2 : ℚ) ^ ((a : Int) - b - 1) < q := by
    rw [hqe, lt_div_iff₀ hden]
    calc (2 : ℚ) ^ ((a : Int) - b - 1) * q.den
        < (2 : ℚ) ^ ((a : Int) - b - 1) * (2 : ℚ) ^ ((b : Int) + 1) :=
          mul_lt_mul_of_pos_left ub2 (zpow_pos h2 _)
      _ = (2 : ℚ) ^ (a : Int) := by
          rw [← zpow_add₀ (ne_of_gt h2)]; congr 1; ring
      _ ≤ q.num.natAbs := la2
  have hup : q < (2 : ℚ) ^ ((a : Int) - b + 1) := by
    rw [hqe, div_lt_iff₀ hden]
    calc (q.num.natAbs : ℚ) < (2 : ℚ) ^ ((a : Int) + 1) := ua2
      _ = (2 : ℚ) ^ ((a : Int) - b + 1) * (2 : ℚ) ^ (b : Int) := by
          rw [← zpow_add₀ (ne_of_gt h2)]; congr 1; ring
      _ ≤ (2 : ℚ) ^ ((a : Int) - b + 1) * q.den :=
          mul_le_mul_of_nonneg_left lb2 (le_of_lt (zpow_pos h2 _))
  have hd : ((bits q.num.natAbs : Int) - (bits q.den : Int)) = (a : Int) - b := by
    rw [ea, eb]; push_cast; ring
  unfold ilog2
  simp only [hd, pow2_zpow]
  split
  · rename_i h
    exact ⟨h, hup⟩
  · rename_i h
    refine ⟨le_of_lt hlow, ?_⟩
    have : (a : Int) - b - 1 + 1 = (a : Int) - b := by ring
    rw [this]
    exact not_le.mp h

theorem zpow_two_lt {a b : Int} (h : (2 : ℚ) ^ a < (2 : ℚ) ^ b) : a < b := by
  by_contra hc
  have : (2 : ℚ) ^ b ≤ (2 : ℚ) ^ a := zpow_le_zpow_right₀ (by norm_num) (not_lt.mp hc)
  exact absurd h (not_lt.mpr this)

/-- The exponent is determined by the two bounds. -/
theorem ilog2_unique {q : ℚ} {d : Int} (h1 : (2 : ℚ) ^ d ≤ q) (h2 : q < (2 : ℚ) ^ (d + 1)) :
    ilog2 q = d := by
  have hq : 0 < q := lt_of_lt_of_le (zpow_pos (by norm_num) _) h1
  obtain ⟨l, u⟩ := ilog2_spec hq
  have a1 : d < ilog2 q + 1 := zpow_two_lt (lt_of_le_of_lt h1 u)
  have a2 : ilog2 q < d + 1 := zpow_two_lt (lt_of_le_of_lt l h2)
  omega

theorem zpow_two_le {a b : Int} (h : (2 : ℚ) ^ a ≤ (2 : ℚ) ^ b) : a ≤ b := by
  by_contra hc
  have h1 : (2 : ℚ) ^ (b + 1) ≤ (2 : ℚ) ^ a := zpow_le_zpow_right₀ (by norm_num) (by omega)
  have h2 : (2 : ℚ) ^ b < (2 : ℚ) ^ (b + 1) := by
    rw [zpow_add₀ (by norm_num : (2 : ℚ) ≠ 0), zpow_one]
    have : (0 : ℚ) < (2 : ℚ) ^ b := zpow_pos (by norm_num) _
    linarith
  linarith

theorem floor_bounds {x : ℚ} (hx : 0 ≤ x) :
    ((x.floor.toNat : Nat) : ℚ) ≤ x ∧ x < ((x.floor.toNat : Nat) : ℚ) + 1 := by
  have h0 : (0 : Int) ≤ x.floor := Rat.le_floor.mpr (by simpa using hx)
  have hc : ((x.floor.toNat : Nat) : ℚ) = ((x.floor : Int) : ℚ) := by
    have : ((x.floor.toNat : Nat) : Int) = x.floor := Int.toNat_of_nonneg h0
    exact_mod_cast this
  rw [hc]
  constructor
  · exact Rat.le_floor.mp (le_refl _)
  · by_contra hlt
    have : x.floor + 1 ≤ x.floor := Rat.le_floor.mpr (by push_cast; exact not_lt.mp hlt)
    omega

theorem roundHalfEven_ge {x : ℚ} {n : Nat} (hx : 0 ≤ x) (h : (n : ℚ) ≤ x) :
    n ≤ roundHalfEven x := by
  obtain ⟨-, u⟩ := floor_bounds hx
  have hf : n ≤ x.floor.toNat := by
    have : (n : ℚ) < ((x.floor.toNat : Nat) : ℚ) + 1 := lt_of_le_of_lt h u
    have : (n : ℚ) < ((x.floor.toNat + 1 : Nat) : ℚ) := by push_cast; exact this
    have := Nat.cast_lt.mp this
    omega
  unfold roundHalfEven
  simp only []
  split
  · exact hf
  · split
    · omega
    · split <;> omega

theorem roundHalfEven_le {x : ℚ} {n : Nat} (hx : 0 ≤ x) (h : x ≤ (n : ℚ)) :
    roundHalfEven x ≤ n := by
  obtain ⟨l, -⟩ := floor_bounds hx
  have hf : x.floor.toNat ≤ n := by
    have : ((x.floor.toNat : Nat) : ℚ) ≤ (n : ℚ) := le_trans l h
    exact Nat.cast_le.mp this
  have hstep : (1 : ℚ) / 2 ≤ x - ((x.floor.toNat : Nat) : ℚ) → x.floor.toNat + 1 ≤ n := by
    intro hr
    have : ((x.floor.toNat : Nat) : ℚ) < (n : ℚ) := by linarith
    have := Nat.cast_lt.mp this
    omega
  unfold roundHalfEven
  simp only []
  split
  · exact hf
  · rename_i h1
    have hr := hstep (not_lt.mp h1)
    split
    · exact hr
    · split
      · exact hf
      · exact hr

theorem toDouble_grid (r : ℚ) (e : Int) (k : Nat) (hr : r = (k : ℚ) * (2 : ℚ) ^ e)
    (he : max (ilog2 r - 52) (-1074) = e) (hov : ¬ pow2 1024 ≤ r) : toDouble r = some r := by
  have hp : (0 : ℚ) < (2 : ℚ) ^ e := zpow_pos (by norm_num) _
  have hx : r / pow2 e = (k : ℚ) := by
    rw [pow2_zpow, hr]
    field_simp
  have hv : (k : ℚ) * pow2 e = r := by rw [pow2_zpow, hr]
  unfold toDouble nearest
  simp only [he, hx, roundHalfEven_nat, hv, hov, if_false, Option.map_some']

/-- Rounding is idempotent: the value of a nearest double is a double. -/
theorem toDouble_idem {q r : ℚ} (hq : 0 ≤ q) (h : toDouble q = some r) (hr : r ≠ 0) :
    toDouble r = some r := by
  have h2 : (2 : ℚ) ≠ 0 := by norm_num
  have c52 : (((2 ^ 52 : Nat) : ℚ)) = (2 : ℚ) ^ (52 : Int) := by norm_num
  have c53 : (((2 ^ 53 : Nat) : ℚ)) = (2 : ℚ) ^ (53 : Int) := by norm_num
  unfold toDouble nearest at h
  simp only [] at h
  split at h
  · simp at h
  · rename_i hov
    simp only [Option.map_some', Option.some.injEq] at h
    have hqpos : 0 < q := by
      rcases eq_or_lt_of_le hq with e0 | e0
      · exfalso
        apply hr
        have hz : roundHalfEven (0 : ℚ) = 0 := by exact_mod_cast roundHalfEven_nat 0
        rw [← h, ← e0, zero_div, hz]
        simp
      · exact e0
    obtain ⟨l, u⟩ := ilog2_spec hqpos
    have hov2 : ¬ pow2 1024 ≤ r := by rw [← h]; exact hov
    have hpe : ∀ e : Int, (0 : ℚ) < (2 : ℚ) ^ e := fun e => zpow_pos (by norm_num) _
    by_cases hn : (-1074 : Int) ≤ ilog2 q - 52
    · have he : max (ilog2 q - 52) (-1074) = ilog2 q - 52 := max_eq_left hn
      rw [he, pow2_zpow] at h
      have hx0 : 0 ≤ q / (2 : ℚ) ^ (ilog2 q - 52) := le_of_lt (div_pos hqpos (hpe _))
      have hlo : (((2 ^ 52 : Nat) : ℚ)) ≤ q / (2 : ℚ) ^ (ilog2 q - 52) := by
        rw [c52, le_div_iff₀ (hpe _), ← zpow_add₀ h2]
        have : (52 : Int) + (ilog2 q - 52) = ilog2 q := by ring
        rw [this]
        exact l
      have hhi : q / (2 : ℚ) ^ (ilog2 q - 52) ≤ (((2 ^ 53 : Nat) : ℚ)) := by
        rw [c53, div_le_iff₀ (hpe _), ← zpow_add₀ h2]
        have : (53 : Int) + (ilog2 q - 52) = ilog2 q + 1 := by ring
        rw [this]
        exact le_of_lt u
      have m1 := roundHalfEven_ge hx0 hlo
      have m2 := roundHalfEven_le hx0 hhi
      generalize roundHalfEven (q / (2 : ℚ) ^ (ilog2 q - 52)) = m at h m1 m2
      have m1q : (2 : ℚ) ^ (52 : Int) ≤ (m : ℚ) := by rw [← c52]; exact_mod_cast m1
      by_cases hm : m = 2 ^ 53
      · have hrv : r = (2 : ℚ) ^ (ilog2 q + 1) := by
          rw [← h, hm, c53, ← zpow_add₀ h2]
          congr 1; ring
        have hi : ilog2 r = ilog2 q + 1 := by
          apply ilog2_unique
          · rw [hrv]
          · rw [hrv]
            have : (2 : ℚ) ^ (ilog2 q + 1 + 1) = (2 : ℚ) ^ (ilog2 q + 1) * 2 := by
              rw [zpow_add₀ h2 (ilog2 q + 1) 1, zpow_one]
            rw [this]
            have := hpe (ilog2 q + 1)
            linarith
        apply toDouble_grid r (ilog2 q - 51) (2 ^ 52)
        · rw [hrv, c52, ← zpow_add₀ h2]
          congr 1; ring
        · rw [hi]
          have : ilog2 q + 1 - 52 = ilog2 q - 51 := by ring
          rw [this]
          exact max_eq_left (by omega)
        · exact hov2
      · have hm3 : m < 2 ^ 53 := lt_of_le_of_ne m2 hm
        have m3q : (m : ℚ) < (2 : ℚ) ^ (53 : Int) := by rw [← c53]; exact_mod_cast hm3
        have hi : ilog2 r = ilog2 q := by
          apply ilog2_unique
          · rw [← h]
            have : (2 : ℚ) ^ (ilog2 q) = (2 : ℚ) ^ (52 : Int) * (2 : ℚ) ^ (ilog2 q - 52) := by
              rw [← zpow_add₀ h2]; congr 1; ring
            rw [this]
            exact mul_le_mul_of_nonneg_right m1q (le_of_lt (hpe _))
          · rw [← h]
            have : (2 : ℚ) ^ (ilog2 q + 1) =
                (2 : ℚ) ^ (53 : Int) * (2 : ℚ) ^ (ilog2 q - 52) := by
              rw [← zpow_add₀ h2]; congr 1; ring
            rw [this]
            exact mul_lt_mul_of_pos_right m3q (hpe _)
        apply toDouble_grid r (ilog2 q - 52) m h.symm
        · rw [hi]
          exact he
        · exact hov2
    · have hn2 : ilog2 q - 52 < -1074 := not_le.mp hn
      have he : max (ilog2 q - 52) (-1074) = -1074 := max_eq_right (le_of_lt hn2)
      rw [he, pow2_zpow] at h
      have hx0 : 0 ≤ q / (2 : ℚ) ^ (-1074 : Int) := le_of_lt (div_pos hqpos (hpe _))
      have hhi : q / (2 : ℚ) ^ (-1074 : Int) ≤ (((2 ^ 52 : Nat) : ℚ)) := by
        rw [c52, div_le_iff₀ (hpe _), ← zpow_add₀ h2]
        have h3 : (2 : ℚ) ^ (ilog2 q + 1) ≤ (2 : ℚ) ^ ((52 : Int) + -1074) :=
          zpow_le_zpow_right₀ (by norm_num) (by omega)
        exact le_trans (le_of_lt u) h3
      have m2 := roundHalfEven_le hx0 hhi
      generalize roundHalfEven (q / (2 : ℚ) ^ (-1074 : Int)) = m at h m2
      have m2q : (m : ℚ) ≤ (2 : ℚ) ^ (52 : Int) := by rw [← c52]; exact_mod_cast m2
      have hrpos : 0 < r := by
        have hm0 : (0 : ℚ) ≤ (m : ℚ) := Nat.cast_nonneg m
        have : 0 ≤ r := by rw [← h]; exact mul_nonneg hm0 (le_of_lt (hpe _))
        exact lt_of_le_of_ne this (Ne.symm hr)
      obtain ⟨l2, -⟩ := ilog2_spec hrpos
      have hrle : r ≤ (2 : ℚ) ^ (-1022 : Int) := by
        rw [← h]
        have : (2 : ℚ) ^ (-1022 : Int) = (2 : ℚ) ^ (52 : Int) * (2 : ℚ) ^ (-1074 : Int) := by
          rw [← zpow_add₀ h2]; congr 1
        rw [this]
        exact mul_le_mul_of_nonneg_right m2q (le_of_lt (hpe _))
      have hi : ilog2 r ≤ -1022 := zpow_two_le (le_trans l2 hrle)
      apply toDouble_grid r (-1074) m h.symm
      · exact max_eq_right (by omega)
      · exact hov2

/-! ## Decoding what `JSON.stringify` writes: strings -/

theorem parseStr_plain (c : Char) (tail : List Char) (h1 : c ≠ '"') (h2 : c ≠ '\\')
    (h3 : ¬ c.toNat < 32) :
    parseStr (c :: tail) = (parseStr tail).map (fun p => (.chr c :: p.1, p.2)) := by
  rw [parseStr.eq_def]
  simp [h1, h2, h3]

theorem parseStr_quote (rest : List Char) : parseStr ('"' :: rest) = some ([], rest) := by
  rw [parseStr.eq_def]
  simp

theorem parseStr_escape (x y : Char) (tail : List Char) (hx : x ≠ 'u')
    (h : unescape x = some y) :
    parseStr ('\\' :: x :: tail) = (parseStr tail).map (fun p => (.chr y :: p.1, p.2)) := by
  rw [parseStr.eq_def]
  simp [hx, h]

theorem parseStr_hex (h1 h2 h3 h4 : Char) (n : Nat) (tail : List Char)
    (h : hex4 h1 h2 h3 h4 = some n) :
    parseStr ('\\' :: 'u' :: h1 :: h2 :: h3 :: h4 :: tail) =
      (parseStr tail).map (fun p => (.esc n :: p.1, p.2)) := by
  rw [parseStr.eq_def]
  simp [h]

theorem hex4_low : ∀ n, n < 32 → hex4 '0' '0' (hexDigit (n / 16)) (hexDigit (n % 16)) = some n := by
  decide

theorem decodeUnits_esc_low (n : Nat) (h : n < 55296) (us : List StrUnit) :
    decodeUnits (.esc n :: us) = Char.ofNat n :: decodeUnits us := by
  have h1 : ¬ (55296 ≤ n) := by omega
  have h2 : ¬ (56320 ≤ n) := by omega
  cases us with
  | nil => simp [decodeUnits, h1]
  | cons u us =>
    cases u with
    | chr c => simp [decodeUnits, h1]
    | esc m => simp [decodeUnits, h1, h2]

theorem char_of_toNat (c : Char) (n : Nat) (h : c.toNat = n) : c = Char.ofNat n := by
  subst h
  exact (Char.ofNat_toNat c).symm

/-- One character of a quoted string is read back as one unit that decodes to it. -/
theorem parseStr_quoteChar (c : Char) :
    ∃ u, (∀ tail, parseStr (quoteChar c ++ tail) =
        (parseStr tail).map (fun p => (u :: p.1, p.2))) ∧
      (∀ us, decodeUnits (u :: us) = c :: decodeUnits us) := by
  unfold quoteChar
  split
  · rename_i h; subst h
    exact ⟨.chr '"', fun tail => parseStr_escape '"' _ tail (by decide) (by decide),
      fun us => rfl⟩
  split
  · rename_i h; subst h
    exact ⟨.chr '\\', fun tail => parseStr_escape '\\' _ tail (by decide) (by decide),
      fun us => rfl⟩
  split
  · rename_i h
    have := char_of_toNat c 8 h; subst this
    exact ⟨.chr (Char.ofNat 8), fun tail => parseStr_escape 'b' _ tail (by decide) (by decide),
      fun us => rfl⟩
  split
  · rename_i h
    have := char_of_toNat c 9 h; subst this
    exact ⟨.chr '\t', fun tail => parseStr_escape 't' _ tail (by decide) (by decide),
      fun us => rfl⟩
  split
  · rename_i h
    have := char_of_toNat c 10 h; subst this
    exact ⟨.chr '\n', fun tail => parseStr_escape 'n' _ tail (by decide) (by decide),
      fun us => rfl⟩
  split
  · rename_i h
    have := char_of_toNat c 12 h; subst this
    exact ⟨.chr (Char.ofNat 12), fun tail => parseStr_escape 'f' _ tail (by decide) (by decide),
      fun us => rfl⟩
  split
  · rename_i h
    have := char_of_toNat c 13 h; subst this
    exact ⟨.chr '\r', fun tail => parseStr_escape 'r' _ tail (by decide) (by decide),
      fun us => rfl⟩
  split
  · rename_i h
    refine ⟨.esc c.toNat, fun tail => ?_, fun us => ?_⟩
    · exact parseStr_hex _ _ _ _ _ tail (hex4_low c.toNat h)
    · rw [decodeUnits_esc_low _ (by omega), Char.ofNat_toNat]
  · rename_i h1 h2 h3 h4 h5 h6 h7 h8
    exact ⟨.chr c, fun tail => parseStr_plain c tail h1 h2 h8, fun us => rfl⟩

theorem parseStr_quoteChars (cs : List Char) (rest : List Char) :
    ∃ us, parseStr (quoteChars cs ++ '"' :: rest) = some (us, rest) ∧ decodeUnits us = cs := by
  induction cs with
  | nil => exact ⟨[], by simp [quoteChars, parseStr_quote], rfl⟩
  | cons c cs ih =>
    obtain ⟨us, h1, h2⟩ := ih
    obtain ⟨u, hu1, hu2⟩ := parseStr_quoteChar c
    refine ⟨u :: us, ?_, ?_⟩
    · simp only [quoteChars, List.append_assoc]
      rw [hu1, h1]
      rfl
    · rw [hu2, h2]

/-! ## Decoding what `JSON.stringify` writes: white space and first characters -/

theorem white_nil : White [] := fun _ h => by simp at h

theorem white_append {a b : List Char} (ha : White a) (hb : White b) : White (a ++ b) := by
  intro c hc
  rcases List.mem_append.mp hc with h | h
  · exact ha c h
  · exact hb c h

theorem white_cons {c : Char} {w : List Char} (hc : isJsonSpace c = true) (hw : White w) :
    White (c :: w) := by
  intro d hd
  rcases List.mem_cons.mp hd with h | h
  · rw [h]; exact hc
  · exact hw d h

theorem white_gapOf (space : Int) : White (gapOf space) := by
  intro c hc
  simp only [gapOf, List.mem_replicate] at hc
  rw [hc.2]; decide

theorem skipSpace_white (w l : List Char) (hw : White w) : skipSpace (w ++ l) = skipSpace l := by
  induction w with
  | nil => rfl
  | cons c w ih =>
    have hc : isJsonSpace c = true := hw c (List.mem_cons_self _ _)
    simp only [List.cons_append, skipSpace, hc, if_true]
    exact ih (fun d hd => hw d (List.mem_cons_of_mem _ hd))

theorem skipSpace_start (c : Char) (l : List Char) (hc : isJsonSpace c = false) :
    skipSpace (c :: l) = c :: l := by
  simp [skipSpace, hc]

theorem numEnd_nil : NumEnd [] := fun _ _ h => by simp at h

theorem numEnd_cons (c : Char) (r : List Char)
    (h : digitVal 10 c = none ∧ c ≠ '.' ∧ c ≠ 'e' ∧ c ≠ 'E') : NumEnd (c :: r) := by
  intro d r1 e
  simp only [List.cons.injEq] at e
  rw [← e.1]; exact h

theorem numEnd_white {c : Char} (hc : isJsonSpace c = true) :
    digitVal 10 c = none ∧ c ≠ '.' ∧ c ≠ 'e' ∧ c ≠ 'E' := by
  simp only [isJsonSpace, Bool.or_eq_true, decide_eq_true_eq] at hc
  rcases hc with ((h | h) | h) | h <;> subst h <;> decide

/-- White space followed by a closing character ends a number token. -/
theorem numEnd_close (w : List Char) (c : Char) (r : List Char) (hw : White w)
    (hc : digitVal 10 c = none ∧ c ≠ '.' ∧ c ≠ 'e' ∧ c ≠ 'E') : NumEnd (w ++ c :: r) := by
  cases w with
  | nil => exact numEnd_cons c r hc
  | cons d w => exact numEnd_cons d _ (numEnd_white (hw d (List.mem_cons_self _ _)))

theorem start_digitChar : ∀ d, d < 10 → Start (Nat.digitChar d) ∧ Nat.digitChar d ≠ '\x7b' ∧
    Nat.digitChar d ≠ '[' ∧ Nat.digitChar d ≠ '"' ∧ Nat.digitChar d ≠ 't' ∧
    Nat.digitChar d ≠ 'f' ∧ Nat.digitChar d ≠ 'n' ∧ Nat.digitChar d ≠ '-' := by
  unfold Start
  decide

theorem start_head {c : Char}
    (h : c = '-' ∨ c = 'N' ∨ ∃ d, d < 10 ∧ c = Nat.digitChar d) : Start c := by
  rcases h with h | h | ⟨d, hd, h⟩
  · rw [h]; unfold Start; decide
  · rw [h]; unfold Start; decide
  · rw [h]; exact (start_digitChar d hd).1

/-- The text of a value starts with a character that is not white space and
closes nothing. -/
theorem serVal_head (gap ind : List Char) (v : JsVal) :
    ∃ c r, (serVal gap ind v).getD "null".data = c :: r ∧ Start c := by
  cases v with
  | undefined => exact ⟨'n', _, rfl, by unfold Start; decide⟩
  | null => exact ⟨'n', _, rfl, by unfold Start; decide⟩
  | bool b => cases b <;> exact ⟨_, _, rfl, by unfold Start; decide⟩
  | num n =>
    obtain ⟨c, r, e, h⟩ := intText_head n
    exact ⟨c, r, by simpa [serVal] using e, start_head h⟩
  | dbl x =>
    cases x with
    | frac q =>
      obtain ⟨c, r, e, h⟩ := numText_head q
      exact ⟨c, r, by simpa [serVal] using e, start_head h⟩
    | negZero => exact ⟨'0', _, rfl, by unfold Start; decide⟩
    | inf neg => exact ⟨'n', _, rfl, by unfold Start; decide⟩
    | nan => exact ⟨'n', _, rfl, by unfold Start; decide⟩
  | str s => exact ⟨'"', _, rfl, by unfold Start; decide⟩
  | arr xs =>
    simp only [serVal, Option.getD_some, wrapSeq]
    split
    · exact ⟨'[', _, rfl, by unfold Start; decide⟩
    · split <;> exact ⟨'[', _, rfl, by unfold Start; decide⟩
  | obj kvs =>
    simp only [serVal, Option.getD_some, wrapSeq]
    split
    · exact ⟨_, _, rfl, by unfold Start; decide⟩
    · split <;> exact ⟨_, _, rfl, by unfold Start; decide⟩

theorem serVal_decoded (gap ind : List Char) {v : JsVal} (h : isDecoded v = true) :
    ∃ t, serVal gap ind v = some t :=
  serVal_isSome gap ind (noUndef_ne_undefined (isDecoded_noUndef v h))

/-! ## Decoding what `JSON.stringify` writes: the order of the keys -/

theorem keysInOrder_iff (ks : List String) :
    keysInOrder ks = true ↔ ks.Pairwise (fun a b => keyBefore a b = true) := by
  induction ks with
  | nil => simp [keysInOrder]
  | cons k ks ih => simp [keysInOrder, ih, List.pairwise_cons]

theorem hasProp_false {o : Props} {k : String} (h : ∀ p ∈ o, p.1 ≠ k) : hasProp o k = false := by
  simp only [hasProp, List.any_eq_false, beq_iff_eq]
  exact fun p hp => h p hp

theorem insertNew_append (o : Props) (k : String) (v : JsVal)
    (h : ∀ p ∈ o, keyBefore p.1 k = true) : insertNew (arrayIndex k) o k v = o ++ [(k, v)] := by
  induction o with
  | nil => rfl
  | cons q o ih =>
    obtain ⟨k1, w⟩ := q
    have hq := h (k1, w) (List.mem_cons_self _ _)
    have ho := ih (fun p hp => h p (List.mem_cons_of_mem _ hp))
    simp only [keyBefore, Bool.and_eq_true] at hq
    simp only [insertNew, List.cons_append]
    cases hk : arrayIndex k with
    | none => simp only [hk] at ho ⊢; rw [ho]
    | some i =>
      simp only [hk] at ho hq ⊢
      cases hk1 : arrayIndex k1 with
      | none => simp [hk1] at hq
      | some j =>
        simp only [hk1, decide_eq_true_eq] at hq ⊢
        simp only [hq.2, if_true]
        rw [ho]

theorem insertMember_append (o : Props) (k : String) (v : JsVal)
    (h : ∀ p ∈ o, keyBefore p.1 k = true) : insertMember o k v = o ++ [(k, v)] := by
  have hne : ∀ p ∈ o, p.1 ≠ k := by
    intro p hp
    have := h p hp
    simp only [keyBefore, Bool.and_eq_true, bne_iff_ne] at this
    exact this.1
  simp only [insertMember, hasProp_false hne, Bool.false_eq_true, if_false]
  exact insertNew_append o k v h

/-- Decoding the members of a record whose keys are in order, one after the
other, gives the record. -/
theorem foldl_insertMember (kvs acc : Props)
    (h : keysInOrder ((acc ++ kvs).map Prod.fst) = true) :
    kvs.foldl (fun a p => insertMember a p.1 p.2) acc = acc ++ kvs := by
  induction kvs generalizing acc with
  | nil => simp
  | cons q kvs ih =>
    obtain ⟨k, v⟩ := q
    have hp := (keysInOrder_iff _).mp h
    simp only [List.map_append, List.map_cons, List.pairwise_append, List.pairwise_cons] at hp
    have hins : insertMember acc k v = acc ++ [(k, v)] := by
      apply insertMember_append
      intro p hp1
      exact hp.2.2 p.1 (List.mem_map_of_mem _ hp1) k (List.mem_cons_self _ _)
    simp only [List.foldl_cons, hins]
    rw [ih]
    · simp
    · simpa using h

/-! ## Decoding what `JSON.stringify` writes: values without parts -/

theorem parseValue_null (fuel : Nat) (rest : List Char) :
    parseValue (fuel + 1) ("null".data ++ rest) = some (.null, rest) := by
  show parseValue (fuel + 1) ('n' :: 'u' :: 'l' :: 'l' :: rest) = _
  rw [parseValue]
  simp [parseLiteral, dropWord]

theorem parseValue_true (fuel : Nat) (rest : List Char) :
    parseValue (fuel + 1) ("true".data ++ rest) = some (.bool true, rest) := by
  show parseValue (fuel + 1) ('t' :: 'r' :: 'u' :: 'e' :: rest) = _
  rw [parseValue]
  simp [parseLiteral, dropWord]

theorem parseValue_false (fuel : Nat) (rest : List Char) :
    parseValue (fuel + 1) ("false".data ++ rest) = some (.bool false, rest) := by
  show parseValue (fuel + 1) ('f' :: 'a' :: 'l' :: 's' :: 'e' :: rest) = _
  rw [parseValue]
  simp [parseLiteral, dropWord]

theorem parseValue_str (fuel : Nat) (s : String) (rest : List Char) :
    parseValue (fuel + 1) (quoteData s ++ rest) = some (.str s, rest) := by
  obtain ⟨us, h1, h2⟩ := parseStr_quoteChars s.data rest
  show parseValue (fuel + 1) ('"' :: (quoteChars s.data ++ ['"'] ++ rest)) = _
  rw [parseValue]
  simp [h1, h2]

theorem parseValue_number (fuel : Nat) (cs : List Char) (c : Char) (r : List Char)
    (he : cs = c :: r)
    (hc : c = '-' ∨ c = 'N' ∨ ∃ d, d < 10 ∧ c = Nat.digitChar d) :
    parseValue (fuel + 1) cs = parseNumber cs := by
  have h : c ≠ '\x7b' ∧ c ≠ '[' ∧ c ≠ '"' ∧ c ≠ 't' ∧ c ≠ 'f' ∧ c ≠ 'n' := by
    rcases hc with hc | hc | ⟨d, hd, hc⟩
    · rw [hc]; decide
    · rw [hc]; decide
    · rw [hc]
      obtain ⟨-, h1, h2, h3, h4, h5, h6, -⟩ := start_digitChar d hd
      exact ⟨h1, h2, h3, h4, h5, h6⟩
  obtain ⟨h1, h2, h3, h4, h5, h6⟩ := h
  rw [he, parseValue]
  simp [h1, h2, h3, h4, h5, h6]

theorem parseValue_num (fuel : Nat) (n : Int) (hd : isDouble (n : ℚ) = true) (rest : List Char)
    (h : NumEnd rest) :
    parseValue (fuel + 1) ((intText n).data ++ rest) = some (.num n, rest) := by
  obtain ⟨c, r, e, hc⟩ := intText_head n
  rw [parseValue_number fuel _ c (r ++ rest) (by rw [e]; rfl) hc]
  exact parseNumber_intText n hd rest h

theorem parseValue_frac (fuel : Nat) (q : ℚ) (hd : isDouble q = true) (hden : q.den ≠ 1)
    (rest : List Char) (h : NumEnd rest) :
    parseValue (fuel + 1) ((numText q).data ++ rest) = some (.dbl (.frac q), rest) := by
  obtain ⟨c, r, e, hc⟩ := numText_head q
  have hq : q ≠ 0 := by
    intro h0
    rw [h0] at hden
    exact hden rfl
  rw [parseValue_number fuel _ c (r ++ rest) (by rw [e]; rfl) hc]
  rw [parseNumber_numText q hq hd rest h]
  simp [ofRat, hden]

/-! ## Decoding what `JSON.stringify` writes: arrays and objects -/

theorem wrapSeq_parts (gap ind : List Char) (o c : Char) (parts : List (List Char))
    (hg : White gap) (hi : White ind) (hp : parts ≠ []) :
    ∃ w0 w1 w2, White w0 ∧ White w1 ∧ White w2 ∧
      wrapSeq gap ind o c parts = o :: (w0 ++ (joinChars (',' :: w1) parts ++ (w2 ++ [c]))) := by
  have hnl : isJsonSpace '\n' = true := by decide
  unfold wrapSeq
  have hpe : parts.isEmpty = false := by
    cases parts with
    | nil => exact absurd rfl hp
    | cons a b => rfl
  simp only [hpe, Bool.false_eq_true, if_false]
  split
  · exact ⟨[], [], [], white_nil, white_nil, white_nil, by simp⟩
  · exact ⟨'\n' :: (ind ++ gap), '\n' :: (ind ++ gap), '\n' :: ind,
      white_cons hnl (white_append hi hg), white_cons hnl (white_append hi hg),
      white_cons hnl hi, by simp⟩

theorem joinChars_cons2 (sep a b : List Char) (r : List (List Char)) :
    joinChars sep (a :: b :: r) = a ++ sep ++ joinChars sep (b :: r) := rfl

theorem serElems_ne_nil (gap ind : List Char) (x : JsVal) (xs : List JsVal) :
    serElems gap ind (x :: xs) ≠ [] := by
  simp [serElems]

/-- A nonempty joined list of element texts starts like a value. -/
theorem joinChars_serElems_head (gap ind sep : List Char) (x : JsVal) (xs : List JsVal) :
    ∃ c r, joinChars sep (serElems gap ind (x :: xs)) = c :: r ∧ Start c := by
  obtain ⟨c, r, e, hc⟩ := serVal_head gap ind x
  cases xs with
  | nil => exact ⟨c, r, by simp [serElems, joinChars, e], hc⟩
  | cons y ys =>
    refine ⟨c, r ++ sep ++ joinChars sep (serElems gap ind (y :: ys)), ?_, hc⟩
    simp only [serElems] at e ⊢
    rw [joinChars_cons2, e]
    simp

theorem skipSpace_close (w : List Char) (c : Char) (rest : List Char) (hw : White w)
    (hc : isJsonSpace c = false) : skipSpace (w ++ c :: rest) = c :: rest := by
  rw [skipSpace_white w _ hw, skipSpace_start c rest hc]

theorem parseElems_last (f : Nat) (cs : List Char) (acc : List JsVal) (v : JsVal)
    (w2 rest : List Char) (hv : parseValue f cs = some (v, w2 ++ ']' :: rest)) (hw : White w2) :
    parseElems (f + 1) cs acc = some (.arr (acc ++ [v]), rest) := by
  rw [parseElems]
  simp only [hv, skipSpace_close w2 ']' rest hw (by decide)]
  simp

theorem parseElems_more (f : Nat) (cs : List Char) (acc : List JsVal) (v : JsVal)
    (w1 next : List Char) (hv : parseValue f cs = some (v, ',' :: (w1 ++ next)))
    (hw : White w1) (hn : skipSpace next = next) :
    parseElems (f + 1) cs acc = parseElems f next (acc ++ [v]) := by
  rw [parseElems]
  simp only [hv, skipSpace_start ',' _ (by decide : isJsonSpace ',' = false)]
  simp [skipSpace_white w1 next hw, hn]

theorem parseMembers_last (f : Nat) (k : String) (sp vt : List Char) (acc : Props) (v : JsVal)
    (w2 rest : List Char) (hsp : White sp) (hvt : skipSpace vt = vt)
    (hv : parseValue f vt = some (v, w2 ++ '\x7d' :: rest)) (hw : White w2) :
    parseMembers (f + 1) (quoteData k ++ ':' :: (sp ++ vt)) acc =
      some (.obj (insertMember acc k v), rest) := by
  obtain ⟨us, h1, h2⟩ := parseStr_quoteChars k.data (':' :: (sp ++ vt))
  have e : quoteData k ++ ':' :: (sp ++ vt) =
      '"' :: (quoteChars k.data ++ '"' :: ':' :: (sp ++ vt)) := by
    simp [quoteData]
  rw [e, parseMembers]
  simp only [if_true, h1, skipSpace_start ':' _ (by decide : isJsonSpace ':' = false),
    skipSpace_white sp vt hsp, hvt, hv, skipSpace_close w2 '\x7d' rest hw (by decide), h2]
  simp

theorem parseMembers_more (f : Nat) (k : String) (sp vt : List Char) (acc : Props) (v : JsVal)
    (w1 next : List Char) (hsp : White sp) (hvt : skipSpace vt = vt)
    (hv : parseValue f vt = some (v, ',' :: (w1 ++ next))) (hw : White w1)
    (hn : skipSpace next = next) :
    parseMembers (f + 1) (quoteData k ++ ':' :: (sp ++ vt)) acc =
      parseMembers f next (insertMember acc k v) := by
  obtain ⟨us, h1, h2⟩ := parseStr_quoteChars k.data (':' :: (sp ++ vt))
  have e : quoteData k ++ ':' :: (sp ++ vt) =
      '"' :: (quoteChars k.data ++ '"' :: ':' :: (sp ++ vt)) := by
    simp [quoteData]
  rw [e, parseMembers]
  simp only [if_true, h1, skipSpace_start ':' _ (by decide : isJsonSpace ':' = false),
    skipSpace_white sp vt hsp, hvt, hv,
    skipSpace_start ',' _ (by decide : isJsonSpace ',' = false), h2]
  simp [skipSpace_white w1 next hw, hn]

theorem parseValue_arr_nil (f : Nat) (rest : List Char) :
    parseValue (f + 1) ('[' :: ']' :: rest) = some (.arr [], rest) := by
  rw [parseValue]
  simp [skipSpace_start ']' rest (by decide)]

theorem parseValue_obj_nil (f : Nat) (rest : List Char) :
    parseValue (f + 1) ('\x7b' :: '\x7d' :: rest) = some (.obj [], rest) := by
  rw [parseValue]
  simp [skipSpace_start '\x7d' rest (by decide)]

theorem parseValue_arr (f : Nat) (w0 body : List Char) (c : Char) (r : List Char)
    (hw : White w0) (hb : body = c :: r) (hc : Start c) :
    parseValue (f + 1) ('[' :: (w0 ++ body)) = parseElems f body [] := by
  rw [parseValue]
  subst hb
  simp [skipSpace_close w0 c r hw hc.1, hc.2.1]

theorem parseValue_obj (f : Nat) (w0 body : List Char) (r : List Char)
    (hw : White w0) (hb : body = '"' :: r) :
    parseValue (f + 1) ('\x7b' :: (w0 ++ body)) = parseMembers f body [] := by
  rw [parseValue]
  subst hb
  simp [skipSpace_close w0 '"' r hw (by decide)]

theorem serMembers_cons (gap ind : List Char) (k : String) (v : JsVal) (r : Props)
    (t : List Char) (h : serVal gap ind v = some t) :
    serMembers gap ind ((k, v) :: r) =
      (quoteData k ++ ':' :: ((if gap.isEmpty then [] else [' ']) ++ t)) ::
        serMembers gap ind r := by
  simp only [serMembers, h]

theorem white_colon (gap : List Char) : White (if gap.isEmpty then [] else [' ']) := by
  split
  · exact white_nil
  · exact white_cons (by decide) white_nil

theorem joinChars_head (sep x : List Char) (xs : List (List Char)) (c : Char) (r : List Char)
    (h : x = c :: r) : ∃ tl, joinChars sep (x :: xs) = c :: tl := by
  subst h
  cases xs with
  | nil => exact ⟨r, rfl⟩
  | cons y ys => exact ⟨r ++ sep ++ joinChars sep (y :: ys), by simp [joinChars_cons2]⟩

/-- A nonempty joined list of member texts starts with the quote of a key. -/
theorem joinChars_serMembers_head (gap ind sep : List Char) (k : String) (v : JsVal)
    (r : Props) (hd : membersDecoded ((k, v) :: r) = true) :
    ∃ tl, joinChars sep (serMembers gap ind ((k, v) :: r)) = '"' :: tl := by
  simp only [membersDecoded, Bool.and_eq_true] at hd
  obtain ⟨t, ht⟩ := serVal_decoded gap ind hd.1
  rw [serMembers_cons gap ind k v r t ht]
  exact joinChars_head sep _ _ '"'
    (quoteChars k.data ++ ['"'] ++ ':' :: ((if gap.isEmpty = true then [] else [' ']) ++ t)) rfl

theorem skipSpace_of_start {l : List Char} {c : Char} {r : List Char} (h : l = c :: r)
    (hc : Start c) : skipSpace l = l := by
  subst h
  exact skipSpace_start c r hc.1

/-- Decoding the text of a decoded value whose numbers are finite and not the
negative zero gives the value and leaves what follows the text; the length of
the text is enough fuel. -/
theorem parse_serVal : ∀ (v : JsVal) (gap ind rest : List Char) (fuel : Nat),
    White gap → White ind → isDecoded v = true → finiteNumbers v = true → NumEnd rest →
    ∃ t, serVal gap ind v = some t ∧
      (t.length ≤ fuel → parseValue fuel (t ++ rest) = some (v, rest))
  | .undefined, _, _, _, _, _, _, hd, _, _ => by simp [isDecoded] at hd
  | .null, _, _, rest, fuel, _, _, _, _, _ => by
    refine ⟨_, rfl, fun hf => ?_⟩
    cases fuel with
    | zero => simp at hf
    | succ f => exact parseValue_null f rest
  | .bool b, _, _, rest, fuel, _, _, _, _, _ => by
    refine ⟨_, rfl, fun hf => ?_⟩
    cases fuel with
    | zero => cases b <;> simp at hf
    | succ f =>
      cases b
      · exact parseValue_false f rest
      · exact parseValue_true f rest
  | .num n, _, _, rest, fuel, _, _, _, hfin, hr => by
    refine ⟨_, rfl, fun hf => ?_⟩
    cases fuel with
    | zero =>
      obtain ⟨c, r, e, -⟩ := serVal_head [] [] (.num n)
      simp only [serVal, Option.getD_some] at e
      rw [e] at hf
      simp at hf
    | succ f => exact parseValue_num f n (by simpa [finiteNumbers] using hfin) rest hr
  | .dbl x, _, _, rest, fuel, _, _, _, hfin, hr => by
    cases x with
    | frac q =>
      simp only [finiteNumbers, Bool.and_eq_true, bne_iff_ne] at hfin
      refine ⟨_, rfl, fun hf => ?_⟩
      cases fuel with
      | zero =>
        obtain ⟨c, r, e, -⟩ := serVal_head [] [] (.dbl (.frac q))
        simp only [serVal, Option.getD_some] at e
        rw [e] at hf
        simp at hf
      | succ f => exact parseValue_frac f q hfin.1 hfin.2 rest hr
    | negZero => simp [finiteNumbers] at hfin
    | inf neg => simp [finiteNumbers] at hfin
    | nan => simp [finiteNumbers] at hfin
  | .str s, _, _, rest, fuel, _, _, _, _, _ => by
    refine ⟨_, rfl, fun hf => ?_⟩
    cases fuel with
    | zero => simp [quoteData] at hf
    | succ f => exact parseValue_str f s rest
  | .arr xs, gap, ind, rest, fuel, hg, hi, hd, hfin, _ => by
    refine ⟨_, rfl, fun hf => ?_⟩
    cases xs with
    | nil =>
      cases fuel with
      | zero => simp [wrapSeq, serElems] at hf
      | succ f => exact parseValue_arr_nil f rest
    | cons x xs =>
      obtain ⟨w0, w1, w2, h0, h1, h2, e⟩ := wrapSeq_parts gap ind '[' ']'
        (serElems gap (ind ++ gap) (x :: xs)) hg hi (serElems_ne_nil _ _ _ _)
      obtain ⟨c, r, ec, hc⟩ := joinChars_serElems_head gap (ind ++ gap) (',' :: w1) x xs
      rw [e] at hf ⊢
      cases fuel with
      | zero => simp at hf
      | succ f =>
        have e2 : '[' :: (w0 ++ (joinChars (',' :: w1) (serElems gap (ind ++ gap) (x :: xs)) ++
            (w2 ++ [']']))) ++ rest =
            '[' :: (w0 ++ (joinChars (',' :: w1) (serElems gap (ind ++ gap) (x :: xs)) ++
            (w2 ++ ']' :: rest))) := by simp
        rw [e2, parseValue_arr f w0 _ c _ h0 (by rw [ec]; rfl) hc]
        have := parse_serElems (x :: xs) gap (ind ++ gap) w1 w2 rest [] f hg
          (white_append hi hg) h1 h2 (by simpa [isDecoded] using hd)
          (by simpa [finiteNumbers] using hfin) (by simp)
          (by simp only [List.length_cons, List.length_append] at hf; omega)
        simpa using this
  | .obj kvs, gap, ind, rest, fuel, hg, hi, hd, hfin, _ => by
    refine ⟨_, rfl, fun hf => ?_⟩
    simp only [isDecoded, Bool.and_eq_true] at hd
    cases kvs with
    | nil =>
      cases fuel with
      | zero => simp [wrapSeq, serMembers] at hf
      | succ f => exact parseValue_obj_nil f rest
    | cons q kvs =>
      obtain ⟨k, v⟩ := q
      obtain ⟨tl, etl⟩ := joinChars_serMembers_head gap (ind ++ gap) [] k v kvs hd.1
      have hne : serMembers gap (ind ++ gap) ((k, v) :: kvs) ≠ [] := by
        intro e0
        rw [e0] at etl
        simp [joinChars] at etl
      obtain ⟨w0, w1, w2, h0, h1, h2, e⟩ := wrapSeq_parts gap ind '\x7b' '\x7d'
        (serMembers gap (ind ++ gap) ((k, v) :: kvs)) hg hi hne
      obtain ⟨tl1, etl1⟩ := joinChars_serMembers_head gap (ind ++ gap) (',' :: w1) k v kvs hd.1
      rw [e] at hf ⊢
      cases fuel with
      | zero => simp at hf
      | succ f =>
        have e2 : '\x7b' :: (w0 ++ (joinChars (',' :: w1)
            (serMembers gap (ind ++ gap) ((k, v) :: kvs)) ++ (w2 ++ ['\x7d']))) ++ rest =
            '\x7b' :: (w0 ++ (joinChars (',' :: w1)
            (serMembers gap (ind ++ gap) ((k, v) :: kvs)) ++ (w2 ++ '\x7d' :: rest))) := by simp
        rw [e2, parseValue_obj f w0 _ _ h0 (by rw [etl1]; rfl)]
        have := parse_serMembers ((k, v) :: kvs) gap (ind ++ gap) w1 w2 rest [] f hg
          (white_append hi hg) h1 h2 hd.1 (by simpa [finiteNumbers] using hfin) (by simp)
          (by simp only [List.length_cons, List.length_append] at hf; omega)
        rw [this, foldl_insertMember _ [] (by simpa using hd.2)]
        simp
where
  parse_serElems : ∀ (xs : List JsVal) (gap ind w1 w2 rest : List Char) (acc : List JsVal)
      (fuel : Nat), White gap → White ind → White w1 → White w2 → allDecoded xs = true →
      elemsFinite xs = true → xs ≠ [] → (joinChars (',' :: w1) (serElems gap ind xs)).length + 1 ≤ fuel →
      parseElems fuel (joinChars (',' :: w1) (serElems gap ind xs) ++ (w2 ++ ']' :: rest)) acc =
        some (.arr (acc ++ xs), rest)
    | [], _, _, _, _, _, _, _, _, _, _, _, _, _, hne, _ => absurd rfl hne
    | x :: xs, gap, ind, w1, w2, rest, acc, fuel, hg, hi, h1, h2, hd, hfin, _, hf => by
      simp only [allDecoded, Bool.and_eq_true] at hd
      simp only [elemsFinite, Bool.and_eq_true] at hfin
      cases fuel with
      | zero => simp at hf
      | succ f =>
        cases xs with
        | nil =>
          obtain ⟨tx, htx, hpx⟩ := parse_serVal x gap ind (w2 ++ ']' :: rest) f hg hi hd.1
            hfin.1 (numEnd_close w2 ']' rest h2 (by decide))
          simp only [serElems, htx, Option.getD_some, joinChars] at hf ⊢
          exact parseElems_last f _ acc x w2 rest (hpx (by omega)) h2
        | cons y ys =>
          obtain ⟨c, r, ec, hc⟩ := joinChars_serElems_head gap ind (',' :: w1) y ys
          obtain ⟨tx, htx, hpx⟩ := parse_serVal x gap ind
            (',' :: (w1 ++ (joinChars (',' :: w1) (serElems gap ind (y :: ys)) ++
              (w2 ++ ']' :: rest)))) f hg hi hd.1 hfin.1 (numEnd_cons ',' _ (by decide))
          have es : serElems gap ind (x :: y :: ys) = tx :: serElems gap ind (y :: ys) := by
            simp only [serElems, htx, Option.getD_some]
          have ey : ∃ a b, serElems gap ind (y :: ys) = a :: b := ⟨_, _, rfl⟩
          obtain ⟨a, b, eab⟩ := ey
          rw [es] at hf ⊢
          rw [eab, joinChars_cons2, ← eab] at hf ⊢
          simp only [List.length_append, List.length_cons] at hf
          have e3 : tx ++ (',' :: w1) ++ joinChars (',' :: w1) (serElems gap ind (y :: ys)) ++
              (w2 ++ ']' :: rest) = tx ++ (',' :: (w1 ++
              (joinChars (',' :: w1) (serElems gap ind (y :: ys)) ++ (w2 ++ ']' :: rest)))) := by
            simp
          rw [e3, parseElems_more f _ acc x w1 _ (hpx (by omega)) h1
            (skipSpace_of_start (by rw [ec]; rfl) hc)]
          have := parse_serElems (y :: ys) gap ind w1 w2 rest (acc ++ [x]) f hg hi h1 h2 hd.2
            hfin.2 (by simp) (by omega)
          rw [this]
          simp
  parse_serMembers : ∀ (kvs : List (String × JsVal)) (gap ind w1 w2 rest : List Char)
      (acc : Props) (fuel : Nat), White gap → White ind → White w1 → White w2 →
      membersDecoded kvs = true → membersFinite kvs = true → kvs ≠ [] →
      (joinChars (',' :: w1) (serMembers gap ind kvs)).length + 1 ≤ fuel →
      parseMembers fuel (joinChars (',' :: w1) (serMembers gap ind kvs) ++
        (w2 ++ '\x7d' :: rest)) acc =
        some (.obj (kvs.foldl (fun a p => insertMember a p.1 p.2) acc), rest)
    | [], _, _, _, _, _, _, _, _, _, _, _, _, _, hne, _ => absurd rfl hne
    | (k, v) :: kvs, gap, ind, w1, w2, rest, acc, fuel, hg, hi, h1, h2, hd, hfin, _, hf => by
      have hd0 := hd
      simp only [membersDecoded, Bool.and_eq_true] at hd
      simp only [membersFinite, Bool.and_eq_true] at hfin
      obtain ⟨c, r, ec, hc⟩ := serVal_head gap ind v
      cases fuel with
      | zero => simp at hf
      | succ f =>
        cases kvs with
        | nil =>
          obtain ⟨tv, htv, hpv⟩ := parse_serVal v gap ind (w2 ++ '\x7d' :: rest) f hg hi hd.1
            hfin.1 (numEnd_close w2 '\x7d' rest h2 (by decide))
          rw [htv, Option.getD_some] at ec
          rw [serMembers_cons gap ind k v [] tv htv] at hf ⊢
          simp only [serMembers, joinChars, List.length_append, List.length_cons] at hf ⊢
          have e3 : quoteData k ++ ':' :: ((if gap.isEmpty = true then [] else [' ']) ++ tv) ++
              (w2 ++ '\x7d' :: rest) = quoteData k ++ ':' ::
              ((if gap.isEmpty = true then [] else [' ']) ++ (tv ++ (w2 ++ '\x7d' :: rest))) := by
            simp
          rw [e3]
          exact parseMembers_last f k _ _ acc v w2 rest (white_colon gap)
            (skipSpace_of_start (by rw [ec]; rfl) hc) (hpv (by omega)) h2
        | cons q qs =>
          obtain ⟨k2, v2⟩ := q
          obtain ⟨tl, etl⟩ := joinChars_serMembers_head gap ind (',' :: w1) k2 v2 qs hd.2
          obtain ⟨tv, htv, hpv⟩ := parse_serVal v gap ind
            (',' :: (w1 ++ (joinChars (',' :: w1) (serMembers gap ind ((k2, v2) :: qs)) ++
              (w2 ++ '\x7d' :: rest)))) f hg hi hd.1 hfin.1 (numEnd_cons ',' _ (by decide))
          rw [htv, Option.getD_some] at ec
          have hd2 := hd.2
          simp only [membersDecoded, Bool.and_eq_true] at hd2
          obtain ⟨t2, ht2⟩ := serVal_decoded gap ind hd2.1
          have eab := serMembers_cons gap ind k2 v2 qs t2 ht2
          rw [serMembers_cons gap ind k v _ tv htv] at hf ⊢
          rw [eab, joinChars_cons2, ← eab] at hf ⊢
          simp only [List.length_append, List.length_cons] at hf
          have e3 : quoteData k ++ ':' :: ((if gap.isEmpty = true then [] else [' ']) ++ tv) ++
              (',' :: w1) ++ joinChars (',' :: w1) (serMembers gap ind ((k2, v2) :: qs)) ++
              (w2 ++ '\x7d' :: rest) = quoteData k ++ ':' ::
              ((if gap.isEmpty = true then [] else [' ']) ++ (tv ++ (',' :: (w1 ++
              (joinChars (',' :: w1) (serMembers gap ind ((k2, v2) :: qs)) ++
                (w2 ++ '\x7d' :: rest)))))) := by
            simp
          rw [e3, parseMembers_more f k _ _ acc v w1 _ (white_colon gap)
            (skipSpace_of_start (by rw [ec]; rfl) hc) (hpv (by omega)) h1
            (skipSpace_of_start (by rw [etl]; rfl) (by unfold Start; decide))]
          have := parse_serMembers ((k2, v2) :: qs) gap ind w1 w2 rest (insertMember acc k v) f
            hg hi h1 h2 hd.2 hfin.2 (by simp) (by omega)
          rw [this]
          simp

theorem parseValue_serVal {v : JsVal} {gap : List Char} {t : List Char} (rest : List Char)
    (fuel : Nat) (hg : White gap) (hd : isDecoded v = true) (hfin : finiteNumbers v = true)
    (hr : NumEnd rest) (ht : serVal gap [] v = some t) (hf : t.length ≤ fuel) :
    parseValue fuel (t ++ rest) = some (v, rest) := by
  obtain ⟨t1, ht1, hp⟩ := parse_serVal v gap [] rest fuel hg white_nil hd hfin hr
  rw [ht] at ht1
  cases ht1
  exact hp hf

/-- Decoding the text `JSON.stringify` gives for a decoded value whose numbers
are finite and not the negative zero, with or without a line break after it,
gives the value. -/
theorem jsonParse_jsonStringify (v : JsVal) (space : Int) (hd : isDecoded v = true)
    (hfin : finiteNumbers v = true) :
    ∃ t, jsonStringify v space = some t ∧ jsonParse t = .ok v ∧
      jsonParse (t ++ "\n") = .ok v := by
  obtain ⟨t, ht⟩ := serVal_decoded (gapOf space) [] hd
  obtain ⟨c, r, ec, hc⟩ := serVal_head (gapOf space) [] v
  rw [ht, Option.getD_some] at ec
  have hs : skipSpace t = t := skipSpace_of_start ec hc
  refine ⟨⟨t⟩, by simp [jsonStringify, ht], ?_, ?_⟩
  · have hp := parseValue_serVal [] (t.length + 1) (white_gapOf space) hd hfin numEnd_nil ht
      (by omega)
    rw [List.append_nil] at hp
    simp [jsonParse, hs, hp, skipSpace]
  · have hp := parseValue_serVal ['\n'] ((t ++ ['\n']).length + 1) (white_gapOf space) hd
      hfin (numEnd_cons '\n' [] (by decide)) ht (by simp only [List.length_append]; omega)
    have e : (String.mk t ++ "\n").data = t ++ ['\n'] := by simp
    have hs2 : skipSpace (t ++ ['\n']) = t ++ ['\n'] := by
      rw [ec]; exact skipSpace_start c _ hc.1
    have hs3 : skipSpace ['\n'] = [] := by decide
    simp only [jsonParse, e, hs2, hp, hs3]
    simp

theorem isDouble_small (n : Int) (h : n.natAbs < 2 ^ 53) : isDouble (n : ℚ) = true := by
  have e : |(n : ℚ)| = ((n.natAbs : Nat) : ℚ) := by
    rw [Nat.cast_natAbs]
    simp
  simp [isDouble, e, toDouble_safe _ h]

/-- The token `1e999` is read as the positive infinity. -/
theorem decodeNumber_overflow : decodeNumber false 1 999 = .dbl (.inf false) := by
  have h : toDouble (decVal (1, 999)) = none := by decide!
  unfold decodeNumber
  simp [h]

/-! ## What `JSON.parse` returns: array indices -/

theorem ofNat_digit : ∀ d, d < 10 → Char.ofNat (48 + d) = Nat.digitChar d := by
  decide

theorem digitVal_dec {c : Char} {d : Nat} (h : digitVal 10 c = some d) :
    d < 10 ∧ c = Nat.digitChar d := by
  unfold digitVal at h
  simp only at h
  split at h
  · rename_i hr
    simp only [Bool.and_eq_true, decide_eq_true_eq] at hr
    split at h
    · rename_i hv
      simp only [Option.some.injEq] at h
      subst h
      refine ⟨hv, ?_⟩
      rw [← ofNat_digit _ hv]
      apply char_of_toNat
      omega
    · simp at h
  · split at h
    · rename_i hr
      simp only [Bool.and_eq_true, decide_eq_true_eq] at hr
      split at h
      · rename_i hv; omega
      · simp at h
    · split at h
      · rename_i hr
        simp only [Bool.and_eq_true, decide_eq_true_eq] at hr
        split at h
        · rename_i hv; omega
        · simp at h
      · simp at h

/-- A text that `readDigits` reads to its end is a list of decimal digits, and
the number read is their value. -/
theorem readDigits_all (cs : List Char) : ∀ (acc len0 n len : Nat),
    readDigits 10 cs acc len0 = (n, len, []) →
    ∃ D : List Nat, cs = D.map Nat.digitChar ∧ (∀ d ∈ D, d < 10) ∧ len = len0 + D.length ∧
      n = acc * 10 ^ D.length + Nat.ofDigits 10 D.reverse := by
  induction cs with
  | nil =>
    intro acc len0 n len h
    simp only [readDigits, Prod.mk.injEq, and_true] at h
    exact ⟨[], rfl, by simp, by simp [h.2], by simp [h.1]⟩
  | cons c cs ih =>
    intro acc len0 n len h
    simp only [readDigits] at h
    cases hd : digitVal 10 c with
    | none => simp [hd] at h
    | some d =>
      simp only [hd] at h
      obtain ⟨D, e1, e2, e3, e4⟩ := ih _ _ _ _ h
      obtain ⟨hd1, hd2⟩ := digitVal_dec hd
      refine ⟨d :: D, by simp [e1, hd2], ?_, by simp [e3]; omega, ?_⟩
      · intro x hx
        rcases List.mem_cons.mp hx with hx | hx
        · rw [hx]; exact hd1
        · exact e2 x hx
      · rw [e4, List.reverse_cons, Nat.ofDigits_append, Nat.ofDigits_singleton]
        simp only [List.length_cons, List.length_reverse, pow_succ]
        ring

/-- The digits of an array index: those of the number, most significant first. -/
theorem arrayIndex_data {k : String} {n : Nat} (h : arrayIndex k = some n) :
    k.data = (if n = 0 then [0] else (Nat.digits 10 n).reverse).map Nat.digitChar := by
  unfold arrayIndex at h
  cases hr : readDigits 10 k.data 0 0 with
  | mk m p =>
    obtain ⟨len, rest⟩ := p
    simp only [hr] at h
    split at h
    · simp at h
    split at h
    · simp at h
    rename_i hlen hrest
    have hrest' : rest = [] := by
      cases rest with
      | nil => rfl
      | cons a b => simp at hrest
    subst hrest'
    split at h
    · simp at h
    rename_i hlead
    split at h
    · simp only [Option.some.injEq] at h
      subst h
      obtain ⟨D, e1, e2, e3, e4⟩ := readDigits_all k.data 0 0 m len hr
      simp only [Nat.zero_mul, Nat.zero_add] at e3 e4
      cases D with
      | nil => simp at e3; exact absurd e3 hlen
      | cons d D =>
        by_cases hd0 : d = 0
        · subst hd0
          have hD : D = [] := by
            cases D with
            | nil => rfl
            | cons x xs =>
              exfalso
              apply hlead
              simp [e1, e3]
              decide
          subst hD
          simp [e1, e4]
        · have hlast : ∀ hne : (d :: D).reverse ≠ [], (d :: D).reverse.getLast hne ≠ 0 := by
            intro hne
            simp [List.getLast_reverse, hd0]
          have hdig := Nat.digits_ofDigits 10 (by decide) (d :: D).reverse
            (fun x hx => e2 x (List.mem_reverse.mp hx)) hlast
          rw [← e4] at hdig
          have hm : m ≠ 0 := by
            intro h0
            rw [h0] at hdig
            simp at hdig
          simp only [hm, if_false, hdig, List.reverse_reverse]
          exact e1
    · simp at h

theorem arrayIndex_inj {a b : String} {n : Nat} (ha : arrayIndex a = some n)
    (hb : arrayIndex b = some n) : a = b := by
  apply String.ext
  rw [arrayIndex_data ha, arrayIndex_data hb]

/-! ## What `JSON.parse` returns: the order of the keys -/

theorem keyBefore_iff (a b : String) :
    keyBefore a b = true ↔
      a ≠ b ∧ ∀ j, arrayIndex b = some j → ∃ i, arrayIndex a = some i ∧ i < j := by
  unfold keyBefore
  cases hb : arrayIndex b with
  | none => simp
  | some j =>
    cases ha : arrayIndex a with
    | none => simp
    | some i => simp

theorem keys_setProp (o : Props) (k : String) (v : JsVal) (h : hasProp o k = true) :
    (setProp o k v).map Prod.fst = o.map Prod.fst := by
  induction o with
  | nil => simp [hasProp] at h
  | cons q o ih =>
    obtain ⟨k1, w⟩ := q
    simp only [setProp]
    split
    · rename_i e; simp [e]
    · rename_i e
      have : hasProp o k = true := by
        simp only [hasProp, List.any_cons, Bool.or_eq_true, beq_iff_eq] at h ⊢
        rcases h with h | h
        · exact absurd h e
        · exact h
      simp [ih this]

theorem mem_setProp {o : Props} {k : String} {v : JsVal} {p : String × JsVal}
    (h : p ∈ setProp o k v) : p = (k, v) ∨ p ∈ o := by
  induction o with
  | nil => left; simpa [setProp] using h
  | cons q o ih =>
    obtain ⟨k1, w⟩ := q
    simp only [setProp] at h
    split at h
    · rename_i e
      rcases List.mem_cons.mp h with h | h
      · left; rw [h, e]
      · right; exact List.mem_cons_of_mem _ h
    · rcases List.mem_cons.mp h with h | h
      · right; rw [h]; exact List.mem_cons_self _ _
      · rcases ih h with h | h
        · left; exact h
        · right; exact List.mem_cons_of_mem _ h

theorem mem_insertNew {n : Option Nat} {o : Props} {k : String} {v : JsVal}
    {p : String × JsVal} (h : p ∈ insertNew n o k v) : p = (k, v) ∨ p ∈ o := by
  induction o with
  | nil => left; simpa [insertNew] using h
  | cons q o ih =>
    obtain ⟨k1, w⟩ := q
    simp only [insertNew] at h
    split at h
    · split at h
      · rcases List.mem_cons.mp h with h | h
        · right; rw [h]; exact List.mem_cons_self _ _
        · rcases ih h with h | h
          · left; exact h
          · right; exact List.mem_cons_of_mem _ h
      · rcases List.mem_cons.mp h with h | h
        · left; exact h
        · right; exact h
    · rcases List.mem_cons.mp h with h | h
      · left; exact h
      · right; exact h
    · rcases List.mem_cons.mp h with h | h
      · right; rw [h]; exact List.mem_cons_self _ _
      · rcases ih h with h | h
        · left; exact h
        · right; exact List.mem_cons_of_mem _ h

theorem mem_insertMember {o : Props} {k : String} {v : JsVal} {p : String × JsVal}
    (h : p ∈ insertMember o k v) : p = (k, v) ∨ p ∈ o := by
  unfold insertMember at h
  split at h
  · exact mem_setProp h
  · exact mem_insertNew h

/-- A new key is placed so that the keys stay in order. -/
theorem keysInOrder_insertNew (o : Props) (k : String) (v : JsVal)
    (ho : (o.map Prod.fst).Pairwise (fun a b => keyBefore a b = true))
    (hk : ∀ p ∈ o, p.1 ≠ k) :
    ((insertNew (arrayIndex k) o k v).map Prod.fst).Pairwise
      (fun a b => keyBefore a b = true) := by
  induction o with
  | nil => simp [insertNew]
  | cons q o ih =>
    obtain ⟨k1, w⟩ := q
    simp only [List.map_cons, List.pairwise_cons] at ho
    have hne : k1 ≠ k := hk (k1, w) (List.mem_cons_self _ _)
    have ih' := ih ho.2 (fun p hp => hk p (List.mem_cons_of_mem _ hp))
    have here : List.Pairwise (fun a b => keyBefore a b = true)
        (((k, v) :: (k1, w) :: o).map Prod.fst) ↔
        ∀ x ∈ k1 :: o.map Prod.fst, keyBefore k x = true := by
      simp only [List.map_cons, List.pairwise_cons]
      constructor
      · intro h; exact h.1
      · intro h; exact ⟨h, ho.1, ho.2⟩
    simp only [insertNew]
    cases hik : arrayIndex k with
    | none =>
      simp only [List.map_cons, List.pairwise_cons]
      simp only [hik] at ih'
      refine ⟨?_, ih'⟩
      intro x hx
      obtain ⟨p, hp, rfl⟩ := List.mem_map.mp hx
      rcases mem_insertNew hp with e | e
      · rw [e]
        rw [keyBefore_iff]
        exact ⟨hne, fun j hj => by simp [hik] at hj⟩
      · exact ho.1 p.1 (List.mem_map_of_mem _ e)
    | some i =>
      simp only [hik] at ih'
      cases hik1 : arrayIndex k1 with
      | none =>
        simp only
        rw [here]
        intro x hx
        rw [keyBefore_iff]
        refine ⟨?_, ?_⟩
        · rcases List.mem_cons.mp hx with e | e
          · rw [e]; exact fun e2 => hne e2.symm
          · obtain ⟨p, hp, rfl⟩ := List.mem_map.mp e
            exact fun e2 => hk p (List.mem_cons_of_mem _ hp) e2.symm
        · intro j hj
          rcases List.mem_cons.mp hx with e | e
          · rw [e, hik1] at hj; simp at hj
          · have := (keyBefore_iff k1 x).mp (ho.1 x e)
            obtain ⟨i1, h1, -⟩ := this.2 j hj
            rw [hik1] at h1; simp at h1
      | some j1 =>
        simp only
        split
        · rename_i hlt
          simp only [List.map_cons, List.pairwise_cons]
          refine ⟨?_, ih'⟩
          intro x hx
          obtain ⟨p, hp, rfl⟩ := List.mem_map.mp hx
          rcases mem_insertNew hp with e | e
          · rw [e]
            rw [keyBefore_iff]
            refine ⟨hne, fun j hj => ?_⟩
            rw [hik] at hj
            simp only [Option.some.injEq] at hj
            exact ⟨j1, hik1, by omega⟩
          · exact ho.1 p.1 (List.mem_map_of_mem _ e)
        · rename_i hlt
          have hji : i < j1 := by
            have : j1 ≠ i := by
              intro e
              rw [e] at hik1
              exact hne (arrayIndex_inj hik1 hik)
            omega
          rw [here]
          intro x hx
          rw [keyBefore_iff]
          refine ⟨?_, ?_⟩
          · rcases List.mem_cons.mp hx with e | e
            · rw [e]; exact fun e2 => hne e2.symm
            · obtain ⟨p, hp, rfl⟩ := List.mem_map.mp e
              exact fun e2 => hk p (List.mem_cons_of_mem _ hp) e2.symm
          · intro j hj
            refine ⟨i, hik, ?_⟩
            rcases List.mem_cons.mp hx with e | e
            · rw [e, hik1] at hj
              simp only [Option.some.injEq] at hj
              omega
            · have := (keyBefore_iff k1 x).mp (ho.1 x e)
              obtain ⟨i1, h1, h2⟩ := this.2 j hj
              rw [hik1] at h1
              simp only [Option.some.injEq] at h1
              omega

theorem keysInOrder_insertMember (o : Props) (k : String) (v : JsVal)
    (ho : keysInOrder (o.map Prod.fst) = true) :
    keysInOrder ((insertMember o k v).map Prod.fst) = true := by
  rw [keysInOrder_iff] at ho ⊢
  unfold insertMember
  split
  · rename_i h
    rw [keys_setProp o k v h]
    exact ho
  · rename_i h
    apply keysInOrder_insertNew o k v ho
    intro p hp e
    apply h
    simp only [hasProp, List.any_eq_true, beq_iff_eq]
    exact ⟨p, hp, e⟩

/-! ## What `JSON.parse` returns is a decoded value -/

theorem membersDecoded_iff (r : Props) :
    membersDecoded r = true ↔ ∀ p ∈ r, isDecoded p.2 = true := by
  induction r with
  | nil => simp [membersDecoded]
  | cons p r ih =>
    obtain ⟨k, v⟩ := p
    simp [membersDecoded, ih]

theorem allDecoded_iff (xs : List JsVal) :
    allDecoded xs = true ↔ ∀ x ∈ xs, isDecoded x = true := by
  induction xs with
  | nil => simp [allDecoded]
  | cons x xs ih => simp [allDecoded, ih]

theorem membersDecoded_insertMember {o : Props} {k : String} {v : JsVal}
    (ho : membersDecoded o = true) (hv : isDecoded v = true) :
    membersDecoded (insertMember o k v) = true := by
  rw [membersDecoded_iff] at ho ⊢
  intro p hp
  rcases mem_insertMember hp with e | e
  · rw [e]; exact hv
  · exact ho p e

theorem allDecoded_append {xs : List JsVal} {v : JsVal} (hx : allDecoded xs = true)
    (hv : isDecoded v = true) : allDecoded (xs ++ [v]) = true := by
  rw [allDecoded_iff] at hx ⊢
  intro x h
  rcases List.mem_append.mp h with h | h
  · exact hx x h
  · simp only [List.mem_singleton] at h
    rw [h]; exact hv

theorem parseLiteral_isDecoded {cs : List Char} {v : JsVal} {r : List Char}
    (h : parseLiteral cs = some (v, r)) : isDecoded v = true := by
  unfold parseLiteral at h
  split at h
  · simp only [Option.some.injEq, Prod.mk.injEq] at h
    rw [← h.1]; rfl
  · split at h
    · simp only [Option.some.injEq, Prod.mk.injEq] at h
      rw [← h.1]; rfl
    · split at h
      · simp only [Option.some.injEq, Prod.mk.injEq] at h
        rw [← h.1]; rfl
      · simp at h

theorem decodeNumber_isDecoded (neg : Bool) (m : Nat) (e : Int) :
    isDecoded (decodeNumber neg m e) = true := by
  unfold decodeNumber
  repeat' split
  all_goals rfl

theorem parseUnsigned_isDecoded {neg : Bool} {cs : List Char} {v : JsVal} {r : List Char}
    (h : parseUnsigned neg cs = some (v, r)) : isDecoded v = true := by
  unfold parseUnsigned at h
  repeat' split at h
  all_goals first
    | (simp at h; done)
    | (simp only [Option.some.injEq, Prod.mk.injEq] at h; rw [← h.1];
       exact decodeNumber_isDecoded _ _ _)

theorem parseNumber_isDecoded {cs : List Char} {v : JsVal} {r : List Char}
    (h : parseNumber cs = some (v, r)) : isDecoded v = true := by
  unfold parseNumber at h
  split at h
  · simp at h
  · split at h <;> exact parseUnsigned_isDecoded h

/-- Whatever the parser returns is a decoded value: no `undefined` inside and
the keys of every object in enumeration order. -/
theorem parse_isDecoded (fuel : Nat) :
    (∀ cs v r, parseValue fuel cs = some (v, r) → isDecoded v = true) ∧
    (∀ cs acc v r, parseMembers fuel cs acc = some (v, r) → membersDecoded acc = true →
      keysInOrder (acc.map Prod.fst) = true → isDecoded v = true) ∧
    (∀ cs acc v r, parseElems fuel cs acc = some (v, r) → allDecoded acc = true →
      isDecoded v = true) := by
  induction fuel with
  | zero =>
    refine ⟨?_, ?_, ?_⟩
    · intro cs v r h; simp [parseValue] at h
    · intro cs acc v r h; simp [parseMembers] at h
    · intro cs acc v r h; simp [parseElems] at h
  | succ f ih =>
    obtain ⟨ihv, ihm, ihe⟩ := ih
    refine ⟨?_, ?_, ?_⟩
    · intro cs v r h
      cases cs with
      | nil => simp [parseValue] at h
      | cons c cs =>
        rw [parseValue] at h
        split at h
        · split at h
          · simp at h
          · split at h
            · simp only [Option.some.injEq, Prod.mk.injEq] at h
              rw [← h.1]; rfl
            · exact ihm _ _ _ _ h rfl rfl
        · split at h
          · split at h
            · simp at h
            · split at h
              · simp only [Option.some.injEq, Prod.mk.injEq] at h
                rw [← h.1]; rfl
              · exact ihe _ _ _ _ h rfl
          · split at h
            · simp only [Option.map_eq_some', Prod.mk.injEq] at h
              obtain ⟨p, -, e, -⟩ := h
              rw [← e]; rfl
            · split at h
              · exact parseLiteral_isDecoded h
              · exact parseNumber_isDecoded h
    · intro cs acc v r h hacc hord
      cases cs with
      | nil => simp [parseMembers] at h
      | cons c cs =>
        rw [parseMembers] at h
        split at h
        · split at h
          · simp at h
          · split at h
            · simp at h
            · split at h
              · split at h
                · simp at h
                · rename_i v1 r3 hv1
                  have hd1 := ihv _ _ _ hv1
                  split at h
                  · simp at h
                  · split at h
                    · exact ihm _ _ _ _ h (membersDecoded_insertMember hacc hd1)
                        (keysInOrder_insertMember _ _ _ hord)
                    · split at h
                      · simp only [Option.some.injEq, Prod.mk.injEq] at h
                        rw [← h.1]
                        simp only [isDecoded, Bool.and_eq_true]
                        exact ⟨membersDecoded_insertMember hacc hd1,
                          keysInOrder_insertMember _ _ _ hord⟩
                      · simp at h
              · simp at h
        · simp at h
    · intro cs acc v r h hacc
      rw [parseElems] at h
      split at h
      · simp at h
      · rename_i v1 r1 hv1
        have hd1 := ihv _ _ _ hv1
        split at h
        · simp at h
        · split at h
          · exact ihe _ _ _ _ h (allDecoded_append hacc hd1)
          · split at h
            · simp only [Option.some.injEq, Prod.mk.injEq] at h
              rw [← h.1]
              simp only [isDecoded]
              exact allDecoded_append hacc hd1
            · simp at h

/-- Every value that `JSON.parse` returns is a decoded value. -/
theorem jsonParse_isDecoded {text : String} {v : JsVal} (h : jsonParse text = .ok v) :
    isDecoded v = true := by
  unfold jsonParse at h
  split at h
  · rename_i v1 rest hv
    split at h
    · simp only [Except.ok.injEq] at h
      rw [← h]
      exact (parse_isDecoded _).1 _ _ _ hv
    · simp at h
  · simp at h

/-! ## What `JSON.parse` returns: the numbers are doubles -/

theorem membersPlain_iff (r : Props) :
    membersPlain r = true ↔ ∀ p ∈ r, plainNumbers p.2 = true := by
  induction r with
  | nil => simp [membersPlain]
  | cons p r ih =>
    obtain ⟨k, v⟩ := p
    simp [membersPlain, ih]

theorem elemsPlain_iff (xs : List JsVal) :
    elemsPlain xs = true ↔ ∀ x ∈ xs, plainNumbers x = true := by
  induction xs with
  | nil => simp [elemsPlain]
  | cons x xs ih => simp [elemsPlain, ih]

theorem membersFinite_iff (r : Props) :
    membersFinite r = true ↔ ∀ p ∈ r, finiteNumbers p.2 = true := by
  induction r with
  | nil => simp [membersFinite]
  | cons p r ih =>
    obtain ⟨k, v⟩ := p
    simp [membersFinite, ih]

theorem elemsFinite_iff (xs : List JsVal) :
    elemsFinite xs = true ↔ ∀ x ∈ xs, finiteNumbers x = true := by
  induction xs with
  | nil => simp [elemsFinite]
  | cons x xs ih => simp [elemsFinite, ih]

theorem decVal_nonneg (c : Nat × Int) : 0 ≤ decVal c := by
  unfold decVal pow10
  split
  · exact mul_nonneg (Nat.cast_nonneg _) (Nat.cast_nonneg _)
  · exact mul_nonneg (Nat.cast_nonneg _) (div_nonneg zero_le_one (Nat.cast_nonneg _))

theorem toDouble_nonneg {q r : ℚ} (h : toDouble q = some r) : 0 ≤ r := by
  unfold toDouble nearest at h
  simp only [] at h
  split at h
  · simp at h
  · simp only [Option.map_some', Option.some.injEq] at h
    rw [← h]
    exact mul_nonneg (Nat.cast_nonneg _) (le_of_lt (pow2_pos _))

theorem isDouble_neg {q : ℚ} (h : isDouble q = true) : isDouble (-q) = true := by
  simpa [isDouble] using h

theorem isDouble_of_toDouble {q r : ℚ} (hq : 0 ≤ q) (h : toDouble q = some r) :
    isDouble r = true := by
  have hr := toDouble_nonneg h
  by_cases h0 : r = 0
  · subst h0
    simp [isDouble, toDouble_zero]
  · simp [isDouble, abs_of_nonneg hr, toDouble_idem hq h h0]

/-- A number token is read as a double: when it is finite and not the negative
zero, it is an integer that is a double or a fraction that is a double. -/
theorem decodeNumber_finite (neg : Bool) (m : Nat) (e : Int)
    (hp : plainNumbers (decodeNumber neg m e) = true) :
    finiteNumbers (decodeNumber neg m e) = true := by
  have hz : isDouble ((0 : Int) : ℚ) = true := isDouble_small 0 (by decide)
  unfold decodeNumber at hp ⊢
  by_cases hm : m = 0
  · simp only [hm, if_true] at hp ⊢
    cases neg
    · simpa [finiteNumbers] using hz
    · simp [plainNumbers] at hp
  · simp only [hm, if_false] at hp ⊢
    by_cases he : e = 0 ∧ m < 2 ^ 53
    · simp only [he, and_self, if_true]
      simp only [finiteNumbers]
      have hs : isDouble (((m : Int)) : ℚ) = true := isDouble_small _ (by simpa using he.2)
      cases neg
      · simpa using hs
      · have := isDouble_neg hs
        simpa using this
    · simp only [he, if_false] at hp ⊢
      cases hd : toDouble (decVal (m, e)) with
      | none => rw [hd] at hp; simp [plainNumbers] at hp
      | some r =>
        rw [hd] at hp
        simp only [] at hp ⊢
        have hdr := isDouble_of_toDouble (decVal_nonneg _) hd
        have hr0 := toDouble_nonneg hd
        by_cases h0 : r = 0
        · simp only [h0, if_true] at hp ⊢
          cases neg
          · simpa [finiteNumbers] using hz
          · simp [plainNumbers] at hp
        · simp only [h0, if_false] at hp ⊢
          by_cases h1 : r.den = 1
          · simp only [h1, if_true]
            simp only [finiteNumbers]
            have hre : ((r.num : Int) : ℚ) = r := by
              have := Rat.num_div_den r
              rw [h1] at this
              simpa using this
            cases neg
            · simp only [Bool.false_eq_true, if_false, hre]
              exact hdr
            · simp only [if_true, Int.cast_neg, hre]
              exact isDouble_neg hdr
          · simp only [h1, if_false]
            simp only [finiteNumbers, Bool.and_eq_true, bne_iff_ne, ne_eq]
            cases neg
            · simp only [Bool.false_eq_true, if_false]
              exact ⟨hdr, h1⟩
            · simp only [if_true, Rat.neg_den]
              exact ⟨isDouble_neg hdr, h1⟩

theorem parseUnsigned_finite {neg : Bool} {cs : List Char} {v : JsVal} {r : List Char}
    (h : parseUnsigned neg cs = some (v, r)) (hp : plainNumbers v = true) :
    finiteNumbers v = true := by
  unfold parseUnsigned at h
  repeat' split at h
  all_goals first
    | (simp at h; done)
    | (simp only [Option.some.injEq, Prod.mk.injEq] at h; rw [← h.1] at hp ⊢;
       exact decodeNumber_finite _ _ _ hp)

theorem parseNumber_finite {cs : List Char} {v : JsVal} {r : List Char}
    (h : parseNumber cs = some (v, r)) (hp : plainNumbers v = true) :
    finiteNumbers v = true := by
  unfold parseNumber at h
  split at h
  · simp at h
  · split at h <;> exact parseUnsigned_finite h hp

theorem parseLiteral_finite {cs : List Char} {v : JsVal} {r : List Char}
    (h : parseLiteral cs = some (v, r)) : finiteNumbers v = true := by
  unfold parseLiteral at h
  split at h
  · simp only [Option.some.injEq, Prod.mk.injEq] at h
    rw [← h.1]; rfl
  · split at h
    · simp only [Option.some.injEq, Prod.mk.injEq] at h
      rw [← h.1]; rfl
    · split at h
      · simp only [Option.some.injEq, Prod.mk.injEq] at h
        rw [← h.1]; rfl
      · simp at h

theorem finite_insertMember {o : Props} {k : String} {v : JsVal}
    (ho : ∀ p ∈ o, plainNumbers p.2 = true → finiteNumbers p.2 = true)
    (hv : plainNumbers v = true → finiteNumbers v = true) :
    ∀ p ∈ insertMember o k v, plainNumbers p.2 = true → finiteNumbers p.2 = true := by
  intro p hp
  rcases mem_insertMember hp with e | e
  · rw [e]; exact hv
  · exact ho p e

theorem finite_append {xs : List JsVal} {v : JsVal}
    (hx : ∀ x ∈ xs, plainNumbers x = true → finiteNumbers x = true)
    (hv : plainNumbers v = true → finiteNumbers v = true) :
    ∀ x ∈ xs ++ [v], plainNumbers x = true → finiteNumbers x = true := by
  intro x h
  rcases List.mem_append.mp h with h | h
  · exact hx x h
  · simp only [List.mem_singleton] at h
    rw [h]; exact hv

theorem finite_obj {kvs : Props}
    (h : ∀ p ∈ kvs, plainNumbers p.2 = true → finiteNumbers p.2 = true)
    (hp : plainNumbers (.obj kvs) = true) : finiteNumbers (.obj kvs) = true := by
  simp only [plainNumbers, finiteNumbers] at hp ⊢
  rw [membersPlain_iff] at hp
  rw [membersFinite_iff]
  exact fun p hm => h p hm (hp p hm)

theorem finite_arr {xs : List JsVal}
    (h : ∀ x ∈ xs, plainNumbers x = true → finiteNumbers x = true)
    (hp : plainNumbers (.arr xs) = true) : finiteNumbers (.arr xs) = true := by
  simp only [plainNumbers, finiteNumbers] at hp ⊢
  rw [elemsPlain_iff] at hp
  rw [elemsFinite_iff]
  exact fun x hm => h x hm (hp x hm)

/-- In whatever the parser returns, every number that is finite and not the
negative zero is a double. -/
theorem parse_finite (fuel : Nat) :
    (∀ cs v r, parseValue fuel cs = some (v, r) →
      plainNumbers v = true → finiteNumbers v = true) ∧
    (∀ cs acc v r, parseMembers fuel cs acc = some (v, r) →
      (∀ p ∈ acc, plainNumbers p.2 = true → finiteNumbers p.2 = true) →
      plainNumbers v = true → finiteNumbers v = true) ∧
    (∀ cs acc v r, parseElems fuel cs acc = some (v, r) →
      (∀ x ∈ acc, plainNumbers x = true → finiteNumbers x = true) →
      plainNumbers v = true → finiteNumbers v = true) := by
  induction fuel with
  | zero =>
    refine ⟨?_, ?_, ?_⟩
    · intro cs v r h; simp [parseValue] at h
    · intro cs acc v r h; simp [parseMembers] at h
    · intro cs acc v r h; simp [parseElems] at h
  | succ f ih =>
    obtain ⟨ihv, ihm, ihe⟩ := ih
    refine ⟨?_, ?_, ?_⟩
    · intro cs v r h
      cases cs with
      | nil => simp [parseValue] at h
      | cons c cs =>
        rw [parseValue] at h
        split at h
        · split at h
          · simp at h
          · split at h
            · simp only [Option.some.injEq, Prod.mk.injEq] at h
              rw [← h.1]; intro _; rfl
            · exact ihm _ _ _ _ h (by simp)
        · split at h
          · split at h
            · simp at h
            · split at h
              · simp only [Option.some.injEq, Prod.mk.injEq] at h
                rw [← h.1]; intro _; rfl
              · exact ihe _ _ _ _ h (by simp)
          · split at h
            · simp only [Option.map_eq_some', Prod.mk.injEq] at h
              obtain ⟨p, -, e, -⟩ := h
              rw [← e]; intro _; rfl
            · split at h
              · exact fun _ => parseLiteral_finite h
              · exact parseNumber_finite h
    · intro cs acc v r h hacc
      cases cs with
      | nil => simp [parseMembers] at h
      | cons c cs =>
        rw [parseMembers] at h
        split at h
        · split at h
          · simp at h
          · split at h
            · simp at h
            · split at h
              · split at h
                · simp at h
                · rename_i v1 r3 hv1
                  have hd1 := ihv _ _ _ hv1
                  split at h
                  · simp at h
                  · split at h
                    · exact ihm _ _ _ _ h (finite_insertMember hacc hd1)
                    · split at h
                      · simp only [Option.some.injEq, Prod.mk.injEq] at h
                        rw [← h.1]
                        exact finite_obj (finite_insertMember hacc hd1)
                      · simp at h
              · simp at h
        · simp at h
    · intro cs acc v r h hacc
      rw [parseElems] at h
      split at h
      · simp at h
      · rename_i v1 r1 hv1
        have hd1 := ihv _ _ _ hv1
        split at h
        · simp at h
        · split at h
          · exact ihe _ _ _ _ h (finite_append hacc hd1)
          · split at h
            · simp only [Option.some.injEq, Prod.mk.injEq] at h
              rw [← h.1]
              exact finite_arr (finite_append hacc hd1)
            · simp at h

/-- In a value that `JSON.parse` returns, the numbers are doubles: when none of
them is an infinity or the negative zero, they are finite doubles. -/
theorem jsonParse_finite {text : String} {v : JsVal} (h : jsonParse text = .ok v)
    (hp : plainNumbers v = true) : finiteNumbers v = true := by
  unfold jsonParse at h
  split at h
  · rename_i v1 rest hv
    split at h
    · simp only [Except.ok.injEq] at h
      rw [← h] at hp ⊢
      exact (parse_finite _).1 _ _ _ hv hp
    · simp at h
  · simp at h

/-- C8 (counterexample). The text `{"a":1e999}` decodes to the record whose `a`
is the positive infinity (the number overflows), formatRecord writes it in mode
`bunyan` as `{"a":null}`, and that text decodes to a record whose `a` is `null`,
not the original record.  The text `{"a":-0}` decodes to the record whose `a`
is the negative zero, which is written `{"a":0}` and read back as the integer
zero. -/
theorem round_trip_loses_infinity :
    jsonParse "\x7b\"a\":1e999\x7d" = .ok (.obj [("a", .dbl (.inf false))]) ∧
    isDecoded (.obj [("a", .dbl (.inf false))]) = true ∧
    formatRecord sampleEnv (.obj [("a", .dbl (.inf false))]) (plainOpts "bunyan") =
      .ok ("\x7b\"a\":null\x7d" ++ "\n") ∧
    jsonParse "\x7b\"a\":null\x7d" = .ok (.obj [("a", .null)]) ∧
    JsVal.obj [("a", .null)] ≠ .obj [("a", .dbl (.inf false))] ∧
    jsonParse "\x7b\"a\":-0\x7d" = .ok (.obj [("a", .dbl .negZero)]) ∧
    formatRecord sampleEnv (.obj [("a", .dbl .negZero)]) (plainOpts "bunyan") =
      .ok ("\x7b\"a\":0\x7d" ++ "\n") ∧
    jsonParse "\x7b\"a\":0\x7d" = .ok (.obj [("a", .num 0)]) ∧
    JsVal.obj [("a", .num 0)] ≠ .obj [("a", .dbl .negZero)] := by
  have h1 : jsonParse "\x7b\"a\":1e999\x7d" = .ok (.obj [("a", decodeNumber false 1 999)]) := by
    rfl
  rw [decodeNumber_overflow] at h1
  refine ⟨h1, by rfl, by rfl, by rfl, by simp, by rfl, by rfl, by rfl, by simp⟩

theorem round_trip_finite (env : Env) (kvs : Props) (opts : Opts)
    (hdec : isDecoded (.obj kvs) = true) (hfin : finiteNumbers (.obj kvs) = true)
    (hlevel : opts.levelInString = false)
    (hmode : opts.outputMode ∈
      [OutputMode.name "bunyan", .code 6, .name "json", .code 2]) :
    ∃ text, formatRecord env (.obj kvs) opts = .ok (text ++ "\n") ∧
      jsonParse text = .ok (.obj kvs) ∧ jsonParse (text ++ "\n") = .ok (.obj kvs) := by
  have key : ∀ space : Int, ∃ text, renderJson opts (.obj kvs) space = .ok (text ++ "\n") ∧
      jsonParse text = .ok (.obj kvs) ∧ jsonParse (text ++ "\n") = .ok (.obj kvs) := by
    intro space
    obtain ⟨t, h1, h2, h3⟩ := jsonParse_jsonStringify (.obj kvs) space hdec hfin
    exact ⟨t, by simp [renderJson, hlevel, jsonLine, h1], h2, h3⟩
  rw [formatRecord_obj]
  simp only [List.mem_cons, List.mem_singleton, List.not_mem_nil, or_false] at hmode
  rcases hmode with h | h | h | h
  · have hr : resolveMode opts.outputMode = some 6 := by rw [h]; decide
    simpa [hr, OM_SHORT, OM_LONG, OM_INSPECT, OM_BUNYAN] using key 0
  · have hr : resolveMode opts.outputMode = some 6 := by rw [h]; decide
    simpa [hr, OM_SHORT, OM_LONG, OM_INSPECT, OM_BUNYAN] using key 0
  · have hr : resolveMode opts.outputMode = some 2 := by rw [h]; decide
    simpa [hr, OM_SHORT, OM_LONG, OM_INSPECT, OM_BUNYAN, OM_JSON] using key opts.jsonIndent
  · have hr : resolveMode opts.outputMode = some 2 := by rw [h]; decide
    simpa [hr, OM_SHORT, OM_LONG, OM_INSPECT, OM_BUNYAN, OM_JSON] using key opts.jsonIndent

/-- C8 (amended). Round trip: for a record decoded from a JSON object whose
numbers are all finite and none the negative zero, and a configuration with
`levelInString` false, the output of formatRecord in mode `bunyan`, and in mode
`json` with any `jsonIndent`, is a JSON text followed by `\n`; decoding the
text, with or without the final `\n`, gives the record itself.  The record is
given once as the value decoded from a JSON text, and once as any value with
the properties of a decoded one. -/
theorem json_round_trip :
    (∀ (env : Env) (line : String) (kvs : Props) (opts : Opts),
      jsonParse line = .ok (.obj kvs) → plainNumbers (.obj kvs) = true →
      opts.levelInString = false →
      opts.outputMode ∈ [OutputMode.name "bunyan", .code 6, .name "json", .code 2] →
      ∃ text, formatRecord env (.obj kvs) opts = .ok (text ++ "\n") ∧
        jsonParse text = .ok (.obj kvs) ∧ jsonParse (text ++ "\n") = .ok (.obj kvs)) ∧
    (∀ (env : Env) (kvs : Props) (opts : Opts),
      isDecoded (.obj kvs) = true → finiteNumbers (.obj kvs) = true →
      opts.levelInString = false →
      opts.outputMode ∈ [OutputMode.name "bunyan", .code 6, .name "json", .code 2] →
      ∃ text, formatRecord env (.obj kvs) opts = .ok (text ++ "\n") ∧
        jsonParse text = .ok (.obj kvs) ∧ jsonParse (text ++ "\n") = .ok (.obj kvs)) :=
  ⟨fun env _ kvs opts hparse hplain hlevel hmode =>
    round_trip_finite env kvs opts (jsonParse_isDecoded hparse) (jsonParse_finite hparse hplain)
      hlevel hmode,
   round_trip_finite⟩

/-- Witness of C8: the line of the scenario, in mode `bunyan`; and a record with
nested values, a fraction and a number written with an exponent, in mode `json`
with indent 2. -/
theorem json_round_trip_witness :
    (jsonParse "\x7b\"v\":0,\"level\":30,\"name\":\"svc\",\"hostname\":\"h1\",\"pid\":5,\"time\":\"2021-01-02T03:04:05.000Z\",\"msg\":\"hello\"\x7d\n" =
        .ok (.obj helloRecord) ∧
      ∃ text, formatRecord sampleEnv (.obj helloRecord) (plainOpts "bunyan") =
          .ok (text ++ "\n") ∧
        jsonParse text = .ok (.obj helloRecord) ∧
        jsonParse (text ++ "\n") = .ok (.obj helloRecord)) ∧
    isDecoded (.obj (helloRecord ++
      [("tags", .arr [.str "a\n\"b\"", .num (-3), .null, .obj []]),
       ("ratio", .dbl (.frac (1 / 2))), ("big", .num 1000000000000000000000),
       ("req", .obj [("0", .bool true), ("url", .str "/x")])])) = true ∧
    finiteNumbers (.obj (helloRecord ++
      [("tags", .arr [.str "a\n\"b\"", .num (-3), .null, .obj []]),
       ("ratio", .dbl (.frac (1 / 2))), ("big", .num 1000000000000000000000),
       ("req", .obj [("0", .bool true), ("url", .str "/x")])])) = true ∧
    ∃ text, formatRecord sampleEnv (.obj (helloRecord ++
        [("tags", .arr [.str "a\n\"b\"", .num (-3), .null, .obj []]),
         ("ratio", .dbl (.frac (1 / 2))), ("big", .num 1000000000000000000000),
         ("req", .obj [("0", .bool true), ("url", .str "/x")])]))
        { plainOpts "json" with jsonIndent := 2 } = .ok (text ++ "\n") ∧
      jsonParse text = .ok (.obj (helloRecord ++
        [("tags", .arr [.str "a\n\"b\"", .num (-3), .null, .obj []]),
         ("ratio", .dbl (.frac (1 / 2))), ("big", .num 1000000000000000000000),
         ("req", .obj [("0", .bool true), ("url", .str "/x")])])) ∧
      jsonParse (text ++ "\n") = .ok (.obj (helloRecord ++
        [("tags", .arr [.str "a\n\"b\"", .num (-3), .null, .obj []]),
         ("ratio", .dbl (.frac (1 / 2))), ("big", .num 1000000000000000000000),
         ("req", .obj [("0", .bool true), ("url", .str "/x")])])) :=
  ⟨⟨by rfl, json_round_trip.1 sampleEnv
      "\x7b\"v\":0,\"level\":30,\"name\":\"svc\",\"hostname\":\"h1\",\"pid\":5,\"time\":\"2021-01-02T03:04:05.000Z\",\"msg\":\"hello\"\x7d\n"
      helloRecord (plainOpts "bunyan") (by rfl) (by decide) rfl (by decide)⟩,
   by decide, by decide!,
   json_round_trip.2 sampleEnv _ { plainOpts "json" with jsonIndent := 2 } (by decide)
     (by decide!) rfl (by decide)⟩

/-! ## The level label -/

theorem parseUnsigned_NaN (neg : Bool) (rest : List Char) :
    parseUnsigned neg ('N' :: rest) = none := by
  have h : digitVal 10 'N' = none := by decide
  simp [parseUnsigned, readIntPart, readDigits, h]

theorem posText_none {q : ℚ} (h : shortest q = none) : posText q = 'N' :: 'a' :: 'N' :: [] := by
  unfold posText
  rw [h]

/-- The text of an integer is the text of a natural number below `2 ^ 53` only
for that number. -/
theorem intText_ne_key (n : Int) (k : Nat) (hk : k < 2 ^ 53) (hne : n ≠ (k : Int)) :
    intText n ≠ toString (k : Int) := by
  intro h
  have hks : (k : Int).natAbs < 2 ^ 53 := by simpa using hk
  have hk1 := parseNumber_intText (k : Int) (isDouble_small _ hks) [] numEnd_nil
  rw [intText_small hks, ← h] at hk1
  by_cases hs : n.natAbs < 2 ^ 53
  · rw [parseNumber_intText n (isDouble_small n hs) [] numEnd_nil] at hk1
    simp only [Option.some.injEq, Prod.mk.injEq, JsVal.num.injEq, and_true] at hk1
    exact hne hk1
  · have hn0 : n ≠ 0 := by
      intro h0
      subst h0
      simp at hs
    have hq0 : (n : ℚ) ≠ 0 := by exact_mod_cast hn0
    unfold intText at hk1
    simp only [hs, if_false] at hk1
    unfold numText at hk1
    by_cases hneg : (n : ℚ) < 0
    · simp only [hneg, if_true, List.cons_append, parseNumber] at hk1
      cases hc : shortest (-(n : ℚ)) with
      | none =>
        rw [posText_none hc] at hk1
        simp only [List.cons_append, parseUnsigned_NaN] at hk1
        exact absurd hk1 (by simp)
      | some c =>
        rw [parseUnsigned_posText (-(n : ℚ)) (by linarith) c hc true [] numEnd_nil] at hk1
        simp only [if_true, neg_neg, ofRat_intCast, Option.some.injEq, Prod.mk.injEq,
          JsVal.num.injEq, and_true] at hk1
        exact hne hk1
    · have hpos : 0 < (n : ℚ) := lt_of_le_of_ne (not_lt.mp hneg) (Ne.symm hq0)
      simp only [hneg, if_false] at hk1
      cases hc : shortest (n : ℚ) with
      | none =>
        rw [posText_none hc] at hk1
        simp only [List.cons_append, parseNumber, Char.reduceEq, if_false,
          parseUnsigned_NaN] at hk1
        exact absurd hk1 (by simp)
      | some c =>
        have hp := parseUnsigned_posText (n : ℚ) hpos c hc false [] numEnd_nil
        obtain ⟨x, r, e, hh⟩ := posText_head (n : ℚ)
        have hx : x ≠ '-' := by
          rcases hh with hh | ⟨d, hd, hh⟩
          · rw [hh]; decide
          · rw [hh]; exact digitChar_ne_minus d hd
        rw [e] at hk1 hp
        simp only [List.cons_append, parseNumber, hx, if_false] at hk1 hp
        rw [hp] at hk1
        simp only [Bool.false_eq_true, if_false, ofRat_intCast, Option.some.injEq,
          Prod.mk.injEq, JsVal.num.injEq, and_true] at hk1
        exact hne hk1

theorem lookup_level_none (n : Int) (t : List (String × String))
    (ht : t.map Prod.fst = [toString TRACE, toString DEBUG, toString INFO, toString WARN,
      toString ERROR, toString FATAL])
    (h : n ∉ [TRACE, DEBUG, INFO, WARN, ERROR, FATAL]) : t.lookup (intText n) = none := by
  rw [List.lookup_eq_none_iff]
  intro p hp
  have hk : p.1 ∈ t.map Prod.fst := List.mem_map_of_mem _ hp
  rw [ht] at hk
  simp only [List.mem_cons, List.mem_singleton, List.not_mem_nil, or_false, not_or] at h hk
  rw [bne_iff_ne]
  intro e
  obtain ⟨h1, h2, h3, h4, h5, h6⟩ := h
  rcases hk with hk | hk | hk | hk | hk | hk <;> rw [hk] at e
  · exact intText_ne_key n 10 (by decide) h1 e
  · exact intText_ne_key n 20 (by decide) h2 e
  · exact intText_ne_key n 30 (by decide) h3 e
  · exact intText_ne_key n 40 (by decide) h4 e
  · exact intText_ne_key n 50 (by decide) h5 e
  · exact intText_ne_key n 60 (by decide) h6 e

/-- The text of a number is the name of no property of `Object.prototype`. -/
theorem intText_not_protoKey (n : Int) : protoKeys.contains (intText n) = false := by
  obtain ⟨c, r, e, hc⟩ := intText_head n
  have hne : ∀ k ∈ protoKeys, intText n ≠ k := by
    intro k hk h
    rw [h] at e
    simp only [protoKeys, List.mem_cons, List.mem_singleton, List.not_mem_nil, or_false] at hk
    have hd : ∀ d, d < 10 → Nat.digitChar d ≠ 'c' ∧ Nat.digitChar d ≠ 'h' ∧
        Nat.digitChar d ≠ 'i' ∧ Nat.digitChar d ≠ 'p' ∧ Nat.digitChar d ≠ 't' ∧
        Nat.digitChar d ≠ 'v' ∧ Nat.digitChar d ≠ '_' := by decide
    rcases hk with hk | hk | hk | hk | hk | hk | hk | hk | hk | hk | hk | hk <;>
      rw [hk] at e <;> simp only [List.cons.injEq] at e <;>
      rcases hc with hc | hc | ⟨d, hd1, hc⟩ <;> rw [hc] at e <;>
      first
        | exact absurd e.1 (by decide)
        | exact absurd e.1.symm (hd d hd1).1
        | exact absurd e.1.symm (hd d hd1).2.1
        | exact absurd e.1.symm (hd d hd1).2.2.1
        | exact absurd e.1.symm (hd d hd1).2.2.2.1
        | exact absurd e.1.symm (hd d hd1).2.2.2.2.1
        | exact absurd e.1.symm (hd d hd1).2.2.2.2.2.1
        | exact absurd e.1.symm (hd d hd1).2.2.2.2.2.2
  cases hcon : protoKeys.contains (intText n) with
  | false => rfl
  | true =>
    rw [List.contains_iff_exists_mem_beq] at hcon
    obtain ⟨k, hk, hb⟩ := hcon
    exact absurd (beq_iff_eq.mp hb) (hne k hk)

theorem levelLabel_int (env : Env) (n : Int) : levelLabel env (.num n) = .ok
    (if n = 10 then "TRACE" else if n = 20 then "DEBUG" else if n = 30 then " INFO"
     else if n = 40 then " WARN" else if n = 50 then "ERROR" else if n = 60 then "FATAL"
     else "LVL" ++ intText n) := by
  by_cases h1 : n = 10
  · subst h1; rfl
  by_cases h2 : n = 20
  · subst h2; rfl
  by_cases h3 : n = 30
  · subst h3; rfl
  by_cases h4 : n = 40
  · subst h4; rfl
  by_cases h5 : n = 50
  · subst h5; rfl
  by_cases h6 : n = 60
  · subst h6; rfl
  have hl := lookup_level_none n upperPaddedNameFromLevel (by decide)
    (by simp [TRACE, DEBUG, INFO, WARN, ERROR, FATAL, h1, h2, h3, h4, h5, h6])
  simp only [levelLabel, levelText_num, hl, intText_not_protoKey, h1, h2, h3, h4, h5, h6,
    if_false, Option.getD_none, Bool.false_eq_true]

theorem intText_exponent : intText 1000000000000000000000 = "1e+21" := by decide!

/-- C12 (amended). The level label is defined for every integer level: the six
codes give `TRACE`, `DEBUG`, ` INFO`, ` WARN`, `ERROR`, `FATAL` (five characters
each), and every other integer `n` gives `LVL` followed by the text the language
gives the number `n`, which is the decimal digits of `n` (after `-` when it is
negative) when `n` is below `2 ^ 53` in magnitude; without color the level text
of the rendering is that label. -/
theorem levelLabel_total :
    (∀ (env : Env) (n : Int), levelLabel env (.num n) = .ok
      (if n = 10 then "TRACE" else if n = 20 then "DEBUG" else if n = 30 then " INFO"
       else if n = 40 then " WARN" else if n = 50 then "ERROR" else if n = 60 then "FATAL"
       else "LVL" ++ intText n)) ∧
    (∀ n : Int, n.natAbs < 2 ^ 53 → intText n = toString n) ∧
    (∀ (env : Env) (n : Int), n.natAbs < 2 ^ 53 → n ∉ [TRACE, DEBUG, INFO, WARN, ERROR, FATAL] →
      levelLabel env (.num n) = .ok ("LVL" ++ toString n)) ∧
    (∀ env : Env, [10, 20, 30, 40, 50, 60].map
        (fun n : Int => (levelLabel env (.num n)).map String.length) =
      [.ok 5, .ok 5, .ok 5, .ok 5, .ok 5, .ok 5]) ∧
    (∀ (env : Env) (opts : Opts) (n : Int), opts.color = false →
      ∃ label, levelLabel env (.num n) = .ok label ∧
        levelPart env opts (.num n) = .ok (.str label)) := by
  refine ⟨levelLabel_int, fun n h => intText_small h, ?_, fun env => by rfl, ?_⟩
  · intro env n hs hn
    simp only [TRACE, DEBUG, INFO, WARN, ERROR, FATAL, List.mem_cons, List.mem_singleton,
      List.not_mem_nil, or_false, not_or] at hn
    obtain ⟨h1, h2, h3, h4, h5, h6⟩ := hn
    rw [levelLabel_int env n, ← intText_small hs]
    simp only [h1, h2, h3, h4, h5, h6, if_false]
  · intro env opts n h
    refine ⟨_, levelLabel_int env n, ?_⟩
    rw [levelPart_off env opts _ h, levelLabel_int env n]
    rfl

/-- Witness of C12: the levels 30 and 35 without color. -/
theorem levelLabel_total_witness :
    (∃ label, levelLabel sampleEnv (.num 30) = .ok label ∧
      levelPart sampleEnv (plainOpts "short") (.num 30) = .ok (.str label)) ∧
    levelLabel sampleEnv (.num 35) = .ok ("LVL" ++ toString (35 : Int)) ∧
    (35 : Int).natAbs < 2 ^ 53 ∧ intText 35 = toString (35 : Int) :=
  ⟨levelLabel_total.2.2.2.2 sampleEnv (plainOpts "short") 30 rfl,
   levelLabel_total.2.2.1 sampleEnv 35 (by decide) (by decide), by decide,
   levelLabel_total.2.1 35 (by decide)⟩

/-- C12 (counterexample). The integer `10 ^ 21` is a value of the language (a
double), and the language writes it `1e+21`: the level label of a record with
that level is `LVL1e+21`, not `LVL` followed by the digits
`1000000000000000000000`, and so is the level text of the output. -/
theorem level_text_exponent :
    isDouble 1000000000000000000000 = true ∧
    toString (1000000000000000000000 : Int) = "1000000000000000000000" ∧
    levelLabel sampleEnv (.num 1000000000000000000000) = .ok "LVL1e+21" ∧
    levelLabel sampleEnv (.num 1000000000000000000000) ≠
      .ok ("LVL" ++ toString (1000000000000000000000 : Int)) ∧
    formatRecord sampleEnv
      (.obj (sevenFields (.num 0) 1000000000000000000000 "svc" (.str "h1") (.num 5)
        "2021-01-02T03:04:05.000Z" "hello")) (plainOpts "short") =
      .ok "03:04:05.000Z LVL1e+21 svc: hello\n" := by
  have hl : levelLabel sampleEnv (.num 1000000000000000000000) = .ok "LVL1e+21" := by
    rw [levelLabel_int, intText_exponent]
    rfl
  refine ⟨by decide!, by decide, hl, ?_, ?_⟩
  · rw [hl]
    intro h
    simp only [Except.ok.injEq] at h
    exact absurd h (by decide)
  · have hc := consume_seven sampleEnv (plainOpts "short") true _ (.num 0)
      1000000000000000000000 "svc" (.str "h1") (.num 5) "2021-01-02T03:04:05.000Z" "hello"
      _ _ "LVL1e+21" (List.Perm.refl _) (by rfl)
      (timePart_short_T sampleEnv (plainOpts "short") _ (by rfl) rfl)
      (by rw [namePart_plain]; rfl) hl rfl
    have hvalid : isValidRecord (.obj (sevenFields (.num 0) 1000000000000000000000 "svc"
        (.str "h1") (.num 5) "2021-01-02T03:04:05.000Z" "hello")) = true := by rfl
    have hmode2 : resolveMode (plainOpts "short").outputMode = some 5 := by decide
    simp [formatRecord, hmode2, hvalid, renderLines, hc, leftoverLoop, assemble,
      OM_SHORT, OM_LONG, stylize_off sampleEnv (plainOpts "short") rfl, format_short]
    decide

/-! ## The steps of a short/long rendering -/

/-- What `consume` returns, step by step. -/
theorem consume_steps {env : Env} {opts : Opts} {short : Bool} {r : Props} {c : Consumed}
    (h : consume env opts short r = .ok c) :
    timePart env opts short (getProp r "time") = .ok c.time ∧
    levelPart env opts (getProp r "level") = .ok c.level ∧
    namePart short (getProp r "name") (getProp r "component") (getProp r "pid") =
      .ok c.nameStr ∧
    c.hostname = getProp r "hostname" ∧
    srcPart env opts (getProp r "src") = .ok c.src ∧
    ∃ es d0, reqIdExtras r = .ok es ∧
      msgPart env opts (getProp r "msg") [] = .ok (c.onelineMsg, d0) ∧
      blocks env { rcd := afterFields r, extras := es, details := d0 } = .ok c.acc := by
  rw [consume_eq] at h
  split at h
  · simp at h
  · rename_i t ht
    split at h
    · simp at h
    · rename_i n hn
      split at h
      · simp at h
      · rename_i l hl
        split at h
        · simp at h
        · rename_i s hs
          split at h
          · simp at h
          · rename_i es hes
            split at h
            · simp at h
            · rename_i om d0 hm
              split at h
              · simp at h
              · rename_i a ha
                simp only [Except.ok.injEq] at h
                subst h
                exact ⟨ht, hl, hn, rfl, hs, es, d0, hes, hm, ha⟩

theorem renderLines_steps {env : Env} {opts : Opts} {short : Bool} {r : Props} {out : String}
    (h : renderLines env opts short r = .ok out) :
    ∃ c extras details, consume env opts short r = .ok c ∧
      leftoverLoop c.acc.rcd c.acc.extras c.acc.details = .ok (extras, details) ∧
      assemble env opts short c.time c.level c.nameStr c.hostname c.src c.onelineMsg
        extras details = .ok out := by
  unfold renderLines at h
  split at h
  · simp at h
  · rename_i c hc
    split at h
    · simp at h
    · rename_i extras details hl
      exact ⟨c, extras, details, hc, hl, h⟩

theorem formatRecord_lines (env : Env) (kvs : Props) (opts : Opts) (short : Bool)
    (hmode : opts.outputMode = .name (if short then "short" else "long"))
    (hvalid : isValidRecord (.obj kvs) = true) :
    formatRecord env (.obj kvs) opts = renderLines env opts short kvs := by
  rw [formatRecord_obj]
  cases short
  · have hr : resolveMode opts.outputMode = some 1 := by rw [hmode]; decide
    simp [hr, OM_SHORT, OM_LONG, hvalid]
  · have hr : resolveMode opts.outputMode = some 5 := by rw [hmode]; decide
    simp [hr, OM_SHORT, OM_LONG, hvalid]

theorem fmtS_str (env : Env) (s : String) : fmtS env (.str s) = s := rfl

theorem assemble_off (env : Env) (opts : Opts) (short : Bool) (t l : String)
    (nameStr hostname : JsVal) (src om : String) (extras details : List String)
    (hcolor : opts.color = false) :
    assemble env opts short (.str t) (.str l) nameStr hostname (.str src) om extras details =
      .ok (headerText env short t l nameStr hostname src ++ om ++ extrasSegment extras ++ "\n" ++
        detailsSegment details) := by
  unfold assemble headerText extrasSegment detailsSegment
  simp only [stylize_off env opts hcolor]
  cases short
  · simp only [Bool.not_false, if_true, format, formatAux, fmtS_str, formatRest, Except.map,
      Bool.false_eq_true, if_false]
    congr 1
    apply String.ext; simp
  · simp only [Bool.not_true, Bool.false_eq_true, if_false, format, formatAux, fmtS_str,
      formatRest, Except.map, if_true]
    congr 1
    apply String.ext; simp

/-! ## The time portion -/

theorem timePart_short_other (env : Env) (opts : Opts) (time : String)
    (htime : unitAt time.data 10 ≠ some 'T') (hcolor : opts.color = false) :
    timePart env opts true (.str time) = .ok (.str ("[" ++ time ++ "]")) := by
  have hT : String.singleton 'T' = "T" := rfl
  have hb := bracketTime_off env opts (.str time) time (toStr_str time) hcolor
  unfold timePart
  simp only [if_true, index10]
  cases hu : unitAt time.data 10 with
  | none => simp [looseEqT, hb]
  | some c =>
    have hc : c ≠ 'T' := fun e => htime (by rw [hu, e])
    have hs : String.singleton c ≠ "T" := by
      intro e
      have := congrArg String.data e
      simp [String.singleton] at this
      exact hc this
    have hbq : (String.singleton c == "T") = false := by simpa using hs
    simp [looseEqT, hbq, hb]

theorem stylize_str_inv {env : Env} {opts : Opts} {s : String} {c : Option String} {t : JsVal}
    (h : stylize env opts (.str s) c = .ok t) : ∃ u, t = .str u := by
  obtain ⟨u, e⟩ := stylize_str env opts s c
  rw [e] at h
  simp only [Except.ok.injEq] at h
  exact ⟨u, h.symm⟩

theorem bracketTime_str {env : Env} {opts : Opts} {time t : JsVal}
    (h : bracketTime env opts time = .ok t) : ∃ s, t = .str s := by
  unfold bracketTime at h
  split at h
  · simp at h
  · rename_i x _
    obtain ⟨u, e⟩ := stylize_str env opts ("[" ++ x ++ "]") opts.timeColor
    rw [e] at h
    simp only [Except.ok.injEq] at h
    exact ⟨u, h.symm⟩

theorem timePart_str {env : Env} {opts : Opts} {short : Bool} {time t : JsVal}
    (h : timePart env opts short time = .ok t) : ∃ s, t = .str s := by
  unfold timePart at h
  repeat' first | split at h | simp only [] at h
  all_goals first
    | (simp at h; done)
    | exact bracketTime_str h
    | exact stylize_str_inv h

theorem levelPart_str {env : Env} {opts : Opts} {level t : JsVal}
    (h : levelPart env opts level = .ok t) : ∃ s, t = .str s := by
  unfold levelPart at h
  repeat' first | split at h | simp only [] at h
  all_goals first
    | (simp at h; done)
    | (simp only [Except.ok.injEq] at h; exact ⟨_, h.symm⟩)

theorem srcPart_str {env : Env} {opts : Opts} {src t : JsVal}
    (h : srcPart env opts src = .ok t) : ∃ s, t = .str s := by
  unfold srcPart at h
  repeat' first | split at h | simp only [] at h
  all_goals first
    | (simp at h; done)
    | (simp only [Except.ok.injEq] at h; exact ⟨_, h.symm⟩)
    | exact stylize_str_inv h

theorem consume_time_str {env : Env} {opts : Opts} {short : Bool} {r : Props} {c : Consumed}
    (h : consume env opts short r = .ok c) :
    (∃ t, c.time = .str t) ∧ (∃ l, c.level = .str l) ∧ (∃ s, c.src = .str s) := by
  obtain ⟨ht, hl, -, -, hs, -⟩ := consume_steps h
  exact ⟨timePart_str ht, levelPart_str hl, srcPart_str hs⟩

/-- C11. Without color, the time text of a string `time` is, in short mode,
`time.substr(11)` when the code unit 10 of `time` is `T` and `'[' + time + ']'`
otherwise, and in long mode always `'[' + time + ']'`; every output of a valid
record with that time, in mode `short` or `long`, starts with this text followed
by a space. -/
theorem time_portion (env : Env) (opts : Opts) (time : String) (hcolor : opts.color = false) :
    timePart env opts true (.str time) = .ok (.str
      (if unitAt time.data 10 = some 'T' then substr time 11 else "[" ++ time ++ "]")) ∧
    timePart env opts false (.str time) = .ok (.str ("[" ++ time ++ "]")) ∧
    ∀ (kvs : Props) (short : Bool) (out : String),
      opts.outputMode = .name (if short then "short" else "long") →
      isValidRecord (.obj kvs) = true → getProp kvs "time" = .str time →
      formatRecord env (.obj kvs) opts = .ok out →
      ∃ rest, out = (if short = true ∧ unitAt time.data 10 = some 'T' then substr time 11
        else "[" ++ time ++ "]") ++ " " ++ rest := by
  have h1 : timePart env opts true (.str time) = .ok (.str
      (if unitAt time.data 10 = some 'T' then substr time 11 else "[" ++ time ++ "]")) := by
    by_cases hT : unitAt time.data 10 = some 'T'
    · rw [if_pos hT]; exact timePart_short_T env opts time hT hcolor
    · rw [if_neg hT]; exact timePart_short_other env opts time hT hcolor
  have h2 : timePart env opts false (.str time) = .ok (.str ("[" ++ time ++ "]")) :=
    timePart_long env opts (.str time) time (toStr_str time) hcolor
  refine ⟨h1, h2, ?_⟩
  intro kvs short out hmode hvalid htime hout
  rw [formatRecord_lines env kvs opts short hmode hvalid] at hout
  obtain ⟨c, extras, details, hc, -, hout2⟩ := renderLines_steps hout
  obtain ⟨-, ⟨l, hl⟩, ⟨s, hs⟩⟩ := consume_time_str hc
  have ht := (consume_steps hc).1
  rw [htime] at ht
  cases short
  · rw [h2] at ht
    simp only [Except.ok.injEq] at ht
    rw [← ht, hl, hs, assemble_off env opts _ _ _ _ _ _ _ _ _ hcolor] at hout2
    simp only [Except.ok.injEq] at hout2
    rw [← hout2]
    simp only [headerText, Bool.false_eq_true, false_and, if_false, String.append_assoc]
    exact ⟨_, rfl⟩
  · rw [h1] at ht
    simp only [Except.ok.injEq] at ht
    rw [← ht, hl, hs, assemble_off env opts _ _ _ _ _ _ _ _ _ hcolor] at hout2
    simp only [Except.ok.injEq] at hout2
    rw [← hout2]
    simp only [headerText, true_and, if_true, String.append_assoc]
    exact ⟨_, rfl⟩

/-- Witness of C11: the two times of the scenario, in short and in long mode,
and the output of the record of the scenario. -/
theorem time_portion_witness :
    timePart sampleEnv (plainOpts "short") true (.str "2021-01-02T03:04:05.000Z") =
      .ok (.str "03:04:05.000Z") ∧
    timePart sampleEnv (plainOpts "short") true (.str "not-iso") = .ok (.str "[not-iso]") ∧
    timePart sampleEnv (plainOpts "long") false (.str "2021-01-02T03:04:05.000Z") =
      .ok (.str "[2021-01-02T03:04:05.000Z]") ∧
    ∃ rest, "03:04:05.000Z  INFO svc: hello\n" = "03:04:05.000Z" ++ " " ++ rest :=
  ⟨(time_portion sampleEnv (plainOpts "short") "2021-01-02T03:04:05.000Z" rfl).1,
   (time_portion sampleEnv (plainOpts "short") "not-iso" rfl).1,
   (time_portion sampleEnv (plainOpts "long") "2021-01-02T03:04:05.000Z" rfl).2.1,
   (time_portion sampleEnv (plainOpts "short") "2021-01-02T03:04:05.000Z" rfl).2.2
     helloRecord true "03:04:05.000Z  INFO svc: hello\n" rfl rfl rfl rfl⟩

/-! ## Indentation -/

theorem splitLinesAux_cons (c : Char) (cs cur : List Char) :
    splitLinesAux (c :: cs) cur =
      if c = '\n' then cur.reverse :: splitLinesAux cs []
      else if c = '\r' ∧ cs.head? = some '\n' then cur.reverse :: splitLinesAux cs.tail []
      else splitLinesAux cs (c :: cur) := by
  rw [splitLinesAux.eq_def]
  split
  · rename_i h; simp at h
  · rename_i h
    simp only [List.cons.injEq] at h
    obtain ⟨rfl, rfl⟩ := h
    simp
  · rename_i h
    simp only [List.cons.injEq] at h
    obtain ⟨rfl, rfl⟩ := h
    simp
  · rename_i c1 cs1 h1 h2 h
    simp only [List.cons.injEq] at h
    obtain ⟨rfl, rfl⟩ := h
    have hn : c ≠ '\n' := fun e => h2 e
    rw [if_neg hn, if_neg]
    rintro ⟨rfl, hh⟩
    cases cs with
    | nil => simp at hh
    | cons d ds =>
      simp only [List.head?_cons, Option.some.injEq] at hh
      exact h1 ds rfl (by rw [hh])

theorem splitLinesAux_clean (cs : List Char) : ∀ (cur : List Char), '\n' ∉ cur →
    ∀ p ∈ splitLinesAux cs cur, '\n' ∉ p := by
  induction cs using Nat.strongRecMeasure List.length with
  | ind cs ih =>
    intro cur hcur p hp
    cases cs with
    | nil =>
      simp only [splitLinesAux, List.mem_singleton] at hp
      rw [hp]; simpa using hcur
    | cons c cs =>
      rw [splitLinesAux_cons] at hp
      split at hp
      · rcases List.mem_cons.mp hp with h | h
        · rw [h]; simpa using hcur
        · exact ih cs (by simp) [] (by simp) p h
      · split at hp
        · rcases List.mem_cons.mp hp with h | h
          · rw [h]; simpa using hcur
          · refine ih cs.tail ?_ [] (by simp) p h
            simp only [List.length_tail, List.length_cons]; omega
        · rename_i hn _
          refine ih cs (by simp) (c :: cur) ?_ p hp
          simp only [List.mem_cons, not_or]
          exact ⟨fun e => hn e.symm, hcur⟩

theorem splitLinesAux_ne_nil (cs cur : List Char) : splitLinesAux cs cur ≠ [] := by
  induction cs using Nat.strongRecMeasure List.length generalizing cur with
  | ind cs ih =>
    cases cs with
    | nil => simp [splitLinesAux]
    | cons c cs =>
      rw [splitLinesAux_cons]
      split
      · simp
      · split
        · simp
        · exact ih cs (by simp) _

theorem splitNewlineAux_piece (xs : List Char) (h : '\n' ∉ xs) (rest cur : List Char) :
    splitNewlineAux (xs ++ '\n' :: rest) cur = (cur.reverse ++ xs) :: splitNewlineAux rest [] := by
  induction xs generalizing cur with
  | nil => simp [splitNewlineAux]
  | cons x xs ih =>
    simp only [List.mem_cons, not_or] at h
    have hx : x ≠ '\n' := fun e => h.1 e.symm
    simp [splitNewlineAux, hx, ih h.2]

theorem splitNewlineAux_last (xs : List Char) (h : '\n' ∉ xs) (cur : List Char) :
    splitNewlineAux xs cur = [cur.reverse ++ xs] := by
  induction xs generalizing cur with
  | nil => simp [splitNewlineAux]
  | cons x xs ih =>
    simp only [List.mem_cons, not_or] at h
    have hx : x ≠ '\n' := fun e => h.1 e.symm
    simp [splitNewlineAux, hx, ih h.2]

theorem splitNewline_joined (p : String) (ps : List String)
    (h : ∀ q ∈ p :: ps, '\n' ∉ q.data) :
    (splitNewlineAux (' ' :: ' ' :: (joinWith "\n  " (p :: ps)).data) []).map String.mk =
      (p :: ps).map (fun l => "  " ++ l) := by
  induction ps generalizing p with
  | nil =>
    have hp : '\n' ∉ ' ' :: ' ' :: p.data := by
      have := h p (by simp)
      simp [this]
    rw [joinWith, splitNewlineAux_last _ hp]
    simp only [List.reverse_nil, List.nil_append, List.map_cons, List.map_nil, List.cons.injEq,
      and_true]
    apply String.ext; simp
  | cons q ps ih =>
    have hp : '\n' ∉ ' ' :: ' ' :: p.data := by
      have := h p (by simp)
      simp [this]
    have e : ' ' :: ' ' :: (joinWith "\n  " (p :: q :: ps)).data =
        (' ' :: ' ' :: p.data) ++ '\n' :: (' ' :: ' ' :: (joinWith "\n  " (q :: ps)).data) := by
      rw [joinWith]; simp
    rw [e, splitNewlineAux_piece _ hp]
    simp only [List.reverse_nil, List.nil_append, List.map_cons, List.cons.injEq]
    refine ⟨?_, ?_⟩
    · apply String.ext; simp
    · have := ih q (fun r hr => h r (List.mem_cons_of_mem _ hr))
      simpa using this

theorem indentStr_lines (s : String) :
    splitNewline (indentStr s) = (splitLines s).map (fun l => "  " ++ l) := by
  unfold splitNewline indentStr splitLines
  cases hps : splitLinesAux s.data [] with
  | nil => exact absurd hps (splitLinesAux_ne_nil _ _)
  | cons p ps =>
    have hclean := splitLinesAux_clean s.data [] (by simp)
    rw [hps] at hclean
    have := splitNewline_joined ⟨p⟩ (ps.map String.mk) (by
      intro q hq
      simp only [List.mem_cons, List.mem_map] at hq
      rcases hq with rfl | ⟨r, hr, rfl⟩
      · exact hclean p (by simp)
      · exact hclean r (by simp [hr]))
    have e : ("  " ++ joinWith "\n  " (⟨p⟩ :: ps.map String.mk)).data =
        ' ' :: ' ' :: (joinWith "\n  " (⟨p⟩ :: ps.map String.mk)).data := by simp
    rw [List.map_cons, e, this]

/-- C20. For every string `s`, `indent(s)` returns a text whose lines, cut at
every line feed, are as many as the pieces of `s.split(/\r?\n/)`, and each of
them is two spaces followed by the corresponding piece of `s`, the first one
included; so `"a\r\nb\nc"` becomes `"  a\n  b\n  c"`. -/
theorem indent_prefixes_every_line (s : String) :
    indent (.str s) = .ok (indentStr s) ∧
    (splitNewline (indentStr s)).length = (splitLines s).length ∧
    splitNewline (indentStr s) = (splitLines s).map (fun l => "  " ++ l) ∧
    splitLines "a\r\nb\nc" = ["a", "b", "c"] ∧
    indent (.str "a\r\nb\nc") = .ok "  a\n  b\n  c" ∧
    splitNewline "  a\n  b\n  c" = ["  a", "  b", "  c"] := by
  refine ⟨rfl, ?_, indentStr_lines s, by decide, by rfl, by decide⟩
  rw [indentStr_lines, List.length_map]

/-! ## The lists only grow at their end -/

theorem reqPart_after (env : Env) (e d : List String) (a : Acc) :
    reqPart env (Acc.after e d a) = (reqPart env a).map (Acc.after e d) := by
  unfold reqPart
  have hr : (Acc.after e d a).rcd = a.rcd := rfl
  simp only [hr]
  split
  · cases reqText env (getProp a.rcd "req") with
    | error x => rfl
    | ok p => simp [Except.map, Acc.after, List.append_assoc]
  · rfl

theorem clientReqPart_after (env : Env) (e d : List String) (a : Acc) :
    clientReqPart env (Acc.after e d a) = (clientReqPart env a).map (Acc.after e d) := by
  unfold clientReqPart
  have hr : (Acc.after e d a).rcd = a.rcd := rfl
  simp only [hr]
  split
  · cases clientReqText env (getProp a.rcd "client_req") with
    | error x => rfl
    | ok p => simp [Except.map, Acc.after, List.append_assoc]
  · rfl

theorem _res_after (env : Env) (key : String) (e d : List String) (a : Acc) :
    _res env key (Acc.after e d a) = (_res env key a).map (Acc.after e d) := by
  unfold _res
  simp only [Acc.after]
  split
  · rfl
  · simp only [Except.map, Acc.after]
    split <;> simp [List.append_assoc]

theorem resStage_after (env : Env) (key : String) (e d : List String) (a : Acc) :
    resStage env key (Acc.after e d a) = (resStage env key a).map (Acc.after e d) := by
  unfold resStage
  rw [_res_after]
  have hr : (Acc.after e d a).rcd = a.rcd := rfl
  rw [hr]
  split
  · cases _res env key a <;> rfl
  · rfl

theorem resPart_after (env : Env) (e d : List String) (a : Acc) :
    resPart env (Acc.after e d a) = (resPart env a).map (Acc.after e d) := by
  unfold resPart
  rw [resStage_after]
  cases resStage env "res" a with
  | error x => rfl
  | ok b => simp only [Except.map]; exact resStage_after env "client_res" e d b

theorem errPart_after (e d : List String) (a : Acc) :
    errPart (Acc.after e d a) = (errPart a).map (Acc.after e d) := by
  unfold errPart
  have hr : (Acc.after e d a).rcd = a.rcd := rfl
  simp only [hr]
  split
  · cases indent ((getProp a.rcd "err").get "stack") <;>
      simp [Except.map, Acc.after, List.append_assoc]
  · rfl

theorem blocks_after (env : Env) (e d : List String) (a : Acc) :
    blocks env (Acc.after e d a) = (blocks env a).map (Acc.after e d) := by
  unfold blocks
  rw [reqPart_after]
  cases reqPart env a with
  | error x => rfl
  | ok a1 =>
    simp only [Except.map]
    rw [clientReqPart_after]
    cases clientReqPart env a1 with
    | error x => rfl
    | ok a2 =>
      simp only [Except.map]
      rw [resPart_after]
      cases resPart env a2 with
      | error x => rfl
      | ok a3 => simp only [Except.map]; exact errPart_after e d a3

theorem leftoverLoop_after (r : Props) (e d e1 d1 : List String) :
    leftoverLoop r (e ++ e1) (d ++ d1) =
      (leftoverLoop r e1 d1).map (fun p => (e ++ p.1, d ++ p.2)) := by
  induction r generalizing e1 d1 with
  | nil => rfl
  | cons p r ih =>
    obtain ⟨key, v⟩ := p
    unfold leftoverLoop
    cases leftoverText v with
    | none => rfl
    | some tv =>
      obtain ⟨value, stringified⟩ := tv
      simp only
      split
      · rw [List.append_assoc, ih]
      · split
        · rw [List.append_assoc, ih]
        · rw [List.append_assoc, ih]

/-! ## The layout of a short/long rendering -/

theorem hasProp_delProp (r : Props) (k : String) : hasProp (delProp r k) k = false := by
  apply hasProp_false
  intro p hp
  have := (List.mem_filter.mp hp).2
  simpa using this

theorem blocks_extras {env : Env} {a b : Acc} (h : blocks env a = .ok b) :
    b.extras = a.extras :=
  (blocks_rcd h).2

/-- Without color the output is the header, the one-line message, the extras
(`req_id` first, then those of the leftover keys), a line feed and the details
(the message block, the blocks of lines 252-346, those of the leftover keys). -/
theorem renderLines_layout {env : Env} {opts : Opts} {short : Bool} {r : Props} {out : String}
    (hcolor : opts.color = false) (h : renderLines env opts short r = .ok out) :
    ∃ (time level src om : String) (nameStr : JsVal) (es d0 : List String) (b : Acc)
      (le ld : List String),
      timePart env opts short (getProp r "time") = .ok (.str time) ∧
      levelPart env opts (getProp r "level") = .ok (.str level) ∧
      srcPart env opts (getProp r "src") = .ok (.str src) ∧
      namePart short (getProp r "name") (getProp r "component") (getProp r "pid") =
        .ok nameStr ∧
      reqIdExtras r = .ok es ∧
      msgPart env opts (getProp r "msg") [] = .ok (om, d0) ∧
      blocks env { rcd := afterFields r, extras := [], details := [] } = .ok b ∧
      leftoverLoop b.rcd [] [] = .ok (le, ld) ∧
      out = headerText env short time level nameStr (getProp r "hostname") src ++ om ++
          extrasSegment (es ++ le) ++ "\n" ++ detailsSegment (d0 ++ b.details ++ ld) := by
  obtain ⟨c, extras, details, hc, hl, hout⟩ := renderLines_steps h
  obtain ⟨⟨t, ht⟩, ⟨l, hl1⟩, ⟨s, hs⟩⟩ := consume_time_str hc
  obtain ⟨h1, h2, h3, h4, h5, es, d0, hes, hm, hb⟩ := consume_steps hc
  have hbase : ({ rcd := afterFields r, extras := es, details := d0 } : Acc) =
      Acc.after es d0 { rcd := afterFields r, extras := [], details := [] } := by
    simp [Acc.after]
  rw [hbase, blocks_after] at hb
  cases hb0 : blocks env { rcd := afterFields r, extras := [], details := [] } with
  | error x => rw [hb0] at hb; simp [Except.map] at hb
  | ok b =>
    rw [hb0] at hb
    simp only [Except.map, Except.ok.injEq] at hb
    have hbe : b.extras = [] := blocks_extras hb0
    rw [← hb] at hl
    simp only [Acc.after, hbe, List.append_nil] at hl
    have hl2 := leftoverLoop_after b.rcd es (d0 ++ b.details) [] []
    simp only [List.append_nil] at hl2
    rw [hl2] at hl
    cases hl0 : leftoverLoop b.rcd [] [] with
    | error x => rw [hl0] at hl; simp [Except.map] at hl
    | ok p =>
      obtain ⟨le, ld⟩ := p
      rw [hl0] at hl
      simp only [Except.map, Except.ok.injEq, Prod.mk.injEq] at hl
      refine ⟨t, l, s, c.onelineMsg, c.nameStr, es, d0, b, le, ld, ?_, ?_, ?_, h3, hes, hm, rfl,
        hl0, ?_⟩
      · rw [h1, ht]
      · rw [h2, hl1]
      · rw [h5, hs]
      · rw [ht, hl1, hs, assemble_off env opts _ _ _ _ _ _ _ _ _ hcolor, ← hl.1, ← hl.2,
          h4] at hout
        simp only [Except.ok.injEq] at hout
        exact hout.symm

/-! ## A message of several lines -/

theorem msgPart_multiline (env : Env) (opts : Opts) (msg : String) (details : List String)
    (hmsg : containsChar msg '\n' = true) (hcolor : opts.color = false) :
    msgPart env opts (.str msg) details = .ok ("", details ++ [indentStr msg]) := by
  simp [msgPart, hasLineBreak, hmsg, stylize_off env opts hcolor, indent]

/-- C13. When the `msg` of a valid record is a string with a line feed and the
record is rendered in mode `short` or `long` without color, the output is the
header up to its `:`, directly followed by the extras and the line feed that
ends the line (the one-line message is empty), and the first detail block is
`indent(msg)`, whose lines are those of `msg` after two spaces each; the extras
and the other blocks are computed from the record after `msg` was deleted, so
the message is rendered nowhere else. -/
theorem multiline_msg (env : Env) (opts : Opts) (short : Bool) (kvs : Props) (msg out : String)
    (hcolor : opts.color = false)
    (hmode : opts.outputMode = .name (if short then "short" else "long"))
    (hvalid : isValidRecord (.obj kvs) = true)
    (hmsg : getProp kvs "msg" = .str msg) (hbreak : containsChar msg '\n' = true)
    (hout : formatRecord env (.obj kvs) opts = .ok out) :
    ∃ (time level src : String) (nameStr : JsVal) (es : List String) (b : Acc)
      (le ld : List String),
      hasProp (afterFields kvs) "msg" = false ∧
      namePart short (getProp kvs "name") (getProp kvs "component") (getProp kvs "pid") =
        .ok nameStr ∧
      reqIdExtras kvs = .ok es ∧
      blocks env { rcd := afterFields kvs, extras := [], details := [] } = .ok b ∧
      leftoverLoop b.rcd [] [] = .ok (le, ld) ∧
      out = headerText env short time level nameStr (getProp kvs "hostname") src ++
          extrasSegment (es ++ le) ++ "\n" ++
        (joinWith "\n  --\n" (indentStr msg :: (b.details ++ ld)) ++ "\n") ∧
      splitNewline (indentStr msg) = (splitLines msg).map (fun l => "  " ++ l) := by
  rw [formatRecord_lines env kvs opts short hmode hvalid] at hout
  obtain ⟨time, level, src, om, nameStr, es, d0, b, le, ld, -, -, -, hn, hes, hm, hb, hl, rfl⟩ :=
    renderLines_layout hcolor hout
  rw [hmsg, msgPart_multiline env opts msg [] hbreak hcolor] at hm
  simp only [Except.ok.injEq, Prod.mk.injEq, List.nil_append] at hm
  obtain ⟨rfl, rfl⟩ := hm
  refine ⟨time, level, src, nameStr, es, b, le, ld, hasProp_delProp _ _, hn, hes, hb, hl, ?_,
    indentStr_lines msg⟩
  have hd : detailsSegment ([indentStr msg] ++ b.details ++ ld) =
      joinWith "\n  --\n" (indentStr msg :: (b.details ++ ld)) ++ "\n" := by
    simp [detailsSegment]
  rw [hd]
  apply String.ext; simp

/-- Witness of C13: a record whose message has two lines, in mode `short`. -/
theorem multiline_msg_witness :
    formatRecord sampleEnv
      (.obj (sevenFields (.num 0) 30 "svc" (.str "h1") (.num 5) "2021-01-02T03:04:05.000Z"
        "a\nb")) (plainOpts "short") = .ok "03:04:05.000Z  INFO svc:\n  a\n  b\n" ∧
    ∃ (time level src : String) (nameStr : JsVal) (es : List String) (b : Acc)
      (le ld : List String),
      hasProp (afterFields (sevenFields (.num 0) 30 "svc" (.str "h1") (.num 5)
        "2021-01-02T03:04:05.000Z" "a\nb")) "msg" = false ∧
      namePart true
        (getProp (sevenFields (.num 0) 30 "svc" (.str "h1") (.num 5)
          "2021-01-02T03:04:05.000Z" "a\nb") "name")
        (getProp (sevenFields (.num 0) 30 "svc" (.str "h1") (.num 5)
          "2021-01-02T03:04:05.000Z" "a\nb") "component")
        (getProp (sevenFields (.num 0) 30 "svc" (.str "h1") (.num 5)
          "2021-01-02T03:04:05.000Z" "a\nb") "pid") = .ok nameStr ∧
      reqIdExtras (sevenFields (.num 0) 30 "svc" (.str "h1") (.num 5)
        "2021-01-02T03:04:05.000Z" "a\nb") = .ok es ∧
      blocks sampleEnv { rcd := afterFields (sevenFields (.num 0) 30 "svc" (.str "h1") (.num 5)
        "2021-01-02T03:04:05.000Z" "a\nb"), extras := [], details := [] } = .ok b ∧
      leftoverLoop b.rcd [] [] = .ok (le, ld) ∧
      "03:04:05.000Z  INFO svc:\n  a\n  b\n" = headerText sampleEnv true time level nameStr
          (getProp (sevenFields (.num 0) 30 "svc" (.str "h1") (.num 5)
            "2021-01-02T03:04:05.000Z" "a\nb") "hostname") src ++
          extrasSegment (es ++ le) ++ "\n" ++
        (joinWith "\n  --\n" (indentStr "a\nb" :: (b.details ++ ld)) ++ "\n") ∧
      splitNewline (indentStr "a\nb") = (splitLines "a\nb").map (fun l => "  " ++ l) :=
  ⟨rfl, multiline_msg sampleEnv (plainOpts "short") true
    (sevenFields (.num 0) 30 "svc" (.str "h1") (.num 5) "2021-01-02T03:04:05.000Z" "a\nb")
    "a\nb" "03:04:05.000Z  INFO svc:\n  a\n  b\n" rfl rfl rfl rfl rfl rfl⟩

/-! ## The leftover keys -/

theorem utf16Length_eq_zero (s : String) : utf16Length s.data = 0 ↔ s = "" := by
  constructor
  · intro h
    apply String.ext
    cases hs : s.data with
    | nil => rfl
    | cons c cs =>
      rw [hs] at h
      simp only [utf16Length, unitsOf] at h
      split at h <;> omega
  · rintro rfl; rfl

theorem leftoverText_spec {v : JsVal} (hv : v ≠ .undefined) :
    ∃ s, specText v = some s ∧ leftoverText v = some (s, !v.isString) := by
  cases v with
  | str s => exact ⟨s, rfl, rfl⟩
  | undefined => exact absurd rfl hv
  | null => exact ⟨_, rfl, rfl⟩
  | bool b => cases b <;> exact ⟨_, rfl, rfl⟩
  | num n => exact ⟨_, rfl, rfl⟩
  | dbl x => cases x <;> exact ⟨_, rfl, rfl⟩
  | arr xs => exact ⟨_, rfl, rfl⟩
  | obj kvs => exact ⟨_, rfl, rfl⟩

theorem leftoverLoop_cons (key : String) (v : JsVal) (s : String) (r : Props)
    (e d : List String) (h : leftoverText v = some (s, !v.isString)) :
    leftoverLoop ((key, v) :: r) e d =
      leftoverLoop r (e ++ ((specEntry key v s).extraText).toList)
        (d ++ ((specEntry key v s).detailText).toList) := by
  have hk : key ++ (": " ++ s) = key ++ ": " ++ s := by rw [String.append_assoc]
  have hq : key ++ ("=" ++ quote s) = key ++ "=" ++ quote s := by rw [String.append_assoc]
  have hp : key ++ ("=" ++ s) = key ++ "=" ++ s := by rw [String.append_assoc]
  rw [leftoverLoop, h]
  simp only [specEntry, hk, hq, hp]
  by_cases h1 : containsChar s '\n' = true ∨ 50 < utf16Length s.data
  · have h1b : (containsChar s '\n' || decide (utf16Length s.data > 50)) = true := by
      simpa using h1
    rw [if_pos h1b, if_pos h1]
    simp [Entry.extraText, Entry.detailText]
  · have h1b : ¬ (containsChar s '\n' || decide (utf16Length s.data > 50)) = true := by
      simpa using h1
    rw [if_neg h1b, if_neg h1]
    by_cases h2 : v.isString = true ∧ (containsChar s ' ' = true ∨ s = "")
    · have h2b : (!(!v.isString) && (containsChar s ' ' || decide (utf16Length s.data = 0))) =
          true := by
        simpa [utf16Length_eq_zero] using h2
      rw [if_pos h2b, if_pos h2]
      simp [Entry.extraText, Entry.detailText]
    · have h2b : ¬ (!(!v.isString) && (containsChar s ' ' || decide (utf16Length s.data = 0))) =
          true := by
        simpa [utf16Length_eq_zero] using h2
      rw [if_neg h2b, if_neg h2]
      simp [Entry.extraText, Entry.detailText]

theorem leftoverLoop_spec (r : Props) (h : ∀ p ∈ r, p.2 ≠ .undefined) (e d : List String) :
    leftoverLoop r e d = .ok (e ++ (specEntries r).filterMap Entry.extraText,
      d ++ (specEntries r).filterMap Entry.detailText) := by
  induction r generalizing e d with
  | nil => simp [leftoverLoop, specEntries]
  | cons p r ih =>
    obtain ⟨key, v⟩ := p
    obtain ⟨s, hs, ht⟩ := leftoverText_spec (h (key, v) (List.mem_cons_self _ _))
    rw [leftoverLoop_cons key v s r e d ht, ih (fun q hq => h q (List.mem_cons_of_mem _ hq))]
    have hc : specEntries ((key, v) :: r) = specEntry key v s :: specEntries r := by
      simp [specEntries, hs]
    rw [hc]
    cases specEntry key v s <;> simp [Entry.extraText, Entry.detailText]

theorem specEntries_length (r : Props) (h : ∀ p ∈ r, p.2 ≠ .undefined) :
    (specEntries r).length = r.length ∧
    ((specEntries r).filterMap Entry.extraText).length +
      ((specEntries r).filterMap Entry.detailText).length = r.length := by
  induction r with
  | nil => simp [specEntries]
  | cons p r ih =>
    obtain ⟨key, v⟩ := p
    obtain ⟨s, hs, -⟩ := leftoverText_spec (h (key, v) (List.mem_cons_self _ _))
    have hc : specEntries ((key, v) :: r) = specEntry key v s :: specEntries r := by
      simp [specEntries, hs]
    obtain ⟨i1, i2⟩ := ih (fun q hq => h q (List.mem_cons_of_mem _ hq))
    rw [hc]
    cases specEntry key v s <;> simp [Entry.extraText, Entry.detailText, i1] <;> omega

/-- C14. The leftover pass pushes, for every key `k` of the record and in the
order of the keys, exactly the entry the specification describes: with `s` the
value itself when it is a string and its JSON text with an indent of 2
otherwise, the detail block `indent(k + ': ' + s)` when `s` has a line feed or
more than 50 code units, else the extra `k=` + the JSON-quoted `s` when the
value is a string and `s` has a space or is empty, else the extra `k=s`.  Each
key gives one entry, in one of the two lists.  (A value `undefined`, which no
parsed record holds, has no text.) -/
theorem leftover_classification (r : Props) (h : ∀ p ∈ r, p.2 ≠ .undefined)
    (e d : List String) :
    leftoverLoop r e d = .ok (e ++ (specEntries r).filterMap Entry.extraText,
      d ++ (specEntries r).filterMap Entry.detailText) ∧
    (specEntries r).length = r.length ∧
    ((specEntries r).filterMap Entry.extraText).length +
      ((specEntries r).filterMap Entry.detailText).length = r.length :=
  ⟨leftoverLoop_spec r h e d, specEntries_length r h⟩

/-- Witness of C14: a string with a space, strings of 50 and of 51 letters, a
number, an empty string and a nested object. -/
theorem leftover_classification_witness :
    leftoverLoop
      [("foo", .str "bar baz"), ("a", .str "xxxxxxxxxxxxxxxxxxxxxxxxxxxxxxxxxxxxxxxxxxxxxxxxxx"),
       ("b", .str "xxxxxxxxxxxxxxxxxxxxxxxxxxxxxxxxxxxxxxxxxxxxxxxxxxx"), ("n", .num 7),
       ("empty", .str ""), ("o", .obj [("k", .num 1)])] [] [] =
      .ok (["foo=\"bar baz\"", "a=xxxxxxxxxxxxxxxxxxxxxxxxxxxxxxxxxxxxxxxxxxxxxxxxxx", "n=7",
          "empty=\"\""],
        ["  b: xxxxxxxxxxxxxxxxxxxxxxxxxxxxxxxxxxxxxxxxxxxxxxxxxxx",
         "  o: \x7b\n    \"k\": 1\n  \x7d"]) ∧
    (specEntries
      [("foo", .str "bar baz"), ("a", .str "xxxxxxxxxxxxxxxxxxxxxxxxxxxxxxxxxxxxxxxxxxxxxxxxxx"),
       ("b", .str "xxxxxxxxxxxxxxxxxxxxxxxxxxxxxxxxxxxxxxxxxxxxxxxxxxx"), ("n", .num 7),
       ("empty", .str ""), ("o", .obj [("k", .num 1)])]).length = 6 :=
  ⟨(leftover_classification _ (by simp) [] []).1, (leftover_classification _ (by simp) [] []).2.1⟩

/-! ## The blocks of the stages -/

theorem getProp_single (k : String) (v : JsVal) : getProp [(k, v)] k = v := by
  simp [getProp]

theorem reqPart_details {env : Env} {a b : Acc} (h : reqPart env a = .ok b) :
    ∃ D, reqBlock env (getProp a.rcd "req") = .ok D ∧ b.details = a.details ++ D := by
  unfold reqBlock
  unfold reqPart at h ⊢
  simp only [getProp_single]
  by_cases ho : (getProp a.rcd "req").isObject = true
  · simp only [ho, if_true] at h ⊢
    cases hr : reqText env (getProp a.rcd "req") with
    | error x => rw [hr] at h; simp at h
    | ok p =>
      obtain ⟨s, req⟩ := p
      rw [hr] at h
      simp only [Except.ok.injEq] at h
      subst h
      exact ⟨_, rfl, by simp⟩
  · simp only [ho, Bool.false_eq_true, if_false, Except.ok.injEq] at h ⊢
    subst h
    exact ⟨_, rfl, by simp⟩

theorem clientReqPart_details {env : Env} {a b : Acc} (h : clientReqPart env a = .ok b) :
    ∃ D, clientReqBlock env (getProp a.rcd "client_req") = .ok D ∧
      b.details = a.details ++ D := by
  unfold clientReqBlock
  unfold clientReqPart at h ⊢
  simp only [getProp_single]
  by_cases ho : (getProp a.rcd "client_req").isObject = true
  · simp only [ho, if_true] at h ⊢
    cases hr : clientReqText env (getProp a.rcd "client_req") with
    | error x => rw [hr] at h; simp at h
    | ok p =>
      obtain ⟨s, req⟩ := p
      rw [hr] at h
      simp only [Except.ok.injEq] at h
      subst h
      exact ⟨_, rfl, by simp⟩
  · simp only [ho, Bool.false_eq_true, if_false, Except.ok.injEq] at h ⊢
    subst h
    exact ⟨_, rfl, by simp⟩

theorem resStage_details {env : Env} {key : String} {a b : Acc}
    (h : resStage env key a = .ok b) :
    ∃ D, resBlock env key (getProp a.rcd key) = .ok D ∧ b.details = a.details ++ D := by
  unfold resBlock
  unfold resStage _res at h ⊢
  simp only [getProp_single]
  by_cases ho : (getProp a.rcd key).isObject = true
  · simp only [ho, if_true] at h ⊢
    cases hr : resText env (getProp a.rcd key) with
    | error x => rw [hr] at h; simp at h
    | ok p =>
      obtain ⟨s, res⟩ := p
      rw [hr] at h
      simp only [Except.ok.injEq] at h
      subst h
      simp only [Except.map]
      refine ⟨_, rfl, ?_⟩
      split <;> simp
  · simp only [ho, Bool.false_eq_true, if_false, Except.ok.injEq] at h ⊢
    subst h
    simp [Except.map]

theorem errPart_details {a b : Acc} (h : errPart a = .ok b) :
    ∃ D, errBlock (getProp a.rcd "err") = .ok D ∧ b.details = a.details ++ D := by
  unfold errBlock
  unfold errPart at h ⊢
  simp only [getProp_single] at h ⊢
  split at h
  · rename_i ht
    split at h
    · simp at h
    · rename_i d hd
      simp only [Except.ok.injEq] at h
      subst h
      simp [ht, hd, Except.map]
  · rename_i ht
    simp only [Except.ok.injEq] at h
    subst h
    simp [ht, Except.map]

theorem blocks_details {env : Env} {a b : Acc} (h : blocks env a = .ok b) :
    ∃ d1 d2 d3 d4 d5, reqBlock env (getProp a.rcd "req") = .ok d1 ∧
      clientReqBlock env (getProp a.rcd "client_req") = .ok d2 ∧
      resBlock env "res" (getProp a.rcd "res") = .ok d3 ∧
      resBlock env "client_res" (getProp a.rcd "client_res") = .ok d4 ∧
      errBlock (getProp a.rcd "err") = .ok d5 ∧
      b.details = a.details ++ d1 ++ d2 ++ d3 ++ d4 ++ d5 := by
  obtain ⟨a1, a2, a4, h1, h2, h34, h5⟩ := blocks_steps h
  unfold resPart at h34
  cases h3 : resStage env "res" a2 with
  | error x => rw [h3] at h34; simp at h34
  | ok a3 =>
    rw [h3] at h34
    simp only at h34
    obtain ⟨d1, e1, k1⟩ := reqPart_details h1
    obtain ⟨d2, e2, k2⟩ := clientReqPart_details h2
    obtain ⟨d3, e3, k3⟩ := resStage_details h3
    obtain ⟨d4, e4, k4⟩ := resStage_details h34
    obtain ⟨d5, e5, k5⟩ := errPart_details h5
    have r1 := (reqPart_rcd h1).1
    have r2 := (clientReqPart_rcd h2).1
    have r3 := (resStage_rcd h3).1
    have r4 := (resStage_rcd h34).1
    have q (k : String) (n1 : k ≠ "req") (n2 : ∀ j, "req." ++ j ≠ k) (n3 : k ≠ "client_req")
        (n4 : ∀ j, "client_req." ++ j ≠ k) : getProp a2.rcd k = getProp a.rcd k := by
      rw [r2, clientReqRcd_getProp _ k n3 n4, r1, reqRcd_getProp _ k n1 n2]
    have g1 : getProp a1.rcd "client_req" = getProp a.rcd "client_req" := by
      rw [r1]
      exact reqRcd_getProp _ _ (by decide) (fun j => append_ne _ _ _ (by decide))
    have g2 : getProp a2.rcd "res" = getProp a.rcd "res" :=
      q _ (by decide) (fun j => append_ne _ _ _ (by decide)) (by decide)
        (fun j => append_ne _ _ _ (by decide))
    have g3 : getProp a3.rcd "client_res" = getProp a.rcd "client_res" := by
      rw [r3, resRcd_getProp _ _ _ (by decide) (by decide)
        (fun j => append_ne _ _ _ (by decide))]
      exact q _ (by decide) (fun j => append_ne _ _ _ (by decide)) (by decide)
        (fun j => append_ne _ _ _ (by decide))
    have g4 : getProp a4.rcd "err" = getProp a.rcd "err" := by
      rw [r4, resRcd_getProp _ _ _ (by decide) (by decide)
        (fun j => append_ne _ _ _ (by decide)), r3, resRcd_getProp _ _ _ (by decide) (by decide)
        (fun j => append_ne _ _ _ (by decide))]
      exact q _ (by decide) (fun j => append_ne _ _ _ (by decide)) (by decide)
        (fun j => append_ne _ _ _ (by decide))
    rw [g1] at e2
    rw [g2] at e3
    rw [g3] at e4
    rw [g4] at e5
    refine ⟨d1, d2, d3, d4, d5, e1, e2, e3, e4, e5, ?_⟩
    rw [k5, k4, k3, k2, k1]

theorem getProp_afterFields (r : Props) (k : String)
    (h : k ∉ ["v", "time", "name", "component", "pid", "level", "src", "hostname", "req_id",
      "msg"]) : getProp (afterFields r) k = getProp r k :=
  afterFields_getProp r k h

/-! ## The layout of the output -/

/-- C19 (amended). Without color, the output of a valid record in mode `short`
or `long` is the header with the one-line message, then the extras as
`' (' + extras.join(', ') + ')'` (nothing when there are none), where the extras
are `req_id=<value>` when `req_id` is truthy followed by the extras of the
leftover keys, then a line feed, then the detail blocks joined by `'\n  --\n'` and
ended by one line feed (nothing when there are none), the blocks being, in this
order, those of a multi-line message, of `req`, of `client_req`, of `res`, of
`client_res`, of `err.stack` and of the leftover keys. -/
theorem output_layout (env : Env) (opts : Opts) (short : Bool) (kvs : Props) (out : String)
    (hcolor : opts.color = false)
    (hmode : opts.outputMode = .name (if short then "short" else "long"))
    (hvalid : isValidRecord (.obj kvs) = true)
    (hout : formatRecord env (.obj kvs) opts = .ok out) :
    (∃ (time level src om : String) (nameStr : JsVal) (es d0 d1 d2 d3 d4 d5 : List String)
      (b : Acc) (le ld : List String),
      timePart env opts short (getProp kvs "time") = .ok (.str time) ∧
      levelPart env opts (getProp kvs "level") = .ok (.str level) ∧
      srcPart env opts (getProp kvs "src") = .ok (.str src) ∧
      namePart short (getProp kvs "name") (getProp kvs "component") (getProp kvs "pid") =
        .ok nameStr ∧
      reqIdExtras kvs = .ok es ∧
      msgPart env opts (getProp kvs "msg") [] = .ok (om, d0) ∧
      reqBlock env (getProp kvs "req") = .ok d1 ∧
      clientReqBlock env (getProp kvs "client_req") = .ok d2 ∧
      resBlock env "res" (getProp kvs "res") = .ok d3 ∧
      resBlock env "client_res" (getProp kvs "client_res") = .ok d4 ∧
      errBlock (getProp kvs "err") = .ok d5 ∧
      blocks env { rcd := afterFields kvs, extras := [], details := [] } = .ok b ∧
      leftoverLoop b.rcd [] [] = .ok (le, ld) ∧
      out = headerText env short time level nameStr (getProp kvs "hostname") src ++ om ++
          extrasSegment (es ++ le) ++ "\n" ++
        detailsSegment (d0 ++ d1 ++ d2 ++ d3 ++ d4 ++ d5 ++ ld)) ∧
    reqIdExtras kvs = (if (getProp kvs "req_id").truthy then
      ((getProp kvs "req_id").toStr).map (fun t => ["req_id=" ++ t]) else .ok []) ∧
    extrasSegment [] = "" ∧
    (∀ x xs, extrasSegment (x :: xs) = " (" ++ joinWith ", " (x :: xs) ++ ")") ∧
    detailsSegment [] = "" ∧
    (∀ x xs, detailsSegment (x :: xs) = joinWith "\n  --\n" (x :: xs) ++ "\n") := by
  refine ⟨?_, ?_, rfl, fun x xs => by simp [extrasSegment], rfl,
    fun x xs => by simp [detailsSegment]⟩
  · rw [formatRecord_lines env kvs opts short hmode hvalid] at hout
    obtain ⟨time, level, src, om, nameStr, es, d0, b, le, ld, ht, hl, hs, hn, hes, hm, hb, hlo,
      rfl⟩ := renderLines_layout hcolor hout
    obtain ⟨d1, d2, d3, d4, d5, e1, e2, e3, e4, e5, hd⟩ := blocks_details hb
    simp only [List.nil_append] at hd
    rw [getProp_afterFields kvs _ (by decide)] at e1 e2 e3 e4 e5
    refine ⟨time, level, src, om, nameStr, es, d0, d1, d2, d3, d4, d5, b, le, ld, ht, hl, hs, hn,
      hes, hm, e1, e2, e3, e4, e5, hb, hlo, ?_⟩
    rw [hd]
    simp only [List.append_assoc]
  · unfold reqIdExtras
    split
    · cases (getProp kvs "req_id").toStr <;> rfl
    · rfl

/-- Witness of C19: the record with a request id, a message of two lines, a
request, an error stack and two leftover fields, in mode `short`. -/
theorem output_layout_witness :
    formatRecord sampleEnv (.obj busyRecord) (plainOpts "short") =
      .ok ("03:04:05.000Z  INFO svc: (req_id=r1, foo=bar)\n  a\n  b\n  --\n  GET /x HTTP/1.1" ++
        "\n  --\n  E: boom\n    at f\n  --\n  note: first\n  second\n") ∧
    ∃ (time level src om : String) (nameStr : JsVal) (es d0 d1 d2 d3 d4 d5 : List String)
      (b : Acc) (le ld : List String),
      timePart sampleEnv (plainOpts "short") true (getProp busyRecord "time") = .ok (.str time) ∧
      levelPart sampleEnv (plainOpts "short") (getProp busyRecord "level") = .ok (.str level) ∧
      srcPart sampleEnv (plainOpts "short") (getProp busyRecord "src") = .ok (.str src) ∧
      namePart true (getProp busyRecord "name") (getProp busyRecord "component")
        (getProp busyRecord "pid") = .ok nameStr ∧
      reqIdExtras busyRecord = .ok es ∧
      msgPart sampleEnv (plainOpts "short") (getProp busyRecord "msg") [] = .ok (om, d0) ∧
      reqBlock sampleEnv (getProp busyRecord "req") = .ok d1 ∧
      clientReqBlock sampleEnv (getProp busyRecord "client_req") = .ok d2 ∧
      resBlock sampleEnv "res" (getProp busyRecord "res") = .ok d3 ∧
      resBlock sampleEnv "client_res" (getProp busyRecord "client_res") = .ok d4 ∧
      errBlock (getProp busyRecord "err") = .ok d5 ∧
      blocks sampleEnv { rcd := afterFields busyRecord, extras := [], details := [] } = .ok b ∧
      leftoverLoop b.rcd [] [] = .ok (le, ld) ∧
      "03:04:05.000Z  INFO svc: (req_id=r1, foo=bar)\n  a\n  b\n  --\n  GET /x HTTP/1.1" ++
        "\n  --\n  E: boom\n    at f\n  --\n  note: first\n  second\n" =
        headerText sampleEnv true time level nameStr (getProp busyRecord "hostname") src ++ om ++
          extrasSegment (es ++ le) ++ "\n" ++
        detailsSegment (d0 ++ d1 ++ d2 ++ d3 ++ d4 ++ d5 ++ ld) :=
  ⟨rfl, (output_layout sampleEnv (plainOpts "short") true busyRecord _ rfl rfl rfl rfl).1⟩

/-- C19 (counterexample). A record whose `req_id` is the number 0 has the key
`req_id`, and its output has no extra for it: the extras hold the leftover
`foo=bar` alone, not `req_id=0` before it. -/
theorem req_id_zero_not_rendered :
    hasProp (helloRecord ++ [("req_id", .num 0), ("foo", .str "bar")]) "req_id" = true ∧
    isValidRecord (.obj (helloRecord ++ [("req_id", .num 0), ("foo", .str "bar")])) = true ∧
    formatRecord sampleEnv (.obj (helloRecord ++ [("req_id", .num 0), ("foo", .str "bar")]))
      (plainOpts "short") = .ok "03:04:05.000Z  INFO svc: hello (foo=bar)\n" ∧
    formatRecord sampleEnv (.obj (helloRecord ++ [("req_id", .num 0), ("foo", .str "bar")]))
      (plainOpts "short") ≠ .ok "03:04:05.000Z  INFO svc: hello (req_id=0, foo=bar)\n" ∧
    reqIdExtras (helloRecord ++ [("req_id", .num 0), ("foo", .str "bar")]) = .ok [] := by
  refine ⟨by decide, by decide, by rfl, ?_, by rfl⟩
  intro h
  have e : formatRecord sampleEnv
      (.obj (helloRecord ++ [("req_id", .num 0), ("foo", .str "bar")])) (plainOpts "short") =
      .ok "03:04:05.000Z  INFO svc: hello (foo=bar)\n" := rfl
  rw [e] at h
  simp only [Except.ok.injEq] at h
  exact absurd h (by decide)

/-! ## The trailers of a request -/

/-- C15 (the code at the failing input). The test at line 275 compares the array
of the trailer names with 0, so it holds only when the names joined by commas
read as a positive number: the trailers `X-Checksum: abc` are not rendered at
all (they are deleted, hence not promoted either), whereas a trailer named `7`
is rendered after the body. -/
theorem req_trailers_dropped :
    keysGreaterThanZero (.obj [("X-Checksum", .str "abc")]) = false ∧
    formatRecord sampleEnv
      (.obj (withReq [("method", .str "GET"), ("url", .str "/"),
        ("headers", .obj [("host", .str "h")]), ("body", .str "B"),
        ("trailers", .obj [("X-Checksum", .str "abc")])]))
      (plainOpts "short") =
      .ok "03:04:05.000Z  INFO svc: hello\n  GET / HTTP/1.1\n  host: h\n  \n  B\n" ∧
    reqBlock sampleEnv
      (.obj [("method", .str "GET"), ("url", .str "/"),
        ("headers", .obj [("host", .str "h")]), ("body", .str "B"),
        ("trailers", .obj [("X-Checksum", .str "abc")])]) =
      .ok ["  GET / HTTP/1.1\n  host: h\n  \n  B"] ∧
    keysGreaterThanZero (.obj [("7", .str "abc")]) = true ∧
    reqBlock sampleEnv
      (.obj [("method", .str "GET"), ("url", .str "/"),
        ("headers", .obj [("host", .str "h")]), ("body", .str "B"),
        ("trailers", .obj [("7", .str "abc")])]) =
      .ok ["  GET / HTTP/1.1\n  host: h\n  \n  B\n  7: abc"] := by
  refine ⟨by rfl, by rfl, by rfl, by rfl, by rfl⟩

/-! ## The block of a request -/

theorem format_req (env : Env) (m u : String) (v : JsVal) (h : String) :
    format env "%s %s HTTP/%s%s" [.str m, .str u, v, .str h] =
      .ok (m ++ " " ++ u ++ " HTTP/" ++ fmtS env v ++ h) := by
  simp only [format, formatAux, fmtS, formatRest, Except.map]
  congr 1
  apply String.ext; simp

theorem bodyText_total (b : JsVal) : ∃ t, bodyText b = .ok t := by
  unfold bodyText
  cases b with
  | arr xs => simp only [JsVal.isObject, if_true]; split <;> exact ⟨_, rfl⟩
  | obj kvs => simp only [JsVal.isObject, if_true]; split <;> exact ⟨_, rfl⟩
  | undefined => exact ⟨_, rfl⟩
  | null => exact ⟨_, rfl⟩
  | bool b => exact ⟨_, rfl⟩
  | num n => exact ⟨_, rfl⟩
  | dbl x => exact ⟨_, rfl⟩
  | str s => exact ⟨_, rfl⟩

theorem reqBlock_error (env : Env) (req : Props) (e : JsError)
    (hh : headersText "\n" (getProp req "headers") = .error e) :
    reqBlock env (.obj req) = .error e := by
  unfold reqBlock reqPart
  simp only [getProp_single, JsVal.isObject, if_true]
  unfold reqText
  simp only [JsVal.get, hh]
  rfl

theorem reqBlock_text (env : Env) (req : Props) (m u h bt : String)
    (hm : getProp req "method" = .str m) (hu : getProp req "url" = .str u)
    (ht : (getProp req "trailers").truthy = false)
    (hh : headersText "\n" (getProp req "headers") = .ok h)
    (hb : bodyText (getProp req "body") = .ok bt) :
    reqBlock env (.obj req) =
      .ok [indentStr (m ++ " " ++ u ++ " HTTP/" ++
        fmtS env (if (getProp req "httpVersion").truthy then getProp req "httpVersion"
          else .str "1.1") ++ h ++
        (if (getProp req "body").truthy then "\n\n" ++ bt else ""))] := by
  unfold reqBlock reqPart
  simp only [getProp_single, JsVal.isObject, if_true]
  unfold reqText
  simp only [JsVal.get, hh, hm, hu, format_req, JsVal.del, bodyPart, getProp_delProp,
    String.reduceEq, if_false, hb]
  by_cases hbt : (getProp req "body").truthy = true
  · simp [hbt, JsVal.get, JsVal.del, getProp_delProp, ht, Except.map]
  · simp [hbt, JsVal.get, JsVal.del, getProp_delProp, ht, Except.map]

theorem joinWith_cons (sep x : String) (ys : List String) (h : ys ≠ []) :
    joinWith sep (x :: ys) = x ++ sep ++ joinWith sep ys := by
  cases ys with
  | nil => exact absurd rfl h
  | cons y r => rw [joinWith]

theorem joinWith_append (sep : String) (xs ys : List String) (hx : xs ≠ []) (hy : ys ≠ []) :
    joinWith sep (xs ++ ys) = joinWith sep xs ++ sep ++ joinWith sep ys := by
  induction xs with
  | nil => exact absurd rfl hx
  | cons x r ih =>
    cases r with
    | nil =>
      rw [List.singleton_append, joinWith_cons sep x ys hy]
      rfl
    | cons z r =>
      rw [List.cons_append, joinWith_cons sep x _ (by simp), ih (by simp),
        joinWith_cons sep x _ (by simp)]
      simp only [String.append_assoc]

theorem specReq_get (m u : String) (hv : Option String) (hs : Option Props) (b : Option JsVal) :
    getProp (specReq m u hv hs b) "method" = .str m ∧
    getProp (specReq m u hv hs b) "url" = .str u ∧
    getProp (specReq m u hv hs b) "httpVersion" = (hv.map JsVal.str).getD .undefined ∧
    getProp (specReq m u hv hs b) "headers" = (hs.map JsVal.obj).getD .undefined ∧
    getProp (specReq m u hv hs b) "body" = b.getD .undefined ∧
    getProp (specReq m u hv hs b) "trailers" = .undefined := by
  cases hv <;> cases hs <;> cases b <;> simp [specReq, getProp]

theorem headerTexts_ne_nil {h : Props} {ts : List String} (e : headerTexts h = .ok ts)
    (hne : h ≠ []) : ts ≠ [] := by
  cases h with
  | nil => exact absurd rfl hne
  | cons p r =>
    obtain ⟨k, v⟩ := p
    unfold headerTexts at e
    split at e
    · simp at e
    · split at e
      · simp at e
      · simp only [Except.ok.injEq] at e
        subst e
        simp

theorem reqBlock_spec (env : Env) (m u : String) (hv : Option String) (hs : Option Props)
    (b : Option JsVal) (h1 : hv ≠ some "") (h2 : hs ≠ some [])
    (h3 : ∀ x, b = some x → x.truthy = true) :
    reqBlock env (.obj (specReq m u hv hs b)) =
      (specReqBlock m u hv hs b).map (fun s => [s]) := by
  obtain ⟨g1, g2, g3, g4, g5, g6⟩ := specReq_get m u hv hs b
  have hu : JsVal.undefined.truthy = false := rfl
  have ho (h : Props) : (JsVal.obj h).truthy = true := rfl
  cases hl : headerTexts (hs.getD []) with
  | error e =>
    have hh : headersText "\n" (getProp (specReq m u hv hs b) "headers") = .error e := by
      rw [g4]
      cases hs with
      | none => simp [headerTexts] at hl
      | some h =>
        simp only [Option.getD_some] at hl
        simp [headersText, ho, headerLines, ownEntries, hl, Except.map]
    rw [reqBlock_error env _ e hh]
    unfold specReqBlock
    rw [hl]
    rfl
  | ok lines =>
    obtain ⟨bt, hbt⟩ := bodyText_total (b.getD .undefined)
    have hh : headersText "\n" (getProp (specReq m u hv hs b) "headers") =
        .ok (if hs.isSome then "\n" ++ joinWith "\n" lines else "") := by
      rw [g4]
      cases hs with
      | none => simp [headersText, hu]
      | some h =>
        simp only [Option.getD_some] at hl
        simp [headersText, ho, headerLines, ownEntries, hl, Except.map]
    rw [reqBlock_text env _ m u _ bt g1 g2 (by rw [g6]; rfl) hh (by rw [g5]; exact hbt), g3, g5]
    have e1 : fmtS env (if ((hv.map JsVal.str).getD .undefined).truthy = true then
        (hv.map JsVal.str).getD .undefined else .str "1.1") = hv.getD "1.1" := by
      cases hv with
      | none => rfl
      | some v =>
        have : v ≠ "" := fun e => h1 (by rw [e])
        simp [JsVal.truthy, this, fmtS]
    rw [e1]
    unfold specReqBlock
    rw [hl]
    cases hs with
    | none =>
      simp only [Option.getD_none, headerTexts, Except.ok.injEq] at hl
      subst hl
      cases b with
      | none =>
        simp only [Except.map, Except.ok.injEq, List.cons.injEq, and_true]
        congr 1
        simp [hu, joinWith]
      | some x =>
        simp only [Option.getD_some] at hbt
        simp only [hbt, Except.map, Except.ok.injEq, List.cons.injEq, and_true]
        congr 1
        simp only [Option.getD_some, h3 x rfl, if_true, Option.isSome_none,
          Bool.false_eq_true, if_false, List.append_nil, List.singleton_append, joinWith]
        apply String.ext; simp
    | some h =>
      simp only [Option.getD_some] at hl
      have hne : lines ≠ [] := headerTexts_ne_nil hl (fun e => h2 (by rw [e]))
      cases b with
      | none =>
        simp only [Except.map, Except.ok.injEq, List.cons.injEq, and_true]
        congr 1
        simp only [Option.getD_none, hu, Bool.false_eq_true, if_false, Option.isSome_some,
          if_true, List.singleton_append, joinWith_cons _ _ _ hne]
        apply String.ext; simp
      | some x =>
        simp only [Option.getD_some] at hbt
        simp only [hbt, Except.map, Except.ok.injEq, List.cons.injEq, and_true]
        congr 1
        simp only [Option.getD_some, h3 x rfl, if_true, Option.isSome_some,
          List.singleton_append, List.append_assoc, List.cons_append, List.nil_append]
        rw [joinWith_cons "\n" _ (lines ++ ["", bt]) (by simp),
          joinWith_append _ _ _ hne (by simp), joinWith]
        apply String.ext; simp [joinWith]

/-- C16 (amended). For a request object with a string method `m` and a string
url `u` and without (truthy) trailers, the request block is the indentation of
`m + ' ' + u + ' HTTP/' + (httpVersion || '1.1')`, followed, when `headers` is
truthy, by a line feed and the lines `Name: value` of its entries joined by line
feeds (an empty headers object so adds one empty line), followed, when `body`
is truthy, by an empty line and the body (an object as JSON with an indent of 2,
another value as its text); the value of every header is converted to its text,
and when that conversion throws, the rendering throws the same error.  This is
the block the specification describes whenever httpVersion is absent or
non-empty, headers is absent or has an entry, and body is absent or truthy; and
it is the block that follows the message block in the details of the output. -/
theorem req_block (env : Env) :
    (∀ (req : Props) (m u : String), getProp req "method" = .str m →
      getProp req "url" = .str u → (getProp req "trailers").truthy = false →
      (∀ e, headersText "\n" (getProp req "headers") = .error e →
        reqBlock env (.obj req) = .error e) ∧
      (∀ h, headersText "\n" (getProp req "headers") = .ok h →
        ∃ bt, bodyText (getProp req "body") = .ok bt ∧
          reqBlock env (.obj req) =
            .ok [indentStr (m ++ " " ++ u ++ " HTTP/" ++
              fmtS env (if (getProp req "httpVersion").truthy then getProp req "httpVersion"
                else .str "1.1") ++ h ++
              (if (getProp req "body").truthy then "\n\n" ++ bt else ""))])) ∧
    (∀ (sep : String) (headers : JsVal),
      headersText sep headers =
        if headers.truthy then
          ((headerTexts (ownEntries headers)).map (joinWith "\n")).map (fun t => sep ++ t)
        else .ok "") ∧
    (∀ (m u : String) (hv : Option String) (hs : Option Props) (b : Option JsVal),
      hv ≠ some "" → hs ≠ some [] → (∀ x, b = some x → x.truthy = true) →
      reqBlock env (.obj (specReq m u hv hs b)) =
        (specReqBlock m u hv hs b).map (fun s => [s])) ∧
    (∀ (opts : Opts) (short : Bool) (kvs : Props) (out : String), opts.color = false →
      opts.outputMode = .name (if short then "short" else "long") →
      isValidRecord (.obj kvs) = true → formatRecord env (.obj kvs) opts = .ok out →
      ∃ (time level src om : String) (nameStr : JsVal) (d0 rb extras rest : List String),
        msgPart env opts (getProp kvs "msg") [] = .ok (om, d0) ∧
        namePart short (getProp kvs "name") (getProp kvs "component") (getProp kvs "pid") =
          .ok nameStr ∧
        reqBlock env (getProp kvs "req") = .ok rb ∧
        out = headerText env short time level nameStr (getProp kvs "hostname") src ++ om ++
            extrasSegment extras ++ "\n" ++ detailsSegment (d0 ++ rb ++ rest)) := by
  refine ⟨fun req m u hm hu ht => ⟨fun e he => reqBlock_error env req e he, fun h hh => ?_⟩,
    fun sep headers => ?_,
    fun m u hv hs b h1 h2 h3 => reqBlock_spec env m u hv hs b h1 h2 h3, ?_⟩
  · obtain ⟨bt, hbt⟩ := bodyText_total (getProp req "body")
    exact ⟨bt, hbt, reqBlock_text env req m u h bt hm hu ht hh hbt⟩
  · unfold headersText headerLines
    split
    · cases headerTexts (ownEntries headers) <;> rfl
    · rfl
  · intro opts short kvs out hcolor hmode hvalid hout
    rw [formatRecord_lines env kvs opts short hmode hvalid] at hout
    obtain ⟨time, level, src, om, nameStr, es, d0, b, le, ld, -, -, -, hn, -, hm, hb, -, rfl⟩ :=
      renderLines_layout hcolor hout
    obtain ⟨d1, d2, d3, d4, d5, e1, -, -, -, -, hd⟩ := blocks_details hb
    simp only [List.nil_append] at hd
    rw [getProp_afterFields kvs _ (by decide)] at e1
    refine ⟨time, level, src, om, nameStr, d0, d1, es ++ le, d2 ++ d3 ++ d4 ++ d5 ++ ld, hm, hn,
      e1, ?_⟩
    rw [hd]
    simp only [List.append_assoc]

/-- Witness of C16: a request with an empty headers object; a request with a
version, two headers and an object body; and the output of a record with the
latter. -/
theorem req_block_witness :
    (∃ bt, bodyText (getProp [("method", .str "GET"), ("url", .str "/"), ("headers", .obj [])]
        "body") = .ok bt ∧
      reqBlock sampleEnv (.obj [("method", .str "GET"), ("url", .str "/"), ("headers", .obj [])]) =
        .ok [indentStr ("GET" ++ " " ++ "/" ++ " HTTP/" ++
          fmtS sampleEnv (if (getProp [("method", .str "GET"), ("url", .str "/"),
              ("headers", .obj [])] "httpVersion").truthy
            then getProp [("method", .str "GET"), ("url", .str "/"), ("headers", .obj [])]
              "httpVersion"
            else .str "1.1") ++ "\n" ++
          (if (getProp [("method", .str "GET"), ("url", .str "/"), ("headers", .obj [])]
            "body").truthy then "\n\n" ++ bt else ""))]) ∧
    reqBlock sampleEnv (.obj [("method", .str "GET"), ("url", .str "/"), ("headers", .obj [])]) =
      .ok ["  GET / HTTP/1.1\n  "] ∧
    reqBlock sampleEnv (.obj (specReq "GET" "/x" (some "2.0")
      (some [("host", .str "h"), ("accept", .str "*/*")]) (some (.obj [("a", .num 1)])))) =
      (specReqBlock "GET" "/x" (some "2.0")
        (some [("host", .str "h"), ("accept", .str "*/*")])
        (some (.obj [("a", .num 1)]))).map (fun s => [s]) ∧
    specReqBlock "GET" "/x" (some "2.0") (some [("host", .str "h"), ("accept", .str "*/*")])
      (some (.obj [("a", .num 1)])) =
      .ok "  GET /x HTTP/2.0\n  host: h\n  accept: */*\n  \n  \x7b\n    \"a\": 1\n  \x7d" ∧
    ∃ (time level src om : String) (nameStr : JsVal) (d0 rb extras rest : List String),
      msgPart sampleEnv (plainOpts "short") (.str "hello") [] = .ok (om, d0) ∧
      namePart true (.str "svc") .undefined (.num 5) = .ok nameStr ∧
      reqBlock sampleEnv (.obj (specReq "GET" "/x" (some "2.0")
        (some [("host", .str "h"), ("accept", .str "*/*")]) (some (.obj [("a", .num 1)])))) =
        .ok rb ∧
      "03:04:05.000Z  INFO svc: hello\n  GET /x HTTP/2.0\n  host: h\n  accept: */*\n  \n" ++
        "  \x7b\n    \"a\": 1\n  \x7d\n" =
        headerText sampleEnv true time level nameStr (.str "h1") src ++ om ++
          extrasSegment extras ++ "\n" ++ detailsSegment (d0 ++ rb ++ rest) :=
  ⟨((req_block sampleEnv).1 [("method", .str "GET"), ("url", .str "/"), ("headers", .obj [])]
     "GET" "/" rfl rfl rfl).2 "\n" rfl, rfl,
   (req_block sampleEnv).2.2.1 "GET" "/x" (some "2.0")
     (some [("host", .str "h"), ("accept", .str "*/*")]) (some (.obj [("a", .num 1)]))
     (by simp) (by simp) (fun x hx => by cases hx; rfl), rfl,
   (req_block sampleEnv).2.2.2 (plainOpts "short") true
     (withReq (specReq "GET" "/x" (some "2.0")
       (some [("host", .str "h"), ("accept", .str "*/*")]) (some (.obj [("a", .num 1)]))))
     _ rfl rfl rfl rfl⟩

/-- C16 (counterexample). A request whose `headers` is an empty object gives a
block of two lines, the second one holding only the two spaces of the
indentation, whereas the block the claim describes has the first line only; a
request whose `body` is the empty string gives the first line only, whereas the
claim describes an empty line and the (empty) body after it; and a request with
a header whose value is an object with the member `toString: 1` gives no block:
the conversion at line 261 throws a TypeError, and so does the rendering of the
record. -/
theorem empty_headers_block :
    reqBlock sampleEnv (.obj (specReq "GET" "/" none (some []) none)) =
      .ok ["  GET / HTTP/1.1\n  "] ∧
    specReqBlock "GET" "/" none (some []) none = .ok "  GET / HTTP/1.1" ∧
    reqBlock sampleEnv (.obj (specReq "GET" "/" none (some []) none)) ≠
      (specReqBlock "GET" "/" none (some []) none).map (fun s => [s]) ∧
    formatRecord sampleEnv (.obj (withReq (specReq "GET" "/" none (some []) none)))
      (plainOpts "short") = .ok "03:04:05.000Z  INFO svc: hello\n  GET / HTTP/1.1\n  \n" ∧
    reqBlock sampleEnv (.obj (specReq "GET" "/" none none (some (.str "")))) =
      .ok ["  GET / HTTP/1.1"] ∧
    specReqBlock "GET" "/" none none (some (.str "")) = .ok "  GET / HTTP/1.1\n  \n  " ∧
    isValidRecord (.obj (withReq (specReq "GET" "/" none
      (some [("x", .obj [("toString", .num 1)])]) none))) = true ∧
    isDecoded (.obj (withReq (specReq "GET" "/" none
      (some [("x", .obj [("toString", .num 1)])]) none))) = true ∧
    reqBlock sampleEnv (.obj (specReq "GET" "/" none
      (some [("x", .obj [("toString", .num 1)])]) none)) = .error .typeError ∧
    formatRecord sampleEnv (.obj (withReq (specReq "GET" "/" none
      (some [("x", .obj [("toString", .num 1)])]) none))) (plainOpts "short") =
      .error .typeError := by
  refine ⟨by rfl, by rfl, ?_, by rfl, by rfl, by rfl, by rfl, by decide, by rfl, by rfl⟩
  have e1 : reqBlock sampleEnv (.obj (specReq "GET" "/" none (some []) none)) =
      .ok ["  GET / HTTP/1.1\n  "] := rfl
  have e2 : (specReqBlock "GET" "/" none (some []) none).map (fun s => [s]) =
      .ok ["  GET / HTTP/1.1"] := rfl
  rw [e1, e2]
  intro h
  simp only [Except.ok.injEq, List.cons.injEq, and_true] at h
  exact absurd h (by decide)

/-! ## Without color the color settings are not read -/

theorem consume_indep (env : Env) (o1 o2 : Opts) (h1 : o1.color = false)
    (h2 : o2.color = false) (short : Bool) (r : Props) :
    consume env o1 short r = consume env o2 short r := by
  have ht : ∀ t, timePart env o1 short t = timePart env o2 short t := fun t => by
    simp only [timePart, bracketTime, stylize_off env o1 h1, stylize_off env o2 h2]
  have hl : ∀ l, levelPart env o1 l = levelPart env o2 l := fun l => by
    rw [levelPart_off env o1 l h1, levelPart_off env o2 l h2]
  have hs : ∀ s, srcPart env o1 s = srcPart env o2 s := fun s => by
    simp only [srcPart, stylize_off env o1 h1, stylize_off env o2 h2]
  have hm : ∀ m d, msgPart env o1 m d = msgPart env o2 m d := fun m d => by
    simp only [msgPart, stylize_off env o1 h1, stylize_off env o2 h2]
  simp only [consume, ht, hl, hs, hm]

theorem assemble_indep (env : Env) (o1 o2 : Opts) (h1 : o1.color = false)
    (h2 : o2.color = false) (short : Bool) (time level nameStr hostname src : JsVal)
    (om : String) (extras details : List String) :
    assemble env o1 short time level nameStr hostname src om extras details =
      assemble env o2 short time level nameStr hostname src om extras details := by
  simp only [assemble, stylize_off env o1 h1, stylize_off env o2 h2]

theorem renderLines_indep (env : Env) (o1 o2 : Opts) (h1 : o1.color = false)
    (h2 : o2.color = false) (short : Bool) (r : Props) :
    renderLines env o1 short r = renderLines env o2 short r := by
  have ha := assemble_indep env o1 o2 h1 h2
  simp only [renderLines, consume_indep env o1 o2 h1 h2, ha]

/-- C17. When `color` is false in two configurations that have the same
`outputMode`, `levelInString` and `jsonIndent`, formatRecord gives the same
result (the same text, or the same error) for every record, whatever the two
configurations hold in `msgColor`, `timeColor`, `metaColor`, `extraColor` and
`colorFromLevel`. -/
theorem color_settings_unread (env : Env) (r : JsVal) (o1 o2 : Opts)
    (h1 : o1.color = false) (h2 : o2.color = false)
    (hmode : o1.outputMode = o2.outputMode)
    (hlevel : o1.levelInString = o2.levelInString)
    (hindent : o1.jsonIndent = o2.jsonIndent) :
    formatRecord env r o1 = formatRecord env r o2 := by
  have hl := renderLines_indep env o1 o2 h1 h2
  have hj : ∀ v space, renderJson o1 v space = renderJson o2 v space := fun v space => by
    simp only [renderJson, hlevel]
  simp only [formatRecord, hmode, hindent, hl, hj]

/-- Witness of C17: the record of the scenario in mode `short`, without color,
once with no color setting and once with all of them. -/
theorem color_settings_unread_witness :
    formatRecord sampleEnv (.obj helloRecord) (plainOpts "short") =
      formatRecord sampleEnv (.obj helloRecord) (paintedOpts "short") ∧
    formatRecord sampleEnv (.obj helloRecord)
        { plainOpts "short" with color := true, timeColor := some "green" } =
      .ok "<g>03:04:05.000Z</g>  INFO svc: hello\n" :=
  ⟨color_settings_unread sampleEnv (.obj helloRecord) (plainOpts "short") (paintedOpts "short")
     rfl rfl rfl rfl rfl,
   rfl⟩

/-! ## The keys of a record through assignments and deletions -/

theorem mem_keys_setProp (r : Props) (k : String) (v : JsVal) (x : String) :
    x ∈ (setProp r k v).map Prod.fst ↔ x = k ∨ x ∈ r.map Prod.fst := by
  induction r with
  | nil => simp [setProp]
  | cons q r ih =>
    obtain ⟨k1, w⟩ := q
    simp only [setProp]
    split
    · rename_i e
      subst e
      simp
    · simp only [List.map_cons, List.mem_cons, ih]
      tauto

theorem nodup_setProp {r : Props} (h : (r.map Prod.fst).Nodup) (k : String) (v : JsVal) :
    ((setProp r k v).map Prod.fst).Nodup := by
  induction r with
  | nil => simp [setProp]
  | cons q r ih =>
    obtain ⟨k1, w⟩ := q
    simp only [List.map_cons, List.nodup_cons] at h
    simp only [setProp]
    split
    · simp only [List.map_cons, List.nodup_cons]
      exact h
    · rename_i e
      simp only [List.map_cons, List.nodup_cons, mem_keys_setProp]
      refine ⟨?_, ih h.2⟩
      rintro (e1 | e1)
      · exact e e1
      · exact h.1 e1

theorem mem_keys_delProp (r : Props) (k x : String) :
    x ∈ (delProp r k).map Prod.fst ↔ x ≠ k ∧ x ∈ r.map Prod.fst := by
  simp only [delProp, List.mem_map, List.mem_filter, bne_iff_ne, ne_eq]
  constructor
  · rintro ⟨p, ⟨hp, hk⟩, rfl⟩
    exact ⟨hk, p, hp, rfl⟩
  · rintro ⟨hk, p, hp, rfl⟩
    exact ⟨p, ⟨hp, hk⟩, rfl⟩

theorem nodup_delProp {r : Props} (h : (r.map Prod.fst).Nodup) (k : String) :
    ((delProp r k).map Prod.fst).Nodup :=
  h.sublist ((List.filter_sublist r).map Prod.fst)

theorem mem_keys_foldl (pre : String) (es r : Props) (x : String) :
    x ∈ (es.foldl (fun acc p => setProp acc (pre ++ p.1) p.2) r).map Prod.fst ↔
      x ∈ r.map Prod.fst ∨ ∃ p ∈ es, x = pre ++ p.1 := by
  induction es generalizing r with
  | nil => simp
  | cons e es ih =>
    simp only [List.foldl_cons, ih, mem_keys_setProp, List.mem_cons, exists_eq_or_imp]
    tauto

theorem nodup_foldl (pre : String) (es : Props) {r : Props} (h : (r.map Prod.fst).Nodup) :
    ((es.foldl (fun acc p => setProp acc (pre ++ p.1) p.2) r).map Prod.fst).Nodup := by
  induction es generalizing r with
  | nil => exact h
  | cons e es ih =>
    simp only [List.foldl_cons]
    exact ih (nodup_setProp h _ _)

theorem append_cancel (pre a b : String) (h : pre ++ a = pre ++ b) : a = b := by
  apply String.ext
  have := congrArg String.data h
  simpa using this

theorem getProp_foldl_other (pre : String) (es r : Props) (k : String)
    (h : k ∉ es.map Prod.fst) :
    getProp (es.foldl (fun acc p => setProp acc (pre ++ p.1) p.2) r) (pre ++ k) =
      getProp r (pre ++ k) := by
  induction es generalizing r with
  | nil => rfl
  | cons e es ih =>
    simp only [List.map_cons, List.mem_cons, not_or] at h
    simp only [List.foldl_cons]
    rw [ih _ h.2, getProp_setProp]
    have : pre ++ e.1 ≠ pre ++ k := fun e1 => h.1 (append_cancel _ _ _ e1).symm
    simp [this]

theorem getProp_foldl_mem (pre : String) (es r : Props) (k : String)
    (hnd : (es.map Prod.fst).Nodup) (h : k ∈ es.map Prod.fst) :
    getProp (es.foldl (fun acc p => setProp acc (pre ++ p.1) p.2) r) (pre ++ k) =
      getProp es k := by
  induction es generalizing r with
  | nil => simp at h
  | cons e es ih =>
    obtain ⟨k1, v1⟩ := e
    simp only [List.map_cons, List.nodup_cons] at hnd
    simp only [List.foldl_cons, getProp]
    by_cases e1 : k1 = k
    · subst e1
      rw [getProp_foldl_other _ _ _ _ hnd.1, getProp_setProp]
      simp
    · simp only [List.map_cons, List.mem_cons] at h
      rcases h with h | h
      · exact absurd h.symm e1
      · rw [ih _ hnd.2 h]
        simp [e1]

/-! ## The promotion of the keys of a request -/

theorem reqRest_obj (req : Props) :
    ∃ rest, reqRest (.obj req) = .obj rest ∧
      (∀ k, k ∈ rest.map Prod.fst ↔ k ∈ req.map Prod.fst ∧ promotedKey req k = true) ∧
      (∀ k, promotedKey req k = true → getProp rest k = getProp req k) ∧
      ((req.map Prod.fst).Nodup → (rest.map Prod.fst).Nodup) := by
  unfold reqRest bodyRest
  simp only [JsVal.del, JsVal.get, getProp_delProp, String.reduceEq, if_false]
  by_cases hb : (getProp req "body").truthy = true
  · simp only [hb, if_true, JsVal.del]
    refine ⟨_, rfl, ?_, ?_, ?_⟩
    · intro k
      simp only [mem_keys_delProp, promotedKey, hb, List.contains_eq_any_beq, List.any_cons,
        List.any_nil, Bool.or_false, Bool.and_true, Bool.and_eq_true, Bool.not_eq_true',
        Bool.or_eq_false_iff, beq_eq_false_iff_ne, ne_eq, beq_iff_eq, Bool.not_eq_eq_eq_not,
        Bool.not_true]
      constructor
      · rintro ⟨h1, h2, h3, h4, h5, h6, h7⟩
        exact ⟨h7, ⟨h6, h5, h4,
          h3, h1⟩, h2⟩
      · rintro ⟨h7, ⟨h6, h5, h4, h3, h1⟩, h2⟩
        exact ⟨h1, h2, h3, h4,
          h5, h6, h7⟩
    · intro k hk
      simp only [promotedKey, hb, List.contains_eq_any_beq, List.any_cons,
        List.any_nil, Bool.or_false, Bool.and_true, Bool.and_eq_true, Bool.not_eq_true',
        Bool.or_eq_false_iff, beq_eq_false_iff_ne, ne_eq, beq_iff_eq, Bool.not_eq_eq_eq_not,
        Bool.not_true] at hk
      obtain ⟨⟨h6, h5, h4, h3, h1⟩, h2⟩ := hk
      simp [getProp_delProp, Ne.symm h1, Ne.symm h2, Ne.symm h3, Ne.symm h4, Ne.symm h5,
        Ne.symm h6]
    · intro hnd
      exact nodup_delProp (nodup_delProp (nodup_delProp (nodup_delProp (nodup_delProp
        (nodup_delProp hnd _) _) _) _) _) _
  · simp only [hb, Bool.false_eq_true, if_false, JsVal.del]
    refine ⟨_, rfl, ?_, ?_, ?_⟩
    · intro k
      simp only [mem_keys_delProp, promotedKey, hb, List.contains_eq_any_beq, List.any_cons,
        List.any_nil, Bool.or_false, Bool.and_false, Bool.not_false, Bool.and_true,
        Bool.not_eq_true', Bool.or_eq_false_iff, beq_eq_false_iff_ne, ne_eq, beq_iff_eq]
      constructor
      · rintro ⟨h1, h3, h4, h5, h6, h7⟩
        exact ⟨h7, h6, h5, h4,
          h3, h1⟩
      · rintro ⟨h7, h6, h5, h4, h3, h1⟩
        exact ⟨h1, h3, h4,
          h5, h6, h7⟩
    · intro k hk
      simp only [promotedKey, hb, List.contains_eq_any_beq, List.any_cons,
        List.any_nil, Bool.or_false, Bool.and_false, Bool.not_false, Bool.and_true,
        Bool.not_eq_true', Bool.or_eq_false_iff, beq_eq_false_iff_ne, ne_eq, beq_iff_eq] at hk
      obtain ⟨h6, h5, h4, h3, h1⟩ := hk
      simp [getProp_delProp, Ne.symm h1, Ne.symm h3, Ne.symm h4, Ne.symm h5, Ne.symm h6]
    · intro hnd
      exact nodup_delProp (nodup_delProp (nodup_delProp (nodup_delProp
        (nodup_delProp hnd _) _) _) _) _

theorem clientReqRcd_keys (r : Props) :
    ((r.map Prod.fst).Nodup → ((clientReqRcd r).map Prod.fst).Nodup) ∧
    ∀ x, x ≠ "client_req" → (∀ j, "client_req." ++ j ≠ x) →
      (x ∈ (clientReqRcd r).map Prod.fst ↔ x ∈ r.map Prod.fst) := by
  unfold clientReqRcd
  split
  · refine ⟨fun h => nodup_foldl _ _ (nodup_delProp h _), fun x h1 h2 => ?_⟩
    simp only [promote, mem_keys_foldl, mem_keys_delProp]
    constructor
    · rintro (h | ⟨p, -, e⟩)
      · exact h.2
      · exact absurd e.symm (h2 _)
    · exact fun h => Or.inl ⟨h1, h⟩
  · exact ⟨fun h => h, fun x _ _ => Iff.rfl⟩

theorem resRcd_keys (key : String) (r : Props) :
    ((r.map Prod.fst).Nodup → ((resRcd key r).map Prod.fst).Nodup) ∧
    ∀ x, x ≠ key → x ≠ "res" → (∀ j, "res." ++ j ≠ x) →
      (x ∈ (resRcd key r).map Prod.fst ↔ x ∈ r.map Prod.fst) := by
  unfold resRcd
  split
  · refine ⟨fun h => nodup_delProp (nodup_foldl _ _ (nodup_setProp h _ _)) _,
      fun x h1 h2 h3 => ?_⟩
    simp only [promote, mem_keys_delProp, mem_keys_foldl, mem_keys_setProp]
    constructor
    · rintro ⟨-, (h | h) | ⟨p, -, e⟩⟩
      · exact absurd h h1
      · exact h
      · exact absurd e.symm (h3 _)
    · exact fun h => ⟨h2, Or.inl (Or.inr h)⟩
  · exact ⟨fun h => h, fun x _ _ _ => Iff.rfl⟩

theorem errRcd_keys (r : Props) :
    ((r.map Prod.fst).Nodup → ((errRcd r).map Prod.fst).Nodup) ∧
    (∀ x, x ≠ "err" → (x ∈ (errRcd r).map Prod.fst ↔ x ∈ r.map Prod.fst)) ∧
    ∀ x, x ≠ "err" → getProp (errRcd r) x = getProp r x := by
  unfold errRcd
  split
  · refine ⟨fun h => nodup_delProp h _, fun x h1 => ?_, fun x h1 => ?_⟩
    · simp only [mem_keys_delProp]
      exact ⟨fun h => h.2, fun h => ⟨h1, h⟩⟩
    · rw [getProp_delProp]
      simp [Ne.symm h1]
  · exact ⟨fun h => h, fun x _ => Iff.rfl, fun x _ => rfl⟩

theorem later_stages (r1 : Props) :
    ((r1.map Prod.fst).Nodup →
      ((errRcd (resRcd "client_res" (resRcd "res" (clientReqRcd r1)))).map Prod.fst).Nodup) ∧
    ∀ x, Untouched x →
      (x ∈ (errRcd (resRcd "client_res" (resRcd "res" (clientReqRcd r1)))).map Prod.fst ↔
        x ∈ r1.map Prod.fst) ∧
      getProp (errRcd (resRcd "client_res" (resRcd "res" (clientReqRcd r1)))) x =
        getProp r1 x := by
  obtain ⟨n1, m1⟩ := clientReqRcd_keys r1
  obtain ⟨n2, m2⟩ := resRcd_keys "res" (clientReqRcd r1)
  obtain ⟨n3, m3⟩ := resRcd_keys "client_res" (resRcd "res" (clientReqRcd r1))
  obtain ⟨n4, m4, g4⟩ := errRcd_keys (resRcd "client_res" (resRcd "res" (clientReqRcd r1)))
  refine ⟨fun h => n4 (n3 (n2 (n1 h))), ?_⟩
  rintro x ⟨u1, u2, u3, u4, u5, u6⟩
  refine ⟨?_, ?_⟩
  · rw [m4 x u6, m3 x u4 u3 u5, m2 x u3 u3 u5, m1 x u1 u2]
  · rw [g4 x u6, resRcd_getProp _ _ x u4 u3 u5, resRcd_getProp _ _ x u3 u3 u5,
      clientReqRcd_getProp _ x u1 u2]

theorem untouched_req : Untouched "req" :=
  ⟨by decide, fun j => append_ne _ _ _ (by decide), by decide, by decide,
    fun j => append_ne _ _ _ (by decide), by decide⟩

theorem untouched_promoted (k : String) : Untouched ("req." ++ k) := by
  have c1 : ∀ s : String, s.data.head? ≠ some 'r' → s ≠ "req." ++ k := by
    intro s hs e
    apply hs
    rw [e]
    rfl
  have c2 : ∀ s : String, s.data.get? 2 ≠ some 'q' → s ≠ "req." ++ k := by
    intro s hs e
    apply hs
    rw [e]
    rfl
  refine ⟨fun e => c1 _ (by decide) e.symm, fun j => c1 _ (by simp), fun e => c2 _ (by decide) e.symm,
    fun e => c1 _ (by decide) e.symm, fun j => c2 _ (by simp), fun e => c1 _ (by decide) e.symm⟩

theorem afterFields_req (kvs : Props) (hk : (kvs.map Prod.fst).Nodup) :
    ((delProp (afterFields kvs) "req").map Prod.fst).Nodup ∧
    ("req" ∉ (delProp (afterFields kvs) "req").map Prod.fst) ∧
    ∀ k, (("req." ++ k) ∈ (delProp (afterFields kvs) "req").map Prod.fst ↔
        ("req." ++ k) ∈ kvs.map Prod.fst) ∧
      getProp (delProp (afterFields kvs) "req") ("req." ++ k) = getProp kvs ("req." ++ k) := by
  refine ⟨?_, ?_, ?_⟩
  · unfold afterFields
    exact nodup_delProp (nodup_delProp (nodup_delProp (nodup_delProp (nodup_delProp (nodup_delProp
      (nodup_delProp (nodup_delProp (nodup_delProp (nodup_delProp (nodup_delProp hk _) _) _) _) _)
      _) _) _) _) _) _
  · rw [mem_keys_delProp]
    exact fun h => h.1 rfl
  · intro k
    have c3 : ∀ s : String, s.data.get? 3 ≠ some '.' → "req." ++ k ≠ s := by
      intro s hs e
      apply hs
      rw [← e]
      rfl
    have n1 := c3 "v" (by decide)
    have n2 := c3 "time" (by decide)
    have n3 := c3 "name" (by decide)
    have n4 := c3 "component" (by decide)
    have n5 := c3 "pid" (by decide)
    have n6 := c3 "level" (by decide)
    have n7 := c3 "src" (by decide)
    have n8 := c3 "hostname" (by decide)
    have n9 := c3 "req_id" (by decide)
    have n10 := c3 "msg" (by decide)
    have n11 := c3 "req" (by decide)
    refine ⟨?_, ?_⟩
    · simp only [afterFields, mem_keys_delProp, ne_eq, n1, n2, n3, n4, n5, n6, n7, n8, n9, n10,
        n11, not_false_eq_true, true_and]
    · simp only [afterFields, getProp_delProp, Ne.symm n1, Ne.symm n2, Ne.symm n3, Ne.symm n4,
        Ne.symm n5, Ne.symm n6, Ne.symm n7, Ne.symm n8, Ne.symm n9, Ne.symm n10, Ne.symm n11,
        if_false]

theorem reqRcd_promotes (r : Props) (req : Props)
    (hreq : getProp r "req" = .obj req) (hr : (req.map Prod.fst).Nodup) :
    (((delProp r "req").map Prod.fst).Nodup → ((reqRcd r).map Prod.fst).Nodup) ∧
    "req" ∉ (reqRcd r).map Prod.fst ∧
    (∀ k, k ∈ req.map Prod.fst → promotedKey req k = true →
      ("req." ++ k) ∈ (reqRcd r).map Prod.fst ∧
      getProp (reqRcd r) ("req." ++ k) = getProp req k) ∧
    (∀ k, ¬ (k ∈ req.map Prod.fst ∧ promotedKey req k = true) →
      (("req." ++ k) ∈ (reqRcd r).map Prod.fst ↔
        ("req." ++ k) ∈ (delProp r "req").map Prod.fst) ∧
      getProp (reqRcd r) ("req." ++ k) = getProp (delProp r "req") ("req." ++ k)) := by
  obtain ⟨rest, e, hmem, hget, hnd⟩ := reqRest_obj req
  have hrc : reqRcd r = promote "req." (reqRest (getProp r "req")) (delProp r "req") := by
    unfold reqRcd
    rw [hreq]
    rfl
  rw [hrc, hreq, e]
  simp only [promote, ownEntries]
  refine ⟨fun h => nodup_foldl _ _ h, ?_, ?_, ?_⟩
  · simp only [mem_keys_foldl, mem_keys_delProp, ne_eq, not_true_eq_false, false_and, false_or,
      not_exists, not_and]
    exact fun p _ e1 => append_ne "req." p.1 "req" (by decide) e1.symm
  · intro k hk hp
    have hin : k ∈ rest.map Prod.fst := (hmem k).mpr ⟨hk, hp⟩
    refine ⟨?_, ?_⟩
    · rw [mem_keys_foldl]
      right
      obtain ⟨p, hp1, hp2⟩ := List.mem_map.mp hin
      exact ⟨p, hp1, by rw [hp2]⟩
    · rw [getProp_foldl_mem _ _ _ _ (hnd hr) hin, hget k hp]
  · intro k hk
    have hout : k ∉ rest.map Prod.fst := fun h => hk ((hmem k).mp h)
    refine ⟨?_, getProp_foldl_other _ _ _ _ hout⟩
    rw [mem_keys_foldl]
    constructor
    · rintro (h | ⟨p, hp1, hp2⟩)
      · exact h
      · exact absurd (List.mem_map.mpr ⟨p, hp1, (append_cancel _ _ _ hp2).symm⟩) hout
    · exact fun h => Or.inl h

/-- C18 (amended). When `req` is an object (with distinct keys, in a record with
distinct keys), the record whose keys the leftover pass enumerates has no key
`req`; it has each key once; for every key `k` of the request other than `url`,
`method`, `httpVersion`, `headers`, `trailers` and a truthy `body`, it has the
key `req.k` exactly once, with the value of `k` in the request, also when the
record had a literal key `req.k`; and for every other `k` the key `req.k` is
there just when the record had it, with the value it had.  A falsy `body` is
promoted as `req.body`. -/
theorem req_promotion (env : Env) (opts : Opts) (short : Bool) (kvs req : Props) (c : Consumed)
    (hreq : getProp kvs "req" = .obj req) (hk : (kvs.map Prod.fst).Nodup)
    (hr : (req.map Prod.fst).Nodup) (hc : consume env opts short kvs = .ok c) :
    "req" ∉ c.acc.rcd.map Prod.fst ∧
    (c.acc.rcd.map Prod.fst).Nodup ∧
    (∀ k, k ∈ req.map Prod.fst → promotedKey req k = true →
      (c.acc.rcd.map Prod.fst).count ("req." ++ k) = 1 ∧
      getProp c.acc.rcd ("req." ++ k) = getProp req k) ∧
    (∀ k, ¬ (k ∈ req.map Prod.fst ∧ promotedKey req k = true) →
      (("req." ++ k) ∈ c.acc.rcd.map Prod.fst ↔ ("req." ++ k) ∈ kvs.map Prod.fst) ∧
      getProp c.acc.rcd ("req." ++ k) = getProp kvs ("req." ++ k)) ∧
    (∀ k, promotedKey req k = true ↔
      k ∉ ["url", "method", "httpVersion", "headers", "trailers"] ∧
      ¬ (k = "body" ∧ (getProp req "body").truthy = true)) ∧
    (∀ out, renderLines env opts short kvs = .ok out →
      ∃ extras details, leftoverLoop c.acc.rcd c.acc.extras c.acc.details = .ok (extras, details) ∧
        assemble env opts short c.time c.level c.nameStr c.hostname c.src c.onelineMsg
          extras details = .ok out) := by
  obtain ⟨-, -, -, -, -, es, d0, -, -, hb⟩ := consume_steps hc
  have hrc : c.acc.rcd = errRcd (resRcd "client_res" (resRcd "res" (clientReqRcd
      (reqRcd (afterFields kvs))))) := (blocks_rcd hb).1
  obtain ⟨nd0, -, hlit⟩ := afterFields_req kvs hk
  have hreq0 : getProp (afterFields kvs) "req" = .obj req := by
    rw [getProp_afterFields kvs _ (by decide), hreq]
  obtain ⟨p1, p2, p3, p4⟩ := reqRcd_promotes (afterFields kvs) req hreq0 hr
  obtain ⟨l1, l2⟩ := later_stages (reqRcd (afterFields kvs))
  have hnd := l1 (p1 nd0)
  refine ⟨?_, ?_, ?_, ?_, ?_, ?_⟩
  · rw [hrc, (l2 "req" untouched_req).1]
    exact p2
  · rw [hrc]
    exact hnd
  · rw [hrc]
    intro k h1 h2
    obtain ⟨m, g⟩ := l2 _ (untouched_promoted k)
    obtain ⟨m1, g1⟩ := p3 k h1 h2
    exact ⟨List.count_eq_one_of_mem hnd (m.mpr m1), by rw [g, g1]⟩
  · rw [hrc]
    intro k h1
    obtain ⟨m, g⟩ := l2 _ (untouched_promoted k)
    obtain ⟨m1, g1⟩ := p4 k h1
    exact ⟨by rw [m, m1, (hlit k).1], by rw [g, g1, (hlit k).2]⟩
  · intro k
    simp only [promotedKey, List.contains_eq_any_beq, List.any_cons, List.any_nil, Bool.or_false,
      Bool.and_eq_true, Bool.not_eq_true', Bool.or_eq_false_iff, beq_eq_false_iff_ne, ne_eq,
      Bool.and_eq_false_imp, beq_iff_eq, List.mem_cons, List.mem_singleton, List.not_mem_nil,
      or_false, not_or, not_and, Bool.not_eq_true]
  · intro out hout
    obtain ⟨c1, extras, details, hc1, hl, e⟩ := renderLines_steps hout
    rw [hc] at hc1
    simp only [Except.ok.injEq] at hc1
    subst hc1
    exact ⟨extras, details, hl, e⟩

/-- Witness of C18: the request with an `id` and an empty `body`, in a record
that has a literal key `req.id`. -/
theorem req_promotion_witness :
    "req" ∉ ["req.id", "req.body"] ∧
    (["req.id", "req.body"].count "req.id" = 1 ∧
      getProp [("req.id", .num 4), ("req.body", .str "")] "req.id" = JsVal.num 4) ∧
    (["req.id", "req.body"].count "req.body" = 1 ∧
      getProp [("req.id", .num 4), ("req.body", .str "")] "req.body" = JsVal.str "") ∧
    (("req.url" ∈ ["req.id", "req.body"] ↔ "req.url" ∈ promotionRecord.map Prod.fst) ∧
      getProp [("req.id", .num 4), ("req.body", .str "")] "req.url" = JsVal.undefined) ∧
    formatRecord sampleEnv (.obj promotionRecord) (plainOpts "short") =
      .ok "03:04:05.000Z  INFO svc: hello (req.id=4, req.body=\"\")\n  GET / HTTP/1.1\n" :=
  have h := req_promotion sampleEnv (plainOpts "short") true promotionRecord
    [("method", .str "GET"), ("url", .str "/"), ("id", .num 4), ("body", .str "")]
    { time := .str "03:04:05.000Z", level := .str " INFO", nameStr := .str "svc",
      hostname := .str "h1", src := .str "", onelineMsg := " hello",
      acc := { rcd := [("req.id", .num 4), ("req.body", .str "")], extras := [],
               details := ["  GET / HTTP/1.1"] } }
    rfl (by decide) (by decide) rfl
  ⟨h.1, h.2.2.1 "id" (by decide) (by rfl), h.2.2.1 "body" (by decide) (by rfl),
   h.2.2.2.1 "url" (by simp [promotedKey]), rfl⟩

/-- C18 (counterexample). A request whose `body` is the empty string: the body
is not deleted, so it is promoted, and the output has the extra `req.body=""`. -/
theorem falsy_body_promoted :
    promotedKey [("method", .str "GET"), ("url", .str "/"), ("body", .str ""), ("id", .num 4)]
      "body" = true ∧
    (match consume sampleEnv (plainOpts "short") true
        (withReq [("method", .str "GET"), ("url", .str "/"), ("body", .str ""),
          ("id", .num 4)]) with
      | .ok c => c.acc.rcd
      | .error _ => []) = [("req.body", .str ""), ("req.id", .num 4)] ∧
    formatRecord sampleEnv
      (.obj (withReq [("method", .str "GET"), ("url", .str "/"), ("body", .str ""),
        ("id", .num 4)])) (plainOpts "short") =
      .ok "03:04:05.000Z  INFO svc: hello (req.body=\"\", req.id=4)\n  GET / HTTP/1.1\n" := by
  refine ⟨by rfl, by rfl, by rfl⟩

end BunyanFormat
